import Mathlib

/-!
# External merge sort with block headers: a shallow embedding

The development embeds `extern_merge_sort_iterator_block`
(`src/src/external_merge_sort_iterator_block.c`) and proves properties of it.

Modelling choices, all read off the source:

* A record is a value of an arbitrary type `α`; `compareFn` is a function
  `cmp : α → α → Int` and the code only ever tests `0 < compareFn(tuple, value)`.
* `in_memory_sort` (declared in `in_memory_sort.h`, which the repository does not
  ship with this file) is a parameter `sort : List α → List α`.
* A page of the scratch file is its two header fields plus the record slots that
  follow the header.  Only the slots the writer filled are kept; a reader that
  indexes past them reads stale bytes, which the model reports as `Flow.stuck`.
* The scratch file maps byte offsets to pages.  `fread` at an offset where no
  page was ever written returns 0 items (end of file), like a failing read.
* Every `fread`/`fwrite` consults an oracle `fails : Nat → Bool`, indexed by the
  number of file operations issued so far: `fails k = true` makes the `k`-th
  operation (counting from 0) return 0.
* Loops that are not bounded syntactically take a `fuel` argument.
* `maxSublistsInRun` is an `int8_t` in the source and is narrowed accordingly;
  all other quantities are assumed to stay inside the range of their C type.
-/

namespace ExtSort

/-- Fields of `external_sort_t` that the sort reads. -/
structure external_sort_t where
  page_size : Nat
  headerSize : Nat
  record_size : Nat
deriving DecidableEq, Repr

/-- The counters of `metrics_t` that the sort updates. -/
structure metrics_t where
  num_reads : Nat
  num_writes : Nat
  num_compar : Nat
  num_memcpys : Nat
deriving DecidableEq, Repr

/-- A page as stored in the scratch file: `block_index` (bytes 0..3),
`record_count` (bytes 4..5) and the record slots from byte `headerSize` on.
The code stores the two header fields after the records were put into their slots,
so the stored bytes are this triple when `headerSize ≥ 6`; with a smaller
`headerSize` the header fields overwrite the first bytes of the first record. -/
structure Page (α : Type) where
  blockIndex : Int
  recordCount : Int
  records : List α
deriving DecidableEq, Repr

/-- Observable actions of the sort, in the order in which they happen. -/
inductive Event (α : Type) where
  /-- one call of `iterator`, with the status it returned -/
  | iter (status : Nat)
  /-- a successful `fwrite` of one page at a byte offset -/
  | write (off : Int) (pg : Page α)
  /-- an `fwrite` that returned 0 -/
  | writeFail (off : Int)
  /-- the successful `fread` of run pickup (line 221), which only decodes the header -/
  | peek (off : Int)
  /-- a successful `fread` that loads an input page for merging (lines 256, 345) -/
  | load (off : Int)
  /-- an `fread` that returned 0 -/
  | readFail (off : Int)
deriving DecidableEq, Repr

/-- The scratch file, the metrics record and the history of actions.
`log` is newest first; `ops` counts the file operations issued so far. -/
structure World (α : Type) where
  file : List (Int × Page α)
  metric : metrics_t
  ops : Nat
  log : List (Event α)
deriving DecidableEq, Repr

/-- Control flow of a code fragment: fall through with a state, execute
`return code;`, or get stuck (fuel exhausted or undefined behaviour). -/
inductive Flow (α σ : Type) where
  | cont (s : σ)
  | ret (code : Nat) (w : World α)
  | stuck
deriving DecidableEq, Repr

/-- What the caller observes after `extern_merge_sort_iterator_block` returns. -/
structure Outcome (α : Type) where
  code : Nat
  resultFilePtr : Option Int
  w : World α
deriving DecidableEq, Repr

/-- Results of the three `malloc` calls (`true` = a non-NULL pointer). -/
structure Alloc where
  runOffset : Bool
  runCount : Bool
  sublsTuplePos : Bool
deriving DecidableEq, Repr

/-- `int16_t tuplesPerPage = (es->page_size - es->headerSize) / es->record_size;`
as the quotient of natural numbers.  It is the value of the C variable when
`record_size ≥ 1` (line 89 divides by `record_size`), `headerSize ≤ page_size` and
the quotient is at most 32767, the largest `int16_t`; a larger quotient is narrowed
by the assignment. -/
def tuplesPerPage (es : external_sort_t) : Nat :=
  (es.page_size - es.headerSize) / es.record_size

/-- Narrowing conversion to `int8_t`. -/
def toInt8 (x : Int) : Int := (x + 128) % 256 - 128

/-- `int8_t maxSublistsInRun = bufferSizeInBlocks - 1;` -/
def maxSublistsInRun (bufferSizeInBlocks : Nat) : Int :=
  toInt8 ((bufferSizeInBlocks : Int) - 1)

def metrics_t.addReads (m : metrics_t) (k : Nat) : metrics_t :=
  { m with num_reads := m.num_reads + k }

def metrics_t.addWrites (m : metrics_t) (k : Nat) : metrics_t :=
  { m with num_writes := m.num_writes + k }

def metrics_t.addCompar (m : metrics_t) (k : Nat) : metrics_t :=
  { m with num_compar := m.num_compar + k }

def metrics_t.addMemcpys (m : metrics_t) (k : Nat) : metrics_t :=
  { m with num_memcpys := m.num_memcpys + k }

variable {α : Type}

/-- `fwrite(addr, es->page_size, 1, file)` at file position `off`:
`false` when it returned 0. -/
def fwrite (fails : Nat → Bool) (w : World α) (off : Int) (pg : Page α) : Bool × World α :=
  if fails w.ops then
    (false, { w with ops := w.ops + 1, log := Event.writeFail off :: w.log })
  else
    (true, { w with file := (off, pg) :: w.file, ops := w.ops + 1,
                    log := Event.write off pg :: w.log })

/-- `fseek(file, off, SEEK_SET); fread(dst, es->page_size, 1, file)`:
`none` when it returned 0.  `merging` tells a load for merging from a pickup peek. -/
def fread (fails : Nat → Bool) (merging : Bool) (w : World α) (off : Int) :
    Option (Page α) × World α :=
  if fails w.ops then
    (none, { w with ops := w.ops + 1, log := Event.readFail off :: w.log })
  else
    match w.file.lookup off with
    | none => (none, { w with ops := w.ops + 1, log := Event.readFail off :: w.log })
    | some pg =>
      (some pg, { w with ops := w.ops + 1,
                         log := (if merging then Event.load off else Event.peek off) :: w.log })

/-! ## Run generation (lines 104-155) -/

/-- The fill loop `while (i < numRecordsRead) { status = iterator(..); if (status == 0) break; i++; .. }`
with `n = numRecordsRead - i` iterations left, over an iterator that delivers the
records of a finite stream and then returns 0.  Returns the records now in the
buffer, the rest of the stream, the last `status` and the world. -/
def fillBuffer : Nat → List α → List α → Nat → World α → List α × List α × Nat × World α
  | 0, it, acc, status, w => (acc, it, status, w)
  | _ + 1, [], acc, _, w => (acc, [], 0, { w with log := Event.iter 0 :: w.log })
  | n + 1, x :: it, acc, _, w =>
    fillBuffer n it (acc ++ [x]) 1 { w with log := Event.iter 1 :: w.log }

/-- The loop `for (i = 0; i < pageio-1; i++)` of lines 132-143 with `n` iterations left:
page `i` is the `page_size` bytes at `buffer + i * record_size * tuplesPerPage`, so its
slot `s` is the buffer record `i * tuplesPerPage + s`. -/
def writeFullPages (fails : Nat → Bool) (es : external_sort_t) (sorted : List α) :
    Nat → Nat → Int → World α → Flow α (Nat × Int × World α)
  | 0, i, pos, w => Flow.cont (i, pos, w)
  | n + 1, i, pos, w =>
    let T := tuplesPerPage es
    let pg : Page α := ⟨i, T, (sorted.drop (i * T)).take T⟩
    match fwrite fails w pos pg with
    | (false, w1) => Flow.ret 9 w1
    | (true, w1) => writeFullPages fails es sorted n (i + 1) (pos + es.page_size) w1

/-- Loop-carried variables of the run-generation `do ... while`. -/
structure GenState (α : Type) where
  iter : List α
  numRecordsRead : Nat
  lastWritePos : Int
  numSublist : Nat
  w : World α
deriving DecidableEq, Repr

/-- The `do { ... } while (status == 1);` loop of lines 104-155. -/
def genLoop (fails : Nat → Bool) (sort : List α → List α) (es : external_sort_t) :
    Nat → GenState α → Flow α (GenState α)
  | 0, _ => Flow.stuck
  | fuel + 1, s =>
    match fillBuffer s.numRecordsRead s.iter [] 0 s.w with
    | (chunk, it, status, w1) =>
      if chunk.length = 0 then
        Flow.cont { s with iter := it, w := w1 }
      else
        let T := tuplesPerPage es
        let numRecordsRead := chunk.length
        let pageio := (numRecordsRead + T - 1) / T
        let w2 := { w1 with metric := w1.metric.addReads pageio }
        let sorted := sort chunk
        match writeFullPages fails es sorted (pageio - 1) 0 s.lastWritePos w2 with
        | Flow.stuck => Flow.stuck
        | Flow.ret c w => Flow.ret c w
        | Flow.cont (i, pos, w3) =>
          let pg : Page α :=
            ⟨i, (numRecordsRead : Int) - (T : Int) * i, (sorted.drop (i * T)).take T⟩
          match fwrite fails w3 pos pg with
          | (false, w4) => Flow.ret 9 w4
          | (true, w4) =>
            let s1 : GenState α :=
              { iter := it, numRecordsRead := numRecordsRead,
                lastWritePos := pos + es.page_size,
                numSublist := s.numSublist + 1,
                w := { w4 with metric := w4.metric.addWrites pageio } }
            if status = 1 then genLoop fails sort es fuel s1 else Flow.cont s1

/-! ## Merge phase (lines 163-374) -/

/-- Variables of the merge phase. `buffer` holds the input pages of the working
buffer (index `i` is `&buffer[i * es->page_size]`). -/
structure MergeState (α : Type) where
  numSublist : Int
  lastWritePos : Int
  ptrLastBlock : Int
  ptrFirstBlock : Int
  ptrNextFirst : Int
  firstPartitionSize : Int
  newPass : Bool
  passNumber : Int
  runOffset : List Int
  runCount : List Int
  sublsTuplePos : List Int
  buffer : List (Option (Page α))
  w : World α
deriving DecidableEq, Repr

/-- The body of `if (ptrLastBlock < ptrFirstBlock) { ... }` (lines 192-216). -/
def startNewPass (es : external_sort_t) (maxSub : Int) (i : Nat) (s : MergeState α) :
    MergeState α :=
  let ptrFirstBlock :=
    if 0 < (i : Int) ∧ (i : Int) < maxSub - 1 then
      s.ptrNextFirst + s.firstPartitionSize * es.page_size
    else s.ptrNextFirst
  let ptrLastBlock := s.lastWritePos - es.page_size
  let passNumber := s.passNumber + 1
  let lastWritePos := if passNumber % 3 = 0 then 0 else s.lastWritePos
  { s with newPass := true, ptrFirstBlock := ptrFirstBlock, ptrLastBlock := ptrLastBlock,
           passNumber := passNumber, lastWritePos := lastWritePos,
           ptrNextFirst := lastWritePos }

/-- The run pickup loop `for (i=0; i < maxSublistsInRun && i < numSublist; i++)`
(lines 188-238) with `n` iterations of fuel; returns the final `i`. -/
def pickRuns (fails : Nat → Bool) (es : external_sort_t) (maxSub : Int) :
    Nat → Nat → MergeState α → Flow α (Nat × MergeState α)
  | 0, i, s =>
    if (i : Int) < maxSub ∧ (i : Int) < s.numSublist then Flow.stuck else Flow.cont (i, s)
  | n + 1, i, s =>
    if (i : Int) < maxSub ∧ (i : Int) < s.numSublist then
      let s1 := if s.ptrLastBlock < s.ptrFirstBlock then startNewPass es maxSub i s else s
      match fread fails false s1.w s1.ptrLastBlock with
      | (none, w1) => Flow.ret 10 w1
      | (some pg, w1) =>
        let w2 := { w1 with metric := w1.metric.addReads 1 }
        let blockIndex := pg.blockIndex
        let off := s1.ptrLastBlock - blockIndex * es.page_size
        pickRuns fails es maxSub n (i + 1)
          { s1 with runCount := s1.runCount.set i (blockIndex + 1),
                    runOffset := s1.runOffset.set i off,
                    sublsTuplePos := s1.sublsTuplePos.set i 0,
                    buffer := s1.buffer.set 0 (some pg),
                    ptrLastBlock := off - es.page_size,
                    w := w2 }
    else Flow.cont (i, s)

/-- The loop `for (i=0; i < subListsInRun; i++)` of lines 252-263, which loads the
first page of every picked run; `n` iterations left. -/
def loadFirstPages (fails : Nat → Bool) :
    Nat → Nat → MergeState α → Flow α (MergeState α)
  | 0, _, s => Flow.cont s
  | n + 1, i, s =>
    let w1 := { s.w with metric := s.w.metric.addReads 1 }
    match fread fails true w1 (s.runOffset.getD i 0) with
    | (none, w2) => Flow.ret 10 w2
    | (some pg, w2) =>
      loadFirstPages fails n (i + 1) { s with buffer := s.buffer.set i (some pg), w := w2 }

/-- The record at `buffer + es->headerSize + i * es->page_size + sublsTuplePos[i] * es->record_size`;
`none` when that slot was not filled by the writer of the loaded page (the code
then reads whatever bytes the slot holds, which the model does not follow). -/
def recordAt (s : MergeState α) (i : Nat) : Option α :=
  match s.buffer.getD i none with
  | none => none
  | some pg =>
    let p := s.sublsTuplePos.getD i 0
    if p < 0 then none else pg.records.get? p.toNat

/-- `i = 0; while (runCount[i] == 0 && i < subListsInRun) i++;` (lines 271-273).
The read of `runCount[subListsInRun]` that ends the scan does not influence the
result. -/
def firstLive (runCount : List Int) (subListsInRun : Nat) : Nat → Nat → Nat
  | 0, i => i
  | n + 1, i =>
    if runCount.getD i 0 = 0 ∧ i < subListsInRun then firstLive runCount subListsInRun n (i + 1)
    else i

/-- The scan `for ( ; i < subListsInRun; i++)` of lines 279-292 with `n` iterations
left; carries `lowId`, `tuple` and the number of comparisons made. -/
def findLowest (cmp : α → α → Int) (s : MergeState α) :
    Nat → Nat → Nat → α → Nat → Option (Nat × α × Nat)
  | 0, _, lowId, tuple, c => some (lowId, tuple, c)
  | n + 1, i, lowId, tuple, c =>
    if s.runCount.getD i 0 = 0 then findLowest cmp s n (i + 1) lowId tuple c
    else
      match recordAt s i with
      | none => none
      | some value =>
        if 0 < cmp tuple value then findLowest cmp s n (i + 1) i value (c + 1)
        else findLowest cmp s n (i + 1) lowId tuple (c + 1)

/-- State of the output page `buffer[(bufferSizeInBlocks - 1) * page_size]`:
the records copied since the last flush, `bufferOutputPos` and `numblocks`. -/
structure OutState (α : Type) where
  out : List α
  bufferOutputPos : Nat
  numblocks : Int
deriving DecidableEq, Repr

/-- Lines 302-324 and 356-371: write the output page at `lastWritePos`. -/
def flushPage (fails : Nat → Bool) (es : external_sort_t) (s : MergeState α) (o : OutState α) :
    Flow α (MergeState α × OutState α) :=
  let pg : Page α := ⟨o.numblocks, (o.bufferOutputPos / es.record_size : Nat), o.out⟩
  match fwrite fails s.w s.lastWritePos pg with
  | (false, w1) => Flow.ret 9 w1
  | (true, w1) =>
    Flow.cont ({ s with lastWritePos := s.lastWritePos + es.page_size,
                        w := { w1 with metric := w1.metric.addWrites 1 } },
               { out := [], bufferOutputPos := es.headerSize, numblocks := o.numblocks + 1 })

/-- Lines 327-350: advance the chosen run to its next tuple, loading the next
page of the run when the current one is used up. -/
def advanceRun (fails : Nat → Bool) (es : external_sort_t) (lowId : Nat) (s : MergeState α) :
    Flow α (MergeState α) :=
  let p := s.sublsTuplePos.getD lowId 0 + 1
  let s1 := { s with sublsTuplePos := s.sublsTuplePos.set lowId p }
  match s1.buffer.getD lowId none with
  | none => Flow.stuck
  | some cur =>
    if p ≥ cur.recordCount then
      let off := s1.runOffset.getD lowId 0 + es.page_size
      let cnt := s1.runCount.getD lowId 0 - 1
      let s2 := { s1 with runOffset := s1.runOffset.set lowId off,
                          runCount := s1.runCount.set lowId cnt,
                          sublsTuplePos := s1.sublsTuplePos.set lowId 0 }
      if cnt > 0 then
        match fread fails true s2.w off with
        | (none, w1) => Flow.ret 10 w1
        | (some pg, w1) =>
          Flow.cont { s2 with buffer := s2.buffer.set lowId (some pg),
                              w := { w1 with metric := w1.metric.addReads 1 } }
      else Flow.cont s2
    else Flow.cont s1

/-- Lines 285 and 294-325: account for the `c` comparisons of the scan, copy the
chosen tuple into the output page and write the page out when
`bufferOutputPos >= es->page_size - es->record_size`. -/
def emitTuple (fails : Nat → Bool) (es : external_sort_t) (s : MergeState α) (o : OutState α)
    (tuple : α) (c : Nat) : Flow α (MergeState α × OutState α) :=
  let s1 := { s with w := { s.w with metric := (s.w.metric.addCompar c).addMemcpys 1 } }
  let o1 : OutState α :=
    { o with out := o.out ++ [tuple], bufferOutputPos := o.bufferOutputPos + es.record_size }
  if (o1.bufferOutputPos : Int) ≥ (es.page_size : Int) - es.record_size then
    flushPage fails es s1 o1
  else Flow.cont (s1, o1)

/-- The `while (1)` loop of lines 268-351. -/
def mergeLoop (fails : Nat → Bool) (cmp : α → α → Int) (es : external_sort_t)
    (subListsInRun : Nat) :
    Nat → MergeState α → OutState α → Flow α (MergeState α × OutState α)
  | 0, _, _ => Flow.stuck
  | fuel + 1, s, o =>
    let i := firstLive s.runCount subListsInRun subListsInRun 0
    if i = subListsInRun then Flow.cont (s, o)
    else
      match recordAt s i with
      | none => Flow.stuck
      | some tuple0 =>
        match findLowest cmp s (subListsInRun - (i + 1)) (i + 1) i tuple0 0 with
        | none => Flow.stuck
        | some (lowId, tuple, c) =>
          match emitTuple fails es s o tuple c with
          | Flow.stuck => Flow.stuck
          | Flow.ret c w => Flow.ret c w
          | Flow.cont (s2, o2) =>
            match advanceRun fails es lowId s2 with
            | Flow.stuck => Flow.stuck
            | Flow.ret c w => Flow.ret c w
            | Flow.cont s3 => mergeLoop fails cmp es subListsInRun fuel s3 o2

/-- Lines 251-372: load the first page of each picked run, merge the runs into
one output run written from `lastWritePos` on, flush the last partial page. -/
def mergeRuns (fails : Nat → Bool) (cmp : α → α → Int) (es : external_sort_t)
    (subListsInRun : Nat) (fuel : Nat) (s : MergeState α) : Flow α (MergeState α) :=
  match loadFirstPages fails subListsInRun 0 s with
  | Flow.stuck => Flow.stuck
  | Flow.ret c w => Flow.ret c w
  | Flow.cont s3 =>
    match mergeLoop fails cmp es subListsInRun fuel s3
            { out := [], bufferOutputPos := es.headerSize, numblocks := 0 } with
    | Flow.stuck => Flow.stuck
    | Flow.ret c w => Flow.ret c w
    | Flow.cont (s4, o4) =>
      if o4.bufferOutputPos > es.headerSize then
        match flushPage fails es s4 o4 with
        | Flow.stuck => Flow.stuck
        | Flow.ret c w => Flow.ret c w
        | Flow.cont (s5, _) => Flow.cont s5
      else Flow.cont s4

/-- One iteration of `while (numSublist > 1)` (lines 186-374): pick runs, set
`firstPartitionSize` on a new pass, merge, update `numSublist`. -/
def mergeStep (fails : Nat → Bool) (cmp : α → α → Int) (es : external_sort_t)
    (maxSub : Int) (fuel : Nat) (s : MergeState α) : Flow α (MergeState α) :=
  match pickRuns fails es maxSub maxSub.toNat 0 s with
  | Flow.stuck => Flow.stuck
  | Flow.ret c w => Flow.ret c w
  | Flow.cont (subListsInRun, s1) =>
    let s2 :=
      if s1.newPass then
        { s1 with firstPartitionSize := s1.runCount.getD 0 0 + s1.runCount.getD 1 0,
                  newPass := false }
      else s1
    match mergeRuns fails cmp es subListsInRun fuel s2 with
    | Flow.stuck => Flow.stuck
    | Flow.ret c w => Flow.ret c w
    | Flow.cont s5 =>
      Flow.cont { s5 with numSublist := s5.numSublist - subListsInRun + 1 }

/-- The loop `while (numSublist > 1)` of lines 185-374. -/
def mergePhase (fails : Nat → Bool) (cmp : α → α → Int) (es : external_sort_t)
    (maxSub : Int) (fuel : Nat) : Nat → MergeState α → Flow α (MergeState α)
  | 0, s => if s.numSublist > 1 then Flow.stuck else Flow.cont s
  | n + 1, s =>
    if s.numSublist > 1 then
      match mergeStep fails cmp es maxSub fuel s with
      | Flow.stuck => Flow.stuck
      | Flow.ret c w => Flow.ret c w
      | Flow.cont s1 => mergePhase fails cmp es maxSub fuel n s1
    else Flow.cont s

/-- The state with which the merge phase starts (lines 167-173). -/
def initMerge (es : external_sort_t) (bufferSizeInBlocks : Nat) (g : GenState α) :
    MergeState α :=
  let maxSub := maxSublistsInRun bufferSizeInBlocks
  { numSublist := g.numSublist,
    lastWritePos := g.lastWritePos,
    ptrLastBlock := g.lastWritePos - es.page_size,
    ptrFirstBlock := 0,
    ptrNextFirst := g.lastWritePos,
    firstPartitionSize := maxSub,
    newPass := true,
    passNumber := 1,
    runOffset := List.replicate maxSub.toNat 0,
    runCount := List.replicate maxSub.toNat 0,
    sublsTuplePos := List.replicate maxSub.toNat 0,
    buffer := List.replicate bufferSizeInBlocks none,
    w := g.w }

/-- The function `extern_merge_sort_iterator_block`.  `input` is the stream the
iterator delivers, `w0` the scratch file and the metrics on entry.  `none` means
that `fuel` did not suffice or that the code ran into undefined behaviour.

A `malloc` of a negative `maxSublistsInRun` asks for more than the address space
and returns NULL.  The source tests only `sublsTuplePos`; entering the merge loop
with `runOffset` or `runCount` NULL dereferences a null pointer. -/
def extern_merge_sort_iterator_block (fuel : Nat) (sort : List α → List α)
    (cmp : α → α → Int) (fails : Nat → Bool) (alloc : Alloc) (es : external_sort_t)
    (bufferSizeInBlocks : Nat) (input : List α) (w0 : World α) : Option (Outcome α) :=
  let T := tuplesPerPage es
  match genLoop fails sort es fuel
      { iter := input, numRecordsRead := bufferSizeInBlocks * T, lastWritePos := 0,
        numSublist := 0, w := w0 } with
  | Flow.stuck => none
  | Flow.ret c w => some ⟨c, none, w⟩
  | Flow.cont g =>
    if g.numSublist = 1 then some ⟨0, some 0, g.w⟩
    else
      let maxSub := maxSublistsInRun bufferSizeInBlocks
      if ¬ (alloc.sublsTuplePos ∧ 0 ≤ maxSub) then some ⟨8, none, g.w⟩
      else if g.numSublist > 1 ∧ ¬ (alloc.runOffset ∧ alloc.runCount) then none
      else
        match mergePhase fails cmp es maxSub fuel fuel (initMerge es bufferSizeInBlocks g) with
        | Flow.stuck => none
        | Flow.ret c w => some ⟨c, none, w⟩
        | Flow.cont s => some ⟨0, some s.ptrNextFirst, s.w⟩

/-! ## Reading the result back -/

/-- The pages found at `off`, `off + page_size`, ... as long as a page is stored
there and its `block_index` is its position in the sequence: the run that starts
at `off`, as the data model defines a run. -/
def readRun (file : List (Int × Page α)) (page_size : Nat) : Nat → Int → Int → List (Page α)
  | 0, _, _ => []
  | n + 1, off, idx =>
    match file.lookup off with
    | none => []
    | some pg =>
      if pg.blockIndex = idx then pg :: readRun file page_size n (off + page_size) (idx + 1)
      else []

/-- The first `n` pages stored from `off` on, the way the test harness reads the
output back (test lines 273-278, with `n = es.num_pages`). -/
def readPages (file : List (Int × Page α)) (page_size : Nat) : Nat → Int → List (Page α)
  | 0, _ => []
  | n + 1, off =>
    match file.lookup off with
    | none => []
    | some pg => pg :: readPages file page_size n (off + page_size)

/-- The records a reader takes from a page: the first `record_count` slots
(test lines 281-287). -/
def pageRecords (pg : Page α) : List α := pg.records.take pg.recordCount.toNat

/-- The records of a sequence of pages, in page order. -/
def runRecords (pgs : List (Page α)) : List α := (pgs.map pageRecords).flatten

/-- The pages successfully written so far, oldest first, with their offsets. -/
def writtenPages : List (Event α) → List (Int × Page α)
  | [] => []
  | Event.write off pg :: rest => writtenPages rest ++ [(off, pg)]
  | _ :: rest => writtenPages rest

/-- Number of pages of the run written last: `block_index + 1` of the newest
written page (0 when nothing was written). -/
def lastRunLength : List (Event α) → Nat
  | [] => 0
  | Event.write _ pg :: _ => (pg.blockIndex + 1).toNat
  | _ :: rest => lastRunLength rest

/-- The output run of a finished sort: the run that starts at the offset stored
in `resultFilePtr`. -/
def outputRun (es : external_sort_t) (o : Outcome α) : List (Page α) :=
  match o.resultFilePtr with
  | none => []
  | some p => readRun o.w.file es.page_size o.w.file.length p 0

/-- The offsets of the pages that are written and not yet loaded for merging,
after `events` (oldest first) have happened on top of `pending`; `none` as soon
as a page is written at an offset that is still pending. -/
def pendingAfter : List (Event α) → List Int → Option (List Int)
  | [], pending => some pending
  | Event.write off _ :: rest, pending =>
    if off ∈ pending then none else pendingAfter rest (off :: pending)
  | Event.load off :: rest, pending => pendingAfter rest (pending.erase off)
  | _ :: rest, pending => pendingAfter rest pending

/-- No write of the history `log` (newest first) hit a page that was written
earlier and not yet loaded for merging. -/
def noClobber (log : List (Event α)) : Bool := (pendingAfter log.reverse []).isSome

/-- Events that are an `fread`, successful or not. -/
def isFileRead : Event α → Bool
  | Event.peek _ => true
  | Event.load _ => true
  | Event.readFail _ => true
  | _ => false

/-- `es.num_pages` of the test harness (line 187): `(n + T - 1) / T`. -/
def num_pages (es : external_sort_t) (n : Nat) : Nat :=
  (n + tuplesPerPage es - 1) / tuplesPerPage es

/-- A scratch file that is empty on entry, with all counters 0. -/
def emptyWorld : World α := ⟨[], ⟨0, 0, 0, 0⟩, 0, []⟩

/-- `merge_sort_int32_comparator` restricted to its sign: compares integer keys. -/
def compareKeys (a b : Nat) : Int := (a : Int) - (b : Int)

/-- An oracle under which no file operation fails. -/
def noFailure : Nat → Bool := fun _ => false

/-- All three `malloc` calls succeed. -/
def allocOk : Alloc := ⟨true, true, true⟩

/-- Insertion sort on keys, standing in for `in_memory_sort`. -/
def sortKeys (l : List Nat) : List Nat := l.insertionSort (fun a b => a ≤ b)

/-- The events that `after` has on top of `before` (both newest first). -/
def newEvents (before after : List (Event α)) : List (Event α) :=
  after.take (after.length - before.length)

/-- The offsets of `n` consecutive pages, the first at `off`. -/
def runOffsets (page_size : Nat) : Int → Nat → List Int
  | _, 0 => []
  | off, n + 1 => off :: runOffsets page_size (off + page_size) n

/-- The pages `pgs` are stored in `file` at consecutive page offsets from `off` on. -/
def RunAt (file : List (Int × Page α)) (page_size : Nat) : Int → List (Page α) → Prop
  | _, [] => True
  | off, pg :: rest => file.lookup off = some pg ∧ RunAt file page_size (off + page_size) rest

/-- A page header is valid when `record_count` is the number of records the page
holds and the page is not empty. -/
def Page.valid (pg : Page α) : Prop :=
  pg.recordCount = pg.records.length ∧ 1 ≤ pg.records.length

/-- The order a comparator induces: `a` may precede `b`. -/
def leq (cmp : α → α → Int) (a b : α) : Prop := cmp a b ≤ 0

/-- State of input run `j` inside the merge loop, against the pages `fut` of the run
that are still to be loaded and the records `rem` of the run that are still to be
output: either the run is exhausted, or its current page is in buffer page `j`,
`sublsTuplePos[j]` points into it, and the pages to come are in the file. -/
def RunInv (es : external_sort_t) (s : MergeState α) (fut : List (Page α)) (rem : List α)
    (j : Nat) : Prop :=
  (s.runCount.getD j 0 = 0 ∧ fut = [] ∧ rem = []) ∨
  (∃ cur, s.buffer.getD j none = some cur ∧ cur.recordCount = cur.records.length ∧
      0 ≤ s.sublsTuplePos.getD j 0 ∧
      (s.sublsTuplePos.getD j 0).toNat < cur.records.length ∧
      s.runCount.getD j 0 = (fut.length : Int) + 1 ∧
      RunAt s.w.file es.page_size (s.runOffset.getD j 0 + es.page_size) fut ∧
      (∀ pg ∈ fut, pg.valid) ∧
      rem = cur.records.drop (s.sublsTuplePos.getD j 0).toNat ++ fut.flatMap (fun pg => pg.records))

/-- The offsets of all pages still to be loaded, over the runs `0 .. k-1`. -/
def futureOffsets (es : external_sort_t) (s : MergeState α) (futs : Nat → List (Page α))
    (k : Nat) : List Int :=
  (List.range k).flatMap
    (fun j => runOffsets es.page_size (s.runOffset.getD j 0 + es.page_size) (futs j).length)

/-- Input run `j` as run pickup leaves it: `runCount[j]` pages with valid headers
stored from `runOffset[j]` on, and `sublsTuplePos[j] = 0`. -/
def RunReady (es : external_sort_t) (s : MergeState α) (pgs : List (Page α)) (j : Nat) : Prop :=
  s.runCount.getD j 0 = (pgs.length : Int) ∧ pgs ≠ [] ∧ s.sublsTuplePos.getD j 0 = 0 ∧
  RunAt s.w.file es.page_size (s.runOffset.getD j 0) pgs ∧ ∀ pg ∈ pgs, pg.valid

/-- The offsets of all pages of the input runs `0 .. k-1`. -/
def inputOffsets (es : external_sort_t) (s : MergeState α) (runs : Nat → List (Page α))
    (k : Nat) : List Int :=
  (List.range k).flatMap
    (fun j => runOffsets es.page_size (s.runOffset.getD j 0) (runs j).length)

/-- The offsets of the input pages not yet loaded while `loadFirstPages` is at run `i`. -/
def unloadedOffsets (es : external_sort_t) (s : MergeState α) (runs : Nat → List (Page α))
    (k i : Nat) : List Int :=
  (List.range k).flatMap
    (fun j => if j < i then
        runOffsets es.page_size (s.runOffset.getD j 0 + es.page_size) (runs j).tail.length
      else runOffsets es.page_size (s.runOffset.getD j 0) (runs j).length)

/-- A state as run pickup leaves it, with `page_size = 40`: run 0 is the page at
offset 80, run 1 the two pages at offsets 0 and 40, and the output goes to
offset 120. -/
def demoState : MergeState Nat :=
  { numSublist := 2, lastWritePos := 120, ptrLastBlock := -40, ptrFirstBlock := 0,
    ptrNextFirst := 120, firstPartitionSize := 3, newPass := false, passNumber := 1,
    runOffset := [80, 0], runCount := [1, 2], sublsTuplePos := [0, 0],
    buffer := [none, none, none],
    w := ⟨[(0, ⟨0, 2, [1, 4]⟩), (40, ⟨1, 1, [6]⟩), (80, ⟨0, 2, [2, 3]⟩)], ⟨0, 0, 0, 0⟩, 0, []⟩ }

/-- The input runs of `demoState`. -/
def demoRuns (j : Nat) : List (Page Nat) :=
  if j = 0 then [⟨0, 2, [2, 3]⟩] else [⟨0, 2, [1, 4]⟩, ⟨1, 1, [6]⟩]

/-- The state in which the merge of the two runs of `demoState` ends. -/
def demoResult : MergeState Nat :=
  match mergeRuns noFailure compareKeys ⟨40, 6, 16⟩ 2 10 demoState with
  | Flow.cont s => s
  | _ => demoState

/-- Events that are a failed file operation. -/
def isFailure : Event α → Bool
  | Event.writeFail _ => true
  | Event.readFail _ => true
  | _ => false

/-- The first (oldest) failed file operation of a history (newest first). -/
def firstFailure (log : List (Event α)) : Option (Event α) := log.reverse.find? isFailure

/-- No file operation of the history failed. -/
def Clean (log : List (Event α)) : Prop := ∀ e ∈ log, isFailure e = false

/-- A `return code;` reached with world `w` is the immediate consequence of a
failed file operation: the newest event is the only failure, a failed write for
code 9 and a failed read for code 10. -/
def RetOK (c : Nat) (w : World α) : Prop :=
  ∃ e rest, w.log = e :: rest ∧ Clean rest ∧
    ((c = 9 ∧ ∃ off, e = Event.writeFail off) ∨ (c = 10 ∧ ∃ off, e = Event.readFail off))

/-- A code fragment either continues with a failure-free history or returns
right at a failed file operation. -/
def FlowOK {σ : Type} (getLog : σ → List (Event α)) : Flow α σ → Prop
  | Flow.cont s => Clean (getLog s)
  | Flow.ret c w => RetOK c w
  | Flow.stuck => True

/-- Every page stored in the file has a valid header and a non-negative
`block_index`. -/
def FileValid (file : List (Int × Page α)) : Prop :=
  ∀ off pg, file.lookup off = some pg → pg.valid ∧ 0 ≤ pg.blockIndex

/-- A result that is not `Flow.stuck`, with `Q` holding when control continues. -/
def NotStuck {σ : Type} (Q : σ → Prop) : Flow α σ → Prop
  | Flow.cont s => Q s
  | Flow.ret _ _ => True
  | Flow.stuck => False

/-- From some amount of fuel on, `f` gives one and the same result, which is not
`Flow.stuck`. -/
def Converges {σ : Type} (f : Nat → Flow α σ) (Q : σ → Prop) : Prop :=
  ∃ fuel0 r, (∀ fuel, fuel0 ≤ fuel → f fuel = r) ∧ NotStuck Q r

/-- Invariant of the merge phase: the file holds valid pages only, the three
arrays have at least `M` entries and the buffer at least `M` pages. -/
def GInv (M : Nat) (s : MergeState α) : Prop :=
  FileValid s.w.file ∧ M ≤ s.runOffset.length ∧ M ≤ s.runCount.length ∧
  M ≤ s.sublsTuplePos.length ∧ M ≤ s.buffer.length

/-- Input run `j` is exhausted, or its buffer page is a valid page and
`sublsTuplePos[j]` points at one of its records. -/
def WRun (s : MergeState α) (j : Nat) : Prop :=
  s.runCount.getD j 0 = 0 ∨
  (0 < s.runCount.getD j 0 ∧ ∃ cur, s.buffer.getD j none = some cur ∧ cur.valid ∧
    0 ≤ s.sublsTuplePos.getD j 0 ∧ (s.sublsTuplePos.getD j 0).toNat < cur.records.length)

/-- The output page holds `out`, and `bufferOutputPos` and `numblocks` agree with it. -/
def OutInv (es : external_sort_t) (o : OutState α) : Prop :=
  o.bufferOutputPos = es.headerSize + o.out.length * es.record_size ∧ 0 ≤ o.numblocks

/-- Pages still to be consumed, over the runs `0 .. k-1`. -/
def measA (k : Nat) (s : MergeState α) : Nat :=
  ((List.range k).map (fun j => (s.runCount.getD j 0).toNat)).sum

/-- Records still to be consumed in the loaded pages of the live runs. -/
def measB (k : Nat) (s : MergeState α) : Nat :=
  ((List.range k).map (fun j =>
    if s.runCount.getD j 0 = 0 then 0
    else match s.buffer.getD j none with
      | some cur => cur.records.length - (s.sublsTuplePos.getD j 0).toNat
      | none => 0)).sum

/-- The pages of one run as the data model lays them out, for a run of `m` records
whose sorted content is `sorted`, stored from file offset `off` on: `⌈m/T⌉` pages,
page `k` at `off + k * page_size` with `block_index = k`, `record_count = T` on all
pages but the last, which carries the remaining `m - T * (⌈m/T⌉ - 1)` records. -/
def runLayout (es : external_sort_t) (off : Int) (m : Nat) (sorted : List α) :
    List (Int × Page α) :=
  let T := tuplesPerPage es
  let pageio := (m + T - 1) / T
  (List.range pageio).map (fun (k : Nat) =>
    (off + (k : Int) * es.page_size,
     (⟨k, if k + 1 < pageio then (T : Int) else (m : Int) - (T : Int) * ((pageio - 1 : Nat) : Int),
       (sorted.drop (k * T)).take T⟩ : Page α)))

/-- The pages of the runs that run generation leaves for `input`, as the data
model lays them out from file offset `base` on: the input is cut into chunks of
`B * T` records, run `j` is the sorted chunk `j` stored from `base + j * B * page_size`. -/
def genLayout (es : external_sort_t) (sort : List α → List α) (B : Nat) (base : Int)
    (input : List α) : List (Int × Page α) :=
  let N := B * tuplesPerPage es
  (List.range ((input.length + N - 1) / N)).flatMap (fun (j : Nat) =>
    runLayout es (base + (j : Int) * B * es.page_size) ((input.drop (j * N)).take N).length
      (sort ((input.drop (j * N)).take N)))

/-- A merge state with three live runs whose current records are 5, 3 and 3. -/
def tieState : MergeState Nat :=
  { numSublist := 3, lastWritePos := 120, ptrLastBlock := -40, ptrFirstBlock := 0,
    ptrNextFirst := 120, firstPartitionSize := 2, newPass := false, passNumber := 1,
    runOffset := [80, 40, 0], runCount := [1, 1, 1], sublsTuplePos := [0, 0, 0],
    buffer := [some ⟨0, 1, [5]⟩, some ⟨0, 1, [3]⟩, some ⟨0, 1, [3]⟩, none],
    w := ⟨[(0, ⟨0, 1, [3]⟩), (40, ⟨0, 1, [3]⟩), (80, ⟨0, 1, [5]⟩)], ⟨0, 0, 0, 0⟩, 0, []⟩ }

/-- The rest of an iteration of the merge loop once run `lowId` with current record
`tuple` has been selected after `c` comparisons (lines 294-351), followed by the
remaining iterations. -/
def emitAndAdvance (fails : Nat → Bool) (cmp : α → α → Int) (es : external_sort_t)
    (subListsInRun fuel : Nat) (s : MergeState α) (o : OutState α) (lowId : Nat) (tuple : α)
    (c : Nat) : Flow α (MergeState α × OutState α) :=
  match emitTuple fails es s o tuple c with
  | Flow.stuck => Flow.stuck
  | Flow.ret c w => Flow.ret c w
  | Flow.cont (s2, o2) =>
    match advanceRun fails es lowId s2 with
    | Flow.stuck => Flow.stuck
    | Flow.ret c w => Flow.ret c w
    | Flow.cont s3 => mergeLoop fails cmp es subListsInRun fuel s3 o2

/-- The state `demoState` with `ptrLastBlock` on the last page of the run stored at
offset 0. -/
def pickupState : MergeState Nat := { demoState with ptrLastBlock := 40 }

/-- A state at the end of a pass with `page_size = 40`: the input region is used
up (`ptrLastBlock < ptrFirstBlock`), the runs written in the pass are at offsets
120 (two pages) and 200 (one page), and the write cursor is at 240. -/
def passEndState : MergeState Nat :=
  { numSublist := 3, lastWritePos := 240, ptrLastBlock := -40, ptrFirstBlock := 0,
    ptrNextFirst := 120, firstPartitionSize := 2, newPass := false, passNumber := 1,
    runOffset := [0, 0], runCount := [0, 0], sublsTuplePos := [0, 0],
    buffer := [none, none, none],
    w := ⟨[(200, ⟨0, 1, [5]⟩), (160, ⟨1, 2, [3, 4]⟩), (120, ⟨0, 2, [1, 2]⟩)],
          ⟨0, 0, 0, 0⟩, 0, []⟩ }

/-! ## Run generation at the level of buffer bytes

The working buffer is a map from byte offsets to bytes; a record is the list of
its `record_size` bytes. -/

/-- Modelled from the spec: `BLOCK_COUNT_OFFSET`, a macro of `external_sort.h`, which
the repository does not ship here; the page layout table of the spec puts
`record_count` at byte offset 4, after the 4 bytes of `block_index`. -/
def BLOCK_COUNT_OFFSET : Nat := 4

/-- Store `bytes` in the buffer from offset `addr` on. -/
def poke (buf : Nat → Nat) (addr : Nat) (bytes : List Nat) : Nat → Nat :=
  fun a => if addr ≤ a ∧ a < addr + bytes.length then bytes.getD (a - addr) 0 else buf a

/-- The `width` bytes of `v`, least significant first. -/
def littleEndian (width v : Nat) : List Nat :=
  (List.range width).map (fun j => (v / 256 ^ j) % 256)

/-- Lines 108-118 with every call of the iterator delivering a record: record after
record is stored at `addr`, and `addr += es->record_size`. -/
def fillBytes (record_size : Nat) : List (List Nat) → Nat → (Nat → Nat) → (Nat → Nat)
  | [], _, buf => buf
  | r :: rest, addr, buf => fillBytes record_size rest (addr + record_size) (poke buf addr r)

/-- `*((int32_t*) addr) = blockIndex; *((int16_t*) (addr+BLOCK_COUNT_OFFSET)) = count;`
(lines 136-137 and 146-147). -/
def putHeader (buf : Nat → Nat) (addr blockIndex count : Nat) : Nat → Nat :=
  poke (poke buf addr (littleEndian 4 blockIndex)) (addr + BLOCK_COUNT_OFFSET)
    (littleEndian 2 count)

/-- The `page_size` bytes that `fwrite(addr, es->page_size, 1, file)` writes. -/
def pageBytes (es : external_sort_t) (buf : Nat → Nat) (addr : Nat) : List Nat :=
  (List.range es.page_size).map (fun b => buf (addr + b))

/-- The loop of lines 132-143 with `n` iterations left and every `fwrite`
succeeding: the pages written, then `i`, `lastOffset` and the buffer. -/
def writeFullPagesBytes (es : external_sort_t) :
    Nat → Nat → Nat → (Nat → Nat) → List (List Nat) × Nat × Nat × (Nat → Nat)
  | 0, i, lastOffset, buf => ([], i, lastOffset, buf)
  | n + 1, i, lastOffset, buf =>
    let buf1 := putHeader buf lastOffset i (tuplesPerPage es)
    let page := pageBytes es buf1 lastOffset
    match writeFullPagesBytes es n (i + 1) (lastOffset + es.record_size * tuplesPerPage es) buf1 with
    | (pages, i1, lastOffset1, buf2) => (page :: pages, i1, lastOffset1, buf2)

/-- Lines 108-150 for one chunk, every `fwrite` succeeding: the records are stored
from `buffer + headerSize` on, `in_memory_sort` leaves the sorted records in the
same slots, and the pages are written; the result is the bytes of the pages
written, in order. -/
def runBytes (es : external_sort_t) (sort : List (List Nat) → List (List Nat))
    (chunk : List (List Nat)) (buf0 : Nat → Nat) : List (List Nat) :=
  let T := tuplesPerPage es
  let numRecordsRead := chunk.length
  let pageio := (numRecordsRead + T - 1) / T
  let filled := fillBytes es.record_size chunk es.headerSize buf0
  let sorted := fillBytes es.record_size (sort chunk) es.headerSize filled
  match writeFullPagesBytes es (pageio - 1) 0 0 sorted with
  | (pages, i, lastOffset, buf1) =>
    pages ++ [pageBytes es (putHeader buf1 lastOffset i (numRecordsRead - T * i)) lastOffset]

/-- Sort records by their first byte. -/
def sortByFirstByte (l : List (List Nat)) : List (List Nat) :=
  l.insertionSort (fun a b => a.headD 0 ≤ b.headD 0)

/-- Four records of 8 bytes, in descending order of their first byte. -/
def fourRecords : List (List Nat) :=
  [[40, 41, 42, 43, 44, 45, 46, 47], [30, 31, 32, 33, 34, 35, 36, 37],
   [20, 21, 22, 23, 24, 25, 26, 27], [10, 11, 12, 13, 14, 15, 16, 17]]

/-! ## The runs in the file during the merge phase

Ghost data for the proof that the result pointer is the start of the run written
last: the runs as they lie in the file, the pages one merge writes, and the
invariant of the loop `while (numSublist > 1)`. -/

/-- Number of records on every page that the merge loop writes because the page is
full: the least `m ≥ 1` with `headerSize + m * record_size ≥ page_size - record_size`
(the test of line 300).  It is `tuplesPerPage - 1` when `record_size` divides
`page_size - headerSize` and at least two records fit, and `tuplesPerPage` otherwise. -/
def mergeCap (es : external_sort_t) : Nat :=
  if (es.page_size - es.headerSize) % es.record_size = 0 ∧ 2 ≤ tuplesPerPage es then
    tuplesPerPage es - 1
  else tuplesPerPage es

/-- Offset of the newest written page whose `block_index` is 0.  A merge writes the
pages of its output run with `block_index` 0, 1, 2, ..., so after a merge this is
the offset at which that merge wrote its first page. -/
def lastRunStart : List (Event α) → Option Int
  | [] => none
  | Event.write off pg :: rest => if pg.blockIndex = 0 then some off else lastRunStart rest
  | _ :: rest => lastRunStart rest

/-- A run as it lies in the file: `len` pages from byte offset `start` on.
`weight` bounds the records of its pages by `weight * mergeCap`. -/
structure Tile where
  start : Int
  len : Nat
  weight : Nat
deriving DecidableEq, Repr

/-- The run `t` can be picked up and merged: its last page carries
`block_index = len - 1`, every page stored in its range holds at most
`weight * mergeCap` records, a page is stored at each of its `len` offsets, and
every page but the last has a `record_count` of at least `mergeCap`. -/
def TileOK (es : external_sort_t) (file : List (Int × Page α)) (t : Tile) : Prop :=
  1 ≤ t.len ∧ 1 ≤ t.weight ∧
  (∃ pg, file.lookup (t.start + ((t.len : Int) - 1) * es.page_size) = some pg ∧
    pg.blockIndex = (t.len : Int) - 1) ∧
  (∀ (j : Nat) (pg : Page α), j < t.len →
    file.lookup (t.start + (j : Int) * es.page_size) = some pg →
    pg.records.length ≤ t.weight * mergeCap es) ∧
  (∀ j : Nat, j < t.len → ∃ pg, file.lookup (t.start + (j : Int) * es.page_size) = some pg) ∧
  ∀ (j : Nat) (pg : Page α), j + 1 < t.len →
    file.lookup (t.start + (j : Int) * es.page_size) = some pg →
    (mergeCap es : Int) ≤ pg.recordCount

/-- The runs `ts` (topmost first) lie back to back between the offsets `a` and `e`. -/
def Stack (P : Nat) : Int → Int → List Tile → Prop
  | e, a, [] => e = a
  | e, a, t :: ts => t.start + (t.len : Int) * P = e ∧ Stack P t.start a ts

/-- Total number of pages of a list of runs. -/
def pagesOf (ts : List Tile) : Nat := (ts.map (fun t => t.len)).sum

/-- Total number of pages of a list of runs, each page counted `weight` times. -/
def weightOf (ts : List Tile) : Nat := (ts.map (fun t => t.weight * t.len)).sum

/-- No page is stored at a negative offset. -/
def FilePos (file : List (Int × Page α)) : Prop :=
  ∀ off pg, file.lookup off = some pg → 0 ≤ off

/-- Records that input run `j` can still contribute to the output: the unread
records of its buffer page, and `wt j * mergeCap` for each page still in the file. -/
def owed (es : external_sort_t) (wt : Nat → Nat) (s : MergeState α) (j : Nat) : Nat :=
  if s.runCount.getD j 0 ≤ 0 then 0
  else
    (match s.buffer.getD j none with
      | some cur => cur.records.length - (s.sublsTuplePos.getD j 0).toNat
      | none => 0)
    + ((s.runCount.getD j 0).toNat - 1) * (wt j * mergeCap es)

/-- The variables that a merge leaves alone. -/
def SameScalars (s0 s : MergeState α) : Prop :=
  s.numSublist = s0.numSublist ∧ s.ptrLastBlock = s0.ptrLastBlock ∧
  s.ptrFirstBlock = s0.ptrFirstBlock ∧ s.ptrNextFirst = s0.ptrNextFirst ∧
  s.firstPartitionSize = s0.firstPartitionSize ∧ s.newPass = s0.newPass ∧
  s.passNumber = s0.passNumber

/-- Invariant of the merge loop that started in state `s0` with `k` picked runs.
The output run so far is `numblocks` pages written back to back from
`s0.lastWritePos` on; no other page of the file changed.  When `tr` holds, the
records written plus the records the input runs still owe stay within
`mergeCap * budget + slack`. -/
structure MergeInv (es : external_sort_t) (k : Nat) (tr : Prop) (wt : Nat → Nat)
    (budget slack : Nat) (s0 s : MergeState α) (o : OutState α) : Prop where
  nb : 0 ≤ o.numblocks
  wpos : s.lastWritePos = s0.lastWritePos + o.numblocks * es.page_size
  opos : o.bufferOutputPos = es.headerSize + o.out.length * es.record_size
  olen : o.out.length < mergeCap es
  pages : ∀ j : Nat, (j : Int) < o.numblocks → ∃ pg,
    s.w.file.lookup (s0.lastWritePos + (j : Int) * es.page_size) = some pg ∧
    pg.blockIndex = j ∧ pg.records.length ≤ mergeCap es ∧
    (mergeCap es : Int) ≤ pg.recordCount
  others : ∀ x : Int,
    (∀ j : Nat, (j : Int) < o.numblocks → x ≠ s0.lastWritePos + (j : Int) * es.page_size) →
    s.w.file.lookup x = s0.w.file.lookup x
  start : lastRunStart s.w.log
    = if o.numblocks = 0 then lastRunStart s0.w.log else some s0.lastWritePos
  same : SameScalars s0 s
  lens : s.runCount.length = s0.runCount.length ∧ s.runOffset.length = s0.runOffset.length ∧
    s.sublsTuplePos.length = s0.sublsTuplePos.length ∧ s.buffer.length = s0.buffer.length
  live : ∀ j, j < k → 0 ≤ s.runCount.getD j 0 ∧ 0 ≤ s.sublsTuplePos.getD j 0
  bound : tr → ∀ j, j < k → ∀ i : Nat, (i : Int) < s.runCount.getD j 0 → ∀ pg,
    s.w.file.lookup (s.runOffset.getD j 0 + (i : Int) * es.page_size) = some pg →
    pg.records.length ≤ wt j * mergeCap es
  buf : tr → ∀ j, j < k → 0 < s.runCount.getD j 0 → ∀ cur,
    s.buffer.getD j none = some cur → cur.records.length ≤ wt j * mergeCap es
  bud : tr → o.numblocks.toNat * mergeCap es + o.out.length
      + ((List.range k).map (owed es wt s)).sum ≤ mergeCap es * budget + slack
  emitted : 1 ≤ o.numblocks.toNat * mergeCap es + o.out.length ∨ 1 ≤ s.runCount.getD 0 0

/-- What a merge that started in state `s` did when it ends in `s'`: it wrote
`L ≥ 1` pages back to back from `s.lastWritePos` on, page `j` with `block_index = j`
and at most `mergeCap` records, and with a `record_count` of at least `mergeCap`
on every page but the last; it changed no other page of the file and none of the
pass variables. -/
def MergeDone (es : external_sort_t) (L : Nat) (s s' : MergeState α) : Prop :=
  1 ≤ L ∧ s'.lastWritePos = s.lastWritePos + (L : Int) * es.page_size ∧ SameScalars s s' ∧
  (s'.runCount.length = s.runCount.length ∧ s'.runOffset.length = s.runOffset.length ∧
    s'.sublsTuplePos.length = s.sublsTuplePos.length ∧ s'.buffer.length = s.buffer.length) ∧
  (∀ j : Nat, j < L → ∃ pg,
    s'.w.file.lookup (s.lastWritePos + (j : Int) * es.page_size) = some pg ∧
    pg.blockIndex = j ∧ pg.records.length ≤ mergeCap es ∧
    (j + 1 < L → (mergeCap es : Int) ≤ pg.recordCount)) ∧
  (∀ x : Int, (∀ j : Nat, j < L → x ≠ s.lastWritePos + (j : Int) * es.page_size) →
    s'.w.file.lookup x = s.w.file.lookup x) ∧
  lastRunStart s'.w.log = some s.lastWritePos

/-- State `s'` results from `s` by picking up the runs `picked` into the slots
`i, i+1, ...` without starting a new pass in between. -/
def Walked (s s' : MergeState α) (i : Nat) (picked : List Tile) : Prop :=
  s'.numSublist = s.numSublist ∧ s'.lastWritePos = s.lastWritePos ∧
  s'.ptrFirstBlock = s.ptrFirstBlock ∧ s'.ptrNextFirst = s.ptrNextFirst ∧
  s'.firstPartitionSize = s.firstPartitionSize ∧ s'.newPass = s.newPass ∧
  s'.passNumber = s.passNumber ∧ s'.w.file = s.w.file ∧
  lastRunStart s'.w.log = lastRunStart s.w.log ∧
  (s'.runCount.length = s.runCount.length ∧ s'.runOffset.length = s.runOffset.length ∧
    s'.sublsTuplePos.length = s.sublsTuplePos.length ∧ s'.buffer.length = s.buffer.length) ∧
  (∀ j, j < i → s'.runCount.getD j 0 = s.runCount.getD j 0 ∧
    s'.runOffset.getD j 0 = s.runOffset.getD j 0 ∧
    s'.sublsTuplePos.getD j 0 = s.sublsTuplePos.getD j 0) ∧
  (∀ (j : Nat) (t : Tile), picked[j]? = some t →
    s'.runCount.getD (i + j) 0 = t.len ∧ s'.runOffset.getD (i + j) 0 = t.start ∧
    s'.sublsTuplePos.getD (i + j) 0 = 0)

/-- Weight of the run picked into slot `j`. -/
def slotWeight (picked : List Tile) (j : Nat) : Nat :=
  match picked[j]? with
  | some t => t.weight
  | none => 1

/-- Facts about a merge state that hold throughout the merge phase: the three
arrays and the buffer have room for `maxSublistsInRun` runs, no page lies at a
negative offset, and `firstPartitionSize` is not negative. -/
def Base (m : Int) (s : MergeState α) : Prop :=
  m.toNat ≤ s.runCount.length ∧ m.toNat ≤ s.runOffset.length ∧
  m.toNat ≤ s.sublsTuplePos.length ∧ m.toNat ≤ s.buffer.length ∧
  FilePos s.w.file ∧ 0 ≤ s.firstPartitionSize

/-- The regular situation at the head of the loop `while (numSublist > 1)`.
`region` are the runs of the pass being read that are not picked up yet, topmost
first, lying back to back from `a0` up to `ptrLastBlock + page_size`; `outs` are the
runs written since `ptrNextFirst` was assigned, newest first, lying back to back
from `ptrNextFirst` up to `lastWritePos`.  The clauses on `passNumber % 3` bound the
write cursor: in a pass that wrote from offset 0 on (`passNumber % 3 = 0`) the
cursor stays below the runs still to be read. -/
def Normal (es : external_sort_t) (m : Int) (B : Nat) (s : MergeState α)
    (region outs : List Tile) (a0 : Int) : Prop :=
  Stack es.page_size (s.ptrLastBlock + es.page_size) a0 region ∧
  Stack es.page_size s.lastWritePos s.ptrNextFirst outs ∧
  (∀ t ∈ region, TileOK es s.w.file t) ∧
  (∀ t ∈ outs, TileOK es s.w.file t ∧ t.weight = 1) ∧
  ((region.length + outs.length : Nat) : Int) ≤ s.numSublist ∧
  0 ≤ a0 ∧ a0 ≤ s.ptrFirstBlock ∧ 0 ≤ s.ptrNextFirst ∧ 1 ≤ s.passNumber ∧
  (outs = [] → s.ptrFirstBlock = a0 ∧ s.numSublist = region.length ∧ 2 ≤ s.numSublist) ∧
  (∀ t, outs.head? = some t → lastRunStart s.w.log = some t.start) ∧
  (s.passNumber % 3 ≠ 0 → s.ptrLastBlock + es.page_size ≤ s.ptrNextFirst) ∧
  (s.passNumber % 3 = 0 →
    s.lastWritePos + (s.ptrLastBlock + es.page_size) ≤ 2 * a0) ∧
  (s.passNumber % 3 = 2 →
    s.lastWritePos + (s.ptrLastBlock + es.page_size) ≤ 2 * s.ptrNextFirst + a0) ∧
  (s.passNumber ≠ 1 → ∀ t ∈ region, t.weight = 1) ∧
  (s.passNumber = 1 → (∀ t ∈ region, t.len ≤ B ∧ t.weight ≤ 2) ∧
    (region = [] ∨
     (outs = [] ∧ (((region.length : Int) - 1) * B + 1) * es.page_size ≤ s.ptrNextFirst) ∨
     ((m - 1 + region.length) * B + 1) * es.page_size ≤ s.ptrNextFirst))

/-- The situation after a pickup loop started a new pass twice: the runs written
since `ptrNextFirst` was assigned are the single run `t`, and `ptrLastBlock` lies
below `ptrFirstBlock`, so that the next pickup starts a new pass at once. -/
def Degenerate (es : external_sort_t) (s : MergeState α) : Prop :=
  ∃ t : Tile, TileOK es s.w.file t ∧ t.start = s.ptrNextFirst ∧
    t.start + (t.len : Int) * es.page_size = s.lastWritePos ∧
    s.ptrLastBlock < s.ptrFirstBlock ∧ 0 ≤ t.start ∧
    lastRunStart s.w.log = some t.start

/-- Invariant of the loop `while (numSublist > 1)`. -/
def PhaseInv (es : external_sort_t) (m : Int) (B : Nat) (s : MergeState α) : Prop :=
  Base m s ∧ ((∃ region outs a0, Normal es m B s region outs a0) ∨ Degenerate es s)

/-- Exact book-keeping at the head of the loop `while (numSublist > 1)`, for the
runs `region` still to be read and the runs `outs` written since `ptrNextFirst` was
assigned: `numSublist` counts these runs; `ptrFirstBlock` is not above the last
page of a run still to be read, so that the pickup reaches every such run before
it starts a new pass; `newPass` is set exactly when no run has been written yet;
when lines 197-198 can fire, the offset `ptrNextFirst + firstPartitionSize *
page_size` that they assign is not above the last page of a run written; and
every run but the topmost initial run has at least three pages. -/
def Exact (es : external_sort_t) (m : Int) (s : MergeState α) (region outs : List Tile) :
    Prop :=
  s.numSublist = ((region.length + outs.length : Nat) : Int) ∧
  (∀ t ∈ region, s.ptrFirstBlock ≤ t.start + ((t.len : Int) - 1) * es.page_size) ∧
  (s.newPass = true ↔ outs = []) ∧
  (1 < s.numSublist → 3 ≤ m → ∀ t ∈ outs,
    s.ptrNextFirst + s.firstPartitionSize * es.page_size
      ≤ t.start + ((t.len : Int) - 1) * es.page_size) ∧
  (∀ t ∈ region.tail, 3 ≤ t.len) ∧ (∀ t ∈ outs, 3 ≤ t.len)

/-- The regular situation with exact book-keeping. -/
def Tight (es : external_sort_t) (m : Int) (B : Nat) (s : MergeState α) : Prop :=
  ∃ region outs a0, Normal es m B s region outs a0 ∧ Exact es m s region outs

/-- Exact book-keeping after a pickup that took the runs `pickedAll` into the
slots `0 .. k-1` and left the loop because `k` reached `maxSublistsInRun` or
`numSublist`. -/
def PickedExact (es : external_sort_t) (m : Int) (s1 : MergeState α)
    (region outs1 pickedAll : List Tile) (k : Nat) : Prop :=
  s1.numSublist = ((region.length + outs1.length + k : Nat) : Int) ∧
  (∀ t ∈ region, s1.ptrFirstBlock ≤ t.start + ((t.len : Int) - 1) * es.page_size) ∧
  (s1.newPass = true ↔ outs1 = []) ∧
  (3 ≤ m → ∀ t ∈ outs1,
    s1.ptrNextFirst + s1.firstPartitionSize * es.page_size
      ≤ t.start + ((t.len : Int) - 1) * es.page_size) ∧
  (∀ t ∈ region, 3 ≤ t.len) ∧ (∀ t ∈ outs1, 3 ≤ t.len) ∧
  (∀ (j : Nat) (t : Tile), pickedAll[j]? = some t → 1 ≤ j → 3 ≤ t.len) ∧
  ¬ ((k : Int) < m ∧ (k : Int) < s1.numSublist)

/-- The situation after a pickup that took the runs `pickedAll` into the slots
`0 .. k-1`: the runs `region` are still to be read, the runs `outs1` were written
since `ptrNextFirst` was assigned, and the write cursor leaves room for the pages
that the merge of the picked runs can write. -/
def Picked (es : external_sort_t) (m : Int) (B : Nat) (s1 : MergeState α)
    (region outs1 pickedAll : List Tile) (a0 : Int) (k : Nat) : Prop :=
  Base m s1 ∧
  Stack es.page_size (s1.ptrLastBlock + es.page_size) a0 region ∧
  Stack es.page_size s1.lastWritePos s1.ptrNextFirst outs1 ∧
  (∀ t ∈ region, TileOK es s1.w.file t) ∧
  (∀ t ∈ outs1, TileOK es s1.w.file t ∧ t.weight = 1) ∧
  (∀ t ∈ pickedAll, TileOK es s1.w.file t) ∧
  k = pickedAll.length ∧ 2 ≤ k ∧ (k : Int) ≤ m ∧
  (∀ (j : Nat) (t : Tile), pickedAll[j]? = some t →
    s1.runCount.getD j 0 = t.len ∧ s1.runOffset.getD j 0 = t.start ∧
    s1.sublsTuplePos.getD j 0 = 0) ∧
  ((region.length + outs1.length + k : Nat) : Int) ≤ s1.numSublist ∧
  0 ≤ a0 ∧ a0 ≤ s1.ptrFirstBlock ∧ 0 ≤ s1.ptrNextFirst ∧ 1 ≤ s1.passNumber ∧
  (s1.passNumber % 3 ≠ 0 → s1.ptrLastBlock + es.page_size ≤ s1.ptrNextFirst) ∧
  (s1.passNumber % 3 = 0 →
    s1.lastWritePos + (weightOf pickedAll : Int) * es.page_size
      + (s1.ptrLastBlock + es.page_size) ≤ 2 * a0) ∧
  (s1.passNumber % 3 = 2 →
    s1.lastWritePos + (weightOf pickedAll : Int) * es.page_size
      + (s1.ptrLastBlock + es.page_size) ≤ 2 * s1.ptrNextFirst + a0) ∧
  (s1.passNumber ≠ 1 → ∀ t ∈ region, t.weight = 1) ∧
  (s1.passNumber = 1 → (∀ t ∈ region, t.len ≤ B ∧ t.weight ≤ 2) ∧
    (region = [] ∨ ((m - 1 + region.length) * B + 1) * es.page_size ≤ s1.ptrNextFirst))

/-- A lower bound for the records that input run `j` still contributes to the
output: one for its buffer page, or `record_count - sublsTuplePos[j]` when that is
more; and, when further pages of the run are in the file, `mergeCap` for each of
them but the last and one for the last. -/
def lowOwed (es : external_sort_t) (s : MergeState α) (j : Nat) : Nat :=
  if s.runCount.getD j 0 ≤ 0 then 0
  else
    (match s.buffer.getD j none with
      | some cur => max 1 (cur.recordCount - s.sublsTuplePos.getD j 0).toNat
      | none => 1)
    + (if 2 ≤ s.runCount.getD j 0 then
        mergeCap es * ((s.runCount.getD j 0).toNat - 2) + 1 else 0)

/-- Invariant of the merge loop that bounds its output from below.  The output run
so far is `numblocks` pages of `mergeCap` records written from `c0` on and the
records of the output page; every page of a picked run that is still in the file
and is not the last page of the run has a `record_count` of at least `mergeCap`;
and the records written so far plus the records the runs still contribute are at
least `total + slack`. -/
def LowInv (es : external_sort_t) (k total slack : Nat) (c0 : Int) (s : MergeState α)
    (o : OutState α) : Prop :=
  0 ≤ o.numblocks ∧ s.lastWritePos = c0 + o.numblocks * es.page_size ∧
  o.bufferOutputPos = es.headerSize + o.out.length * es.record_size ∧
  o.out.length < mergeCap es ∧
  k ≤ s.runCount.length ∧ k ≤ s.runOffset.length ∧
  (∀ j, j < k → 0 ≤ s.runCount.getD j 0) ∧
  (∀ j, j < k → ∀ i : Nat, (i : Int) + 1 < s.runCount.getD j 0 → ∀ pg,
    s.w.file.lookup (s.runOffset.getD j 0 + (i : Int) * es.page_size) = some pg →
    (mergeCap es : Int) ≤ pg.recordCount) ∧
  total + slack ≤ o.numblocks.toNat * mergeCap es + o.out.length
    + ((List.range k).map (lowOwed es s)).sum

/-- Every page that the picked runs `0 .. k-1` still have to deliver is stored in
the file. -/
def Avail (es : external_sort_t) (k : Nat) (s : MergeState α) : Prop :=
  ∀ j, j < k → ∀ i : Nat, (i : Int) < s.runCount.getD j 0 →
    ∃ pg, s.w.file.lookup (s.runOffset.getD j 0 + (i : Int) * es.page_size) = some pg

/-- The state after the first iteration of `while (numSublist > 1)`, when run
generation (lines 104-155) yields more than one run: the initialisation of lines
163-173 and one merge step (lines 186-374).  `none` when the loop is not entered
or the step does not run to its end. -/
def afterFirstMerge (fuel : Nat) (sort : List α → List α) (cmp : α → α → Int)
    (fails : Nat → Bool) (es : external_sort_t) (bufferSizeInBlocks : Nat) (input : List α)
    (w0 : World α) : Option (MergeState α) :=
  match genLoop fails sort es fuel
      { iter := input, numRecordsRead := bufferSizeInBlocks * tuplesPerPage es, lastWritePos := 0,
        numSublist := 0, w := w0 } with
  | Flow.cont g =>
    if g.numSublist > 1 ∧ 0 ≤ maxSublistsInRun bufferSizeInBlocks then
      match mergeStep fails cmp es (maxSublistsInRun bufferSizeInBlocks) fuel
              (initMerge es bufferSizeInBlocks g) with
      | Flow.cont s => some s
      | _ => none
    else none
  | _ => none

/-- The body of `while (numSublist > 1)` executed `t` times in a row, without
the loop test. -/
def mergeIterate (fails : Nat → Bool) (cmp : α → α → Int) (es : external_sort_t)
    (maxSub : Int) (fuel : Nat) : Nat → MergeState α → Flow α (MergeState α)
  | 0, s => Flow.cont s
  | t + 1, s =>
    match mergeStep fails cmp es maxSub fuel s with
    | Flow.stuck => Flow.stuck
    | Flow.ret c w => Flow.ret c w
    | Flow.cont s1 => mergeIterate fails cmp es maxSub fuel t s1

/-- The state with which a code fragment falls through to the next statement. -/
def stateOf {σ : Type} : Flow α σ → Option σ
  | Flow.cont s => some s
  | _ => none

/-- The state in which the loop `while (numSublist > 1)` ends, when run generation
(lines 104-155) yields more than one run: the initialisation of lines 163-173 and
the loop of lines 185-374.  `none` when the loop is not entered or does not run to
its end. -/
def afterMergePhase (fuel : Nat) (sort : List α → List α) (cmp : α → α → Int)
    (fails : Nat → Bool) (es : external_sort_t) (bufferSizeInBlocks : Nat) (input : List α)
    (w0 : World α) : Option (MergeState α) :=
  match genLoop fails sort es fuel
      { iter := input, numRecordsRead := bufferSizeInBlocks * tuplesPerPage es, lastWritePos := 0,
        numSublist := 0, w := w0 } with
  | Flow.cont g =>
    if g.numSublist > 1 ∧ 0 ≤ maxSublistsInRun bufferSizeInBlocks then
      stateOf (mergePhase fails cmp es (maxSublistsInRun bufferSizeInBlocks) fuel fuel
        (initMerge es bufferSizeInBlocks g))
    else none
  | _ => none

/-- A state at the head of the loop `while (numSublist > 1)` with `page_size = 40`:
the file of `demoState`, whose two runs (pages at 0 and 40, page at 80) are still
to be picked up, the last page of the input region being at offset 80. -/
def twoRunsState : MergeState Nat := { demoState with ptrLastBlock := 80 }

/-- The state `passEndState` in the second pass. -/
def passTwoEndState : MergeState Nat := { passEndState with passNumber := 2 }

/-- The statuses that the calls of `iterator` returned, oldest first. -/
def iterCalls : List (Event α) → List Nat
  | [] => []
  | Event.iter status :: rest => iterCalls rest ++ [status]
  | _ :: rest => iterCalls rest

/-- The number of records stored on the pages that a history wrote. -/
def recordsWritten : List (Event α) → Nat
  | [] => 0
  | Event.write _ pg :: rest => recordsWritten rest + pg.records.length
  | _ :: rest => recordsWritten rest

/-- World `w1` is reached from `w` without a call of the iterator, and
`num_writes` grew by the number of pages written on the way. -/
def Extends (w w1 : World α) : Prop :=
  ∃ e, w1.log = e ++ w.log ∧ iterCalls e = [] ∧
    w1.metric.num_writes = w.metric.num_writes + (writtenPages e).length

/-- A fragment of the merge phase started in world `w`: it continues or returns
9 or 10 in a world that extends `w`. -/
def Tally {σ : Type} (getW : σ → World α) (w : World α) : Flow α σ → Prop
  | Flow.cont s => Extends w (getW s)
  | Flow.ret c w1 => Extends w w1 ∧ (c = 9 ∨ c = 10)
  | Flow.stuck => True

/-- Run generation started in world `w` with the stream `it` left and `n` records
per run: when it ends, `num_writes` grew by the number of pages written and the
iterator was called once per record and then once more, returning 0; when it
returns an error, the code is 9, the newest event is the failed write, and the
iterator calls so far are an initial part of that sequence. -/
def GenTally (it : List α) (n : Nat) (w : World α) : Flow α (GenState α) → Prop
  | Flow.cont g =>
    ∃ e, g.w.log = e ++ w.log ∧
      g.w.metric.num_writes = w.metric.num_writes + (writtenPages e).length ∧
      (∃ rest, iterCalls e ++ rest = List.replicate it.length 1 ++ [0]) ∧
      (1 ≤ n → iterCalls e = List.replicate it.length 1 ++ [0])
  | Flow.ret c w1 =>
    c = 9 ∧ ∃ e off, w1.log = Event.writeFail off :: (e ++ w.log) ∧
      ∃ rest, iterCalls e ++ rest = List.replicate it.length 1 ++ [0]
  | Flow.stuck => True

/-- World `w1` is reached from `w`, and `num_memcpys` grew by the number of
records on the pages written on the way plus `pending`, the number of records in
the output page that is not yet written. -/
def Copies (w w1 : World α) (pending : Nat) : Prop :=
  ∃ e, w1.log = e ++ w.log ∧
    w1.metric.num_memcpys = w.metric.num_memcpys + recordsWritten e + pending

/-! ## Empty input and single-run input -/

theorem fillBuffer_nil (n st : Nat) (w : World α) :
    ∃ w1 st1, fillBuffer n ([] : List α) [] st w = ([], [], st1, w1) ∧ w1.file = w.file ∧
      w1.metric = w.metric ∧ w1.ops = w.ops ∧ writtenPages w1.log = writtenPages w.log := by
  cases n with
  | zero => exact ⟨w, st, rfl, rfl, rfl, rfl, rfl⟩
  | succ n => exact ⟨_, 0, rfl, rfl, rfl, rfl, rfl⟩

/-- C5 (amended): for `record_size ≥ 1` (line 89 divides by it).  When the
iterator yields no record, the scratch file is untouched, no page is written and
the metrics (in particular `num_reads` and `num_writes`) are unchanged; the sort
returns 0 and stores 0 in `resultFilePtr` when the allocation of `sublsTuplePos`
(lines 164-181) succeeds, and it returns 8 and stores nothing in `resultFilePtr`
when that allocation fails. -/
theorem C5_empty_input (fuel : Nat) (sort : List α → List α) (cmp : α → α → Int)
    (fails : Nat → Bool) (alloc : Alloc) (es : external_sort_t) (bufferSizeInBlocks : Nat)
    (w0 : World α) (hfuel : 1 ≤ fuel) (hR : 1 ≤ es.record_size) :
    ∃ w, w.file = w0.file ∧ writtenPages w.log = writtenPages w0.log ∧
      w.metric = w0.metric ∧ w.ops = w0.ops ∧
      ((alloc.sublsTuplePos = true ∧ 0 ≤ maxSublistsInRun bufferSizeInBlocks) →
        extern_merge_sort_iterator_block fuel sort cmp fails alloc es bufferSizeInBlocks [] w0
          = some ⟨0, some 0, w⟩) ∧
      (¬ (alloc.sublsTuplePos = true ∧ 0 ≤ maxSublistsInRun bufferSizeInBlocks) →
        extern_merge_sort_iterator_block fuel sort cmp fails alloc es bufferSizeInBlocks [] w0
          = some ⟨8, none, w⟩) := by
  have _ := hR
  obtain ⟨f, rfl⟩ : ∃ f, fuel = f + 1 := ⟨fuel - 1, by omega⟩
  obtain ⟨w1, st1, h1, hf, hm, ho, hl⟩ :=
    fillBuffer_nil (bufferSizeInBlocks * tuplesPerPage es) 0 w0
  refine ⟨w1, hf, hl, hm, ho, ?_, ?_⟩
  · intro halloc
    unfold extern_merge_sort_iterator_block
    simp only [genLoop, h1]
    simp [halloc.1, halloc.2, initMerge]
    cases f <;> simp [mergePhase]
  · intro halloc
    unfold extern_merge_sort_iterator_block
    simp only [genLoop, h1]
    simp [halloc]

theorem fillBuffer_short (n : Nat) : ∀ (it acc : List α) (st : Nat) (w : World α),
    it.length ≤ n →
    ∃ w1, fillBuffer n it acc st w
        = (acc ++ it, [], (if it.length < n then 0 else if it.length = 0 then st else 1), w1) ∧
      w1.file = w.file ∧ w1.metric = w.metric ∧ w1.ops = w.ops ∧
      writtenPages w1.log = writtenPages w.log ∧
      w1.log.filter isFileRead = w.log.filter isFileRead := by
  induction n with
  | zero =>
    intro it acc st w h
    have : it = [] := List.length_eq_zero.mp (by omega)
    subst this
    exact ⟨w, by simp [fillBuffer], rfl, rfl, rfl, rfl, rfl⟩
  | succ n ih =>
    intro it acc st w h
    cases it with
    | nil =>
      exact ⟨{ w with log := Event.iter 0 :: w.log }, by simp [fillBuffer], rfl, rfl, rfl,
        by simp [writtenPages], by simp [isFileRead]⟩
    | cons x xs =>
      obtain ⟨w1, h1, hf, hm, ho, hl, hr⟩ :=
        ih xs (acc ++ [x]) 1 { w with log := Event.iter 1 :: w.log } (by simpa using h)
      refine ⟨w1, ?_, hf, hm, ho, ?_, ?_⟩
      · rw [fillBuffer, h1]
        simp only [List.length_cons, List.append_assoc, List.singleton_append, Nat.add_lt_add_iff_right]
        by_cases hx : xs.length < n <;> simp [hx]
      · simpa [writtenPages] using hl
      · simpa [isFileRead] using hr

theorem fwrite_ok (fails : Nat → Bool) (hw : ∀ k, fails k = false) (w : World α) (off : Int)
    (pg : Page α) :
    fwrite fails w off pg
      = (true, { w with file := (off, pg) :: w.file, ops := w.ops + 1,
                        log := Event.write off pg :: w.log }) := by
  simp [fwrite, hw]

theorem writeFullPages_ok (fails : Nat → Bool) (hw : ∀ k, fails k = false)
    (es : external_sort_t) (sorted : List α) (n : Nat) :
    ∀ (i : Nat) (pos : Int) (w : World α),
    ∃ w1, writeFullPages fails es sorted n i pos w
        = Flow.cont (i + n, pos + n * es.page_size, w1) ∧
      w1.metric = w.metric ∧
      w1.log.filter isFileRead = w.log.filter isFileRead ∧ (n = 0 → w1 = w) := by
  induction n with
  | zero => intro i pos w; exact ⟨w, by simp [writeFullPages], rfl, rfl, fun _ => rfl⟩
  | succ n ih =>
    intro i pos w
    obtain ⟨w1, h1, hm, hr, _⟩ := ih (i + 1) (pos + es.page_size)
      { w with file := (pos, ⟨i, tuplesPerPage es, (sorted.drop (i * tuplesPerPage es)).take
                  (tuplesPerPage es)⟩) :: w.file,
               ops := w.ops + 1,
               log := Event.write pos ⟨i, tuplesPerPage es,
                  (sorted.drop (i * tuplesPerPage es)).take (tuplesPerPage es)⟩ :: w.log }
    refine ⟨w1, ?_, by simpa using hm, by simpa [isFileRead] using hr, by simp⟩
    rw [writeFullPages]
    simp only [fwrite_ok fails hw]
    rw [h1]
    congr 2
    · omega
    · push_cast; ring_nf

theorem genLoop_drained (f : Nat) (sort : List α → List α) (fails : Nat → Bool)
    (es : external_sort_t) (s1 : GenState α) (h : s1.iter = []) :
    ∃ g, genLoop fails sort es (f + 1) s1 = Flow.cont g ∧ g.numSublist = s1.numSublist ∧
      g.w.log.filter isFileRead = s1.w.log.filter isFileRead ∧
      writtenPages g.w.log = writtenPages s1.w.log := by
  obtain ⟨w1, h1, -, -, -, hl1, hr1⟩ := fillBuffer_short s1.numRecordsRead [] [] 0 s1.w (by simp)
  rw [genLoop.eq_2, h, h1]
  exact ⟨{ s1 with iter := [], w := w1 }, by simp, rfl, hr1, hl1⟩

theorem pageio_one (T : Nat) (hT : 1 ≤ T) : (T + T - 1) / T = 1 := by
  apply Nat.le_antisymm
  · have : (T + T - 1) / T < 2 := (Nat.div_lt_iff_lt_mul (by omega)).mpr (by omega)
    omega
  · exact (Nat.le_div_iff_mul_le (by omega)).mpr (by omega)

theorem genLoop_single (f : Nat) (sort : List α → List α)
    (fails : Nat → Bool) (es : external_sort_t) (bufferSizeInBlocks : Nat)
    (input : List α) (w0 : World α) (hn : 1 ≤ input.length)
    (hle : input.length ≤ bufferSizeInBlocks * tuplesPerPage es)
    (hw : ∀ k, fails k = false) :
    ∃ g, genLoop fails sort es (f + 2)
          { iter := input, numRecordsRead := bufferSizeInBlocks * tuplesPerPage es,
            lastWritePos := 0, numSublist := 0, w := w0 } = Flow.cont g ∧
      g.numSublist = 1 ∧
      g.w.log.filter isFileRead = w0.log.filter isFileRead ∧
      (input.length = tuplesPerPage es →
        writtenPages g.w.log = writtenPages w0.log ++
          [(0, ⟨0, tuplesPerPage es, (sort input).take (tuplesPerPage es)⟩)]) := by
  obtain ⟨w1, h1, hf1, hm1, ho1, hl1, hr1⟩ :=
    fillBuffer_short (bufferSizeInBlocks * tuplesPerPage es) input [] 0 w0 hle
  rw [List.nil_append] at h1
  have hlen : input.length ≠ 0 := by omega
  rw [show f + 2 = (f + 1).succ from rfl, genLoop.eq_2]
  simp only [h1, hlen, if_false]
  obtain ⟨w3, h3, hm3, hr3, hz3⟩ := writeFullPages_ok fails hw es (sort input)
    ((input.length + tuplesPerPage es - 1) / tuplesPerPage es - 1) 0 0
    { w1 with metric := w1.metric.addReads ((input.length + tuplesPerPage es - 1) / tuplesPerPage es) }
  simp only [h3, fwrite_ok fails hw]
  have hlast : input.length = tuplesPerPage es →
      (input.length + tuplesPerPage es - 1) / tuplesPerPage es - 1 = 0 := by
    intro h
    rw [h, pageio_one _ (by omega)]
  by_cases hlt : input.length < bufferSizeInBlocks * tuplesPerPage es
  · simp only [hlt, if_true, Nat.zero_ne_one, if_false]
    refine ⟨_, rfl, rfl, ?_, ?_⟩
    · simp only [List.filter_cons, isFileRead]
      simpa [hr3] using hr1
    · intro h
      have h0 := hlast h
      rw [hz3 h0]
      simp only [h0]
      simp [writtenPages, hl1, h]
  · simp only [hlt, if_false, hlen, if_true]
    obtain ⟨g, hg, hns, hr, hp⟩ := genLoop_drained f sort fails es
      { iter := [], numRecordsRead := input.length,
        lastWritePos :=
          0 + ((((input.length + tuplesPerPage es - 1) / tuplesPerPage es - 1 : Nat) : Int)) *
              (es.page_size : Int) + (es.page_size : Int),
        numSublist := 0 + 1,
        w := _ } rfl
    refine ⟨g, hg, by simpa using hns, ?_, ?_⟩
    · rw [hr]
      simp only [List.filter_cons, isFileRead]
      simpa [hr3] using hr1
    · intro h
      have h0 := hlast h
      rw [hp, hz3 h0]
      simp only [h0]
      simp [writtenPages, hl1, h]

/-- C6: in a configuration whose `T = (page_size - headerSize) / record_size` fits
the `int16_t` of line 89, whose `B * T` fits the `int32_t` of line 93 and whose
page header has room for `block_index` and `record_count` (6 bytes), an input of
`n` records with `1 ≤ n ≤ B * T`, all file operations succeeding, is sorted without
any merge step (the sort issues no `fread`): the call returns 0 and stores 0 in
`resultFilePtr`.  For `n = T` exactly one page is written, at offset 0, with
`block_index = 0`, `record_count = T` and the sorted records. -/
theorem C6_single_run (fuel : Nat) (sort : List α → List α) (cmp : α → α → Int)
    (fails : Nat → Bool) (alloc : Alloc) (es : external_sort_t) (bufferSizeInBlocks : Nat)
    (input : List α) (w0 : World α) (hfuel : 2 ≤ fuel) (hn : 1 ≤ input.length)
    (hle : input.length ≤ bufferSizeInBlocks * tuplesPerPage es)
    (hw : ∀ k, fails k = false)
    (hT16 : tuplesPerPage es ≤ 32767)
    (h32 : bufferSizeInBlocks * tuplesPerPage es ≤ 2147483647)
    (hH : 6 ≤ es.headerSize) :
    ∃ w, extern_merge_sort_iterator_block fuel sort cmp fails alloc es bufferSizeInBlocks
            input w0 = some ⟨0, some 0, w⟩ ∧
      w.log.filter isFileRead = w0.log.filter isFileRead ∧
      (input.length = tuplesPerPage es →
        writtenPages w.log = writtenPages w0.log ++
          [(0, ⟨0, tuplesPerPage es, (sort input).take (tuplesPerPage es)⟩)]) := by
  have _ := And.intro hT16 (And.intro h32 hH)
  obtain ⟨f, rfl⟩ : ∃ f, fuel = f + 2 := ⟨fuel - 2, by omega⟩
  obtain ⟨g, hg, hns, hr, hp⟩ := genLoop_single f sort fails es bufferSizeInBlocks input w0 hn hle hw
  refine ⟨g.w, ?_, hr, hp⟩
  unfold extern_merge_sort_iterator_block
  simp [hg, hns]

/-- C5 (witness): the reference configuration with an empty input, with all
allocations succeeding and with a failing allocation of `sublsTuplePos`. -/
theorem C5_empty_input_witness :
    (∃ w, extern_merge_sort_iterator_block 1 sortKeys compareKeys noFailure allocOk
            ⟨512, 6, 16⟩ 3 [] emptyWorld = some ⟨0, some 0, w⟩ ∧
      w.file = (emptyWorld : World Nat).file ∧
      writtenPages w.log = writtenPages (emptyWorld : World Nat).log ∧
      w.metric = (emptyWorld : World Nat).metric ∧ w.ops = (emptyWorld : World Nat).ops) ∧
    (∃ w, extern_merge_sort_iterator_block 1 sortKeys compareKeys noFailure
            ⟨true, true, false⟩ ⟨512, 6, 16⟩ 3 [] emptyWorld = some ⟨8, none, w⟩ ∧
      w.file = (emptyWorld : World Nat).file ∧
      writtenPages w.log = writtenPages (emptyWorld : World Nat).log ∧
      w.metric = (emptyWorld : World Nat).metric ∧ w.ops = (emptyWorld : World Nat).ops) := by
  constructor
  · obtain ⟨w, h1, h2, h3, h4, h5, _⟩ := C5_empty_input 1 sortKeys compareKeys noFailure allocOk
      ⟨512, 6, 16⟩ 3 emptyWorld (by decide) (by decide)
    exact ⟨w, h5 (by decide), h1, h2, h3, h4⟩
  · obtain ⟨w, h1, h2, h3, h4, _, h6⟩ := C5_empty_input 1 sortKeys compareKeys noFailure
      ⟨true, true, false⟩ ⟨512, 6, 16⟩ 3 emptyWorld (by decide) (by decide)
    exact ⟨w, h6 (by decide), h1, h2, h3, h4⟩

/-- C5 (as stated): with an empty input and a failing allocation of
`sublsTuplePos` the sort returns 8 and stores nothing in `resultFilePtr`. -/
theorem C5_empty_input_alloc_failure :
    extern_merge_sort_iterator_block 1 sortKeys compareKeys noFailure ⟨true, true, false⟩
        ⟨512, 6, 16⟩ 3 [] emptyWorld
      = some ⟨8, none, ⟨[], ⟨0, 0, 0, 0⟩, 0, [Event.iter 0]⟩⟩ := by
  decide!

/-- C6 (witness): 31 records in the reference configuration (`T = 31`, `B = 3`). -/
theorem C6_single_run_witness :
    ∃ w, extern_merge_sort_iterator_block 2 sortKeys compareKeys noFailure allocOk
            ⟨512, 6, 16⟩ 3 (List.range 31).reverse emptyWorld = some ⟨0, some 0, w⟩ ∧
      w.log.filter isFileRead = (emptyWorld : World Nat).log.filter isFileRead ∧
      ((List.range 31).reverse.length = tuplesPerPage ⟨512, 6, 16⟩ →
        writtenPages w.log = writtenPages (emptyWorld : World Nat).log ++
          [(0, ⟨0, tuplesPerPage ⟨512, 6, 16⟩,
                (sortKeys (List.range 31).reverse).take (tuplesPerPage ⟨512, 6, 16⟩)⟩)]) :=
  C6_single_run 2 sortKeys compareKeys noFailure allocOk ⟨512, 6, 16⟩ 3
    (List.range 31).reverse emptyWorld (by decide) (by decide) (by decide) (fun _ => rfl)
    (by decide) (by decide) (by decide)

/-! ## Behaviour on concrete inputs

With `page_size = 38`, `headerSize = 6` and `record_size = 16` a page has room for
two records and `record_size` divides `page_size - headerSize`.  The flush test of
line 300, `bufferOutputPos >= es->page_size - es->record_size`, then holds after
the first record already, so every page a merge writes carries one record. -/

/-- C4: with `page_size = 38`, `headerSize = 6`, `record_size = 16` and a buffer of
3 pages, sorting the 7 keys 6,5,..,0 returns 0 with `resultFilePtr = 152`; the
output run that starts there has 7 pages, while `es.num_pages = (7 + 2 - 1) / 2`
is 4. -/
theorem C4_merged_output_takes_more_pages :
    (extern_merge_sort_iterator_block 100 sortKeys compareKeys noFailure allocOk
        ⟨38, 6, 16⟩ 3 [6, 5, 4, 3, 2, 1, 0] emptyWorld).map
      (fun o => (o.code, o.resultFilePtr, (outputRun ⟨38, 6, 16⟩ o).length,
                 lastRunLength o.w.log, num_pages ⟨38, 6, 16⟩ 7))
      = some (0, some 152, 7, 7, 4) := by
  decide!

/-- C1: with `page_size = 38`, `headerSize = 6`, `record_size = 16` and a buffer of
3 pages, sorting the 25 keys 0,1,..,24 returns 0 with `resultFilePtr = 0`, and the
records at positions 18 and 19 of the output run are 18 and 14: the output is not
in non-decreasing order. -/
theorem C1_output_run_out_of_order :
    (extern_merge_sort_iterator_block 100 sortKeys compareKeys noFailure allocOk
        ⟨38, 6, 16⟩ 3 (List.range 25) emptyWorld).map
      (fun o => (o.code, o.resultFilePtr,
                 ((runRecords (outputRun ⟨38, 6, 16⟩ o)).drop 18).take 2))
      = some (0, some 0, [18, 14]) := by
  decide!

/-- C2: in the same run the output run holds 25 records, and the key 14, delivered
once by the iterator, is the record at position 14 and again at position 19. -/
theorem C2_output_run_repeats_a_record :
    (extern_merge_sort_iterator_block 100 sortKeys compareKeys noFailure allocOk
        ⟨38, 6, 16⟩ 3 (List.range 25) emptyWorld).map
      (fun o => (o.code, (outputRun ⟨38, 6, 16⟩ o).length,
                 (runRecords (outputRun ⟨38, 6, 16⟩ o)).get? 14,
                 (runRecords (outputRun ⟨38, 6, 16⟩ o)).get? 19,
                 (List.range 25).count 14))
      = some (0, 25, some 14, some 14, 1) := by
  decide!

/-- C3: with `page_size = 54` (three tuples per page, `record_size` dividing
`page_size - headerSize`) sorting the 47 keys 0,..,46 returns 0 with
`resultFilePtr = 0`; the `record_count` fields of the 24 pages of the output run
add up to 48, and those of the first `es.num_pages = 16` pages to 32. -/
theorem C3_record_counts_do_not_add_up :
    (extern_merge_sort_iterator_block 100 sortKeys compareKeys noFailure allocOk
        ⟨54, 6, 16⟩ 3 (List.range 47) emptyWorld).map
      (fun o => (o.code, o.resultFilePtr,
                 (outputRun ⟨54, 6, 16⟩ o).length,
                 ((outputRun ⟨54, 6, 16⟩ o).map (fun pg => pg.recordCount)).sum,
                 ((readPages o.w.file 54 (num_pages ⟨54, 6, 16⟩ 47) 0).map
                    (fun pg => pg.recordCount)).sum))
      = some (0, some 0, 24, 48, 32) := by
  decide!

/-- C10: sorting the keys 0,..,24 with `page_size = 38`, `headerSize = 6`,
`record_size = 16` and a buffer of 3 pages, some page write hits a page that was
written before and is loaded for merging only later. -/
theorem C10_write_hits_unread_input :
    (extern_merge_sort_iterator_block 100 sortKeys compareKeys noFailure allocOk
        ⟨38, 6, 16⟩ 3 (List.range 25) emptyWorld).map
      (fun o => (o.code, noClobber o.w.log))
      = some (0, false) := by
  decide!

/-- C8: with `page_size = 23`, `headerSize = 6`, `record_size = 4` (so
`tuplesPerPage = 4`) and a buffer of 3 pages, sorting 13 keys returns 0; the four
pages written by the merge carry `record_count` 5, 5, 5 and 2 while holding 4, 4, 4
and 1 records. -/
theorem C8_record_count_exceeds_tuples_per_page :
    (extern_merge_sort_iterator_block 100 sortKeys compareKeys noFailure allocOk
        ⟨23, 6, 4⟩ 3 (List.range 13) emptyWorld).map
      (fun o => (o.code, tuplesPerPage ⟨23, 6, 4⟩,
                 (writtenPages o.w.log).map (fun p => p.2.recordCount),
                 (writtenPages o.w.log).map (fun p => p.2.records.length)))
      = some (0, 4, [4, 4, 4, 1, 5, 5, 5, 2], [4, 4, 4, 1, 4, 4, 4, 1]) := by
  decide!

/-! ## One merge step -/

theorem pendingAfter_append (a b : List (Event α)) : ∀ p : List Int,
    pendingAfter (a ++ b) p = (pendingAfter a p).bind (pendingAfter b) := by
  induction a with
  | nil => intro p; simp [pendingAfter]
  | cons e a ih =>
    intro p
    cases e with
    | write off pg => by_cases h : off ∈ p <;> simp [pendingAfter, ih, h]
    | _ => simp [pendingAfter, ih]

theorem writtenPages_append (a b : List (Event α)) :
    writtenPages (a ++ b) = writtenPages b ++ writtenPages a := by
  induction a with
  | nil => simp [writtenPages]
  | cons e a ih => cases e <;> simp [writtenPages, ih]

theorem runRecords_append (a b : List (Page α)) :
    runRecords (a ++ b) = runRecords a ++ runRecords b := by
  simp [runRecords]

theorem newEvents_append (d l : List (Event α)) : newEvents l (d ++ l) = d := by
  simp [newEvents]

theorem lookup_write (file : List (Int × Page α)) (off x : Int) (pg : Page α) (h : x ≠ off) :
    List.lookup x ((off, pg) :: file) = List.lookup x file := by
  have hb : (x == off) = false := by simpa using h
  rw [List.lookup_cons, hb]

theorem RunAt_write (file : List (Int × Page α)) (P : Nat) (woff : Int) (wpg : Page α) :
    ∀ (pgs : List (Page α)) (off : Int), (∀ o ∈ runOffsets P off pgs.length, o ≠ woff) →
      RunAt file P off pgs → RunAt ((woff, wpg) :: file) P off pgs := by
  intro pgs
  induction pgs with
  | nil => intro off _ _; trivial
  | cons pg rest ih =>
    intro off hne h
    simp only [List.length_cons, runOffsets, List.mem_cons, forall_eq_or_imp] at hne
    exact ⟨by rw [lookup_write _ _ _ _ hne.1]; exact h.1, ih _ hne.2 h.2⟩

theorem getD_set_eq (l : List Int) (i : Nat) (a d : Int) (h : i < l.length) :
    (l.set i a).getD i d = a := by
  simp [List.getD_eq_getElem?_getD, List.getElem?_set, h]

theorem getD_set_ne (l : List Int) (i j : Nat) (a d : Int) (h : i ≠ j) :
    (l.set i a).getD j d = l.getD j d := by
  simp [List.getD_eq_getElem?_getD, List.getElem?_set, h]

theorem getD_set_eq' {β : Type} (l : List β) (i : Nat) (a d : β) (h : i < l.length) :
    (l.set i a).getD i d = a := by
  simp [List.getD_eq_getElem?_getD, List.getElem?_set, h]

theorem getD_set_ne' {β : Type} (l : List β) (i j : Nat) (a d : β) (h : i ≠ j) :
    (l.set i a).getD j d = l.getD j d := by
  simp [List.getD_eq_getElem?_getD, List.getElem?_set, h]

theorem firstLive_spec (rc : List Int) (k : Nat) : ∀ (n i : Nat), i ≤ k → k - i ≤ n →
    i ≤ firstLive rc k n i ∧ firstLive rc k n i ≤ k ∧
    (∀ j, i ≤ j → j < firstLive rc k n i → rc.getD j 0 = 0) ∧
    (firstLive rc k n i < k → rc.getD (firstLive rc k n i) 0 ≠ 0) := by
  intro n
  induction n with
  | zero =>
    intro i hik hn
    have : i = k := by omega
    subst this
    simp only [firstLive]
    exact ⟨le_refl _, le_refl _, fun j h1 h2 => by omega, fun h => by omega⟩
  | succ n ih =>
    intro i hik hn
    rw [firstLive]
    by_cases hc : rc.getD i 0 = 0 ∧ i < k
    · rw [if_pos hc]
      obtain ⟨h1, h2, h3, h4⟩ := ih (i + 1) (by omega) (by omega)
      refine ⟨by omega, h2, ?_, h4⟩
      intro j hij hj
      by_cases hji : j = i
      · subst hji; exact hc.1
      · exact h3 j (by omega) hj
    · rw [if_neg hc]
      refine ⟨le_refl _, hik, fun j h1 h2 => by omega, ?_⟩
      intro hlt h0
      exact hc ⟨h0, hlt⟩

theorem RunInv.dead {es : external_sort_t} {s : MergeState α} {fut : List (Page α)}
    {rem : List α} {j : Nat} (h : RunInv es s fut rem j) (h0 : s.runCount.getD j 0 = 0) :
    rem = [] ∧ fut = [] := by
  rcases h with ⟨_, h2, h3⟩ | ⟨cur, _, _, _, _, hrc, _⟩
  · exact ⟨h3, h2⟩
  · omega

theorem RunInv.live {es : external_sort_t} {s : MergeState α} {fut : List (Page α)}
    {rem : List α} {j : Nat} (h : RunInv es s fut rem j) (h0 : s.runCount.getD j 0 ≠ 0) :
    ∃ x t, rem = x :: t ∧ recordAt s j = some x := by
  rcases h with ⟨h1, _, _⟩ | ⟨cur, hb, _, hp0, hp, _, _, _, hrem⟩
  · exact absurd h1 h0
  · refine ⟨cur.records[(s.sublsTuplePos.getD j 0).toNat],
      cur.records.drop ((s.sublsTuplePos.getD j 0).toNat + 1) ++ fut.flatMap (fun pg => pg.records),
      ?_, ?_⟩
    · rw [hrem, List.drop_eq_getElem_cons hp, List.cons_append]
    · simp only [recordAt, hb]
      rw [if_neg (by omega), List.get?_eq_getElem?, List.getElem?_eq_getElem hp]

theorem findLowest_spec (cmp : α → α → Int) (htot : ∀ a b, cmp a b ≤ 0 ∨ cmp b a ≤ 0)
    (htrans : ∀ a b c, cmp a b ≤ 0 → cmp b c ≤ 0 → cmp a c ≤ 0)
    (es : external_sort_t) (s : MergeState α) (futs : Nat → List (Page α))
    (rems : Nat → List α) (k : Nat) (hinv : ∀ j, j < k → RunInv es s (futs j) (rems j) j) :
    ∀ (n i lowId : Nat) (tuple : α) (c : Nat) (l : Nat) (t : α) (c1 : Nat),
      i + n = k → lowId < i → s.runCount.getD lowId 0 ≠ 0 → recordAt s lowId = some tuple →
      (∀ j, j < i → s.runCount.getD j 0 ≠ 0 → ∀ x r, rems j = x :: r → cmp tuple x ≤ 0) →
      findLowest cmp s n i lowId tuple c = some (l, t, c1) →
      l < k ∧ s.runCount.getD l 0 ≠ 0 ∧ recordAt s l = some t ∧
      (∀ j, j < k → s.runCount.getD j 0 ≠ 0 → ∀ x r, rems j = x :: r → cmp t x ≤ 0) := by
  intro n
  induction n with
  | zero =>
    intro i lowId tuple c l t c1 hik hlow hlive hrec hmin hres
    simp only [findLowest, Option.some.injEq, Prod.mk.injEq] at hres
    obtain ⟨rfl, rfl, rfl⟩ := hres
    have : i = k := by omega
    subst this
    exact ⟨hlow, hlive, hrec, hmin⟩
  | succ n ih =>
    intro i lowId tuple c l t c1 hik hlow hlive hrec hmin hres
    rw [findLowest] at hres
    by_cases h0 : s.runCount.getD i 0 = 0
    · rw [if_pos h0] at hres
      refine ih (i + 1) lowId tuple c l t c1 (by omega) (by omega) hlive hrec ?_ hres
      intro j hj hjl x r hx
      by_cases hji : j = i
      · subst hji; exact absurd h0 hjl
      · exact hmin j (by omega) hjl x r hx
    · rw [if_neg h0] at hres
      obtain ⟨v, r, hv, hrv⟩ := (hinv i (by omega)).live h0
      rw [hrv] at hres
      simp only at hres
      by_cases hc : 0 < cmp tuple v
      · rw [if_pos hc] at hres
        have hvt : cmp v tuple ≤ 0 := by
          rcases htot tuple v with h | h
          · omega
          · exact h
        refine ih (i + 1) i v (c + 1) l t c1 (by omega) (by omega) h0 hrv ?_ hres
        intro j hj hjl x r' hx
        by_cases hji : j = i
        · subst hji
          rw [hv] at hx
          obtain ⟨rfl, -⟩ := List.cons.inj hx
          rcases htot v v with h | h <;> exact h
        · exact htrans _ _ _ hvt (hmin j (by omega) hjl x r' hx)
      · rw [if_neg hc] at hres
        refine ih (i + 1) lowId tuple (c + 1) l t c1 (by omega) (by omega) hlive hrec ?_ hres
        intro j hj hjl x r' hx
        by_cases hji : j = i
        · subst hji
          rw [hv] at hx
          obtain ⟨rfl, -⟩ := List.cons.inj hx
          omega
        · exact hmin j (by omega) hjl x r' hx

theorem fread_some (fails : Nat → Bool) (m : Bool) (w w1 : World α) (off : Int) (pg : Page α)
    (h : fread fails m w off = (some pg, w1)) :
    w.file.lookup off = some pg ∧
    w1 = { w with ops := w.ops + 1,
                  log := (if m then Event.load off else Event.peek off) :: w.log } := by
  unfold fread at h
  split at h
  · simp at h
  · split at h
    · simp at h
    · rename_i pg1 hl
      simp only [Prod.mk.injEq, Option.some.injEq] at h
      exact ⟨by rw [hl, h.1], h.2.symm⟩

theorem flushPage_inv (fails : Nat → Bool) (es : external_sort_t) (s s2 : MergeState α)
    (o o2 : OutState α) (h : flushPage fails es s o = Flow.cont (s2, o2)) :
    s2 = { s with lastWritePos := s.lastWritePos + es.page_size,
                  w := { file := (s.lastWritePos,
                            ⟨o.numblocks, ((o.bufferOutputPos / es.record_size : Nat) : Int), o.out⟩)
                            :: s.w.file,
                         metric := s.w.metric.addWrites 1, ops := s.w.ops + 1,
                         log := Event.write s.lastWritePos
                            ⟨o.numblocks, ((o.bufferOutputPos / es.record_size : Nat) : Int), o.out⟩
                            :: s.w.log } } ∧
    o2 = { out := [], bufferOutputPos := es.headerSize, numblocks := o.numblocks + 1 } := by
  unfold flushPage fwrite at h
  by_cases hf : fails s.w.ops = true
  · simp [hf] at h
  · simp only [hf, Bool.false_eq_true, if_false, Flow.cont.injEq, Prod.mk.injEq] at h
    exact ⟨h.1.symm, h.2.symm⟩

/-- What `emitTuple` did when control continues: either the tuple was only
appended to the output page, or the page was also written at `lastWritePos`. -/
theorem emitTuple_inv (fails : Nat → Bool) (es : external_sort_t) (s s2 : MergeState α)
    (o o2 : OutState α) (tuple : α) (c : Nat)
    (h : emitTuple fails es s o tuple c = Flow.cont (s2, o2)) :
    s2.runOffset = s.runOffset ∧ s2.runCount = s.runCount ∧
    s2.sublsTuplePos = s.sublsTuplePos ∧ s2.buffer = s.buffer ∧
    ((¬ ((o.bufferOutputPos + es.record_size : Nat) : Int) ≥ (es.page_size : Int) - es.record_size ∧
        s2.w.file = s.w.file ∧ s2.w.log = s.w.log ∧ s2.lastWritePos = s.lastWritePos ∧
        o2 = { o with out := o.out ++ [tuple],
                      bufferOutputPos := o.bufferOutputPos + es.record_size }) ∨
     (((o.bufferOutputPos + es.record_size : Nat) : Int) ≥ (es.page_size : Int) - es.record_size ∧
        s2.w.file = (s.lastWritePos,
            ⟨o.numblocks, (((o.bufferOutputPos + es.record_size) / es.record_size : Nat) : Int),
             o.out ++ [tuple]⟩) :: s.w.file ∧
        s2.w.log = Event.write s.lastWritePos
            ⟨o.numblocks, (((o.bufferOutputPos + es.record_size) / es.record_size : Nat) : Int),
             o.out ++ [tuple]⟩ :: s.w.log ∧
        s2.lastWritePos = s.lastWritePos + es.page_size ∧
        o2 = { out := [], bufferOutputPos := es.headerSize, numblocks := o.numblocks + 1 })) := by
  unfold emitTuple at h
  simp only at h
  split at h
  · rename_i hc
    obtain ⟨h1, h2⟩ := flushPage_inv _ _ _ _ _ _ h
    subst h1 h2
    exact ⟨rfl, rfl, rfl, rfl, Or.inr ⟨hc, rfl, rfl, rfl, rfl⟩⟩
  · rename_i hc
    simp only [Flow.cont.injEq, Prod.mk.injEq] at h
    obtain ⟨h1, h2⟩ := h
    subst h1 h2
    exact ⟨rfl, rfl, rfl, rfl, Or.inl ⟨hc, rfl, rfl, rfl, rfl⟩⟩

/-- The three ways in which `advanceRun` continues. -/
theorem advanceRun_inv (fails : Nat → Bool) (es : external_sort_t) (lowId : Nat)
    (s s3 : MergeState α) (h : advanceRun fails es lowId s = Flow.cont s3) :
    ∃ cur, s.buffer.getD lowId none = some cur ∧
      ((s.sublsTuplePos.getD lowId 0 + 1 < cur.recordCount ∧
          s3 = { s with sublsTuplePos :=
                    s.sublsTuplePos.set lowId (s.sublsTuplePos.getD lowId 0 + 1) }) ∨
       (s.sublsTuplePos.getD lowId 0 + 1 ≥ cur.recordCount ∧
          ¬ s.runCount.getD lowId 0 - 1 > 0 ∧
          s3 = { s with
            sublsTuplePos :=
              (s.sublsTuplePos.set lowId (s.sublsTuplePos.getD lowId 0 + 1)).set lowId 0,
            runOffset := s.runOffset.set lowId (s.runOffset.getD lowId 0 + es.page_size),
            runCount := s.runCount.set lowId (s.runCount.getD lowId 0 - 1) }) ∨
       (s.sublsTuplePos.getD lowId 0 + 1 ≥ cur.recordCount ∧
          s.runCount.getD lowId 0 - 1 > 0 ∧
          ∃ pg, s.w.file.lookup (s.runOffset.getD lowId 0 + es.page_size) = some pg ∧
          s3 = { s with
            sublsTuplePos :=
              (s.sublsTuplePos.set lowId (s.sublsTuplePos.getD lowId 0 + 1)).set lowId 0,
            runOffset := s.runOffset.set lowId (s.runOffset.getD lowId 0 + es.page_size),
            runCount := s.runCount.set lowId (s.runCount.getD lowId 0 - 1),
            buffer := s.buffer.set lowId (some pg),
            w := { file := s.w.file, metric := s.w.metric.addReads 1, ops := s.w.ops + 1,
                   log := Event.load (s.runOffset.getD lowId 0 + es.page_size) :: s.w.log } })) := by
  unfold advanceRun at h
  simp only at h
  split at h
  · simp at h
  · rename_i cur hcur
    refine ⟨cur, hcur, ?_⟩
    split at h
    · rename_i hge
      split at h
      · rename_i hcnt
        split at h
        · simp at h
        · rename_i pg w1 hr
          obtain ⟨hl, hw⟩ := fread_some _ _ _ _ _ _ hr
          simp only [Flow.cont.injEq] at h
          subst h hw
          right; right
          exact ⟨hge, hcnt, pg, hl, by simp⟩
      · rename_i hcnt
        simp only [Flow.cont.injEq] at h
        right; left
        exact ⟨hge, hcnt, h.symm⟩
    · rename_i hlt
      simp only [Flow.cont.injEq] at h
      left
      exact ⟨by omega, h.symm⟩

/-- One iteration of the merge loop, when control continues. -/
theorem mergeLoop_succ_inv (fails : Nat → Bool) (cmp : α → α → Int) (es : external_sort_t)
    (k fuel : Nat) (s s' : MergeState α) (o o' : OutState α)
    (h : mergeLoop fails cmp es k (fuel + 1) s o = Flow.cont (s', o')) :
    (firstLive s.runCount k k 0 = k ∧ s' = s ∧ o' = o) ∨
    (firstLive s.runCount k k 0 ≠ k ∧ ∃ tuple0 lowId tuple c s2 o2 s3,
      recordAt s (firstLive s.runCount k k 0) = some tuple0 ∧
      findLowest cmp s (k - (firstLive s.runCount k k 0 + 1)) (firstLive s.runCount k k 0 + 1)
        (firstLive s.runCount k k 0) tuple0 0 = some (lowId, tuple, c) ∧
      emitTuple fails es s o tuple c = Flow.cont (s2, o2) ∧
      advanceRun fails es lowId s2 = Flow.cont s3 ∧
      mergeLoop fails cmp es k fuel s3 o2 = Flow.cont (s', o')) := by
  rw [mergeLoop.eq_2] at h
  by_cases hi : firstLive s.runCount k k 0 = k
  · rw [if_pos hi] at h
    simp only [Flow.cont.injEq, Prod.mk.injEq] at h
    exact Or.inl ⟨hi, h.1.symm, h.2.symm⟩
  · rw [if_neg hi] at h
    right
    refine ⟨hi, ?_⟩
    split at h
    · simp at h
    · rename_i tuple0 h0
      split at h
      · simp at h
      · rename_i lowId tuple c hfl
        split at h
        · simp at h
        · simp at h
        · rename_i s2 o2 hem
          split at h
          · simp at h
          · simp at h
          · rename_i s3 hadv
            exact ⟨tuple0, lowId, tuple, c, s2, o2, s3, h0, hfl, hem, hadv, h⟩

theorem advanceRun_log (fails : Nat → Bool) (es : external_sort_t) (lowId : Nat)
    (s s3 : MergeState α) (h : advanceRun fails es lowId s = Flow.cont s3) :
    ∃ e, s3.w.log = e ++ s.w.log := by
  obtain ⟨cur, _, h1 | h1 | h1⟩ := advanceRun_inv _ _ _ _ _ h
  · obtain ⟨_, rfl⟩ := h1; exact ⟨[], rfl⟩
  · obtain ⟨_, _, rfl⟩ := h1; exact ⟨[], rfl⟩
  · obtain ⟨_, _, pg, _, rfl⟩ := h1; exact ⟨[_], rfl⟩

theorem emitTuple_log (fails : Nat → Bool) (es : external_sort_t) (s s2 : MergeState α)
    (o o2 : OutState α) (tuple : α) (c : Nat)
    (h : emitTuple fails es s o tuple c = Flow.cont (s2, o2)) :
    ∃ e, s2.w.log = e ++ s.w.log := by
  obtain ⟨_, _, _, _, h1 | h1⟩ := emitTuple_inv _ _ _ _ _ _ _ _ h
  · exact ⟨[], h1.2.2.1⟩
  · exact ⟨[_], h1.2.2.1⟩

theorem mergeLoop_log (fails : Nat → Bool) (cmp : α → α → Int) (es : external_sort_t)
    (k : Nat) : ∀ (fuel : Nat) (s s' : MergeState α) (o o' : OutState α),
    mergeLoop fails cmp es k fuel s o = Flow.cont (s', o') → ∃ d, s'.w.log = d ++ s.w.log := by
  intro fuel
  induction fuel with
  | zero => intro s s' o o' h; simp [mergeLoop] at h
  | succ fuel ih =>
    intro s s' o o' h
    rcases mergeLoop_succ_inv _ _ _ _ _ _ _ _ _ h with ⟨_, rfl, rfl⟩ | ⟨_, t0, l, t, c, s2, o2, s3, _, _, hem, hadv, hrec⟩
    · exact ⟨[], rfl⟩
    · obtain ⟨e1, h1⟩ := emitTuple_log _ _ _ _ _ _ _ _ hem
      obtain ⟨e2, h2⟩ := advanceRun_log _ _ _ _ _ hadv
      obtain ⟨d, h3⟩ := ih _ _ _ _ hrec
      exact ⟨d ++ e2 ++ e1, by rw [h3, h2, h1]; simp⟩

theorem RunInv_of_eq {es : external_sort_t} {s s1 : MergeState α} {fut : List (Page α)}
    {rem : List α} {j : Nat}
    (hrc : s1.runCount.getD j 0 = s.runCount.getD j 0)
    (hb : s1.buffer.getD j none = s.buffer.getD j none)
    (hp : s1.sublsTuplePos.getD j 0 = s.sublsTuplePos.getD j 0)
    (hro : s1.runOffset.getD j 0 = s.runOffset.getD j 0)
    (hf : s1.w.file = s.w.file) (h : RunInv es s fut rem j) : RunInv es s1 fut rem j := by
  unfold RunInv at h ⊢
  rw [hrc, hb, hp, hro, hf]
  exact h

theorem RunInv_write {es : external_sort_t} {s s1 : MergeState α} {fut : List (Page α)}
    {rem : List α} {j : Nat} (woff : Int) (wpg : Page α)
    (hrc : s1.runCount = s.runCount) (hb : s1.buffer = s.buffer)
    (hp : s1.sublsTuplePos = s.sublsTuplePos) (hro : s1.runOffset = s.runOffset)
    (hf : s1.w.file = (woff, wpg) :: s.w.file)
    (hne : ∀ o ∈ runOffsets es.page_size (s.runOffset.getD j 0 + es.page_size) fut.length,
      o ≠ woff)
    (h : RunInv es s fut rem j) : RunInv es s1 fut rem j := by
  unfold RunInv at h ⊢
  rw [hrc, hb, hp, hro, hf]
  rcases h with h | ⟨cur, h1, h2, h3, h4, h5, h6, h7, h8⟩
  · exact Or.inl h
  · exact Or.inr ⟨cur, h1, h2, h3, h4, h5, RunAt_write _ _ _ _ _ _ hne h6, h7, h8⟩

theorem flatMap_range_congr {β : Type} (f g : Nat → List β) : ∀ (k : Nat),
    (∀ j, j < k → f j = g j) → (List.range k).flatMap f = (List.range k).flatMap g := by
  intro k
  induction k with
  | zero => intro _; simp
  | succ k ih =>
    intro h
    rw [List.range_succ, List.flatMap_append, List.flatMap_append,
      ih (fun j hj => h j (by omega))]
    simp [h k (by omega)]

theorem flatMap_range_perm_cons {β : Type} (f g : Nat → List β) (i : Nat) (a : β) :
    ∀ (k : Nat), i < k → f i = a :: g i → (∀ j, j < k → j ≠ i → f j = g j) →
    ((List.range k).flatMap f).Perm (a :: (List.range k).flatMap g) := by
  intro k
  induction k with
  | zero => intro h; omega
  | succ k ih =>
    intro hik hi hne
    rw [List.range_succ, List.flatMap_append, List.flatMap_append]
    simp only [List.flatMap_singleton]
    by_cases hk : i = k
    · subst hk
      rw [flatMap_range_congr f g i (fun j hj => hne j (by omega) (by omega)), hi]
      exact List.perm_middle
    · have h1 := ih (by omega) hi (fun j hj hji => hne j (by omega) hji)
      rw [hne k (by omega) (fun h => hk h.symm)]
      exact h1.append_right _

theorem flatMap_range_nil {β : Type} (f : Nat → List β) (k : Nat)
    (h : ∀ j, j < k → f j = []) : (List.range k).flatMap f = [] := by
  rw [flatMap_range_congr f (fun _ => []) k h]
  induction k with
  | zero => simp
  | succ k ih => simp [List.range_succ, List.flatMap_append]

/-- Effect of `advanceRun` on the ghost description of the input runs. -/
theorem advanceRun_spec (fails : Nat → Bool) (es : external_sort_t) (k lowId : Nat)
    (s s3 : MergeState α) (futs : Nat → List (Page α)) (rems : Nat → List α) (x : α)
    (t : List α) (hlow : lowId < k)
    (hkO : k ≤ s.runOffset.length) (hkC : k ≤ s.runCount.length)
    (hkP : k ≤ s.sublsTuplePos.length) (hkB : k ≤ s.buffer.length)
    (hinv : ∀ j, j < k → RunInv es s (futs j) (rems j) j)
    (hlive : s.runCount.getD lowId 0 ≠ 0) (hrem : rems lowId = x :: t)
    (hadv : advanceRun fails es lowId s = Flow.cont s3) :
    ∃ futs1 : Nat → List (Page α),
      (∀ j, j < k → RunInv es s3 (futs1 j) (Function.update rems lowId t j) j) ∧
      k ≤ s3.runOffset.length ∧ k ≤ s3.runCount.length ∧ k ≤ s3.sublsTuplePos.length ∧
      k ≤ s3.buffer.length ∧ s3.w.file = s.w.file ∧ s3.lastWritePos = s.lastWritePos ∧
      ((s3.w.log = s.w.log ∧ futureOffsets es s3 futs1 k = futureOffsets es s futs k) ∨
       (∃ off, s3.w.log = Event.load off :: s.w.log ∧
          (futureOffsets es s futs k).Perm (off :: futureOffsets es s3 futs1 k))) := by
  have hL := hinv lowId hlow
  rcases hL with ⟨h0, _, _⟩ | ⟨cur, hb, hcl, hp0, hp, hrc, hrun, hval, hr⟩
  · exact absurd h0 hlive
  have hdrop := List.drop_eq_getElem_cons hp
  rw [hrem, hdrop, List.cons_append] at hr
  obtain ⟨hx, ht⟩ := List.cons.inj hr
  obtain ⟨cur1, hb1, hcase⟩ := advanceRun_inv _ _ _ _ _ hadv
  rw [hb] at hb1
  obtain rfl : cur = cur1 := Option.some.inj hb1
  have hother : ∀ (s1 : MergeState α) j, j < k → j ≠ lowId →
      s1.runCount.getD j 0 = s.runCount.getD j 0 →
      s1.buffer.getD j none = s.buffer.getD j none →
      s1.sublsTuplePos.getD j 0 = s.sublsTuplePos.getD j 0 →
      s1.runOffset.getD j 0 = s.runOffset.getD j 0 → s1.w.file = s.w.file →
      RunInv es s1 (futs j) (Function.update rems lowId t j) j := by
    intro s1 j hj hne h1 h2 h3 h4 h5
    rw [Function.update_noteq hne]
    exact RunInv_of_eq h1 h2 h3 h4 h5 (hinv j hj)
  rcases hcase with ⟨hlt, rfl⟩ | ⟨hge, hcnt, rfl⟩ | ⟨hge, hcnt, pg, hlk, rfl⟩
  · -- the current page has more tuples
    refine ⟨futs, ?_, hkO, hkC, by simpa using hkP, hkB, rfl, rfl, Or.inl ⟨rfl, rfl⟩⟩
    intro j hj
    by_cases hjl : j = lowId
    · subst hjl
      rw [Function.update_same]
      right
      refine ⟨cur, hb, hcl, ?_, ?_, hrc, hrun, hval, ?_⟩
      · simp only [getD_set_eq _ _ _ _ (show j < s.sublsTuplePos.length by omega)]; omega
      · simp only [getD_set_eq _ _ _ _ (show j < s.sublsTuplePos.length by omega)]; omega
      · simp only [getD_set_eq _ _ _ _ (show j < s.sublsTuplePos.length by omega)]
        rw [ht, Int.toNat_add hp0 (by omega)]
        rfl
    · exact hother _ j hj hjl rfl rfl (getD_set_ne _ _ _ _ _ (fun h => hjl h.symm)) rfl rfl
  · -- the run is used up
    have hfut : futs lowId = [] := by
      apply List.length_eq_zero.mp
      omega
    have hlen : (s.sublsTuplePos.getD lowId 0).toNat + 1 = cur.records.length := by omega
    have ht0 : t = [] := by
      rw [ht, hfut, List.drop_of_length_le (by omega)]
      rfl
    refine ⟨futs, ?_, by simpa using hkO, by simpa using hkC, by simpa using hkP, hkB, rfl, rfl,
      Or.inl ⟨rfl, ?_⟩⟩
    · intro j hj
      by_cases hjl : j = lowId
      · subst hjl
        rw [Function.update_same]
        left
        refine ⟨?_, hfut, ht0⟩
        simp only [getD_set_eq _ _ _ _ (show j < s.runCount.length by omega)]
        omega
      · exact hother _ j hj hjl (getD_set_ne _ _ _ _ _ (fun h => hjl h.symm)) rfl
          (by simp only [getD_set_ne _ _ _ _ _ (fun h => hjl h.symm)])
          (getD_set_ne _ _ _ _ _ (fun h => hjl h.symm)) rfl
    · unfold futureOffsets
      apply flatMap_range_congr
      intro j hj
      by_cases hjl : j = lowId
      · subst hjl; rw [hfut]; rfl
      · simp only [getD_set_ne _ _ _ _ _ (fun h => hjl h.symm)]
  · -- the next page of the run is loaded
    obtain ⟨pg0, fut1, hfut⟩ : ∃ pg0 fut1, futs lowId = pg0 :: fut1 := by
      cases hf : futs lowId with
      | nil => rw [hf] at hrc; simp only [List.length_nil, Nat.cast_zero] at hrc; omega
      | cons a b => exact ⟨a, b, rfl⟩
    rw [hfut] at hrun hval hrc ht
    simp only [List.length_cons, Nat.cast_add, Nat.cast_one] at hrc
    obtain ⟨hl0, hrun1⟩ := hrun
    rw [hlk] at hl0
    obtain rfl : pg = pg0 := Option.some.inj hl0
    have hv0 := hval pg (List.mem_cons_self _ _)
    have hlen : (s.sublsTuplePos.getD lowId 0).toNat + 1 = cur.records.length := by omega
    refine ⟨Function.update futs lowId fut1, ?_, by simpa using hkO, by simpa using hkC,
      by simpa using hkP, by simpa using hkB, rfl, rfl, Or.inr ⟨_, rfl, ?_⟩⟩
    · intro j hj
      by_cases hjl : j = lowId
      · subst hjl
        rw [Function.update_same, Function.update_same]
        right
        refine ⟨pg, ?_, hv0.1, ?_, ?_, ?_, ?_, ?_, ?_⟩
        · exact getD_set_eq' _ _ _ _ (by omega)
        · simp only [getD_set_eq _ _ _ _ (show j < (s.sublsTuplePos.set j _).length by
            simp; omega)]
          omega
        · simp only [getD_set_eq _ _ _ _ (show j < (s.sublsTuplePos.set j _).length by
            simp; omega)]
          have := hv0.2
          simp; omega
        · simp only [getD_set_eq _ _ _ _ (show j < s.runCount.length by omega)]
          omega
        · simp only [getD_set_eq _ _ _ _ (show j < s.runOffset.length by omega)]
          exact hrun1
        · intro p hp1; exact hval p (List.mem_cons_of_mem _ hp1)
        · simp only [getD_set_eq _ _ _ _ (show j < (s.sublsTuplePos.set j _).length by
            simp; omega)]
          rw [ht, List.drop_of_length_le (by omega)]
          simp
      · rw [Function.update_noteq hjl]
        exact hother _ j hj hjl (getD_set_ne _ _ _ _ _ (fun h => hjl h.symm))
          (getD_set_ne' _ _ _ _ _ (fun h => hjl h.symm))
          (by simp only [getD_set_ne _ _ _ _ _ (fun h => hjl h.symm)])
          (getD_set_ne _ _ _ _ _ (fun h => hjl h.symm)) rfl
    · unfold futureOffsets
      apply flatMap_range_perm_cons _ _ lowId _ k hlow
      · simp only [getD_set_eq _ _ _ _ (show lowId < s.runOffset.length by omega),
          Function.update_same, hfut, List.length_cons, runOffsets]
      · intro j hj hjl
        simp only [getD_set_ne _ _ _ _ _ (fun h => hjl h.symm), Function.update_noteq hjl]

theorem flushed_count (H R m : Nat) (hRH : H < R) : (H + m * R) / R = m := by
  rw [Nat.add_mul_div_right _ _ (by omega), Nat.div_eq_of_lt hRH, Nat.zero_add]

theorem pageRecords_full (nb : Int) (out : List α) :
    pageRecords (⟨nb, (out.length : Int), out⟩ : Page α) = out := by
  simp [pageRecords]

theorem mem_futureOffsets (es : external_sort_t) (s : MergeState α)
    (futs : Nat → List (Page α)) (k j : Nat) (hj : j < k) (o : Int)
    (ho : o ∈ runOffsets es.page_size (s.runOffset.getD j 0 + es.page_size) (futs j).length) :
    o ∈ futureOffsets es s futs k := by
  unfold futureOffsets
  exact List.mem_flatMap.mpr ⟨j, List.mem_range.mpr hj, ho⟩

/-- Effect of `emitTuple` on the ghost description: the input runs are untouched
as long as the page write, if any, does not hit a pending page. -/
theorem emitTuple_spec (fails : Nat → Bool) (es : external_sort_t) (k : Nat)
    (s s2 : MergeState α) (o o2 : OutState α) (tuple : α) (c : Nat)
    (futs : Nat → List (Page α)) (rems : Nat → List α) (pend : List Int)
    (hRH : es.headerSize < es.record_size)
    (hkO : k ≤ s.runOffset.length) (hkC : k ≤ s.runCount.length)
    (hkP : k ≤ s.sublsTuplePos.length) (hkB : k ≤ s.buffer.length)
    (hinv : ∀ j, j < k → RunInv es s (futs j) (rems j) j)
    (hsub : (futureOffsets es s futs k).Subperm pend)
    (hout : o.bufferOutputPos = es.headerSize + o.out.length * es.record_size)
    (hem : emitTuple fails es s o tuple c = Flow.cont (s2, o2)) :
    ∃ e, s2.w.log = e ++ s.w.log ∧
      k ≤ s2.runOffset.length ∧ k ≤ s2.runCount.length ∧ k ≤ s2.sublsTuplePos.length ∧
      k ≤ s2.buffer.length ∧
      runRecords ((writtenPages e).map Prod.snd) ++ o2.out = o.out ++ [tuple] ∧
      o2.bufferOutputPos = es.headerSize + o2.out.length * es.record_size ∧
      ∀ pend1, pendingAfter e.reverse pend = some pend1 →
        (∀ j, j < k → RunInv es s2 (futs j) (rems j) j) ∧
        (futureOffsets es s2 futs k).Subperm pend1 := by
  obtain ⟨h1, h2, h3, h4, hc | hc⟩ := emitTuple_inv _ _ _ _ _ _ _ _ hem
  · obtain ⟨_, hf, hl, _, rfl⟩ := hc
    refine ⟨[], by simpa using hl, by rw [h1]; exact hkO, by rw [h2]; exact hkC,
      by rw [h3]; exact hkP, by rw [h4]; exact hkB, by simp [writtenPages, runRecords], ?_, ?_⟩
    · simp only [List.length_append, List.length_singleton, hout]; ring
    · intro pend1 hp
      simp only [List.reverse_nil, pendingAfter, Option.some.injEq] at hp
      subst hp
      refine ⟨fun j hj => RunInv_of_eq (by rw [h2]) (by rw [h4]) (by rw [h3]) (by rw [h1]) hf
        (hinv j hj), ?_⟩
      unfold futureOffsets at hsub ⊢
      rw [h1]; exact hsub
  · obtain ⟨_, hf, hl, _, rfl⟩ := hc
    have hcount : (o.bufferOutputPos + es.record_size) / es.record_size
        = (o.out ++ [tuple]).length := by
      rw [hout, List.length_append, List.length_singleton, Nat.add_assoc,
        show o.out.length * es.record_size + es.record_size
          = (o.out.length + 1) * es.record_size by ring]
      exact flushed_count _ _ _ hRH
    refine ⟨[_], by rw [hl]; rfl, by rw [h1]; exact hkO, by rw [h2]; exact hkC,
      by rw [h3]; exact hkP, by rw [h4]; exact hkB, ?_, by simp, ?_⟩
    · simp only [writtenPages, List.nil_append, List.map_cons, List.map_nil, hcount]
      simp only [runRecords, List.map_cons, List.map_nil, List.flatten_cons, List.flatten_nil,
        List.append_nil, pageRecords_full]
    · intro pend1 hp
      simp only [List.reverse_cons, List.reverse_nil, List.nil_append, pendingAfter] at hp
      split at hp
      · simp at hp
      · rename_i hmem
        simp only [Option.some.injEq] at hp
        subst hp
        refine ⟨fun j hj => RunInv_write _ _ h2 h4 h3 h1 hf ?_ (hinv j hj), ?_⟩
        · intro x hx hxe
          rw [hxe] at hx
          exact hmem (hsub.subset (mem_futureOffsets es s futs k j hj _ hx))
        · unfold futureOffsets at hsub ⊢
          rw [h1]; exact hsub.cons_right _

theorem pendingAfter_append_some (a b : List (Event α)) (p : List Int)
    (h : pendingAfter (a ++ b) p ≠ none) :
    ∃ p1, pendingAfter a p = some p1 ∧ pendingAfter b p1 ≠ none := by
  rw [pendingAfter_append] at h
  cases ha : pendingAfter a p with
  | none => rw [ha] at h; simp at h
  | some p1 => rw [ha] at h; exact ⟨p1, rfl, by simpa using h⟩

theorem cons_eq_append_self {β : Type} (e : List β) (a : β) (l : List β)
    (h : a :: l = e ++ l) : e = [a] := by
  have h1 : [a] ++ l = e ++ l := by simpa using h
  exact (List.append_cancel_right h1).symm

theorem newEvents_self (l : List (Event α)) : newEvents l l = [] := by
  simp [newEvents]

theorem leq_refl (cmp : α → α → Int) (htot : ∀ a b, cmp a b ≤ 0 ∨ cmp b a ≤ 0) (a : α) :
    cmp a a ≤ 0 := by
  rcases htot a a with h | h <;> exact h

/-- The merge loop outputs, in non-decreasing order, exactly the records that
remain in the input runs, provided no page write hits a pending page. -/
theorem mergeLoop_spec (fails : Nat → Bool) (cmp : α → α → Int) (es : external_sort_t)
    (k : Nat) (htot : ∀ a b, cmp a b ≤ 0 ∨ cmp b a ≤ 0)
    (htrans : ∀ a b c, cmp a b ≤ 0 → cmp b c ≤ 0 → cmp a c ≤ 0)
    (hRH : es.headerSize < es.record_size) :
    ∀ (fuel : Nat) (s s' : MergeState α) (o o' : OutState α) (futs : Nat → List (Page α))
      (rems : Nat → List α) (pend : List Int),
      k ≤ s.runOffset.length → k ≤ s.runCount.length → k ≤ s.sublsTuplePos.length →
      k ≤ s.buffer.length →
      (∀ j, j < k → RunInv es s (futs j) (rems j) j) →
      (∀ j, j < k → List.Sorted (leq cmp) (rems j)) →
      o.bufferOutputPos = es.headerSize + o.out.length * es.record_size →
      (futureOffsets es s futs k).Subperm pend →
      mergeLoop fails cmp es k fuel s o = Flow.cont (s', o') →
      pendingAfter (newEvents s.w.log s'.w.log).reverse pend ≠ none →
      ∃ new, runRecords ((writtenPages (newEvents s.w.log s'.w.log)).map Prod.snd) ++ o'.out
              = o.out ++ new ∧
        List.Sorted (leq cmp) new ∧ new.Perm ((List.range k).flatMap rems) ∧
        o'.bufferOutputPos = es.headerSize + o'.out.length * es.record_size := by
  intro fuel
  induction fuel with
  | zero => intro s s' o o' futs rems pend _ _ _ _ _ _ _ _ h; simp [mergeLoop] at h
  | succ fuel ih =>
    intro s s' o o' futs rems pend hkO hkC hkP hkB hinv hsorted hout hsub h hno
    have hfl := firstLive_spec s.runCount k k 0 (Nat.zero_le _) (by omega)
    rcases mergeLoop_succ_inv _ _ _ _ _ _ _ _ _ h with
      ⟨hi, rfl, rfl⟩ | ⟨hi, t0, lowId, tuple, c, s2, o2, s3, hrec0, hfind, hem, hadv, hloop⟩
    · refine ⟨[], ?_, List.sorted_nil, ?_, hout⟩
      · simp [newEvents_self, writtenPages, runRecords]
      · rw [flatMap_range_nil rems k]
        intro j hj
        exact ((hinv j hj).dead (hfl.2.2.1 j (Nat.zero_le _) (by omega))).1
    · obtain ⟨_, hle, hdead, hlive0⟩ := hfl
      have hik : firstLive s.runCount k k 0 < k := by omega
      have hlive0 := hlive0 hik
      obtain ⟨hlow, hlive, hrecl, hmin⟩ := findLowest_spec cmp htot htrans es s futs rems k hinv
        (k - (firstLive s.runCount k k 0 + 1)) (firstLive s.runCount k k 0 + 1)
        (firstLive s.runCount k k 0) t0 0 lowId tuple c (by omega) (by omega) hlive0 hrec0
        (by
          intro j hj hjl x r hx
          by_cases hji : j = firstLive s.runCount k k 0
          · obtain ⟨x1, r1, hx1, hr1⟩ := (hinv _ hik).live hlive0
            rw [hji, hx1] at hx
            rw [hrec0] at hr1
            obtain ⟨rfl, -⟩ := List.cons.inj hx
            obtain rfl := Option.some.inj hr1
            exact leq_refl cmp htot _
          · exact absurd (hdead j (Nat.zero_le _) (by omega)) hjl) hfind
      obtain ⟨x, t, hxt, hrx⟩ := (hinv lowId hlow).live hlive
      rw [hrecl] at hrx
      obtain rfl := Option.some.inj hrx
      -- all remaining records are at least `tuple`
      have hall : ∀ j, j < k → ∀ y ∈ rems j, cmp tuple y ≤ 0 := by
        intro j hj y hy
        by_cases h0 : s.runCount.getD j 0 = 0
        · rw [((hinv j hj).dead h0).1] at hy; simp at hy
        · obtain ⟨x1, r1, hx1, _⟩ := (hinv j hj).live h0
          have hs := hsorted j hj
          rw [hx1] at hy hs
          have h1 := hmin j hj h0 x1 r1 hx1
          rcases List.mem_cons.mp hy with rfl | hy1
          · exact h1
          · exact htrans _ _ _ h1 ((List.sorted_cons.mp hs).1 y hy1)
      obtain ⟨e1, hl1, hkO2, hkC2, hkP2, hkB2, hrec1, hout2, hpend1⟩ :=
        emitTuple_spec fails es k s s2 o o2 tuple c futs rems pend hRH hkO hkC hkP hkB hinv hsub
          hout hem
      obtain ⟨d, hd⟩ := mergeLoop_log _ _ _ _ _ _ _ _ _ hloop
      obtain ⟨e2, hl2⟩ := advanceRun_log _ _ _ _ _ hadv
      have hnew : newEvents s.w.log s'.w.log = d ++ e2 ++ e1 := by
        rw [hd, hl2, hl1, ← List.append_assoc, ← List.append_assoc]
        exact newEvents_append _ _
      have hnew3 : newEvents s3.w.log s'.w.log = d := by
        rw [hd]; exact newEvents_append _ _
      rw [hnew, List.reverse_append, List.reverse_append] at hno
      obtain ⟨pend1, hp1, hno1⟩ := pendingAfter_append_some _ _ _ hno
      obtain ⟨hinv2, hsub2⟩ := hpend1 pend1 hp1
      obtain ⟨pend2, hp2, hno2⟩ := pendingAfter_append_some _ _ _ hno1
      have hlive2 : s2.runCount.getD lowId 0 ≠ 0 := by
        have := (emitTuple_inv _ _ _ _ _ _ _ _ hem).2.1
        rw [this]; exact hlive
      obtain ⟨futs1, hinv3, hkO3, hkC3, hkP3, hkB3, _, _, hcase⟩ :=
        advanceRun_spec fails es k lowId s2 s3 futs rems tuple t hlow hkO2 hkC2 hkP2 hkB2 hinv2
          hlive2 hxt hadv
      have hsub3 : (futureOffsets es s3 futs1 k).Subperm pend2 := by
        rcases hcase with ⟨hlog, hfo⟩ | ⟨off, hlog, hperm⟩
        · have he2 : e2 = [] := by
            have := hl2
            rw [hlog] at this
            exact (List.append_left_eq_self.mp this.symm)
          rw [he2] at hp2
          simp only [List.reverse_nil, pendingAfter, Option.some.injEq] at hp2
          rw [hfo, ← hp2]; exact hsub2
        · have he2 : e2 = [Event.load off] := by
            have := hl2
            rw [hlog] at this
            exact cons_eq_append_self _ _ _ this
          rw [he2] at hp2
          simp only [List.reverse_cons, List.reverse_nil, List.nil_append, pendingAfter,
            Option.some.injEq] at hp2
          rw [← hp2]
          have h1 : (off :: futureOffsets es s3 futs1 k).Subperm pend1 :=
            (List.Perm.subperm hperm.symm).trans hsub2
          have h2 := h1.erase off
          rwa [List.erase_cons_head] at h2
      have hsorted3 : ∀ j, j < k → List.Sorted (leq cmp) (Function.update rems lowId t j) := by
        intro j hj
        by_cases hjl : j = lowId
        · subst hjl
          rw [Function.update_same]
          have := hsorted j hj
          rw [hxt] at this
          exact (List.sorted_cons.mp this).2
        · rw [Function.update_noteq hjl]; exact hsorted j hj
      rw [← hnew3] at hno2
      obtain ⟨new1, hr1, hs1, hperm1, hout3⟩ :=
        ih s3 s' o2 o' futs1 (Function.update rems lowId t) pend2 hkO3 hkC3 hkP3 hkB3 hinv3
          hsorted3 hout2 hsub3 hloop hno2
      have hw2 : writtenPages e2 = [] := by
        rcases hcase with ⟨hlog, _⟩ | ⟨off, hlog, _⟩
        · have he2 : e2 = [] := by
            have := hl2
            rw [hlog] at this
            exact (List.append_left_eq_self.mp this.symm)
          rw [he2]; rfl
        · have he2 : e2 = [Event.load off] := by
            have := hl2
            rw [hlog] at this
            exact cons_eq_append_self _ _ _ this
          rw [he2]; rfl
      have hpermAll : ((List.range k).flatMap rems).Perm
          (tuple :: (List.range k).flatMap (Function.update rems lowId t)) := by
        apply flatMap_range_perm_cons _ _ lowId _ k hlow
        · rw [Function.update_same]; exact hxt
        · intro j _ hjl; rw [Function.update_noteq hjl]
      refine ⟨tuple :: new1, ?_, ?_, ?_, hout3⟩
      · rw [hnew, writtenPages_append, writtenPages_append, hw2, List.nil_append,
          List.map_append, runRecords_append, List.append_assoc]
        rw [hnew3] at hr1
        rw [hr1, ← List.append_assoc, hrec1]
        simp
      · refine List.sorted_cons.mpr ⟨?_, hs1⟩
        intro b hb
        have hb1 := (hperm1.mem_iff).mp hb
        obtain ⟨j, hjr, hbj⟩ := List.mem_flatMap.mp hb1
        have hj := List.mem_range.mp hjr
        by_cases hjl : j = lowId
        · subst hjl
          rw [Function.update_same] at hbj
          exact hall j hj b (by rw [hxt]; exact List.mem_cons_of_mem _ hbj)
        · rw [Function.update_noteq hjl] at hbj
          exact hall j hj b hbj
      · exact (hperm1.cons tuple).trans hpermAll.symm

theorem loadFirstPages_spec (fails : Nat → Bool) (es : external_sort_t) (k : Nat)
    (runs : Nat → List (Page α)) :
    ∀ (n i : Nat) (s s3 : MergeState α) (pend : List Int), i + n = k →
      k ≤ s.runOffset.length → k ≤ s.runCount.length → k ≤ s.sublsTuplePos.length →
      k ≤ s.buffer.length →
      (∀ j, i ≤ j → j < k → RunReady es s (runs j) j) →
      (∀ j, j < i → RunInv es s (runs j).tail ((runs j).flatMap (fun pg => pg.records)) j) →
      (unloadedOffsets es s runs k i).Subperm pend →
      loadFirstPages fails n i s = Flow.cont s3 →
      k ≤ s3.runOffset.length ∧ k ≤ s3.runCount.length ∧ k ≤ s3.sublsTuplePos.length ∧
      k ≤ s3.buffer.length ∧ s3.lastWritePos = s.lastWritePos ∧
      (∀ j, j < k → RunInv es s3 (runs j).tail ((runs j).flatMap (fun pg => pg.records)) j) ∧
      ∃ e, s3.w.log = e ++ s.w.log ∧ writtenPages e = [] ∧
        ∃ pend1, pendingAfter e.reverse pend = some pend1 ∧
          (futureOffsets es s3 (fun j => (runs j).tail) k).Subperm pend1 := by
  intro n
  induction n with
  | zero =>
    intro i s s3 pend hik hkO hkC hkP hkB hready hinv hsub h
    simp only [loadFirstPages, Flow.cont.injEq] at h
    subst h
    have hi : i = k := by omega
    subst hi
    refine ⟨hkO, hkC, hkP, hkB, rfl, hinv, [], rfl, rfl, pend, rfl, ?_⟩
    have : futureOffsets es s (fun j => (runs j).tail) i = unloadedOffsets es s runs i i := by
      unfold futureOffsets unloadedOffsets
      apply flatMap_range_congr
      intro j hj
      simp [hj]
    rw [this]; exact hsub
  | succ n ih =>
    intro i s s3 pend hik hkO hkC hkP hkB hready hinv hsub h
    rw [loadFirstPages] at h
    simp only at h
    split at h
    · simp at h
    · rename_i pg w2 hr
      obtain ⟨hlk, hw2⟩ := fread_some _ _ _ _ _ _ hr
      simp only at hlk
      have hi : i < k := by omega
      obtain ⟨hrc, hne, hpos, hrun, hval⟩ := hready i (le_refl _) hi
      obtain ⟨p0, rest, hruns⟩ : ∃ p0 rest, runs i = p0 :: rest := by
        cases hf : runs i with
        | nil => exact absurd hf hne
        | cons a b => exact ⟨a, b, rfl⟩
      rw [hruns] at hrun hval hrc
      obtain ⟨hl0, hrun1⟩ := hrun
      rw [hlk] at hl0
      obtain rfl : pg = p0 := Option.some.inj hl0
      have hv0 := hval pg (List.mem_cons_self _ _)
      subst hw2
      have hstep := ih (i + 1)
        { s with buffer := s.buffer.set i (some pg),
                 w := { file := s.w.file, metric := s.w.metric.addReads 1, ops := s.w.ops + 1,
                        log := Event.load (s.runOffset.getD i 0) :: s.w.log } }
        s3 (pend.erase (s.runOffset.getD i 0)) (by omega) hkO hkC hkP (by simpa using hkB)
        (by
          intro j hij hj
          obtain ⟨a1, a2, a3, a4, a5⟩ := hready j (by omega) hj
          exact ⟨a1, a2, a3, a4, a5⟩)
        (by
          intro j hj
          by_cases hji : j = i
          · subst hji
            rw [hruns]
            right
            refine ⟨pg, getD_set_eq' _ _ _ _ (by omega), hv0.1, by rw [hpos], ?_, ?_, hrun1,
              fun p hp => hval p (List.mem_cons_of_mem _ hp), ?_⟩
            · rw [hpos]; have := hv0.2; simp; omega
            · simp only [List.tail_cons]; rw [hrc]; simp
            · rw [hpos]; simp
          · exact RunInv_of_eq (s := s) rfl (getD_set_ne' _ _ _ _ _ (fun h => hji h.symm)) rfl rfl rfl
              (hinv j (by omega)))
        (by
          have hperm : (unloadedOffsets es s runs k i).Perm
              (s.runOffset.getD i 0 :: unloadedOffsets es s runs k (i + 1)) := by
            unfold unloadedOffsets
            apply flatMap_range_perm_cons _ _ i _ k hi
            · simp [hruns, runOffsets]
            · intro j _ hji
              by_cases hlt : j < i
              · simp [hlt, show j < i + 1 by omega]
              · simp [hlt, show ¬ j < i + 1 by omega]
          have h1 : (s.runOffset.getD i 0 :: unloadedOffsets es s runs k (i + 1)).Subperm pend :=
            (List.Perm.subperm hperm.symm).trans hsub
          have h2 := h1.erase (s.runOffset.getD i 0)
          rw [List.erase_cons_head] at h2
          exact h2)
        h
      obtain ⟨a1, a2, a3, a4, a5, a6, e, he, hwe, pend1, hp1, hs1⟩ := hstep
      refine ⟨a1, a2, a3, a4, a5, a6, e ++ [Event.load (s.runOffset.getD i 0)], ?_, ?_, pend1,
        ?_, hs1⟩
      · rw [he]; simp
      · rw [writtenPages_append, hwe]; rfl
      · rw [List.reverse_append]
        simpa [pendingAfter] using hp1

theorem runRecords_valid (pgs : List (Page α)) (h : ∀ pg ∈ pgs, pg.valid) :
    runRecords pgs = pgs.flatMap (fun pg => pg.records) := by
  induction pgs with
  | nil => rfl
  | cons p rest ih =>
    have hp := h p (List.mem_cons_self _ _)
    have := ih (fun q hq => h q (List.mem_cons_of_mem _ hq))
    simp only [runRecords, List.map_cons, List.flatten_cons, List.flatMap_cons] at this ⊢
    rw [this]
    congr 1
    simp [pageRecords, hp.1]

/-- One merge step that runs to its end without a page write hitting an input
page that is not yet loaded writes, in order, a sorted permutation of the records
of its input runs. -/
theorem mergeRuns_sorted_permutation (fails : Nat → Bool) (cmp : α → α → Int)
    (es : external_sort_t) (k fuel : Nat) (s s' : MergeState α) (runs : Nat → List (Page α))
    (htot : ∀ a b, cmp a b ≤ 0 ∨ cmp b a ≤ 0)
    (htrans : ∀ a b c, cmp a b ≤ 0 → cmp b c ≤ 0 → cmp a c ≤ 0)
    (hRH : es.headerSize < es.record_size)
    (hkO : k ≤ s.runOffset.length) (hkC : k ≤ s.runCount.length)
    (hkP : k ≤ s.sublsTuplePos.length) (hkB : k ≤ s.buffer.length)
    (hready : ∀ j, j < k → RunReady es s (runs j) j)
    (hsorted : ∀ j, j < k → List.Sorted (leq cmp) (runRecords (runs j)))
    (hres : mergeRuns fails cmp es k fuel s = Flow.cont s')
    (hno : pendingAfter (newEvents s.w.log s'.w.log).reverse (inputOffsets es s runs k) ≠ none) :
    List.Sorted (leq cmp)
      (runRecords ((writtenPages (newEvents s.w.log s'.w.log)).map Prod.snd)) ∧
    (runRecords ((writtenPages (newEvents s.w.log s'.w.log)).map Prod.snd)).Perm
      ((List.range k).flatMap (fun j => runRecords (runs j))) := by
  have hrr : ∀ j, j < k → runRecords (runs j) = (runs j).flatMap (fun pg => pg.records) :=
    fun j hj => runRecords_valid _ (hready j hj).2.2.2.2
  rw [flatMap_range_congr _ (fun j => (runs j).flatMap (fun pg => pg.records)) k hrr]
  unfold mergeRuns at hres
  split at hres
  · simp at hres
  · simp at hres
  · rename_i s3 hload
    have hun : (unloadedOffsets es s runs k 0).Subperm (inputOffsets es s runs k) := by
      have : unloadedOffsets es s runs k 0 = inputOffsets es s runs k := by
        unfold unloadedOffsets inputOffsets
        apply flatMap_range_congr
        intro j _
        simp
      rw [this]
    obtain ⟨hkO3, hkC3, hkP3, hkB3, _, hinv3, e0, he0, hwe0, pend1, hp1, hsub1⟩ :=
      loadFirstPages_spec fails es k runs k 0 s s3 (inputOffsets es s runs k) (by omega)
        hkO hkC hkP hkB (fun j _ hj => hready j hj) (fun j hj => by omega) hun hload
    have hsorted3 : ∀ j, j < k →
        List.Sorted (leq cmp) ((runs j).flatMap (fun pg => pg.records)) := by
      intro j hj
      rw [← hrr j hj]; exact hsorted j hj
    split at hres
    · simp at hres
    · simp at hres
    · rename_i s4 o4 hloop
      obtain ⟨d, hd⟩ := mergeLoop_log _ _ _ _ _ _ _ _ _ hloop
      have hnew34 : newEvents s3.w.log s4.w.log = d := by rw [hd]; exact newEvents_append _ _
      have hfin : ∃ e2, s'.w.log = e2 ++ s4.w.log ∧
          ((e2 = [] ∧ ¬ o4.bufferOutputPos > es.headerSize) ∨
           (e2 = [Event.write s4.lastWritePos
                ⟨o4.numblocks, ((o4.bufferOutputPos / es.record_size : Nat) : Int), o4.out⟩] ∧
              o4.bufferOutputPos > es.headerSize)) := by
        split at hres
        · rename_i hgt
          split at hres
          · simp at hres
          · simp at hres
          · rename_i s5 o5 hflush
            obtain ⟨h5, _⟩ := flushPage_inv _ _ _ _ _ _ hflush
            simp only [Flow.cont.injEq] at hres
            subst hres h5
            exact ⟨[_], rfl, Or.inr ⟨rfl, hgt⟩⟩
        · rename_i hgt
          simp only [Flow.cont.injEq] at hres
          subst hres
          exact ⟨[], rfl, Or.inl ⟨rfl, hgt⟩⟩
      obtain ⟨e2, he2, hcase⟩ := hfin
      have hnew : newEvents s.w.log s'.w.log = e2 ++ d ++ e0 := by
        rw [he2, hd, he0, ← List.append_assoc, ← List.append_assoc]
        exact newEvents_append _ _
      rw [hnew, List.reverse_append, List.reverse_append] at hno
      obtain ⟨p1, hp1', hno1⟩ := pendingAfter_append_some _ _ _ hno
      rw [hp1] at hp1'
      obtain rfl := Option.some.inj hp1'
      obtain ⟨p2, _, _⟩ := pendingAfter_append_some _ _ _ hno1
      have hno34 : pendingAfter (newEvents s3.w.log s4.w.log).reverse pend1 ≠ none := by
        rw [hnew34]
        intro hc
        rw [pendingAfter_append, hc] at hno1
        simp at hno1
      obtain ⟨new, hrec, hsortedNew, hperm, hout4⟩ :=
        mergeLoop_spec fails cmp es k htot htrans hRH fuel s3 s4
          { out := [], bufferOutputPos := es.headerSize, numblocks := 0 } o4
          (fun j => (runs j).tail) (fun j => (runs j).flatMap (fun pg => pg.records)) pend1
          hkO3 hkC3 hkP3 hkB3 hinv3 hsorted3 (by simp) hsub1 hloop hno34
      rw [hnew34] at hrec
      simp only [List.nil_append] at hrec
      have hfinal : runRecords ((writtenPages (e2 ++ d ++ e0)).map Prod.snd) = new := by
        rw [writtenPages_append, writtenPages_append, hwe0, List.nil_append, List.map_append,
          runRecords_append, ← hrec]
        congr 1
        rcases hcase with ⟨rfl, hle⟩ | ⟨rfl, hgt⟩
        · have hlen : o4.out.length = 0 := by
            rw [hout4] at hle
            have hR : 0 < es.record_size := by omega
            by_contra hne
            have : es.record_size ≤ o4.out.length * es.record_size :=
              Nat.le_mul_of_pos_left _ (Nat.pos_of_ne_zero hne)
            omega
          rw [List.length_eq_zero.mp hlen]
          rfl
        · simp only [writtenPages, List.nil_append, List.map_cons, List.map_nil]
          rw [hout4, flushed_count _ _ _ hRH]
          simp only [runRecords, List.map_cons, List.map_nil, List.flatten_cons, List.flatten_nil,
            List.append_nil, pageRecords_full]
      rw [hnew, hfinal]
      exact ⟨hsortedNew, hperm⟩

theorem compareKeys_total (a b : Nat) : compareKeys a b ≤ 0 ∨ compareKeys b a ≤ 0 := by
  unfold compareKeys; omega

theorem compareKeys_trans (a b c : Nat) (h1 : compareKeys a b ≤ 0) (h2 : compareKeys b c ≤ 0) :
    compareKeys a c ≤ 0 := by
  unfold compareKeys at *; omega

theorem demoRuns_ready (j : Nat) (hj : j < 2) : RunReady ⟨40, 6, 16⟩ demoState (demoRuns j) j := by
  interval_cases j
  · refine ⟨by decide, by decide, by decide, ⟨by decide, trivial⟩, ?_⟩
    intro pg hpg
    simp only [demoRuns, if_true, List.mem_singleton] at hpg
    subst hpg
    exact ⟨by decide, by decide⟩
  · refine ⟨by decide, by decide, by decide, ⟨by decide, by decide, trivial⟩, ?_⟩
    intro pg hpg
    simp [demoRuns] at hpg
    rcases hpg with rfl | rfl
    · exact ⟨by decide, by decide⟩
    · exact ⟨by decide, by decide⟩

theorem demoRuns_sorted (j : Nat) (hj : j < 2) :
    List.Sorted (leq compareKeys) (runRecords (demoRuns j)) := by
  interval_cases j
  · simp [demoRuns, runRecords, pageRecords, leq, compareKeys]
  · simp [demoRuns, runRecords, pageRecords, leq, compareKeys]

theorem demo_output :
    runRecords ((writtenPages (newEvents demoState.w.log demoResult.w.log)).map Prod.snd)
      = [1, 2, 3, 4, 6] := by decide!

/-! ## Error codes and the history of file operations -/

theorem Clean.cons {e : Event α} {l : List (Event α)} (he : isFailure e = false)
    (h : Clean l) : Clean (e :: l) := by
  intro x hx
  rcases List.mem_cons.mp hx with rfl | hx
  · exact he
  · exact h x hx

theorem fwrite_flow (fails : Nat → Bool) (w : World α) (off : Int) (pg : Page α)
    (h : Clean w.log) :
    ((fwrite fails w off pg).1 = true ∧ Clean (fwrite fails w off pg).2.log) ∨
    ((fwrite fails w off pg).1 = false ∧ RetOK 9 (fwrite fails w off pg).2) := by
  unfold fwrite
  by_cases hf : fails w.ops = true
  · rw [if_pos hf]
    exact Or.inr ⟨rfl, _, _, rfl, h, Or.inl ⟨rfl, off, rfl⟩⟩
  · rw [if_neg hf]
    exact Or.inl ⟨rfl, h.cons rfl⟩

theorem fread_flow (fails : Nat → Bool) (m : Bool) (w : World α) (off : Int)
    (h : Clean w.log) :
    ((fread fails m w off).1 ≠ none ∧ Clean (fread fails m w off).2.log) ∨
    ((fread fails m w off).1 = none ∧ RetOK 10 (fread fails m w off).2) := by
  unfold fread
  by_cases hf : fails w.ops = true
  · rw [if_pos hf]
    exact Or.inr ⟨rfl, _, _, rfl, h, Or.inr ⟨rfl, off, rfl⟩⟩
  · rw [if_neg hf]
    cases hl : List.lookup off w.file with
    | none => exact Or.inr ⟨rfl, _, _, rfl, h, Or.inr ⟨rfl, off, rfl⟩⟩
    | some pg =>
      refine Or.inl ⟨by simp, ?_⟩
      apply h.cons
      cases m <;> rfl

theorem fillBuffer_clean : ∀ (n : Nat) (it acc : List α) (st : Nat) (w : World α),
    Clean w.log → Clean (fillBuffer n it acc st w).2.2.2.log := by
  intro n
  induction n with
  | zero => intro it acc st w h; exact h
  | succ n ih =>
    intro it acc st w h
    cases it with
    | nil => exact h.cons rfl
    | cons x xs => exact ih _ _ _ _ (h.cons rfl)

theorem writeFullPages_flow (fails : Nat → Bool) (es : external_sort_t) (sorted : List α) :
    ∀ (n i : Nat) (pos : Int) (w : World α), Clean w.log →
      FlowOK (fun x : Nat × Int × World α => x.2.2.log)
        (writeFullPages fails es sorted n i pos w) := by
  intro n
  induction n with
  | zero => intro i pos w h; exact h
  | succ n ih =>
    intro i pos w h
    rw [writeFullPages]
    rcases fwrite_flow fails w pos
      ⟨i, tuplesPerPage es, (sorted.drop (i * tuplesPerPage es)).take (tuplesPerPage es)⟩ h
      with ⟨h1, h2⟩ | ⟨h1, h2⟩
    · split
      · rename_i w1 heq; rw [heq] at h1; simp at h1
      · rename_i w1 heq
        rw [heq] at h2
        exact ih _ _ _ h2
    · split
      · rename_i w1 heq; rw [heq] at h2; exact h2
      · rename_i w1 heq; rw [heq] at h1; simp at h1

theorem genLoop_flow (fails : Nat → Bool) (sort : List α → List α) (es : external_sort_t) :
    ∀ (fuel : Nat) (s : GenState α), Clean s.w.log →
      FlowOK (fun g : GenState α => g.w.log) (genLoop fails sort es fuel s) := by
  intro fuel
  induction fuel with
  | zero => intro s _; trivial
  | succ fuel ih =>
    intro s h
    rw [genLoop.eq_2]
    have hfill := fillBuffer_clean s.numRecordsRead s.iter [] 0 s.w h
    generalize fillBuffer s.numRecordsRead s.iter [] 0 s.w = r at hfill ⊢
    obtain ⟨chunk, it, status, w1⟩ := r
    simp only at hfill ⊢
    split
    · exact hfill
    · have hw := writeFullPages_flow fails es (sort chunk)
        ((chunk.length + tuplesPerPage es - 1) / tuplesPerPage es - 1) 0 s.lastWritePos
        ⟨w1.file, w1.metric.addReads ((chunk.length + tuplesPerPage es - 1) / tuplesPerPage es),
          w1.ops, w1.log⟩ hfill
      split
      · trivial
      · rename_i c w heq; rw [heq] at hw; exact hw
      · rename_i i pos w3 heq
        rw [heq] at hw
        rcases fwrite_flow fails w3 pos
          ⟨i, (chunk.length : Int) - (tuplesPerPage es : Int) * i,
            ((sort chunk).drop (i * tuplesPerPage es)).take (tuplesPerPage es)⟩ hw
          with ⟨h1, h2⟩ | ⟨h1, h2⟩
        · split
          · rename_i w4 heq4; rw [heq4] at h1; simp at h1
          · rename_i w4 heq4
            rw [heq4] at h2
            split
            · exact ih _ h2
            · exact h2
        · split
          · rename_i w4 heq4; rw [heq4] at h2; exact h2
          · rename_i w4 heq4; rw [heq4] at h1; simp at h1

theorem fwrite_false_ret {fails : Nat → Bool} {w w1 : World α} {off : Int} {pg : Page α}
    (heq : fwrite fails w off pg = (false, w1)) (h : Clean w.log) : RetOK 9 w1 := by
  rcases fwrite_flow fails w off pg h with ⟨h1, _⟩ | ⟨_, h2⟩
  · rw [heq] at h1; simp at h1
  · rw [heq] at h2; exact h2

theorem fwrite_true_clean {fails : Nat → Bool} {w w1 : World α} {off : Int} {pg : Page α}
    (heq : fwrite fails w off pg = (true, w1)) (h : Clean w.log) : Clean w1.log := by
  rcases fwrite_flow fails w off pg h with ⟨_, h2⟩ | ⟨h1, _⟩
  · rw [heq] at h2; exact h2
  · rw [heq] at h1; simp at h1

theorem fread_none_ret {fails : Nat → Bool} {m : Bool} {w w1 : World α} {off : Int}
    (heq : fread fails m w off = (none, w1)) (h : Clean w.log) : RetOK 10 w1 := by
  rcases fread_flow fails m w off h with ⟨h1, _⟩ | ⟨_, h2⟩
  · rw [heq] at h1; simp at h1
  · rw [heq] at h2; exact h2

theorem fread_some_clean {fails : Nat → Bool} {m : Bool} {w w1 : World α} {off : Int}
    {pg : Page α} (heq : fread fails m w off = (some pg, w1)) (h : Clean w.log) :
    Clean w1.log := by
  rcases fread_flow fails m w off h with ⟨_, h2⟩ | ⟨h1, _⟩
  · rw [heq] at h2; exact h2
  · rw [heq] at h1; simp at h1

theorem startNewPass_log (es : external_sort_t) (maxSub : Int) (i : Nat) (s : MergeState α) :
    (startNewPass es maxSub i s).w = s.w := rfl

theorem pickRuns_flow (fails : Nat → Bool) (es : external_sort_t) (maxSub : Int) :
    ∀ (n i : Nat) (s : MergeState α), Clean s.w.log →
      FlowOK (fun x : Nat × MergeState α => x.2.w.log) (pickRuns fails es maxSub n i s) := by
  intro n
  induction n with
  | zero =>
    intro i s h
    rw [pickRuns]
    split
    · trivial
    · exact h
  | succ n ih =>
    intro i s h
    rw [pickRuns]
    split
    · have hs1 : Clean (if s.ptrLastBlock < s.ptrFirstBlock then startNewPass es maxSub i s
          else s).w.log := by
        split
        · exact h
        · exact h
      generalize (if s.ptrLastBlock < s.ptrFirstBlock then startNewPass es maxSub i s
          else s) = s1 at hs1 ⊢
      dsimp only
      split
      · rename_i w1 heq
        exact fread_none_ret heq hs1
      · rename_i pg w1 heq
        exact ih _ _ (fread_some_clean heq hs1 : Clean w1.log)
    · exact h

theorem loadFirstPages_flow (fails : Nat → Bool) :
    ∀ (n i : Nat) (s : MergeState α), Clean s.w.log →
      FlowOK (fun x : MergeState α => x.w.log) (loadFirstPages fails n i s) := by
  intro n
  induction n with
  | zero => intro i s h; exact h
  | succ n ih =>
    intro i s h
    rw [loadFirstPages]
    split
    · rename_i w2 heq
      exact fread_none_ret heq h
    · rename_i pg w2 heq
      exact ih _ _ (fread_some_clean heq h : Clean w2.log)

theorem flushPage_flow (fails : Nat → Bool) (es : external_sort_t) (s : MergeState α)
    (o : OutState α) (h : Clean s.w.log) :
    FlowOK (fun x : MergeState α × OutState α => x.1.w.log) (flushPage fails es s o) := by
  unfold flushPage
  dsimp only
  split
  · rename_i w1 heq
    exact fwrite_false_ret heq h
  · rename_i w1 heq
    exact (fwrite_true_clean heq h : Clean w1.log)

theorem emitTuple_flow (fails : Nat → Bool) (es : external_sort_t) (s : MergeState α)
    (o : OutState α) (tuple : α) (c : Nat) (h : Clean s.w.log) :
    FlowOK (fun x : MergeState α × OutState α => x.1.w.log) (emitTuple fails es s o tuple c) := by
  unfold emitTuple
  dsimp only
  split
  · exact flushPage_flow _ _ _ _ h
  · exact h

theorem advanceRun_flow (fails : Nat → Bool) (es : external_sort_t) (lowId : Nat)
    (s : MergeState α) (h : Clean s.w.log) :
    FlowOK (fun x : MergeState α => x.w.log) (advanceRun fails es lowId s) := by
  unfold advanceRun
  dsimp only
  split
  · trivial
  · split
    · split
      · split
        · rename_i w1 heq
          exact fread_none_ret heq h
        · rename_i pg w1 heq
          exact (fread_some_clean heq h : Clean w1.log)
      · exact h
    · exact h

theorem mergeLoop_flow (fails : Nat → Bool) (cmp : α → α → Int) (es : external_sort_t)
    (k : Nat) : ∀ (fuel : Nat) (s : MergeState α) (o : OutState α), Clean s.w.log →
      FlowOK (fun x : MergeState α × OutState α => x.1.w.log)
        (mergeLoop fails cmp es k fuel s o) := by
  intro fuel
  induction fuel with
  | zero => intro s o _; trivial
  | succ fuel ih =>
    intro s o h
    rw [mergeLoop.eq_2]
    split
    · exact h
    · split
      · trivial
      · split
        · trivial
        · rename_i lowId tuple c _
          have hem := emitTuple_flow fails es s o tuple c h
          split
          · trivial
          · rename_i c1 w1 heq; rw [heq] at hem; exact hem
          · rename_i s2 o2 heq
            rw [heq] at hem
            have hadv := advanceRun_flow fails es lowId s2 hem
            split
            · trivial
            · rename_i c1 w1 heq1; rw [heq1] at hadv; exact hadv
            · rename_i s3 heq1
              rw [heq1] at hadv
              exact ih _ _ hadv

theorem mergeRuns_flow (fails : Nat → Bool) (cmp : α → α → Int) (es : external_sort_t)
    (k fuel : Nat) (s : MergeState α) (h : Clean s.w.log) :
    FlowOK (fun x : MergeState α => x.w.log) (mergeRuns fails cmp es k fuel s) := by
  unfold mergeRuns
  have hl := loadFirstPages_flow fails k 0 s h
  split
  · trivial
  · rename_i c w heq; rw [heq] at hl; exact hl
  · rename_i s3 heq
    rw [heq] at hl
    have hm := mergeLoop_flow fails cmp es k fuel s3
      { out := [], bufferOutputPos := es.headerSize, numblocks := 0 } hl
    split
    · trivial
    · rename_i c w heq1; rw [heq1] at hm; exact hm
    · rename_i s4 o4 heq1
      rw [heq1] at hm
      split
      · have hf := flushPage_flow fails es s4 o4 hm
        split
        · trivial
        · rename_i c w heq2; rw [heq2] at hf; exact hf
        · rename_i s5 o5 heq2; rw [heq2] at hf; exact hf
      · exact hm

theorem mergeStep_flow (fails : Nat → Bool) (cmp : α → α → Int) (es : external_sort_t)
    (maxSub : Int) (fuel : Nat) (s : MergeState α) (h : Clean s.w.log) :
    FlowOK (fun x : MergeState α => x.w.log) (mergeStep fails cmp es maxSub fuel s) := by
  unfold mergeStep
  have hp := pickRuns_flow fails es maxSub maxSub.toNat 0 s h
  split
  · trivial
  · rename_i c w heq; rw [heq] at hp; exact hp
  · rename_i k s1 heq
    rw [heq] at hp
    have hs2 : Clean (if s1.newPass = true then
        { s1 with firstPartitionSize := s1.runCount.getD 0 0 + s1.runCount.getD 1 0,
                  newPass := false } else s1).w.log := by
      split
      · exact hp
      · exact hp
    dsimp only
    generalize (if s1.newPass = true then
        { s1 with firstPartitionSize := s1.runCount.getD 0 0 + s1.runCount.getD 1 0,
                  newPass := false } else s1) = s2 at hs2 ⊢
    have hm := mergeRuns_flow fails cmp es k fuel s2 hs2
    split
    · trivial
    · rename_i c w heq1; rw [heq1] at hm; exact hm
    · rename_i s5 heq1; rw [heq1] at hm; exact hm

theorem mergePhase_flow (fails : Nat → Bool) (cmp : α → α → Int) (es : external_sort_t)
    (maxSub : Int) (fuel : Nat) : ∀ (n : Nat) (s : MergeState α), Clean s.w.log →
      FlowOK (fun x : MergeState α => x.w.log) (mergePhase fails cmp es maxSub fuel n s) := by
  intro n
  induction n with
  | zero =>
    intro s h
    rw [mergePhase]
    split
    · trivial
    · exact h
  | succ n ih =>
    intro s h
    rw [mergePhase]
    split
    · have hm := mergeStep_flow fails cmp es maxSub fuel s h
      split
      · trivial
      · rename_i c w heq; rw [heq] at hm; exact hm
      · rename_i s1 heq
        rw [heq] at hm
        exact ih _ hm
    · exact h

theorem firstFailure_clean (l : List (Event α)) (h : Clean l) : firstFailure l = none := by
  unfold firstFailure
  rw [List.find?_eq_none]
  intro x hx
  rw [h x (List.mem_reverse.mp hx)]
  simp

theorem firstFailure_ret (e : Event α) (rest : List (Event α)) (h : Clean rest)
    (he : isFailure e = true) : firstFailure (e :: rest) = some e := by
  have h0 : List.find? isFailure rest.reverse = none := firstFailure_clean rest h
  unfold firstFailure
  rw [List.reverse_cons, List.find?_append, h0]
  simp [List.find?, he]

/-- Every outcome of the sort is either the immediate return at a failed file
operation, or a return with code 0 or 8 after a failure-free history. -/
theorem sort_outcome (fuel : Nat) (sort : List α → List α) (cmp : α → α → Int)
    (fails : Nat → Bool) (alloc : Alloc) (es : external_sort_t) (bufferSizeInBlocks : Nat)
    (input : List α) (w0 : World α) (o : Outcome α) (hclean : Clean w0.log)
    (h : extern_merge_sort_iterator_block fuel sort cmp fails alloc es bufferSizeInBlocks
          input w0 = some o) :
    RetOK o.code o.w ∨
    (Clean o.w.log ∧
      (o.code = 0 ∨
       (o.code = 8 ∧ ¬ (alloc.sublsTuplePos = true ∧ 0 ≤ maxSublistsInRun bufferSizeInBlocks)))) := by
  unfold extern_merge_sort_iterator_block at h
  dsimp only at h
  have hg := genLoop_flow fails sort es fuel
    { iter := input, numRecordsRead := bufferSizeInBlocks * tuplesPerPage es, lastWritePos := 0,
      numSublist := 0, w := w0 } hclean
  split at h
  · simp at h
  · rename_i c w heq
    rw [heq] at hg
    simp only [Option.some.injEq] at h
    subst h
    exact Or.inl hg
  · rename_i g heq
    rw [heq] at hg
    split at h
    · simp only [Option.some.injEq] at h
      subst h
      exact Or.inr ⟨hg, Or.inl rfl⟩
    · split at h
      · rename_i hal
        simp only [Option.some.injEq] at h
        subst h
        exact Or.inr ⟨hg, Or.inr ⟨rfl, hal⟩⟩
      · split at h
        · simp at h
        · have hm := mergePhase_flow fails cmp es (maxSublistsInRun bufferSizeInBlocks) fuel
            fuel (initMerge es bufferSizeInBlocks g) hg
          split at h
          · simp at h
          · rename_i c w heq1
            rw [heq1] at hm
            simp only [Option.some.injEq] at h
            subst h
            exact Or.inl hm
          · rename_i s heq1
            rw [heq1] at hm
            simp only [Option.some.injEq] at h
            subst h
            exact Or.inr ⟨hm, Or.inl rfl⟩

/-- Error codes against the history of file operations, for every outcome. -/
theorem error_codes_sound (fuel : Nat) (sort : List α → List α) (cmp : α → α → Int)
    (fails : Nat → Bool) (alloc : Alloc) (es : external_sort_t) (bufferSizeInBlocks : Nat)
    (input : List α) (w0 : World α) (o : Outcome α) (hclean : Clean w0.log)
    (h : extern_merge_sort_iterator_block fuel sort cmp fails alloc es bufferSizeInBlocks
          input w0 = some o) :
    (o.code = 9 ↔ ∃ off, firstFailure o.w.log = some (Event.writeFail off)) ∧
    (o.code = 10 ↔ ∃ off, firstFailure o.w.log = some (Event.readFail off)) ∧
    (∀ e, firstFailure o.w.log = some e → o.w.log.head? = some e) ∧
    (firstFailure o.w.log = none → alloc.sublsTuplePos = true →
      0 ≤ maxSublistsInRun bufferSizeInBlocks → o.code = 0) := by
  rcases sort_outcome fuel sort cmp fails alloc es bufferSizeInBlocks input w0 o hclean h with
    ⟨e, rest, hlog, hrest, hc⟩ | ⟨hcl, hc⟩
  · have hfail : isFailure e = true := by
      rcases hc with ⟨_, off, rfl⟩ | ⟨_, off, rfl⟩ <;> rfl
    have hff : firstFailure o.w.log = some e := by
      rw [hlog]; exact firstFailure_ret e rest hrest hfail
    rw [hff]
    refine ⟨?_, ?_, ?_, ?_⟩
    · rcases hc with ⟨hc9, off, rfl⟩ | ⟨hc10, off, rfl⟩
      · exact ⟨fun _ => ⟨off, rfl⟩, fun _ => hc9⟩
      · constructor
        · intro h9; omega
        · rintro ⟨off1, h1⟩; simp at h1
    · rcases hc with ⟨hc9, off, rfl⟩ | ⟨hc10, off, rfl⟩
      · constructor
        · intro h10; omega
        · rintro ⟨off1, h1⟩; simp at h1
      · exact ⟨fun _ => ⟨off, rfl⟩, fun _ => hc10⟩
    · intro e1 he1
      rw [hlog]
      simpa using he1
    · intro hn; simp at hn
  · have hff : firstFailure o.w.log = none := firstFailure_clean _ hcl
    rw [hff]
    refine ⟨?_, ?_, ?_, ?_⟩
    · constructor
      · intro h9; rcases hc with h0 | ⟨h8, _⟩ <;> omega
      · rintro ⟨off, h1⟩; simp at h1
    · constructor
      · intro h10; rcases hc with h0 | ⟨h8, _⟩ <;> omega
      · rintro ⟨off, h1⟩; simp at h1
    · intro e he; simp at he
    · intro _ ha hm
      rcases hc with h0 | ⟨_, hna⟩
      · exact h0
      · exact absurd ⟨ha, hm⟩ hna

/-! ## The sort returns -/

theorem FileValid.write {file : List (Int × Page α)} (h : FileValid file) (off : Int)
    (pg : Page α) (hv : pg.valid) (hb : 0 ≤ pg.blockIndex) : FileValid ((off, pg) :: file) := by
  intro x p hx
  by_cases hxo : x = off
  · subst hxo
    simp only [List.lookup_cons, beq_self_eq_true, Option.some.injEq] at hx
    subst hx
    exact ⟨hv, hb⟩
  · rw [lookup_write _ _ _ _ hxo] at hx
    exact h x p hx

theorem fwrite_true_file {fails : Nat → Bool} {w w1 : World α} {off : Int} {pg : Page α}
    (heq : fwrite fails w off pg = (true, w1)) : w1.file = (off, pg) :: w.file := by
  unfold fwrite at heq
  split at heq
  · simp at heq
  · simp only [Prod.mk.injEq, true_and] at heq
    rw [← heq]

theorem fread_file {fails : Nat → Bool} {m : Bool} {w w1 : World α} {off : Int} {pg : Page α}
    (heq : fread fails m w off = (some pg, w1)) :
    w1.file = w.file ∧ w.file.lookup off = some pg := by
  obtain ⟨h1, h2⟩ := fread_some _ _ _ _ _ _ heq
  exact ⟨by rw [h2], h1⟩

theorem ceil_pages (n T : Nat) (hT : 1 ≤ T) (hn : 1 ≤ n) :
    1 ≤ (n + T - 1) / T ∧ ((n + T - 1) / T - 1) * T < n ∧ n ≤ (n + T - 1) / T * T := by
  have h1 : (n + T - 1) / T * T ≤ n + T - 1 := Nat.div_mul_le_self _ _
  have h2 : n + T - 1 < (n + T - 1) / T * T + T := by
    have := Nat.lt_mul_div_succ (n + T - 1) (show 0 < T by omega)
    rw [Nat.mul_add, Nat.mul_one, Nat.mul_comm] at this
    exact this
  have h3 : 1 ≤ (n + T - 1) / T := (Nat.le_div_iff_mul_le (by omega)).mpr (by omega)
  have h4 : ((n + T - 1) / T - 1) * T = (n + T - 1) / T * T - T := by
    rw [Nat.sub_mul, Nat.one_mul]
  refine ⟨h3, ?_, ?_⟩
  · rw [h4]
    have : T ≤ (n + T - 1) / T * T := Nat.le_mul_of_pos_left _ (by omega)
    omega
  · omega

theorem fillBuffer_length : ∀ (n : Nat) (it acc : List α) (st : Nat) (w : World α),
    (fillBuffer n it acc st w).1.length + (fillBuffer n it acc st w).2.1.length
        = acc.length + it.length ∧
    (fillBuffer n it acc st w).1.length ≤ acc.length + n ∧
    (fillBuffer n it acc st w).2.2.2.file = w.file := by
  intro n
  induction n with
  | zero => intro it acc st w; simp [fillBuffer]
  | succ n ih =>
    intro it acc st w
    cases it with
    | nil => simp [fillBuffer]
    | cons x xs =>
      obtain ⟨h1, h2, h3⟩ := ih xs (acc ++ [x]) 1 { w with log := Event.iter 1 :: w.log }
      simp only [fillBuffer]
      simp only [List.length_append, List.length_cons, List.length_nil] at h1 h2 ⊢
      exact ⟨by omega, by omega, h3⟩

theorem writeFullPages_total (fails : Nat → Bool) (es : external_sort_t) (sorted : List α)
    (hT : 1 ≤ tuplesPerPage es) :
    ∀ (n i : Nat) (pos : Int) (w : World α), FileValid w.file →
      (i + n) * tuplesPerPage es ≤ sorted.length →
      NotStuck (fun x : Nat × Int × World α => x.1 = i + n ∧ FileValid x.2.2.file)
        (writeFullPages fails es sorted n i pos w) := by
  intro n
  induction n with
  | zero => intro i pos w h _; exact ⟨rfl, h⟩
  | succ n ih =>
    intro i pos w h hlen
    rw [writeFullPages]
    split
    · trivial
    · rename_i w1 heq
      have hf := fwrite_true_file heq
      have hnext := ih (i + 1) (pos + es.page_size) w1 (by
        rw [hf]
        apply h.write
        · have hl : (i + 1) * tuplesPerPage es ≤ sorted.length := by
            have : (i + 1) * tuplesPerPage es ≤ (i + (n + 1)) * tuplesPerPage es :=
              Nat.mul_le_mul_right _ (by omega)
            omega
          rw [Nat.add_mul, Nat.one_mul] at hl
          constructor
          · simp only [List.length_take, List.length_drop]
            rw [Nat.min_eq_left (by omega)]
          · simp only [List.length_take, List.length_drop]
            rw [Nat.min_eq_left (by omega)]
            exact hT
        · exact Int.natCast_nonneg _) (by
        have : i + 1 + n = i + (n + 1) := by omega
        rw [this]; exact hlen)
      cases hr : writeFullPages fails es sorted n (i + 1) (pos + es.page_size) w1 with
      | stuck => rw [hr] at hnext; exact hnext
      | ret c w2 => trivial
      | cont x =>
        rw [hr] at hnext
        exact ⟨by rw [hnext.1]; omega, hnext.2⟩

theorem Converges.of_const {σ : Type} {f : Nat → Flow α σ} {Q : σ → Prop} (r : Flow α σ)
    (h : ∀ fuel, f (fuel + 1) = r) (hr : NotStuck Q r) : Converges f Q := by
  refine ⟨1, r, ?_, hr⟩
  intro fuel hf
  obtain ⟨g, rfl⟩ : ∃ g, fuel = g + 1 := ⟨fuel - 1, by omega⟩
  exact h g

theorem Converges.of_step {σ : Type} {f g : Nat → Flow α σ} {Q : σ → Prop}
    (h : ∀ fuel, f (fuel + 1) = g fuel) (hg : Converges g Q) : Converges f Q := by
  obtain ⟨f0, r, hr, hq⟩ := hg
  refine ⟨f0 + 1, r, ?_, hq⟩
  intro fuel hf
  obtain ⟨k, rfl⟩ : ∃ k, fuel = k + 1 := ⟨fuel - 1, by omega⟩
  rw [h k]
  exact hr k (by omega)

theorem genLoop_converges (fails : Nat → Bool) (sort : List α → List α) (es : external_sort_t)
    (hsort : ∀ l, (sort l).length = l.length) :
    ∀ (n : Nat) (s : GenState α), s.iter.length ≤ n → FileValid s.w.file →
      (s.numRecordsRead = 0 ∨ 1 ≤ tuplesPerPage es) →
      Converges (fun fuel => genLoop fails sort es fuel s)
        (fun g : GenState α => FileValid g.w.file) := by
  intro n
  induction n with
  | zero =>
    intro s hn hfile _
    have hit : s.iter = [] := List.length_eq_zero.mp (by omega)
    apply Converges.of_const (Flow.cont { s with iter := [], w := (fillBuffer s.numRecordsRead [] [] 0 s.w).2.2.2 })
    · intro fuel
      show genLoop fails sort es (fuel + 1) s = _
      rw [genLoop.eq_2, hit]
      obtain ⟨w1, h1, _⟩ := fillBuffer_short s.numRecordsRead [] [] 0 s.w (by simp)
      rw [h1]
      simp
    · show FileValid _
      rw [(fillBuffer_length _ _ _ _ _).2.2]; exact hfile
  | succ n ih =>
    intro s hn hfile hT
    have hlen := fillBuffer_length s.numRecordsRead s.iter [] 0 s.w
    rcases hfb : fillBuffer s.numRecordsRead s.iter [] 0 s.w with ⟨chunk, it, status, w1⟩
    rw [hfb] at hlen
    simp only [List.length_nil, Nat.zero_add] at hlen
    obtain ⟨hl1, hl2, hl3⟩ := hlen
    by_cases hc : chunk.length = 0
    · apply Converges.of_const (Flow.cont { s with iter := it, w := w1 })
      · intro fuel
        show genLoop fails sort es (fuel + 1) s = _
        rw [genLoop.eq_2, hfb]
        simp only [hc, if_true]
      · show FileValid w1.file
        rw [hl3]; exact hfile
    · have hT1 : 1 ≤ tuplesPerPage es := by
        rcases hT with h0 | h1
        · omega
        · exact h1
      obtain ⟨hq1, hq2, hq3⟩ := ceil_pages chunk.length (tuplesPerPage es) hT1 (by omega)
      have hw := writeFullPages_total fails es (sort chunk) hT1
        ((chunk.length + tuplesPerPage es - 1) / tuplesPerPage es - 1) 0 s.lastWritePos
        ⟨w1.file, w1.metric.addReads ((chunk.length + tuplesPerPage es - 1) / tuplesPerPage es),
          w1.ops, w1.log⟩ (by show FileValid w1.file; rw [hl3]; exact hfile)
        (by rw [hsort, Nat.zero_add]; omega)
      cases hwf : writeFullPages fails es (sort chunk)
        ((chunk.length + tuplesPerPage es - 1) / tuplesPerPage es - 1) 0 s.lastWritePos
        ⟨w1.file, w1.metric.addReads ((chunk.length + tuplesPerPage es - 1) / tuplesPerPage es),
          w1.ops, w1.log⟩ with
      | stuck => rw [hwf] at hw; exact absurd hw id
      | ret c w =>
        apply Converges.of_const (Flow.ret c w)
        · intro fuel
          show genLoop fails sort es (fuel + 1) s = _
          rw [genLoop.eq_2, hfb]
          simp only [hc, if_false, hwf]
        · trivial
      | cont x =>
        obtain ⟨i, pos, w3⟩ := x
        rw [hwf] at hw
        obtain ⟨hi, hf3⟩ := hw
        simp only at hi hf3
        rw [Nat.zero_add] at hi
        rcases hfw : fwrite fails w3 pos
          ⟨i, (chunk.length : Int) - (tuplesPerPage es : Int) * i,
            ((sort chunk).drop (i * tuplesPerPage es)).take (tuplesPerPage es)⟩ with ⟨b, w4⟩
        cases b with
        | false =>
          apply Converges.of_const (Flow.ret 9 w4)
          · intro fuel
            show genLoop fails sort es (fuel + 1) s = _
            rw [genLoop.eq_2, hfb]
            simp only [hc, if_false, hwf, hfw]
          · trivial
        | true =>
          have hf4 : FileValid w4.file := by
            rw [fwrite_true_file hfw]
            apply hf3.write
            · have hlast : (((sort chunk).drop (i * tuplesPerPage es)).take
                  (tuplesPerPage es)).length = chunk.length - i * tuplesPerPage es := by
                simp only [List.length_take, List.length_drop, hsort]
                rw [hi]
                have : (chunk.length + tuplesPerPage es - 1) / tuplesPerPage es * tuplesPerPage es
                    = ((chunk.length + tuplesPerPage es - 1) / tuplesPerPage es - 1)
                        * tuplesPerPage es + tuplesPerPage es := by
                  rw [Nat.sub_mul, Nat.one_mul]
                  have : tuplesPerPage es ≤
                      (chunk.length + tuplesPerPage es - 1) / tuplesPerPage es * tuplesPerPage es :=
                    Nat.le_mul_of_pos_left _ (by omega)
                  omega
                omega
              have hlt : i * tuplesPerPage es < chunk.length := by rw [hi]; exact hq2
              constructor
              · show (chunk.length : Int) - (tuplesPerPage es : Int) * (i : Int) = _
                rw [hlast, Nat.cast_sub (by omega)]
                push_cast
                ring
              · rw [hlast]; omega
            · exact Int.natCast_nonneg _
          by_cases hst : status = 1
          · apply Converges.of_step (g := fun fuel => genLoop fails sort es fuel
              { iter := it, numRecordsRead := chunk.length,
                lastWritePos := pos + es.page_size, numSublist := s.numSublist + 1,
                w := ⟨w4.file, w4.metric.addWrites
                  ((chunk.length + tuplesPerPage es - 1) / tuplesPerPage es), w4.ops, w4.log⟩ })
            · intro fuel
              show genLoop fails sort es (fuel + 1) s = _
              rw [genLoop.eq_2, hfb]
              simp only [hc, if_false, hwf, hfw, hst, if_true]
            · exact ih _ (by simp only; omega) hf4 (Or.inr hT1)
          · apply Converges.of_const (Flow.cont
              { iter := it, numRecordsRead := chunk.length,
                lastWritePos := pos + es.page_size, numSublist := s.numSublist + 1,
                w := ⟨w4.file, w4.metric.addWrites
                  ((chunk.length + tuplesPerPage es - 1) / tuplesPerPage es), w4.ops, w4.log⟩ })
            · intro fuel
              show genLoop fails sort es (fuel + 1) s = _
              rw [genLoop.eq_2, hfb]
              simp only [hc, if_false, hwf, hfw, hst]
            · exact hf4

theorem pickRuns_total (fails : Nat → Bool) (es : external_sort_t) (maxSub : Int) (M : Nat)
    (hM : (M : Int) = maxSub) :
    ∀ (n i : Nat) (s : MergeState α), maxSub ≤ (i : Int) + n → GInv M s →
      (i : Int) ≤ maxSub → (i : Int) ≤ s.numSublist →
      (∀ j, j < i → 0 < s.runCount.getD j 0 ∧ s.sublsTuplePos.getD j 0 = 0) →
      NotStuck (fun x : Nat × MergeState α =>
          GInv M x.2 ∧ x.2.numSublist = s.numSublist ∧ (x.1 : Int) ≤ maxSub ∧
          (x.1 : Int) ≤ s.numSublist ∧ (maxSub ≤ (x.1 : Int) ∨ s.numSublist ≤ (x.1 : Int)) ∧
          (∀ j, j < x.1 → 0 < x.2.runCount.getD j 0 ∧ x.2.sublsTuplePos.getD j 0 = 0))
        (pickRuns fails es maxSub n i s) := by
  intro n
  induction n with
  | zero =>
    intro i s hn hg hi1 hi2 hrc
    rw [pickRuns]
    split
    · rename_i hc; omega
    · rename_i hc
      exact ⟨hg, rfl, hi1, hi2, by omega, hrc⟩
  | succ n ih =>
    intro i s hn hg hi1 hi2 hrc
    rw [pickRuns]
    split
    · rename_i hc
      have hs1 : ∀ s1 : MergeState α,
          s1 = (if s.ptrLastBlock < s.ptrFirstBlock then startNewPass es maxSub i s else s) →
          s1.w = s.w ∧ s1.runOffset = s.runOffset ∧ s1.runCount = s.runCount ∧
          s1.sublsTuplePos = s.sublsTuplePos ∧ s1.buffer = s.buffer ∧
          s1.numSublist = s.numSublist := by
        intro s1 h1
        subst h1
        split <;> exact ⟨rfl, rfl, rfl, rfl, rfl, rfl⟩
      generalize (if s.ptrLastBlock < s.ptrFirstBlock then startNewPass es maxSub i s
          else s) = s1 at hs1 ⊢
      obtain ⟨e1, e2, e3, e4, e5, e6⟩ := hs1 s1 rfl
      dsimp only
      split
      · trivial
      · rename_i pg w1 heq
        obtain ⟨hf1, hlk⟩ := fread_file heq
        obtain ⟨hgf, hgO, hgC, hgP, hgB⟩ := hg
        rw [e1] at hf1 hlk
        have hpg := hgf _ _ hlk
        have hiM : i < M := by omega
        have := ih (i + 1)
          { s1 with runCount := s1.runCount.set i (pg.blockIndex + 1),
                    runOffset := s1.runOffset.set i (s1.ptrLastBlock - pg.blockIndex * es.page_size),
                    sublsTuplePos := s1.sublsTuplePos.set i 0,
                    buffer := s1.buffer.set 0 (some pg),
                    ptrLastBlock := s1.ptrLastBlock - pg.blockIndex * es.page_size - es.page_size,
                    w := ⟨w1.file, w1.metric.addReads 1, w1.ops, w1.log⟩ }
          (by push_cast; omega)
          ⟨by show FileValid w1.file; rw [hf1]; exact hgf,
           by simp only [List.length_set]; rw [e2]; exact hgO,
           by simp only [List.length_set]; rw [e3]; exact hgC,
           by simp only [List.length_set]; rw [e4]; exact hgP,
           by simp only [List.length_set]; rw [e5]; exact hgB⟩
          (by push_cast; omega) (by show ((i + 1 : Nat) : Int) ≤ s1.numSublist; rw [e6]; push_cast; omega)
          (by
            intro j hj
            by_cases hji : j = i
            · subst hji
              constructor
              · show 0 < (s1.runCount.set j (pg.blockIndex + 1)).getD j 0
                rw [getD_set_eq _ _ _ _ (by rw [e3]; omega)]
                have := hpg.2; omega
              · show (s1.sublsTuplePos.set j 0).getD j 0 = 0
                rw [getD_set_eq _ _ _ _ (by rw [e4]; omega)]
            · constructor
              · show 0 < (s1.runCount.set i (pg.blockIndex + 1)).getD j 0
                rw [getD_set_ne _ _ _ _ _ (fun h => hji h.symm), e3]
                exact (hrc j (by omega)).1
              · show (s1.sublsTuplePos.set i 0).getD j 0 = 0
                rw [getD_set_ne _ _ _ _ _ (fun h => hji h.symm), e4]
                exact (hrc j (by omega)).2)
        cases hr : pickRuns fails es maxSub n (i + 1)
          { s1 with runCount := s1.runCount.set i (pg.blockIndex + 1),
                    runOffset := s1.runOffset.set i (s1.ptrLastBlock - pg.blockIndex * es.page_size),
                    sublsTuplePos := s1.sublsTuplePos.set i 0,
                    buffer := s1.buffer.set 0 (some pg),
                    ptrLastBlock := s1.ptrLastBlock - pg.blockIndex * es.page_size - es.page_size,
                    w := ⟨w1.file, w1.metric.addReads 1, w1.ops, w1.log⟩ } with
        | stuck => rw [hr] at this; exact this
        | ret c w => trivial
        | cont x =>
          rw [hr] at this
          obtain ⟨a1, a2, a3, a4, a5, a6⟩ := this
          exact ⟨a1, by rw [a2]; exact e6, a3, by rw [← e6]; exact a4,
            by rw [← e6]; exact a5, a6⟩
    · rename_i hc
      exact ⟨hg, rfl, hi1, hi2, by omega, hrc⟩

theorem loadFirstPages_total (fails : Nat → Bool) (M : Nat) :
    ∀ (n i : Nat) (s : MergeState α), GInv M s → i + n ≤ M →
      (∀ j, j < i → ∃ cur, s.buffer.getD j none = some cur ∧ cur.valid) →
      NotStuck (fun s3 : MergeState α =>
          GInv M s3 ∧ s3.numSublist = s.numSublist ∧ s3.runCount = s.runCount ∧
          s3.sublsTuplePos = s.sublsTuplePos ∧
          (∀ j, j < i + n → ∃ cur, s3.buffer.getD j none = some cur ∧ cur.valid))
        (loadFirstPages fails n i s) := by
  intro n
  induction n with
  | zero => intro i s hg _ hb; exact ⟨hg, rfl, rfl, rfl, hb⟩
  | succ n ih =>
    intro i s hg hin hb
    rw [loadFirstPages]
    dsimp only
    split
    · trivial
    · rename_i pg w2 heq
      obtain ⟨hf1, hlk⟩ := fread_file heq
      obtain ⟨hgf, hgO, hgC, hgP, hgB⟩ := hg
      have hpg := hgf _ _ hlk
      have := ih (i + 1) { s with buffer := s.buffer.set i (some pg), w := w2 }
        ⟨by show FileValid w2.file; rw [hf1]; exact hgf, hgO, hgC, hgP,
          by simp only [List.length_set]; exact hgB⟩ (by omega)
        (by
          intro j hj
          by_cases hji : j = i
          · subst hji
            exact ⟨pg, getD_set_eq' _ _ _ _ (by omega), hpg.1⟩
          · obtain ⟨cur, hc1, hc2⟩ := hb j (by omega)
            exact ⟨cur, by
              show (s.buffer.set i (some pg)).getD j none = some cur
              rw [getD_set_ne' _ _ _ _ _ (fun h => hji h.symm)]; exact hc1, hc2⟩)
      cases hr : loadFirstPages fails n (i + 1)
          { s with buffer := s.buffer.set i (some pg), w := w2 } with
      | stuck => rw [hr] at this; exact this
      | ret c w => trivial
      | cont x =>
        rw [hr] at this
        obtain ⟨a1, a2, a3, a4, a5⟩ := this
        exact ⟨a1, a2, a3, a4, fun j hj => a5 j (by omega)⟩

theorem sum_range_update (f g : Nat → Nat) (i : Nat) :
    ∀ k, i < k → (∀ j, j < k → j ≠ i → g j = f j) →
      ((List.range k).map g).sum + f i = ((List.range k).map f).sum + g i := by
  intro k
  induction k with
  | zero => intro h; omega
  | succ k ih =>
    intro hi h
    rw [List.range_succ, List.map_append, List.map_append, List.sum_append, List.sum_append]
    simp only [List.map_cons, List.map_nil, List.sum_cons, List.sum_nil, Nat.add_zero]
    by_cases hik : i = k
    · subst hik
      have : (List.range i).map g = (List.range i).map f := by
        apply List.map_congr_left
        intro j hj
        rw [List.mem_range] at hj
        exact h j (by omega) (by omega)
      rw [this]; omega
    · have := ih (by omega) (fun j hj hne => h j (by omega) hne)
      have hk := h k (by omega) (fun e => hik e.symm)
      omega

theorem Converges.mono {σ : Type} {f : Nat → Flow α σ} {Q Q' : σ → Prop}
    (h : Converges f Q) (hq : ∀ x, Q x → Q' x) : Converges f Q' := by
  obtain ⟨f0, r, hr, hn⟩ := h
  refine ⟨f0, r, hr, ?_⟩
  cases r with
  | stuck => exact hn
  | ret c w => trivial
  | cont x => exact hq x hn

theorem WRun.record {s : MergeState α} {j : Nat} (h : WRun s j)
    (h0 : s.runCount.getD j 0 ≠ 0) : ∃ x, recordAt s j = some x := by
  rcases h with h | ⟨_, cur, hb, _, hp0, hp⟩
  · exact absurd h h0
  · refine ⟨cur.records[(s.sublsTuplePos.getD j 0).toNat], ?_⟩
    simp only [recordAt, hb]
    rw [if_neg (by omega), List.get?_eq_getElem?, List.getElem?_eq_getElem hp]

theorem WRun_of_eq {s s2 : MergeState α} {j : Nat} (h1 : s2.runCount = s.runCount)
    (h2 : s2.sublsTuplePos = s.sublsTuplePos) (h3 : s2.buffer = s.buffer) (h : WRun s j) :
    WRun s2 j := by
  unfold WRun at h ⊢
  rw [h1, h2, h3]; exact h

theorem findLowest_total (cmp : α → α → Int) (s : MergeState α) (k : Nat)
    (hinv : ∀ j, j < k → WRun s j) :
    ∀ (n i lowId : Nat) (tuple : α) (c : Nat),
      i + n = k → lowId < i → s.runCount.getD lowId 0 ≠ 0 →
      ∃ l t c1, findLowest cmp s n i lowId tuple c = some (l, t, c1) ∧ l < k ∧
        s.runCount.getD l 0 ≠ 0 := by
  intro n
  induction n with
  | zero =>
    intro i lowId tuple c hik hlow hlive
    exact ⟨lowId, tuple, c, rfl, by omega, hlive⟩
  | succ n ih =>
    intro i lowId tuple c hik hlow hlive
    rw [findLowest]
    by_cases h0 : s.runCount.getD i 0 = 0
    · rw [if_pos h0]
      exact ih (i + 1) lowId tuple c (by omega) (by omega) hlive
    · rw [if_neg h0]
      obtain ⟨v, hv⟩ := (hinv i (by omega)).record h0
      rw [hv]
      dsimp only
      by_cases hc : 0 < cmp tuple v
      · rw [if_pos hc]
        exact ih (i + 1) i v (c + 1) (by omega) (by omega) h0
      · rw [if_neg hc]
        exact ih (i + 1) lowId tuple (c + 1) (by omega) (by omega) hlive

theorem flushPage_total (fails : Nat → Bool) (es : external_sort_t) (M : Nat)
    (s : MergeState α) (o : OutState α) (hRH : es.headerSize < es.record_size)
    (hg : GInv M s) (ho : OutInv es o) (hlen : 1 ≤ o.out.length) :
    NotStuck (fun x : MergeState α × OutState α =>
        GInv M x.1 ∧ x.1.runCount = s.runCount ∧ x.1.sublsTuplePos = s.sublsTuplePos ∧
        x.1.buffer = s.buffer ∧ x.1.numSublist = s.numSublist ∧ OutInv es x.2)
      (flushPage fails es s o) := by
  unfold flushPage
  dsimp only
  split
  · trivial
  · rename_i w1 heq
    have hf := fwrite_true_file heq
    obtain ⟨hgf, hgO, hgC, hgP, hgB⟩ := hg
    obtain ⟨ho1, ho2⟩ := ho
    refine ⟨⟨?_, hgO, hgC, hgP, hgB⟩, rfl, rfl, rfl, rfl, ?_, ?_⟩
    · show FileValid w1.file
      rw [hf]
      refine hgf.write _ _ ⟨?_, hlen⟩ ho2
      show ((o.bufferOutputPos / es.record_size : Nat) : Int) = (o.out.length : Int)
      rw [ho1, Nat.add_mul_div_right _ _ (by omega), Nat.div_eq_of_lt hRH, Nat.zero_add]
    · show es.headerSize = es.headerSize + ([] : List α).length * es.record_size
      simp
    · show 0 ≤ o.numblocks + 1
      omega

theorem emitTuple_total (fails : Nat → Bool) (es : external_sort_t) (M : Nat)
    (s : MergeState α) (o : OutState α) (tuple : α) (c : Nat)
    (hRH : es.headerSize < es.record_size) (hg : GInv M s) (ho : OutInv es o) :
    NotStuck (fun x : MergeState α × OutState α =>
        GInv M x.1 ∧ x.1.runCount = s.runCount ∧ x.1.sublsTuplePos = s.sublsTuplePos ∧
        x.1.buffer = s.buffer ∧ x.1.numSublist = s.numSublist ∧ OutInv es x.2)
      (emitTuple fails es s o tuple c) := by
  unfold emitTuple
  dsimp only
  have ho1 : OutInv es
      (⟨o.out ++ [tuple], o.bufferOutputPos + es.record_size, o.numblocks⟩ : OutState α) := by
    refine ⟨?_, ho.2⟩
    show o.bufferOutputPos + es.record_size = es.headerSize + (o.out ++ [tuple]).length * es.record_size
    rw [ho.1, List.length_append, List.length_singleton, Nat.add_mul, Nat.one_mul, Nat.add_assoc]
  split
  · exact flushPage_total fails es M
      { s with w := { s.w with metric := (s.w.metric.addCompar c).addMemcpys 1 } } _ hRH hg ho1
      (by simp)
  · exact ⟨hg, rfl, rfl, rfl, rfl, ho1⟩

theorem advanceRun_total (fails : Nat → Bool) (es : external_sort_t) (M k lowId : Nat)
    (s : MergeState α) (hg : GInv M s) (hkM : k ≤ M) (hl : lowId < k)
    (hinv : ∀ j, j < k → WRun s j) (hlive : s.runCount.getD lowId 0 ≠ 0) :
    NotStuck (fun s3 : MergeState α =>
        GInv M s3 ∧ s3.numSublist = s.numSublist ∧ (∀ j, j < k → WRun s3 j) ∧
        (measA k s3 + 1 ≤ measA k s ∨ (measA k s3 = measA k s ∧ measB k s3 + 1 ≤ measB k s)))
      (advanceRun fails es lowId s) := by
  obtain ⟨hgf, hgO, hgC, hgP, hgB⟩ := hg
  rcases hinv lowId hl with h0 | ⟨hrc, cur, hb, hv, hp0, hp⟩
  · exact absurd h0 hlive
  unfold advanceRun
  dsimp only
  rw [hb]
  dsimp only
  have hposeq : (s.sublsTuplePos.set lowId (s.sublsTuplePos.getD lowId 0 + 1)).getD lowId 0
      = s.sublsTuplePos.getD lowId 0 + 1 := getD_set_eq _ _ _ _ (by omega)
  split
  · rename_i hge
    have hA : ∀ s3 : MergeState α,
        s3.runCount = s.runCount.set lowId (s.runCount.getD lowId 0 - 1) →
        measA k s3 + 1 ≤ measA k s := by
      intro s3 h3
      have := sum_range_update (fun j => (s.runCount.getD j 0).toNat)
        (fun j => (s3.runCount.getD j 0).toNat) lowId k hl (by
          intro j _ hne
          show (s3.runCount.getD j 0).toNat = (s.runCount.getD j 0).toNat
          rw [h3, getD_set_ne _ _ _ _ _ (fun h => hne h.symm)])
      have e : (s3.runCount.getD lowId 0).toNat + 1 = (s.runCount.getD lowId 0).toNat := by
        rw [h3, getD_set_eq _ _ _ _ (by omega)]; omega
      unfold measA
      dsimp only at this
      omega
    split
    · rename_i hcnt
      split
      · trivial
      · rename_i pg w1 heq
        obtain ⟨hf1, hlk⟩ := fread_file heq
        have hpg := hgf _ _ hlk
        refine ⟨⟨?_, ?_, ?_, ?_, ?_⟩, rfl, ?_, Or.inl (hA _ rfl)⟩
        · show FileValid w1.file
          rw [hf1]; exact hgf
        · simp only [List.length_set]; exact hgO
        · simp only [List.length_set]; exact hgC
        · simp only [List.length_set]; exact hgP
        · simp only [List.length_set]; exact hgB
        · intro j hj
          by_cases hji : j = lowId
          · subst hji
            right
            refine ⟨?_, pg, ?_, hpg.1, ?_, ?_⟩
            · show 0 < (s.runCount.set j (s.runCount.getD j 0 - 1)).getD j 0
              rw [getD_set_eq _ _ _ _ (by omega)]
              exact hcnt
            · exact getD_set_eq' _ _ _ _ (by omega)
            · show 0 ≤ ((s.sublsTuplePos.set j (s.sublsTuplePos.getD j 0 + 1)).set j 0).getD j 0
              rw [getD_set_eq _ _ _ _ (by simp only [List.length_set]; omega)]
            · show (((s.sublsTuplePos.set j (s.sublsTuplePos.getD j 0 + 1)).set j 0).getD j 0).toNat
                < pg.records.length
              rw [getD_set_eq _ _ _ _ (by simp only [List.length_set]; omega)]
              have := hpg.1.2
              simp only [Int.toNat_zero]; omega
          · have hw := hinv j hj
            unfold WRun at hw ⊢
            show (s.runCount.set lowId _).getD j 0 = 0 ∨
              (0 < (s.runCount.set lowId _).getD j 0 ∧ ∃ cur,
                (s.buffer.set lowId (some pg)).getD j none = some cur ∧ cur.valid ∧
                0 ≤ ((s.sublsTuplePos.set lowId _).set lowId 0).getD j 0 ∧
                (((s.sublsTuplePos.set lowId _).set lowId 0).getD j 0).toNat < cur.records.length)
            rw [getD_set_ne _ _ _ _ _ (fun h => hji h.symm),
              getD_set_ne _ _ _ _ _ (fun h => hji h.symm),
              getD_set_ne _ _ _ _ _ (fun h => hji h.symm),
              getD_set_ne' _ _ _ _ _ (fun h => hji h.symm)]
            exact hw
    · rename_i hcnt
      refine ⟨⟨hgf, ?_, ?_, ?_, hgB⟩, rfl, ?_, Or.inl (hA _ rfl)⟩
      · simp only [List.length_set]; exact hgO
      · simp only [List.length_set]; exact hgC
      · simp only [List.length_set]; exact hgP
      · intro j hj
        by_cases hji : j = lowId
        · subst hji
          left
          show (s.runCount.set j (s.runCount.getD j 0 - 1)).getD j 0 = 0
          rw [getD_set_eq _ _ _ _ (by omega)]
          omega
        · have hw := hinv j hj
          unfold WRun at hw ⊢
          show (s.runCount.set lowId _).getD j 0 = 0 ∨
            (0 < (s.runCount.set lowId _).getD j 0 ∧ ∃ cur,
              s.buffer.getD j none = some cur ∧ cur.valid ∧
              0 ≤ ((s.sublsTuplePos.set lowId _).set lowId 0).getD j 0 ∧
              (((s.sublsTuplePos.set lowId _).set lowId 0).getD j 0).toNat < cur.records.length)
          rw [getD_set_ne _ _ _ _ _ (fun h => hji h.symm),
            getD_set_ne _ _ _ _ _ (fun h => hji h.symm),
            getD_set_ne _ _ _ _ _ (fun h => hji h.symm)]
          exact hw
  · rename_i hlt
    have hlt' : s.sublsTuplePos.getD lowId 0 + 1 < cur.recordCount := by omega
    rw [hv.1] at hlt'
    refine ⟨⟨hgf, hgO, hgC, ?_, hgB⟩, rfl, ?_, Or.inr ⟨rfl, ?_⟩⟩
    · simp only [List.length_set]; exact hgP
    · intro j hj
      by_cases hji : j = lowId
      · subst hji
        right
        refine ⟨hrc, cur, hb, hv, ?_, ?_⟩
        · show 0 ≤ (s.sublsTuplePos.set j _).getD j 0
          rw [hposeq]; omega
        · show ((s.sublsTuplePos.set j _).getD j 0).toNat < cur.records.length
          rw [hposeq]; omega
      · have hw := hinv j hj
        unfold WRun at hw ⊢
        show s.runCount.getD j 0 = 0 ∨
          (0 < s.runCount.getD j 0 ∧ ∃ cur,
            s.buffer.getD j none = some cur ∧ cur.valid ∧
            0 ≤ (s.sublsTuplePos.set lowId _).getD j 0 ∧
            ((s.sublsTuplePos.set lowId _).getD j 0).toNat < cur.records.length)
        rw [getD_set_ne _ _ _ _ _ (fun h => hji h.symm)]
        exact hw
    · have := sum_range_update
        (fun j => if s.runCount.getD j 0 = 0 then 0
          else match s.buffer.getD j none with
            | some cur => cur.records.length - (s.sublsTuplePos.getD j 0).toNat
            | none => 0)
        (fun j => if s.runCount.getD j 0 = 0 then 0
          else match s.buffer.getD j none with
            | some cur => cur.records.length -
                ((s.sublsTuplePos.set lowId (s.sublsTuplePos.getD lowId 0 + 1)).getD j 0).toNat
            | none => 0) lowId k hl (by
          intro j _ hne
          dsimp only
          rw [getD_set_ne _ _ _ _ _ (fun h => hne h.symm)])
      dsimp only at this
      simp only [hposeq, if_neg hlive, hb] at this
      unfold measB
      dsimp only
      omega

theorem mergeLoop_step (fails : Nat → Bool) (cmp : α → α → Int) (es : external_sort_t)
    (M k : Nat) (s : MergeState α) (o : OutState α) (hRH : es.headerSize < es.record_size)
    (hg : GInv M s) (hkM : k ≤ M) (hinv : ∀ j, j < k → WRun s j) (ho : OutInv es o) :
    (∃ r, (∀ fuel, mergeLoop fails cmp es k (fuel + 1) s o = r) ∧
      NotStuck (fun x : MergeState α × OutState α =>
        GInv M x.1 ∧ x.1.numSublist = s.numSublist ∧ OutInv es x.2) r) ∨
    (∃ s3 o2, (∀ fuel, mergeLoop fails cmp es k (fuel + 1) s o
          = mergeLoop fails cmp es k fuel s3 o2) ∧
      GInv M s3 ∧ s3.numSublist = s.numSublist ∧ (∀ j, j < k → WRun s3 j) ∧ OutInv es o2 ∧
      (measA k s3 + 1 ≤ measA k s ∨ (measA k s3 = measA k s ∧ measB k s3 + 1 ≤ measB k s))) := by
  by_cases hi : firstLive s.runCount k k 0 = k
  · left
    refine ⟨Flow.cont (s, o), ?_, hg, rfl, ho⟩
    intro fuel
    rw [mergeLoop.eq_2, if_pos hi]
  · obtain ⟨_, hle, _, hlive⟩ := firstLive_spec s.runCount k k 0 (Nat.zero_le _) (by omega)
    have hik : firstLive s.runCount k k 0 < k := by omega
    obtain ⟨t0, h0⟩ := (hinv _ hik).record (hlive hik)
    obtain ⟨l, t, c1, hfl, hlk, hll⟩ := findLowest_total cmp s k hinv
      (k - (firstLive s.runCount k k 0 + 1)) (firstLive s.runCount k k 0 + 1)
      (firstLive s.runCount k k 0) t0 0 (by omega) (by omega) (hlive hik)
    have hem := emitTuple_total fails es M s o t c1 hRH hg ho
    cases hemr : emitTuple fails es s o t c1 with
    | stuck => rw [hemr] at hem; exact absurd hem id
    | ret c w =>
      left
      refine ⟨Flow.ret c w, ?_, trivial⟩
      intro fuel
      rw [mergeLoop.eq_2, if_neg hi]
      simp only [h0, hfl, hemr]
    | cont x =>
      obtain ⟨s2, o2⟩ := x
      rw [hemr] at hem
      obtain ⟨g2, e1, e2, e3, e4, ho2⟩ := hem
      have hinv2 : ∀ j, j < k → WRun s2 j := fun j hj => WRun_of_eq e1 e2 e3 (hinv j hj)
      have hadv := advanceRun_total fails es M k l s2 g2 hkM hlk hinv2 (by rw [e1]; exact hll)
      cases hadvr : advanceRun fails es l s2 with
      | stuck => rw [hadvr] at hadv; exact absurd hadv id
      | ret c w =>
        left
        refine ⟨Flow.ret c w, ?_, trivial⟩
        intro fuel
        rw [mergeLoop.eq_2, if_neg hi]
        simp only [h0, hfl, hemr, hadvr]
      | cont s3 =>
        rw [hadvr] at hadv
        obtain ⟨g3, e5, hinv3, hdec⟩ := hadv
        right
        refine ⟨s3, o2, ?_, g3, by rw [e5, e4], hinv3, ho2, ?_⟩
        · intro fuel
          rw [mergeLoop.eq_2, if_neg hi]
          simp only [h0, hfl, hemr, hadvr]
        · have hA : measA k s2 = measA k s := by unfold measA; rw [e1]
          have hB : measB k s2 = measB k s := by unfold measB; rw [e1, e2, e3]
          omega

theorem mergeLoop_converges (fails : Nat → Bool) (cmp : α → α → Int) (es : external_sort_t)
    (M k : Nat) (hRH : es.headerSize < es.record_size) (hkM : k ≤ M) :
    ∀ (a b : Nat) (s : MergeState α) (o : OutState α), GInv M s →
      (∀ j, j < k → WRun s j) → OutInv es o → measA k s ≤ a → measB k s ≤ b →
      Converges (fun fuel => mergeLoop fails cmp es k fuel s o)
        (fun x : MergeState α × OutState α =>
          GInv M x.1 ∧ x.1.numSublist = s.numSublist ∧ OutInv es x.2) := by
  intro a
  induction a using Nat.strong_induction_on with
  | _ a iha =>
    intro b
    induction b using Nat.strong_induction_on with
    | _ b ihb =>
      intro s o hg hinv ho hA hB
      rcases mergeLoop_step fails cmp es M k s o hRH hg hkM hinv ho with
        ⟨r, hr, hq⟩ | ⟨s3, o2, hstep, g3, e3, hinv3, ho2, hdec⟩
      · exact Converges.of_const r hr hq
      · apply Converges.of_step hstep
        rcases hdec with hd | ⟨hd1, hd2⟩
        · exact (iha (measA k s3) (by omega) (measB k s3) s3 o2 g3 hinv3 ho2 (le_refl _)
            (le_refl _)).mono (fun x hx => ⟨hx.1, by rw [hx.2.1, e3], hx.2.2⟩)
        · exact (ihb (measB k s3) (by omega) s3 o2 g3 hinv3 ho2 (by omega)
            (le_refl _)).mono (fun x hx => ⟨hx.1, by rw [hx.2.1, e3], hx.2.2⟩)

theorem mergeRuns_converges (fails : Nat → Bool) (cmp : α → α → Int) (es : external_sort_t)
    (M k : Nat) (s : MergeState α) (hRH : es.headerSize < es.record_size) (hkM : k ≤ M)
    (hg : GInv M s)
    (hrc : ∀ j, j < k → 0 < s.runCount.getD j 0 ∧ s.sublsTuplePos.getD j 0 = 0) :
    Converges (fun fuel => mergeRuns fails cmp es k fuel s)
      (fun s5 : MergeState α => GInv M s5 ∧ s5.numSublist = s.numSublist) := by
  have hl := loadFirstPages_total fails M k 0 s hg (by omega) (fun j hj => by omega)
  cases hlr : loadFirstPages fails k 0 s with
  | stuck => rw [hlr] at hl; exact absurd hl id
  | ret c w =>
    refine ⟨0, Flow.ret c w, ?_, trivial⟩
    intro fuel _
    show mergeRuns fails cmp es k fuel s = _
    unfold mergeRuns
    rw [hlr]
  | cont s3 =>
    rw [hlr] at hl
    obtain ⟨g3, e1, e2, e3, hbuf⟩ := hl
    have hinv : ∀ j, j < k → WRun s3 j := by
      intro j hj
      obtain ⟨cur, hc, hv⟩ := hbuf j (by omega)
      obtain ⟨h1, h2⟩ := hrc j hj
      right
      rw [e2, e3, h2]
      exact ⟨h1, cur, hc, hv, le_refl _, by have := hv.2; simp only [Int.toNat_zero]; omega⟩
    obtain ⟨f0, r, hr, hq⟩ := mergeLoop_converges fails cmp es M k hRH hkM _ _ s3
      ⟨[], es.headerSize, 0⟩ g3 hinv ⟨by simp, le_refl _⟩ (le_refl _) (le_refl _)
    dsimp only at hr
    cases r with
    | stuck => exact absurd hq id
    | ret c w =>
      refine ⟨f0, Flow.ret c w, ?_, trivial⟩
      intro fuel hf
      show mergeRuns fails cmp es k fuel s = _
      unfold mergeRuns
      rw [hlr]
      dsimp only
      rw [hr fuel hf]
    | cont x =>
      obtain ⟨s4, o4⟩ := x
      obtain ⟨g4, e4, ho4⟩ := hq
      dsimp only at g4 e4 ho4
      by_cases hpos : o4.bufferOutputPos > es.headerSize
      · have hlen : 1 ≤ o4.out.length := by
          rcases Nat.eq_zero_or_pos o4.out.length with h0 | h0
          · have := ho4.1
            rw [h0, Nat.zero_mul] at this
            omega
          · exact h0
        have hfl := flushPage_total fails es M s4 o4 hRH g4 ho4 hlen
        cases hflr : flushPage fails es s4 o4 with
        | stuck => rw [hflr] at hfl; exact absurd hfl id
        | ret c w =>
          refine ⟨f0, Flow.ret c w, ?_, trivial⟩
          intro fuel hf
          show mergeRuns fails cmp es k fuel s = _
          unfold mergeRuns
          rw [hlr]
          dsimp only
          rw [hr fuel hf]
          dsimp only
          rw [if_pos hpos, hflr]
        | cont y =>
          obtain ⟨s5, o5⟩ := y
          rw [hflr] at hfl
          refine ⟨f0, Flow.cont s5, ?_, hfl.1, ?_⟩
          · intro fuel hf
            show mergeRuns fails cmp es k fuel s = _
            unfold mergeRuns
            rw [hlr]
            dsimp only
            rw [hr fuel hf]
            dsimp only
            rw [if_pos hpos, hflr]
          · rw [hfl.2.2.2.2.1, e4, e1]
      · refine ⟨f0, Flow.cont s4, ?_, g4, by rw [e4, e1]⟩
        intro fuel hf
        show mergeRuns fails cmp es k fuel s = _
        unfold mergeRuns
        rw [hlr]
        dsimp only
        rw [hr fuel hf]
        dsimp only
        rw [if_neg hpos]

theorem mergeStep_converges (fails : Nat → Bool) (cmp : α → α → Int) (es : external_sort_t)
    (maxSub : Int) (M : Nat) (s : MergeState α) (hRH : es.headerSize < es.record_size)
    (hM : (M : Int) = maxSub) (hmax : 2 ≤ maxSub) (hn : 2 ≤ s.numSublist) (hg : GInv M s) :
    Converges (fun fuel => mergeStep fails cmp es maxSub fuel s)
      (fun s1 : MergeState α =>
        GInv M s1 ∧ 1 ≤ s1.numSublist ∧ s1.numSublist < s.numSublist) := by
  have hp := pickRuns_total fails es maxSub M hM maxSub.toNat 0 s (by omega) hg (by omega)
    (by omega) (fun j hj => by omega)
  cases hpr : pickRuns fails es maxSub maxSub.toNat 0 s with
  | stuck => rw [hpr] at hp; exact absurd hp id
  | ret c w =>
    refine ⟨0, Flow.ret c w, ?_, trivial⟩
    intro fuel _
    show mergeStep fails cmp es maxSub fuel s = _
    unfold mergeStep
    rw [hpr]
  | cont x =>
    obtain ⟨k, s1⟩ := x
    rw [hpr] at hp
    obtain ⟨g1, e1, hk1, hk2, hk3, hrc⟩ := hp
    dsimp only at g1 e1 hk1 hk2 hk3 hrc
    have hs2 : ∀ s2 : MergeState α,
        s2 = (if s1.newPass then
          { s1 with firstPartitionSize := s1.runCount.getD 0 0 + s1.runCount.getD 1 0,
                    newPass := false } else s1) →
        GInv M s2 ∧ s2.numSublist = s1.numSublist ∧ s2.runCount = s1.runCount ∧
          s2.sublsTuplePos = s1.sublsTuplePos := by
      intro s2 h2
      subst h2
      split <;> exact ⟨g1, rfl, rfl, rfl⟩
    obtain ⟨g2, e2, e3, e4⟩ := hs2 _ rfl
    obtain ⟨f0, r, hr, hq⟩ := mergeRuns_converges fails cmp es M k _ hRH (by omega) g2
      (by rw [e3, e4]; exact hrc)
    dsimp only at hr
    cases r with
    | stuck => exact absurd hq id
    | ret c w =>
      refine ⟨f0, Flow.ret c w, ?_, trivial⟩
      intro fuel hf
      show mergeStep fails cmp es maxSub fuel s = _
      unfold mergeStep
      rw [hpr]
      dsimp only
      rw [hr fuel hf]
    | cont s5 =>
      refine ⟨f0, Flow.cont { s5 with numSublist := s5.numSublist - k + 1 }, ?_, ?_⟩
      · intro fuel hf
        show mergeStep fails cmp es maxSub fuel s = _
        unfold mergeStep
        rw [hpr]
        dsimp only
        rw [hr fuel hf]
      · obtain ⟨g5, e5⟩ := hq
        refine ⟨g5, ?_, ?_⟩
        · show 1 ≤ s5.numSublist - k + 1
          rw [e5, e2, e1]; omega
        · show s5.numSublist - k + 1 < s.numSublist
          rw [e5, e2, e1]; omega

theorem mergePhase_converges (fails : Nat → Bool) (cmp : α → α → Int) (es : external_sort_t)
    (maxSub : Int) (M : Nat) (hRH : es.headerSize < es.record_size)
    (hM : (M : Int) = maxSub) (hmax : 2 ≤ maxSub) :
    ∀ (n : Nat) (s : MergeState α), s.numSublist ≤ n → GInv M s →
      ∃ fuel0 r, (∀ fuel m, fuel0 ≤ fuel → n ≤ m →
        mergePhase fails cmp es maxSub fuel m s = r) ∧ r ≠ Flow.stuck := by
  intro n
  induction n with
  | zero =>
    intro s hn hg
    refine ⟨0, Flow.cont s, ?_, by simp⟩
    intro fuel m _ _
    cases m with
    | zero => rw [mergePhase, if_neg (by omega)]
    | succ m => rw [mergePhase, if_neg (by omega)]
  | succ n ih =>
    intro s hn hg
    by_cases h1 : s.numSublist > 1
    · obtain ⟨f1, r1, hr1, hq1⟩ := mergeStep_converges fails cmp es maxSub M s hRH hM hmax
        (by omega) hg
      dsimp only at hr1
      cases r1 with
      | stuck => exact absurd hq1 id
      | ret c w =>
        refine ⟨f1, Flow.ret c w, ?_, by simp⟩
        intro fuel m hf hm
        obtain ⟨m', rfl⟩ : ∃ m', m = m' + 1 := ⟨m - 1, by omega⟩
        rw [mergePhase, if_pos h1, hr1 fuel hf]
      | cont s1 =>
        obtain ⟨g1, hlo, hhi⟩ := hq1
        obtain ⟨f2, r, hr, hne⟩ := ih s1 (by push_cast at hn; omega) g1
        refine ⟨max f1 f2, r, ?_, hne⟩
        intro fuel m hf hm
        obtain ⟨m', rfl⟩ : ∃ m', m = m' + 1 := ⟨m - 1, by omega⟩
        rw [mergePhase, if_pos h1, hr1 fuel (le_trans (le_max_left _ _) hf)]
        exact hr fuel m' (le_trans (le_max_right _ _) hf) (by omega)
    · refine ⟨0, Flow.cont s, ?_, by simp⟩
      intro fuel m _ _
      cases m with
      | zero => rw [mergePhase, if_neg h1]
      | succ m => rw [mergePhase, if_neg h1]

theorem maxSublistsInRun_le (bufferSizeInBlocks : Nat)
    (h : 2 ≤ maxSublistsInRun bufferSizeInBlocks) :
    (maxSublistsInRun bufferSizeInBlocks).toNat ≤ bufferSizeInBlocks := by
  unfold maxSublistsInRun toInt8 at *
  omega

theorem initMerge_inv (es : external_sort_t) (bufferSizeInBlocks : Nat) (g : GenState α)
    (h : 2 ≤ maxSublistsInRun bufferSizeInBlocks) (hfile : FileValid g.w.file) :
    GInv (maxSublistsInRun bufferSizeInBlocks).toNat (initMerge es bufferSizeInBlocks g) := by
  refine ⟨hfile, ?_, ?_, ?_, ?_⟩
  · show _ ≤ (List.replicate _ (0 : Int)).length
    rw [List.length_replicate]
  · show _ ≤ (List.replicate _ (0 : Int)).length
    rw [List.length_replicate]
  · show _ ≤ (List.replicate _ (0 : Int)).length
    rw [List.length_replicate]
  · show _ ≤ (List.replicate bufferSizeInBlocks (none : Option (Page α))).length
    rw [List.length_replicate]
    exact maxSublistsInRun_le _ h

/-- On the supported configurations the sort returns: from some amount of fuel
on, the model delivers one and the same outcome. -/
theorem sort_returns (sort : List α → List α) (cmp : α → α → Int) (fails : Nat → Bool)
    (alloc : Alloc) (es : external_sort_t) (bufferSizeInBlocks : Nat) (input : List α)
    (w0 : World α) (hsort : ∀ l, (sort l).length = l.length)
    (hRH : es.headerSize < es.record_size)
    (hB : 2 ≤ maxSublistsInRun bufferSizeInBlocks)
    (halloc : alloc.sublsTuplePos = true → alloc.runOffset = true ∧ alloc.runCount = true)
    (hfile : FileValid w0.file) :
    ∃ fuel0 o, ∀ fuel, fuel0 ≤ fuel →
      extern_merge_sort_iterator_block fuel sort cmp fails alloc es bufferSizeInBlocks
        input w0 = some o := by
  obtain ⟨f1, r1, hr1, hq1⟩ := genLoop_converges fails sort es hsort input.length
    { iter := input, numRecordsRead := bufferSizeInBlocks * tuplesPerPage es,
      lastWritePos := 0, numSublist := 0, w := w0 } (le_refl _) hfile (by
      show bufferSizeInBlocks * tuplesPerPage es = 0 ∨ 1 ≤ tuplesPerPage es
      rcases Nat.eq_zero_or_pos (tuplesPerPage es) with h | h
      · left; rw [h, Nat.mul_zero]
      · right; exact h)
  dsimp only at hr1
  cases r1 with
  | stuck => exact absurd hq1 id
  | ret c w =>
    refine ⟨f1, ⟨c, none, w⟩, ?_⟩
    intro fuel hf
    unfold extern_merge_sort_iterator_block
    dsimp only
    rw [hr1 fuel hf]
  | cont g =>
    by_cases h1 : g.numSublist = 1
    · refine ⟨f1, ⟨0, some 0, g.w⟩, ?_⟩
      intro fuel hf
      unfold extern_merge_sort_iterator_block
      dsimp only
      rw [hr1 fuel hf]
      dsimp only
      rw [if_pos h1]
    · by_cases h2 : ¬ (alloc.sublsTuplePos = true ∧ 0 ≤ maxSublistsInRun bufferSizeInBlocks)
      · refine ⟨f1, ⟨8, none, g.w⟩, ?_⟩
        intro fuel hf
        unfold extern_merge_sort_iterator_block
        dsimp only
        rw [hr1 fuel hf]
        dsimp only
        rw [if_neg h1, if_pos h2]
      · have h3 : ¬ (g.numSublist > 1 ∧ ¬ (alloc.runOffset = true ∧ alloc.runCount = true)) := by
          intro h
          exact h.2 (halloc (not_not.mp h2).1)
        obtain ⟨f2, r, hr, hne⟩ := mergePhase_converges fails cmp es
          (maxSublistsInRun bufferSizeInBlocks) (maxSublistsInRun bufferSizeInBlocks).toNat
          hRH (Int.toNat_of_nonneg (by omega)) hB g.numSublist
          (initMerge es bufferSizeInBlocks g) (le_refl _)
          (initMerge_inv es bufferSizeInBlocks g hB hq1)
        cases r with
        | stuck => exact absurd rfl hne
        | ret c w =>
          refine ⟨max f1 (max f2 g.numSublist), ⟨c, none, w⟩, ?_⟩
          intro fuel hf
          unfold extern_merge_sort_iterator_block
          dsimp only
          rw [hr1 fuel (by omega)]
          dsimp only
          rw [if_neg h1, if_neg h2, if_neg h3, hr fuel fuel (by omega) (by omega)]
        | cont s =>
          refine ⟨max f1 (max f2 g.numSublist), ⟨0, some s.ptrNextFirst, s.w⟩, ?_⟩
          intro fuel hf
          unfold extern_merge_sort_iterator_block
          dsimp only
          rw [hr1 fuel (by omega)]
          dsimp only
          rw [if_neg h1, if_neg h2, if_neg h3, hr fuel fuel (by omega) (by omega)]

theorem FileValid_nil : FileValid ([] : List (Int × Page α)) := by
  intro off pg h
  simp at h

/-- C7: with every page write and page read of the scratch file able to fail,
whatever the sort returns obeys the error table: the code is 9 exactly when the
first failed file operation is a page write, 10 exactly when it is a page read,
that failed operation is the last file operation of the call (nothing is written
or read after it), and the code is 0 when no file operation failed and the
allocation succeeded.  And the sort does return: for records larger than the page
header, a buffer of 3 to 128 pages, a sort adapter that keeps the number of
records and a scratch file of well-formed pages, every run of the call ends with
an outcome, whichever operations fail. -/
theorem C7_error_codes (sort : List α → List α) (cmp : α → α → Int) (fails : Nat → Bool)
    (alloc : Alloc) (es : external_sort_t) (bufferSizeInBlocks : Nat) (input : List α)
    (w0 : World α) (hclean : Clean w0.log) :
    (∀ fuel o,
      extern_merge_sort_iterator_block fuel sort cmp fails alloc es bufferSizeInBlocks
        input w0 = some o →
      (o.code = 9 ↔ ∃ off, firstFailure o.w.log = some (Event.writeFail off)) ∧
      (o.code = 10 ↔ ∃ off, firstFailure o.w.log = some (Event.readFail off)) ∧
      (∀ e, firstFailure o.w.log = some e → o.w.log.head? = some e) ∧
      (firstFailure o.w.log = none → alloc.sublsTuplePos = true →
        0 ≤ maxSublistsInRun bufferSizeInBlocks → o.code = 0)) ∧
    ((∀ l, (sort l).length = l.length) → es.headerSize < es.record_size →
      2 ≤ maxSublistsInRun bufferSizeInBlocks →
      (alloc.sublsTuplePos = true → alloc.runOffset = true ∧ alloc.runCount = true) →
      FileValid w0.file →
      ∃ fuel0 o, ∀ fuel, fuel0 ≤ fuel →
        extern_merge_sort_iterator_block fuel sort cmp fails alloc es bufferSizeInBlocks
          input w0 = some o) :=
  ⟨fun fuel o h =>
      error_codes_sound fuel sort cmp fails alloc es bufferSizeInBlocks input w0 o hclean h,
   fun hsort hRH hB halloc hfile =>
      sort_returns sort cmp fails alloc es bufferSizeInBlocks input w0 hsort hRH hB halloc hfile⟩

/-- C7 (witness): ten keys, two runs, `T = 2`, `B = 3`, the fifth file operation failing. -/
theorem C7_error_codes_witness :
    Clean (emptyWorld : World Nat).log ∧
    ∃ fuel0 o, ∀ fuel, fuel0 ≤ fuel →
      extern_merge_sort_iterator_block fuel sortKeys compareKeys (fun n => decide (n = 4))
        allocOk ⟨40, 6, 16⟩ 3 [5, 3, 8, 1, 9, 2, 7, 4, 6, 0] emptyWorld = some o :=
  ⟨fun e he => by simp [emptyWorld] at he,
   (C7_error_codes sortKeys compareKeys (fun n => decide (n = 4)) allocOk ⟨40, 6, 16⟩ 3
      [5, 3, 8, 1, 9, 2, 7, 4, 6, 0] emptyWorld (fun e he => by simp [emptyWorld] at he)).2
      (fun l => List.length_insertionSort _ l) (by decide) (by decide)
      (fun _ => ⟨rfl, rfl⟩) FileValid_nil⟩

/-! ## One merge step, from start to end -/

theorem demoState_file : FileValid demoState.w.file := by
  show FileValid [((0 : Int), (⟨0, 2, [1, 4]⟩ : Page Nat)), (40, ⟨1, 1, [6]⟩), (80, ⟨0, 2, [2, 3]⟩)]
  exact ((FileValid_nil.write 80 ⟨0, 2, [2, 3]⟩ ⟨by decide, by decide⟩ (by decide)).write 40
    ⟨1, 1, [6]⟩ ⟨by decide, by decide⟩ (by decide)).write 0 ⟨0, 2, [1, 4]⟩
    ⟨by decide, by decide⟩ (by decide)

/-- C9: one merge step over the `k` input runs that run pickup left in
`runOffset[j]`, `runCount[j]` (arrays of at least `k` entries, a buffer of at
least `k` input pages), every input run stored in the file with valid headers and
internally sorted, the comparator a total preorder, `headerSize < record_size`,
and a page header with room for `block_index` and `record_count` (6 bytes), which
the step stores in the first 6 bytes of the output page after the records were
copied into it.  When all pages of the scratch file have valid headers the step comes to its end,
with an error code or with the merged run, whichever file operations fail.  And
when the step has run to its end and none of its page writes hit an input page
that was not yet loaded, the records of the pages the step wrote, in the order
written, are in non-decreasing order and are a permutation of the records of the
input runs. -/
theorem C9_merge_step_sorted_permutation (fails : Nat → Bool) (cmp : α → α → Int)
    (es : external_sort_t) (k : Nat) (s : MergeState α) (runs : Nat → List (Page α))
    (htot : ∀ a b, cmp a b ≤ 0 ∨ cmp b a ≤ 0)
    (htrans : ∀ a b c, cmp a b ≤ 0 → cmp b c ≤ 0 → cmp a c ≤ 0)
    (hRH : es.headerSize < es.record_size) (hH : 6 ≤ es.headerSize)
    (hkO : k ≤ s.runOffset.length) (hkC : k ≤ s.runCount.length)
    (hkP : k ≤ s.sublsTuplePos.length) (hkB : k ≤ s.buffer.length)
    (hready : ∀ j, j < k → RunReady es s (runs j) j)
    (hsorted : ∀ j, j < k → List.Sorted (leq cmp) (runRecords (runs j))) :
    (FileValid s.w.file → ∃ fuel0 r, r ≠ Flow.stuck ∧
      ∀ fuel, fuel0 ≤ fuel → mergeRuns fails cmp es k fuel s = r) ∧
    (∀ fuel s', mergeRuns fails cmp es k fuel s = Flow.cont s' →
      pendingAfter (newEvents s.w.log s'.w.log).reverse (inputOffsets es s runs k) ≠ none →
      List.Sorted (leq cmp)
        (runRecords ((writtenPages (newEvents s.w.log s'.w.log)).map Prod.snd)) ∧
      (runRecords ((writtenPages (newEvents s.w.log s'.w.log)).map Prod.snd)).Perm
        ((List.range k).flatMap (fun j => runRecords (runs j)))) := by
  have _ := hH
  constructor
  · intro hfile
    obtain ⟨f0, r, hr, hq⟩ := mergeRuns_converges fails cmp es k k s hRH (le_refl _)
      ⟨hfile, hkO, hkC, hkP, hkB⟩ (fun j hj => by
        obtain ⟨h1, h2, h3, _, _⟩ := hready j hj
        refine ⟨?_, h3⟩
        rw [h1]
        have : 0 < (runs j).length := List.length_pos.mpr h2
        omega)
    refine ⟨f0, r, ?_, hr⟩
    intro h
    rw [h] at hq
    exact hq
  · intro fuel s' hres hno
    exact mergeRuns_sorted_permutation fails cmp es k fuel s s' runs htot htrans hRH hkO hkC
      hkP hkB hready hsorted hres hno

/-- C9 (witness): merging the runs [2,3] and [1,4 | 6] of `demoState`. -/
theorem C9_merge_step_witness :
    (∃ fuel0 r, r ≠ Flow.stuck ∧
      ∀ fuel, fuel0 ≤ fuel → mergeRuns noFailure compareKeys ⟨40, 6, 16⟩ 2 fuel demoState = r) ∧
    mergeRuns noFailure compareKeys ⟨40, 6, 16⟩ 2 10 demoState = Flow.cont demoResult ∧
    pendingAfter (newEvents demoState.w.log demoResult.w.log).reverse
      (inputOffsets ⟨40, 6, 16⟩ demoState demoRuns 2) ≠ none ∧
    List.Sorted (leq compareKeys)
      (runRecords ((writtenPages (newEvents demoState.w.log demoResult.w.log)).map Prod.snd)) ∧
    (runRecords ((writtenPages (newEvents demoState.w.log demoResult.w.log)).map Prod.snd)).Perm
      ((List.range 2).flatMap (fun j => runRecords (demoRuns j))) :=
  ⟨(C9_merge_step_sorted_permutation noFailure compareKeys ⟨40, 6, 16⟩ 2 demoState
      demoRuns compareKeys_total compareKeys_trans (by decide) (by decide) (by decide)
      (by decide) (by decide) (by decide) demoRuns_ready demoRuns_sorted).1 demoState_file,
   by decide!, by decide!,
   (C9_merge_step_sorted_permutation noFailure compareKeys ⟨40, 6, 16⟩ 2 demoState
      demoRuns compareKeys_total compareKeys_trans (by decide) (by decide) (by decide)
      (by decide) (by decide) (by decide) demoRuns_ready demoRuns_sorted).2 10 demoResult
      (by decide!) (by decide!)⟩

/-! ## Run generation -/

theorem range_succ_map {β : Type} (f : Nat → β) (n : Nat) :
    (List.range (n + 1)).map f = f 0 :: (List.range n).map (fun (k : Nat) => f (k + 1)) := by
  rw [List.range_succ_eq_map, List.map_cons, List.map_map]
  rfl

theorem writeFullPages_pages (fails : Nat → Bool) (hw : ∀ k, fails k = false)
    (es : external_sort_t) (sorted : List α) (n : Nat) :
    ∀ (i : Nat) (pos : Int) (w : World α),
    ∃ w1, writeFullPages fails es sorted n i pos w
        = Flow.cont (i + n, pos + n * es.page_size, w1) ∧
      w1.metric = w.metric ∧ w1.log.filter isFileRead = w.log.filter isFileRead ∧
      writtenPages w1.log = writtenPages w.log ++ (List.range n).map (fun (k : Nat) =>
        (pos + (k : Int) * es.page_size,
         (⟨((i + k : Nat) : Int), tuplesPerPage es,
           (sorted.drop ((i + k) * tuplesPerPage es)).take (tuplesPerPage es)⟩ : Page α))) := by
  induction n with
  | zero => intro i pos w; exact ⟨w, by simp [writeFullPages], rfl, rfl, by simp⟩
  | succ n ih =>
    intro i pos w
    obtain ⟨w1, h1, hm, hr, hp⟩ := ih (i + 1) (pos + es.page_size)
      { w with file := (pos, ⟨i, tuplesPerPage es, (sorted.drop (i * tuplesPerPage es)).take
                  (tuplesPerPage es)⟩) :: w.file,
               ops := w.ops + 1,
               log := Event.write pos ⟨i, tuplesPerPage es,
                  (sorted.drop (i * tuplesPerPage es)).take (tuplesPerPage es)⟩ :: w.log }
    refine ⟨w1, ?_, by simpa using hm, by simpa [isFileRead] using hr, ?_⟩
    · rw [writeFullPages]
      simp only [fwrite_ok fails hw]
      rw [h1]
      congr 2
      · omega
      · push_cast; ring_nf
    · rw [hp, range_succ_map]
      simp only [writtenPages, List.append_assoc, List.singleton_append, Nat.add_zero,
        Nat.cast_zero, zero_mul, add_zero]
      congr 2
      apply List.map_congr_left
      intro k _
      have e1 : i + 1 + k = i + (k + 1) := by omega
      rw [e1]
      congr 1
      push_cast; ring

theorem genLoop_iter (fails : Nat → Bool) (hw : ∀ k, fails k = false)
    (sort : List α → List α) (es : external_sort_t) (fuel : Nat) (s : GenState α)
    (chunk it : List α) (status : Nat) (w1 : World α)
    (hfill : fillBuffer s.numRecordsRead s.iter [] 0 s.w = (chunk, it, status, w1))
    (hm : 1 ≤ chunk.length) (hT : 1 ≤ tuplesPerPage es) :
    ∃ w4, genLoop fails sort es (fuel + 1) s
        = (if status = 1 then
            genLoop fails sort es fuel ⟨it, chunk.length,
              s.lastWritePos + (((chunk.length + tuplesPerPage es - 1) / tuplesPerPage es : Nat) : Int)
                * es.page_size, s.numSublist + 1, w4⟩
          else
            Flow.cont ⟨it, chunk.length,
              s.lastWritePos + (((chunk.length + tuplesPerPage es - 1) / tuplesPerPage es : Nat) : Int)
                * es.page_size, s.numSublist + 1, w4⟩) ∧
      writtenPages w4.log
        = writtenPages w1.log ++ runLayout es s.lastWritePos chunk.length (sort chunk) ∧
      w4.log.filter isFileRead = w1.log.filter isFileRead := by
  obtain ⟨hq1, hq2, hq3⟩ := ceil_pages chunk.length (tuplesPerPage es) hT hm
  generalize hpio : (chunk.length + tuplesPerPage es - 1) / tuplesPerPage es = pageio at hq1 hq2 hq3
  obtain ⟨w3, h3, hm3, hr3, hp3⟩ := writeFullPages_pages fails hw es (sort chunk) (pageio - 1) 0
    s.lastWritePos { w1 with metric := w1.metric.addReads pageio }
  have hlen : chunk.length ≠ 0 := by omega
  have hpos : s.lastWritePos + ((pageio - 1 : Nat) : Int) * (es.page_size : Int) + es.page_size
      = s.lastWritePos + (pageio : Int) * es.page_size := by
    have : ((pageio - 1 : Nat) : Int) = (pageio : Int) - 1 := by omega
    rw [this]; ring
  refine ⟨⟨(s.lastWritePos + ((pageio - 1 : Nat) : Int) * (es.page_size : Int),
        ⟨((0 + (pageio - 1) : Nat) : Int),
          (chunk.length : Int) - (tuplesPerPage es : Int) * ((0 + (pageio - 1) : Nat) : Int),
          ((sort chunk).drop ((0 + (pageio - 1)) * tuplesPerPage es)).take (tuplesPerPage es)⟩)
        :: w3.file, w3.metric.addWrites pageio, w3.ops + 1,
      Event.write (s.lastWritePos + ((pageio - 1 : Nat) : Int) * (es.page_size : Int))
        ⟨((0 + (pageio - 1) : Nat) : Int),
          (chunk.length : Int) - (tuplesPerPage es : Int) * ((0 + (pageio - 1) : Nat) : Int),
          ((sort chunk).drop ((0 + (pageio - 1)) * tuplesPerPage es)).take (tuplesPerPage es)⟩
        :: w3.log⟩, ?_, ?_, ?_⟩
  · rw [genLoop.eq_2, hfill]
    simp only [hlen, if_false, hpio, h3, fwrite_ok fails hw, hpos]
  · show writtenPages (Event.write _ _ :: w3.log) = _
    rw [writtenPages, hp3]
    unfold runLayout
    simp only [hpio]
    obtain ⟨q, rfl⟩ : ∃ q, pageio = q + 1 := ⟨pageio - 1, by omega⟩
    simp only [Nat.add_sub_cancel, Nat.zero_add]
    rw [List.range_succ, List.map_append, List.append_assoc]
    congr 1
    simp only [List.map_cons, List.map_nil, Nat.lt_irrefl, if_false]
    congr 1
    apply List.map_congr_left
    intro k hk
    rw [List.mem_range] at hk
    simp only [show k + 1 < q + 1 from by omega, if_true]
  · show List.filter isFileRead (Event.write _ _ :: w3.log) = _
    simp only [List.filter_cons, isFileRead]
    simpa using hr3

theorem fillBuffer_eq (n : Nat) : ∀ (it acc : List α) (st : Nat) (w : World α),
    ∃ w1, fillBuffer n it acc st w
        = (acc ++ it.take n, it.drop n,
            (if it.length < n then 0 else if n = 0 then st else 1), w1) ∧
      writtenPages w1.log = writtenPages w.log ∧
      w1.log.filter isFileRead = w.log.filter isFileRead := by
  induction n with
  | zero =>
    intro it acc st w
    exact ⟨w, by simp [fillBuffer], rfl, rfl⟩
  | succ n ih =>
    intro it acc st w
    cases it with
    | nil =>
      exact ⟨{ w with log := Event.iter 0 :: w.log }, by simp [fillBuffer],
        by simp [writtenPages], by simp [isFileRead]⟩
    | cons x xs =>
      obtain ⟨w1, h1, hl, hr⟩ := ih xs (acc ++ [x]) 1 { w with log := Event.iter 1 :: w.log }
      refine ⟨w1, ?_, by simpa [writtenPages] using hl, by simpa [isFileRead] using hr⟩
      rw [fillBuffer, h1]
      simp only [List.length_cons, List.append_assoc, List.singleton_append,
        Nat.add_lt_add_iff_right, List.take_succ_cons, List.drop_succ_cons, Nat.add_one_ne_zero,
        if_false]
      by_cases hx : xs.length < n
      · simp [hx]
      · by_cases h0 : n = 0 <;> simp [hx, h0]

theorem flatMap_range_succ {β : Type} (f : Nat → List β) (n : Nat) :
    (List.range (n + 1)).flatMap f = f 0 ++ (List.range n).flatMap (fun j => f (j + 1)) := by
  rw [List.range_succ_eq_map, List.flatMap_cons, List.flatMap_map]

theorem runLayout_length (es : external_sort_t) (off : Int) (m : Nat) (sorted : List α) :
    (runLayout es off m sorted).length = (m + tuplesPerPage es - 1) / tuplesPerPage es := by
  unfold runLayout
  simp

theorem ceil_zero (n N : Nat) (hN : 1 ≤ N) (h : (n + N - 1) / N = 0) : n = 0 := by
  have := (Nat.div_eq_zero_iff (by omega)).mp h
  omega

theorem ceil_step (n N : Nat) (hN : 1 ≤ N) (hn : N ≤ n) :
    (n + N - 1) / N = (n - N + N - 1) / N + 1 := by
  have e : n + N - 1 = (n - N + N - 1) + N := by omega
  rw [e, Nat.add_div_right _ (by omega)]

theorem ceil_one (n N : Nat) (hn : 1 ≤ n) (hlt : n < N) : (n + N - 1) / N = 1 := by
  apply Nat.le_antisymm
  · have : (n + N - 1) / N < 2 := (Nat.div_lt_iff_lt_mul (by omega)).mpr (by omega)
    omega
  · exact (Nat.le_div_iff_mul_le (by omega)).mpr (by omega)

theorem ceil_full (B T : Nat) (hT : 1 ≤ T) : (B * T + T - 1) / T = B := by
  have e : B * T + T - 1 = (T - 1) + B * T := by omega
  rw [e, Nat.add_mul_div_right _ _ (by omega), Nat.div_eq_of_lt (by omega), Nat.zero_add]

theorem genLayout_nil (es : external_sort_t) (sort : List α → List α) (B : Nat) (base : Int)
    (hN : 1 ≤ B * tuplesPerPage es) : genLayout es sort B base [] = [] := by
  unfold genLayout
  have : (([] : List α).length + B * tuplesPerPage es - 1) / (B * tuplesPerPage es) = 0 := by
    simp only [List.length_nil, Nat.zero_add]
    exact Nat.div_eq_of_lt (by omega)
  simp only [this, List.range_zero, List.flatMap_nil]

theorem genLayout_cons (es : external_sort_t) (sort : List α → List α) (B : Nat) (base : Int)
    (input : List α) (hN : 1 ≤ B * tuplesPerPage es) (hlen : B * tuplesPerPage es ≤ input.length) :
    genLayout es sort B base input
      = runLayout es base (B * tuplesPerPage es) (sort (input.take (B * tuplesPerPage es))) ++
        genLayout es sort B (base + (B : Int) * es.page_size)
          (input.drop (B * tuplesPerPage es)) := by
  unfold genLayout
  dsimp only
  rw [ceil_step _ _ hN hlen, flatMap_range_succ]
  simp only [Nat.zero_mul, List.drop_zero, Nat.cast_zero, zero_mul, add_zero, List.length_take,
    List.length_drop]
  congr 1
  · rw [Nat.min_eq_left hlen]
  · apply flatMap_range_congr
    intro j _
    have e1 : (j + 1) * (B * tuplesPerPage es) = B * tuplesPerPage es + j * (B * tuplesPerPage es) := by
      ring
    have e2 : base + ((j + 1 : Nat) : Int) * (B : Int) * (es.page_size : Int)
        = base + (B : Int) * es.page_size + (j : Int) * B * es.page_size := by
      push_cast; ring
    rw [e2, List.drop_drop, e1]
    rw [Nat.sub_sub]

theorem genLayout_last (es : external_sort_t) (sort : List α → List α) (B : Nat) (base : Int)
    (input : List α) (hn : 1 ≤ input.length) (hlen : input.length < B * tuplesPerPage es) :
    genLayout es sort B base input = runLayout es base input.length (sort input) := by
  unfold genLayout
  dsimp only
  rw [ceil_one _ _ hn hlen, show List.range 1 = [0] from rfl]
  simp only [List.flatMap_cons, List.flatMap_nil, List.append_nil, Nat.zero_mul,
    List.drop_zero, Nat.cast_zero, zero_mul, add_zero]
  rw [List.take_of_length_le (by omega)]

theorem genLoop_runs (fails : Nat → Bool) (hw : ∀ k, fails k = false)
    (sort : List α → List α) (es : external_sort_t) (B : Nat) (hB : 1 ≤ B)
    (hT : 1 ≤ tuplesPerPage es) :
    ∀ (r : Nat) (s : GenState α), s.numRecordsRead = B * tuplesPerPage es →
      (s.iter.length + B * tuplesPerPage es - 1) / (B * tuplesPerPage es) = r →
      ∀ fuel, r + 1 ≤ fuel →
      ∃ g, genLoop fails sort es fuel s = Flow.cont g ∧
        g.numSublist = s.numSublist + r ∧
        writtenPages g.w.log
          = writtenPages s.w.log ++ genLayout es sort B s.lastWritePos s.iter ∧
        g.lastWritePos
          = s.lastWritePos + (es.page_size : Int) * (genLayout es sort B s.lastWritePos s.iter).length ∧
        g.w.log.filter isFileRead = s.w.log.filter isFileRead := by
  have hN : 1 ≤ B * tuplesPerPage es := Nat.mul_pos hB hT
  intro r
  induction r with
  | zero =>
    intro s hnr hr fuel hf
    obtain ⟨f, rfl⟩ : ∃ f, fuel = f + 1 := ⟨fuel - 1, by omega⟩
    have hlen := ceil_zero _ _ hN hr
    have hit : s.iter = [] := List.length_eq_zero.mp hlen
    obtain ⟨w1, h1, hl1, hr1⟩ := fillBuffer_eq s.numRecordsRead s.iter [] 0 s.w
    rw [hit] at h1
    refine ⟨{ s with iter := [], w := w1 }, ?_, rfl, ?_, ?_, hr1⟩
    · rw [genLoop.eq_2, hit, h1]
      simp
    · rw [hit, genLayout_nil es sort B _ hN, List.append_nil]; exact hl1
    · rw [hit, genLayout_nil es sort B _ hN]; simp
  | succ r ih =>
    intro s hnr hr fuel hf
    obtain ⟨f, rfl⟩ : ∃ f, fuel = f + 1 := ⟨fuel - 1, by omega⟩
    have hpos : 1 ≤ s.iter.length := by
      rcases Nat.eq_zero_or_pos s.iter.length with h0 | h0
      · rw [h0, Nat.zero_add, Nat.div_eq_of_lt (by omega)] at hr
        omega
      · exact h0
    obtain ⟨w1, h1, hl1, hr1⟩ := fillBuffer_eq s.numRecordsRead s.iter [] 0 s.w
    rw [List.nil_append, hnr] at h1
    have hN0 : B * tuplesPerPage es ≠ 0 := by omega
    by_cases hlt : s.iter.length < B * tuplesPerPage es
    · simp only [hlt, if_true] at h1
      have hr0 : r = 0 := by
        rw [ceil_one _ _ hpos hlt] at hr
        omega
      subst hr0
      have htake : s.iter.take (B * tuplesPerPage es) = s.iter :=
        List.take_of_length_le (by omega)
      rw [htake] at h1
      rw [← hnr] at h1
      obtain ⟨w4, h4, hp4, hr4⟩ := genLoop_iter fails hw sort es f s s.iter _ 0 w1 h1 hpos hT
      simp only [Nat.zero_ne_one, if_false] at h4
      refine ⟨_, h4, rfl, ?_, ?_, ?_⟩
      · rw [hp4, hl1, genLayout_last es sort B _ _ hpos hlt]
      · show s.lastWritePos + _ = _
        rw [genLayout_last es sort B _ _ hpos hlt, runLayout_length]
        ring
      · show w4.log.filter isFileRead = _
        rw [hr4, hr1]
    · simp only [hlt, if_false, hN0] at h1
      have hge : B * tuplesPerPage es ≤ s.iter.length := by omega
      have htl : (s.iter.take (B * tuplesPerPage es)).length = B * tuplesPerPage es := by
        rw [List.length_take]; omega
      rw [← hnr] at h1
      obtain ⟨w4, h4, hp4, hr4⟩ := genLoop_iter fails hw sort es f s _ _ 1 w1 h1
        (by rw [hnr, htl]; omega) hT
      simp only [if_true] at h4
      rw [hnr, htl, ceil_full B _ hT] at h4
      rw [hnr, htl] at hp4
      obtain ⟨g, hg, hns, hpg, hlw, hrg⟩ := ih
        ⟨s.iter.drop (B * tuplesPerPage es), B * tuplesPerPage es,
          s.lastWritePos + (B : Int) * es.page_size, s.numSublist + 1, w4⟩ rfl
        (by
          show ((s.iter.drop (B * tuplesPerPage es)).length + B * tuplesPerPage es - 1)
            / (B * tuplesPerPage es) = r
          rw [List.length_drop]
          have := ceil_step _ _ hN hge
          omega) f (by omega)
      refine ⟨g, by rw [h4]; exact hg, by rw [hns]; show s.numSublist + 1 + r = _; omega,
        ?_, ?_, ?_⟩
      · rw [hpg, hp4, hl1, genLayout_cons es sort B _ _ hN hge, List.append_assoc]
      · rw [hlw, genLayout_cons es sort B _ _ hN hge, List.length_append, runLayout_length,
          ceil_full B _ hT]
        show s.lastWritePos + (B : Int) * es.page_size + _ = _
        push_cast; ring
      · rw [hrg]
        show w4.log.filter isFileRead = _
        rw [hr4, hr1]

theorem runLayout_get (es : external_sort_t) (off : Int) (m : Nat) (sorted : List α) (k : Nat)
    (x : Int × Page α) (h : (runLayout es off m sorted)[k]? = some x) :
    k < (m + tuplesPerPage es - 1) / tuplesPerPage es ∧
    x.1 = off + (k : Int) * es.page_size ∧ x.2.blockIndex = k ∧
    (k + 1 < (m + tuplesPerPage es - 1) / tuplesPerPage es →
      x.2.recordCount = tuplesPerPage es) ∧
    (k + 1 = (m + tuplesPerPage es - 1) / tuplesPerPage es →
      x.2.recordCount = (m : Int) - (tuplesPerPage es : Int) * (k : Int)) ∧
    x.2.records = (sorted.drop (k * tuplesPerPage es)).take (tuplesPerPage es) := by
  unfold runLayout at h
  simp only [List.getElem?_map, Option.map_eq_some'] at h
  obtain ⟨a, ha, rfl⟩ := h
  rw [List.getElem?_eq_some_iff] at ha
  obtain ⟨hlt, hak⟩ := ha
  rw [List.length_range] at hlt
  rw [List.getElem_range] at hak
  subst hak
  refine ⟨hlt, rfl, rfl, ?_, ?_, rfl⟩
  · intro h1
    simp only [h1, if_true]
  · intro h1
    have : ¬ (k + 1 < (m + tuplesPerPage es - 1) / tuplesPerPage es) := by omega
    simp only [this, if_false]
    rw [← h1]
    simp

/-- C14: when an iteration of the run-generation loop has read a chunk of `m ≥ 1`
records (as it does for every `1 ≤ m ≤ B * T`) and no write fails, the iteration
writes exactly `⌈m/T⌉` pages for that run, from the write cursor on, and goes on
to the next iteration or leaves the loop; the `k`-th of these pages carries
`block_index = k`; the pages before the last carry `record_count = T` and the last
carries `record_count = m - T * (⌈m/T⌉ - 1)`, which lies in `1..T`. -/
theorem C14_pages_of_one_run (fails : Nat → Bool) (sort : List α → List α)
    (es : external_sort_t) (fuel : Nat) (s : GenState α) (chunk it : List α) (status : Nat)
    (w1 : World α) (hw : ∀ k, fails k = false)
    (hfill : fillBuffer s.numRecordsRead s.iter [] 0 s.w = (chunk, it, status, w1))
    (hm : 1 ≤ chunk.length) (hT : 1 ≤ tuplesPerPage es) :
    ∃ w4 pages,
      genLoop fails sort es (fuel + 1) s
        = (if status = 1 then
            genLoop fails sort es fuel ⟨it, chunk.length,
              s.lastWritePos + (((chunk.length + tuplesPerPage es - 1) / tuplesPerPage es : Nat) : Int)
                * es.page_size, s.numSublist + 1, w4⟩
          else
            Flow.cont ⟨it, chunk.length,
              s.lastWritePos + (((chunk.length + tuplesPerPage es - 1) / tuplesPerPage es : Nat) : Int)
                * es.page_size, s.numSublist + 1, w4⟩) ∧
      writtenPages w4.log = writtenPages w1.log ++ pages ∧
      pages.length = (chunk.length + tuplesPerPage es - 1) / tuplesPerPage es ∧
      (∀ (k : Nat) (x : Int × Page α), pages[k]? = some x →
        x.1 = s.lastWritePos + (k : Int) * es.page_size ∧ x.2.blockIndex = k ∧
        (k + 1 < pages.length → x.2.recordCount = tuplesPerPage es) ∧
        (k + 1 = pages.length →
          x.2.recordCount = (chunk.length : Int) - (tuplesPerPage es : Int) * ((pages.length - 1 : Nat) : Int))) ∧
      1 ≤ (chunk.length : Int) - (tuplesPerPage es : Int) * ((pages.length - 1 : Nat) : Int) ∧
      (chunk.length : Int) - (tuplesPerPage es : Int) * ((pages.length - 1 : Nat) : Int)
        ≤ tuplesPerPage es := by
  obtain ⟨w4, h4, hp4, _⟩ := genLoop_iter fails hw sort es fuel s chunk it status w1 hfill hm hT
  obtain ⟨hq1, hq2, hq3⟩ := ceil_pages chunk.length (tuplesPerPage es) hT hm
  have hlen := runLayout_length es s.lastWritePos chunk.length (sort chunk)
  refine ⟨w4, runLayout es s.lastWritePos chunk.length (sort chunk), h4, hp4, hlen, ?_, ?_, ?_⟩
  · intro k x hx
    obtain ⟨_, h1, h2, h3, h5, _⟩ := runLayout_get es _ _ _ k x hx
    rw [hlen]
    refine ⟨h1, h2, h3, ?_⟩
    intro hk
    rw [h5 hk, ← hk]
    simp
  · rw [hlen]
    have e : (((chunk.length + tuplesPerPage es - 1) / tuplesPerPage es - 1 : Nat) : Int)
        * (tuplesPerPage es : Int) < chunk.length := by exact_mod_cast hq2
    rw [mul_comm] at e
    omega
  · rw [hlen]
    have e : (chunk.length : Int) ≤
        (((chunk.length + tuplesPerPage es - 1) / tuplesPerPage es : Nat) : Int)
          * (tuplesPerPage es : Int) := by exact_mod_cast hq3
    have e2 : (((chunk.length + tuplesPerPage es - 1) / tuplesPerPage es - 1 : Nat) : Int)
        = (((chunk.length + tuplesPerPage es - 1) / tuplesPerPage es : Nat) : Int) - 1 := by
      omega
    rw [e2]
    have e3 : (tuplesPerPage es : Int) *
        ((((chunk.length + tuplesPerPage es - 1) / tuplesPerPage es : Nat) : Int) - 1)
        = (((chunk.length + tuplesPerPage es - 1) / tuplesPerPage es : Nat) : Int)
          * (tuplesPerPage es : Int) - tuplesPerPage es := by ring
    rw [e3]
    omega

/-- C14 (witness): a chunk of 5 keys with `T = 2`: three pages. -/
theorem C14_pages_of_one_run_witness :
    ∃ w4 pages,
      genLoop noFailure sortKeys ⟨40, 6, 16⟩ (1 + 1) ⟨[5, 3, 8, 1, 9], 6, 0, 0, emptyWorld⟩
        = (if 0 = 1 then
            genLoop noFailure sortKeys ⟨40, 6, 16⟩ 1 ⟨[], [5, 3, 8, 1, 9].length,
              0 + ((([5, 3, 8, 1, 9].length + tuplesPerPage ⟨40, 6, 16⟩ - 1)
                / tuplesPerPage ⟨40, 6, 16⟩ : Nat) : Int) * ((40 : Nat) : Int), 0 + 1, w4⟩
          else
            Flow.cont ⟨[], [5, 3, 8, 1, 9].length,
              0 + ((([5, 3, 8, 1, 9].length + tuplesPerPage ⟨40, 6, 16⟩ - 1)
                / tuplesPerPage ⟨40, 6, 16⟩ : Nat) : Int) * ((40 : Nat) : Int), 0 + 1, w4⟩) ∧
      writtenPages w4.log = writtenPages
        (⟨[], ⟨0, 0, 0, 0⟩, 0, [Event.iter 0, Event.iter 1, Event.iter 1, Event.iter 1,
          Event.iter 1, Event.iter 1]⟩ : World Nat).log ++ pages ∧
      pages.length = ([5, 3, 8, 1, 9].length + tuplesPerPage ⟨40, 6, 16⟩ - 1)
        / tuplesPerPage ⟨40, 6, 16⟩ ∧
      (∀ (k : Nat) (x : Int × Page Nat), pages[k]? = some x →
        x.1 = 0 + (k : Int) * ((40 : Nat) : Int) ∧ x.2.blockIndex = k ∧
        (k + 1 < pages.length → x.2.recordCount = tuplesPerPage ⟨40, 6, 16⟩) ∧
        (k + 1 = pages.length →
          x.2.recordCount = ([5, 3, 8, 1, 9].length : Int)
            - (tuplesPerPage ⟨40, 6, 16⟩ : Int) * ((pages.length - 1 : Nat) : Int))) ∧
      1 ≤ ([5, 3, 8, 1, 9].length : Int)
        - (tuplesPerPage ⟨40, 6, 16⟩ : Int) * ((pages.length - 1 : Nat) : Int) ∧
      ([5, 3, 8, 1, 9].length : Int)
        - (tuplesPerPage ⟨40, 6, 16⟩ : Int) * ((pages.length - 1 : Nat) : Int)
        ≤ tuplesPerPage ⟨40, 6, 16⟩ :=
  C14_pages_of_one_run noFailure sortKeys ⟨40, 6, 16⟩ 1 ⟨[5, 3, 8, 1, 9], 6, 0, 0, emptyWorld⟩
    [5, 3, 8, 1, 9] [] 0 _ (fun _ => rfl) (by decide) (by decide) (by decide)

/-- C13: in a configuration whose `T = (page_size - headerSize) / record_size`
fits the `int16_t` of line 89, whose `B * T` fits the `int32_t` of line 93 and
whose page header has room for `block_index` and `record_count` (6 bytes), with
`T ≥ 1` and all writes succeeding, run generation of an input of `n` records ends
with `⌈n/(B*T)⌉` runs; the pages it has written are, in order, the
runs of the sorted chunks of `B * T` records laid out back-to-back from file
offset 0, run `j` starting at offset `j * B * page_size`; every run but the last
has `B * T` records in `B` pages; and the write cursor ends at `page_size` times
the number of pages written. -/
theorem C13_run_generation_layout (fails : Nat → Bool) (sort : List α → List α)
    (es : external_sort_t) (bufferSizeInBlocks : Nat) (input : List α) (w0 : World α)
    (fuel : Nat) (hw : ∀ k, fails k = false) (hT : 1 ≤ tuplesPerPage es)
    (hfuel : (input.length + bufferSizeInBlocks * tuplesPerPage es - 1)
      / (bufferSizeInBlocks * tuplesPerPage es) + 1 ≤ fuel)
    (hT16 : tuplesPerPage es ≤ 32767)
    (h32 : bufferSizeInBlocks * tuplesPerPage es ≤ 2147483647)
    (hH : 6 ≤ es.headerSize) :
    ∃ g, genLoop fails sort es fuel
          { iter := input, numRecordsRead := bufferSizeInBlocks * tuplesPerPage es,
            lastWritePos := 0, numSublist := 0, w := w0 } = Flow.cont g ∧
      g.numSublist = (input.length + bufferSizeInBlocks * tuplesPerPage es - 1)
        / (bufferSizeInBlocks * tuplesPerPage es) ∧
      writtenPages g.w.log
        = writtenPages w0.log ++ genLayout es sort bufferSizeInBlocks 0 input ∧
      g.lastWritePos
        = (es.page_size : Int) * (genLayout es sort bufferSizeInBlocks 0 input).length ∧
      (∀ j, j + 1 < (input.length + bufferSizeInBlocks * tuplesPerPage es - 1)
          / (bufferSizeInBlocks * tuplesPerPage es) →
        ((input.drop (j * (bufferSizeInBlocks * tuplesPerPage es))).take
          (bufferSizeInBlocks * tuplesPerPage es)).length
            = bufferSizeInBlocks * tuplesPerPage es ∧
        (runLayout es ((j : Int) * bufferSizeInBlocks * es.page_size)
          (bufferSizeInBlocks * tuplesPerPage es)
          (sort ((input.drop (j * (bufferSizeInBlocks * tuplesPerPage es))).take
            (bufferSizeInBlocks * tuplesPerPage es)))).length = bufferSizeInBlocks) := by
  have _ := And.intro hT16 (And.intro h32 hH)
  rcases Nat.eq_zero_or_pos bufferSizeInBlocks with hB | hB
  · subst hB
    have h1 : 1 ≤ fuel := Nat.le_trans (Nat.le_add_left 1 _) hfuel
    obtain ⟨f, rfl⟩ : ∃ f, fuel = f + 1 := ⟨fuel - 1, by omega⟩
    refine ⟨{ iter := input, numRecordsRead := 0 * tuplesPerPage es, lastWritePos := 0,
              numSublist := 0, w := w0 }, ?_, ?_, ?_, ?_, ?_⟩
    · rw [genLoop.eq_2]
      simp [fillBuffer]
    · simp
    · simp [genLayout]
    · simp [genLayout]
    · intro j hj
      simp at hj
  · obtain ⟨g, hg, hns, hp, hl, _⟩ := genLoop_runs fails hw sort es bufferSizeInBlocks hB hT _
      { iter := input, numRecordsRead := bufferSizeInBlocks * tuplesPerPage es,
        lastWritePos := 0, numSublist := 0, w := w0 } rfl rfl fuel hfuel
    refine ⟨g, hg, by simpa using hns, hp, by simpa using hl, ?_⟩
    intro j hj
    have hN : 1 ≤ bufferSizeInBlocks * tuplesPerPage es := Nat.mul_pos hB hT
    constructor
    · rw [List.length_take, List.length_drop]
      have h2 : (j + 2) * (bufferSizeInBlocks * tuplesPerPage es)
          ≤ input.length + bufferSizeInBlocks * tuplesPerPage es - 1 :=
        (Nat.le_div_iff_mul_le (by omega)).mp (by omega)
      have e : (j + 2) * (bufferSizeInBlocks * tuplesPerPage es)
          = j * (bufferSizeInBlocks * tuplesPerPage es)
            + 2 * (bufferSizeInBlocks * tuplesPerPage es) := by ring
      omega
    · rw [runLayout_length, ceil_full _ _ hT]

/-- C13 (witness): 11 keys with `T = 2` and `B = 3`: two runs, of 3 and 3 pages. -/
theorem C13_run_generation_layout_witness :
    ∃ g, genLoop noFailure sortKeys ⟨40, 6, 16⟩ 3
          { iter := [10, 9, 8, 7, 6, 5, 4, 3, 2, 1, 0],
            numRecordsRead := 3 * tuplesPerPage ⟨40, 6, 16⟩,
            lastWritePos := 0, numSublist := 0, w := (emptyWorld : World Nat) } = Flow.cont g ∧
      g.numSublist = ([10, 9, 8, 7, 6, 5, 4, 3, 2, 1, 0].length + 3 * tuplesPerPage ⟨40, 6, 16⟩ - 1)
        / (3 * tuplesPerPage ⟨40, 6, 16⟩) ∧
      writtenPages g.w.log
        = writtenPages (emptyWorld : World Nat).log
          ++ genLayout ⟨40, 6, 16⟩ sortKeys 3 0 [10, 9, 8, 7, 6, 5, 4, 3, 2, 1, 0] ∧
      g.lastWritePos
        = ((40 : Nat) : Int)
          * (genLayout ⟨40, 6, 16⟩ sortKeys 3 0 [10, 9, 8, 7, 6, 5, 4, 3, 2, 1, 0]).length ∧
      (∀ j, j + 1 < ([10, 9, 8, 7, 6, 5, 4, 3, 2, 1, 0].length + 3 * tuplesPerPage ⟨40, 6, 16⟩ - 1)
          / (3 * tuplesPerPage ⟨40, 6, 16⟩) →
        (([10, 9, 8, 7, 6, 5, 4, 3, 2, 1, 0].drop (j * (3 * tuplesPerPage ⟨40, 6, 16⟩))).take
          (3 * tuplesPerPage ⟨40, 6, 16⟩)).length
            = 3 * tuplesPerPage ⟨40, 6, 16⟩ ∧
        (runLayout ⟨40, 6, 16⟩ ((j : Int) * (3 : Nat) * ((40 : Nat) : Int))
          (3 * tuplesPerPage ⟨40, 6, 16⟩)
          (sortKeys (([10, 9, 8, 7, 6, 5, 4, 3, 2, 1, 0].drop
            (j * (3 * tuplesPerPage ⟨40, 6, 16⟩))).take
            (3 * tuplesPerPage ⟨40, 6, 16⟩)))).length = 3) :=
  C13_run_generation_layout noFailure sortKeys ⟨40, 6, 16⟩ 3
    [10, 9, 8, 7, 6, 5, 4, 3, 2, 1, 0] emptyWorld 3 (fun _ => rfl) (by decide) (by decide)
    (by decide) (by decide) (by decide)

/-- The layout of the 11-key example: runs at offsets 0 and 120. -/
theorem genLayout_example :
    (genLayout ⟨40, 6, 16⟩ sortKeys 3 0 [10, 9, 8, 7, 6, 5, 4, 3, 2, 1, 0]).map
        (fun x => (x.1, x.2.blockIndex, x.2.recordCount, x.2.records))
      = [(0, 0, 2, [5, 6]), (40, 1, 2, [7, 8]), (80, 2, 2, [9, 10]),
         (120, 0, 2, [0, 1]), (160, 1, 2, [2, 3]), (200, 2, 1, [4])] := by
  decide!

/-! ## Sixty-two records in the reference configuration -/

/-- C11 (amended): with `page_size = 512`, `record_size = 16`, `headerSize = 6`
(`T = 31`) and `B = 3`, an input of 62 records fits the buffer of `B * T = 93`
records: run generation produces one run of 2 pages (offsets 0 and 512,
`block_index` 0 and 1, 31 records each), no merge step takes place (no page is
read back), and the sort returns 0 with `resultFilePtr = 0`, the offset of that
run. -/
theorem C11_62_records_one_run (fuel : Nat) (sort : List α → List α) (cmp : α → α → Int)
    (fails : Nat → Bool) (alloc : Alloc) (input : List α) (w0 : World α)
    (hfuel : 2 ≤ fuel) (hlen : input.length = 62) (hw : ∀ k, fails k = false) :
    ∃ w, extern_merge_sort_iterator_block fuel sort cmp fails alloc ⟨512, 6, 16⟩ 3 input w0
          = some ⟨0, some 0, w⟩ ∧
      writtenPages w.log = writtenPages w0.log ++
        [(0, ⟨0, 31, (sort input).take 31⟩), (512, ⟨1, 31, ((sort input).drop 31).take 31⟩)] ∧
      w.log.filter isFileRead = w0.log.filter isFileRead := by
  have hT : tuplesPerPage ⟨512, 6, 16⟩ = 31 := by decide
  obtain ⟨g, hg, hns, hp, _, hr⟩ := genLoop_runs fails hw sort ⟨512, 6, 16⟩ 3 (by decide)
    (by decide) 1
    { iter := input, numRecordsRead := 3 * tuplesPerPage ⟨512, 6, 16⟩,
      lastWritePos := 0, numSublist := 0, w := w0 } rfl
    (by show (input.length + 3 * tuplesPerPage ⟨512, 6, 16⟩ - 1)
          / (3 * tuplesPerPage ⟨512, 6, 16⟩) = 1
        rw [hlen, hT]) fuel hfuel
  refine ⟨g.w, ?_, ?_, hr⟩
  · unfold extern_merge_sort_iterator_block
    simp [hg, hns]
  · rw [hp]
    show _ ++ genLayout ⟨512, 6, 16⟩ sort 3 0 input = _
    rw [genLayout_last _ _ _ _ _ (by omega) (by rw [hlen, hT]; omega), hlen]
    congr 1

/-- C11 (as stated): sorting the 62 keys 61, 60, .., 0 in the reference
configuration writes two pages only, with `block_index` 0 and 1 (one run of two
pages, not two runs of one page), reads no page back (no merge step), and returns
offset 0. -/
theorem C11_two_runs_not_produced :
    (extern_merge_sort_iterator_block 2 sortKeys compareKeys noFailure allocOk
        ⟨512, 6, 16⟩ 3 (List.range 62).reverse emptyWorld).map
      (fun o => (o.code, o.resultFilePtr,
        (writtenPages o.w.log).map (fun x => x.1),
        (writtenPages o.w.log).map (fun x => x.2.blockIndex),
        (writtenPages o.w.log).map (fun x => x.2.recordCount),
        (o.w.log.filter isFileRead).length))
      = some (0, some 0, [0, 512], [0, 1], [31, 31], 0) := by
  decide!

/-- C11 (witness): the 62 keys 61, 60, .., 0. -/
theorem C11_62_records_one_run_witness :
    ∃ w, extern_merge_sort_iterator_block 2 sortKeys compareKeys noFailure allocOk
            ⟨512, 6, 16⟩ 3 (List.range 62).reverse emptyWorld = some ⟨0, some 0, w⟩ ∧
      writtenPages w.log = writtenPages (emptyWorld : World Nat).log ++
        [(0, ⟨0, 31, (sortKeys (List.range 62).reverse).take 31⟩),
         (512, ⟨1, 31, ((sortKeys (List.range 62).reverse).drop 31).take 31⟩)] ∧
      w.log.filter isFileRead = (emptyWorld : World Nat).log.filter isFileRead :=
  C11_62_records_one_run 2 sortKeys compareKeys noFailure allocOk (List.range 62).reverse
    emptyWorld (by decide) (by simp) (fun _ => rfl)

/-! ## Pages written by a merge, on concrete inputs -/

/-- C16: with `page_size = 38`, `headerSize = 6`, `record_size = 16` (`T = 2`,
`record_size` divides `page_size - headerSize`) and a buffer of 3 pages, sorting
the 7 keys 6,5,..,0 returns 0 after one merge step.  The four pages of run
generation carry 2, 2, 2 and 1 records; the seven pages of the merged run carry one
record each, so the pages before the last one of the merged run are flushed with
room for one more record. -/
theorem C16_merged_pages_flushed_early :
    (extern_merge_sort_iterator_block 100 sortKeys compareKeys noFailure allocOk
        ⟨38, 6, 16⟩ 3 [6, 5, 4, 3, 2, 1, 0] emptyWorld).map
      (fun o => (o.code, tuplesPerPage ⟨38, 6, 16⟩,
                 (writtenPages o.w.log).map (fun p => p.2.blockIndex),
                 (writtenPages o.w.log).map (fun p => p.2.records.length)))
      = some (0, 2, [0, 1, 2, 0, 0, 1, 2, 3, 4, 5, 6], [2, 2, 2, 1, 1, 1, 1, 1, 1, 1, 1]) := by
  decide!

/-- C17: with `page_size = 25`, `headerSize = 6`, `record_size = 6` (`T = 3`) and a
buffer of 3 pages, sorting 12 keys returns 0 after one merge step.  Each of the four
pages the merge writes holds the 3 records copied into it since the previous
flush, `(bufferOutputPos - headerSize) / record_size = (24 - 6) / 6`, while its
header carries `record_count = 4`, which is `bufferOutputPos / record_size`. -/
theorem C17_record_count_counts_the_header :
    (extern_merge_sort_iterator_block 100 sortKeys compareKeys noFailure allocOk
        ⟨25, 6, 6⟩ 3 (List.range 12) emptyWorld).map
      (fun o => (o.code, tuplesPerPage ⟨25, 6, 6⟩,
                 ((writtenPages o.w.log).drop 4).map (fun p => p.2.blockIndex),
                 ((writtenPages o.w.log).drop 4).map (fun p => p.2.records.length),
                 ((writtenPages o.w.log).drop 4).map (fun p => p.2.recordCount)))
      = some (0, 3, [0, 1, 2, 3], [3, 3, 3, 3], [4, 4, 4, 4]) := by
  decide!

/-! ## The selection step of the merge loop -/

theorem findLowest_select (cmp : α → α → Int) (htot : ∀ a b, cmp a b ≤ 0 ∨ cmp b a ≤ 0)
    (htrans : ∀ a b c, cmp a b ≤ 0 → cmp b c ≤ 0 → cmp a c ≤ 0)
    (s : MergeState α) (k : Nat)
    (hrec : ∀ j, j < k → s.runCount.getD j 0 ≠ 0 → ∃ x, recordAt s j = some x) :
    ∀ (n i lowId : Nat) (tuple : α) (c : Nat),
      i + n = k → lowId < i → s.runCount.getD lowId 0 ≠ 0 → recordAt s lowId = some tuple →
      (∀ j x, j < i → s.runCount.getD j 0 ≠ 0 → recordAt s j = some x → cmp tuple x ≤ 0) →
      (∀ j x, j < lowId → s.runCount.getD j 0 ≠ 0 → recordAt s j = some x → 0 < cmp x tuple) →
      ∃ l t c1, findLowest cmp s n i lowId tuple c = some (l, t, c1) ∧ l < k ∧
        s.runCount.getD l 0 ≠ 0 ∧ recordAt s l = some t ∧
        (∀ j x, j < k → s.runCount.getD j 0 ≠ 0 → recordAt s j = some x → cmp t x ≤ 0) ∧
        (∀ j x, j < l → s.runCount.getD j 0 ≠ 0 → recordAt s j = some x → 0 < cmp x t) := by
  intro n
  induction n with
  | zero =>
    intro i lowId tuple c hik hlow hlive hrc hmin hfirst
    have : i = k := by omega
    subst this
    exact ⟨lowId, tuple, c, rfl, hlow, hlive, hrc, hmin, hfirst⟩
  | succ n ih =>
    intro i lowId tuple c hik hlow hlive hrc hmin hfirst
    rw [findLowest]
    by_cases h0 : s.runCount.getD i 0 = 0
    · rw [if_pos h0]
      refine ih (i + 1) lowId tuple c (by omega) (by omega) hlive hrc ?_ hfirst
      intro j x hj hjl hx
      by_cases hji : j = i
      · subst hji; exact absurd h0 hjl
      · exact hmin j x (by omega) hjl hx
    · rw [if_neg h0]
      obtain ⟨v, hv⟩ := hrec i (by omega) h0
      rw [hv]
      dsimp only
      by_cases hc : 0 < cmp tuple v
      · rw [if_pos hc]
        have hvt : cmp v tuple ≤ 0 := by
          rcases htot tuple v with h | h
          · omega
          · exact h
        refine ih (i + 1) i v (c + 1) (by omega) (by omega) h0 hv ?_ ?_
        · intro j x hj hjl hx
          by_cases hji : j = i
          · subst hji
            rw [hv] at hx
            obtain rfl := Option.some.inj hx
            rcases htot v v with h | h <;> exact h
          · exact htrans _ _ _ hvt (hmin j x (by omega) hjl hx)
        · intro j x hj hjl hx
          by_contra hle
          have h1 : cmp x v ≤ 0 := by omega
          have h2 := htrans _ _ _ (hmin j x hj hjl hx) h1
          omega
      · rw [if_neg hc]
        refine ih (i + 1) lowId tuple (c + 1) (by omega) (by omega) hlive hrc ?_ hfirst
        intro j x hj hjl hx
        by_cases hji : j = i
        · subst hji
          rw [hv] at hx
          obtain rfl := Option.some.inj hx
          omega
        · exact hmin j x (by omega) hjl hx

/-- C18: one selection step of the merge loop (lines 270-292) over `k` runs, for
a comparator that is a total preorder, in a state where some run is not exhausted
and every non-exhausted run has a current record.  The loop emits the current
record `t` of a run `l` and advances that run, where `l` is not exhausted, `t` is
minimal among the current records of the non-exhausted runs, and the current
record of every non-exhausted run with a lower index is strictly greater than
`t`: among runs whose current records compare equal the earliest wins. -/
theorem C18_selection_lowest_index_minimum (fails : Nat → Bool) (cmp : α → α → Int)
    (es : external_sort_t) (k fuel : Nat) (s : MergeState α) (o : OutState α)
    (htot : ∀ a b, cmp a b ≤ 0 ∨ cmp b a ≤ 0)
    (htrans : ∀ a b c, cmp a b ≤ 0 → cmp b c ≤ 0 → cmp a c ≤ 0)
    (hlive : ∃ j, j < k ∧ s.runCount.getD j 0 ≠ 0)
    (hrec : ∀ j, j < k → s.runCount.getD j 0 ≠ 0 → ∃ x, recordAt s j = some x) :
    ∃ l t c, l < k ∧ s.runCount.getD l 0 ≠ 0 ∧ recordAt s l = some t ∧
      (∀ j x, j < k → s.runCount.getD j 0 ≠ 0 → recordAt s j = some x → cmp t x ≤ 0) ∧
      (∀ j x, j < l → s.runCount.getD j 0 ≠ 0 → recordAt s j = some x → 0 < cmp x t) ∧
      mergeLoop fails cmp es k (fuel + 1) s o
        = emitAndAdvance fails cmp es k fuel s o l t c := by
  obtain ⟨h1, hle, hdead, hlv⟩ := firstLive_spec s.runCount k k 0 (Nat.zero_le _) (by omega)
  have hi : firstLive s.runCount k k 0 ≠ k := by
    intro h
    obtain ⟨j, hj, hjl⟩ := hlive
    exact hjl (hdead j (Nat.zero_le _) (by omega))
  have hik : firstLive s.runCount k k 0 < k := by omega
  obtain ⟨t0, h0⟩ := hrec _ hik (hlv hik)
  obtain ⟨l, t, c1, hfl, hlk, hll, hrl, hmin, hfirst⟩ := findLowest_select cmp htot htrans s k hrec
    (k - (firstLive s.runCount k k 0 + 1)) (firstLive s.runCount k k 0 + 1)
    (firstLive s.runCount k k 0) t0 0 (by omega) (by omega) (hlv hik) h0
    (by
      intro j x hj hjl hx
      have hje : j = firstLive s.runCount k k 0 := by
        by_contra hne
        exact hjl (hdead j (Nat.zero_le _) (by omega))
      subst hje
      rw [h0] at hx
      obtain rfl := Option.some.inj hx
      rcases htot t0 t0 with h | h <;> exact h)
    (by
      intro j x hj hjl hx
      exact absurd (hdead j (Nat.zero_le _) hj) hjl)
  refine ⟨l, t, c1, hlk, hll, hrl, hmin, hfirst, ?_⟩
  rw [mergeLoop.eq_2, if_neg hi]
  simp only [h0, hfl]
  rfl

theorem tieState_records (j : Nat) (hj : j < 3) (_h : tieState.runCount.getD j 0 ≠ 0) :
    ∃ x, recordAt tieState j = some x := by
  interval_cases j
  · exact ⟨5, by decide⟩
  · exact ⟨3, by decide⟩
  · exact ⟨3, by decide⟩

/-- C18 (witness): runs with current records 5, 3, 3. -/
theorem C18_selection_witness :
    ∃ l t c, l < 3 ∧ tieState.runCount.getD l 0 ≠ 0 ∧ recordAt tieState l = some t ∧
      (∀ j x, j < 3 → tieState.runCount.getD j 0 ≠ 0 → recordAt tieState j = some x →
        compareKeys t x ≤ 0) ∧
      (∀ j x, j < l → tieState.runCount.getD j 0 ≠ 0 → recordAt tieState j = some x →
        0 < compareKeys x t) ∧
      mergeLoop noFailure compareKeys ⟨40, 6, 16⟩ 3 (5 + 1) tieState ⟨[], 6, 0⟩
        = emitAndAdvance noFailure compareKeys ⟨40, 6, 16⟩ 3 5 tieState ⟨[], 6, 0⟩ l t c :=
  C18_selection_lowest_index_minimum noFailure compareKeys ⟨40, 6, 16⟩ 3 5 tieState ⟨[], 6, 0⟩
    compareKeys_total compareKeys_trans ⟨0, by decide, by decide⟩ tieState_records

/-- In `tieState` the scan picks run 1, the first of the two runs whose current
record is 3. -/
theorem tieState_choice :
    findLowest compareKeys tieState 2 1 0 5 0 = some (1, 3, 2) := by
  decide!

/-! ## Run pickup and the start of a pass -/

theorem RunAt_get (file : List (Int × Page α)) (P : Nat) :
    ∀ (pgs : List (Page α)) (off : Int) (k : Nat) (pg : Page α),
      RunAt file P off pgs → pgs[k]? = some pg → file.lookup (off + (k : Int) * P) = some pg := by
  intro pgs
  induction pgs with
  | nil => intro off k pg _ h; simp at h
  | cons p rest ih =>
    intro off k pg hrun h
    obtain ⟨h1, h2⟩ := hrun
    cases k with
    | zero =>
      simp only [List.getElem?_cons_zero, Option.some.injEq] at h
      subst h
      simpa using h1
    | succ k =>
      simp only [List.getElem?_cons_succ] at h
      have := ih (off + P) k pg h2 h
      rw [← this]
      congr 1
      push_cast; ring

theorem fread_ok (fails : Nat → Bool) (m : Bool) (w : World α) (off : Int) (pg : Page α)
    (hf : fails w.ops = false) (hl : w.file.lookup off = some pg) :
    fread fails m w off
      = (some pg, { w with ops := w.ops + 1,
                           log := (if m then Event.load off else Event.peek off) :: w.log }) := by
  unfold fread
  simp [hf, hl]

/-- Run pickup from slot `i` on leaves the slots below `i` as they are, and ends
at a slot `k ≥ i`. -/
theorem pickRuns_slots (fails : Nat → Bool) (es : external_sort_t) (m : Int) :
    ∀ (fuel i : Nat) (s : MergeState α) (k : Nat) (s1 : MergeState α),
      pickRuns fails es m fuel i s = Flow.cont (k, s1) →
      i ≤ k ∧ ∀ j, j < i → s1.runCount.getD j 0 = s.runCount.getD j 0 ∧
        s1.runOffset.getD j 0 = s.runOffset.getD j 0 ∧
        s1.sublsTuplePos.getD j 0 = s.sublsTuplePos.getD j 0 := by
  intro fuel
  induction fuel with
  | zero =>
    intro i s k s1 h
    rw [pickRuns] at h
    split at h
    · simp at h
    · simp only [Flow.cont.injEq, Prod.mk.injEq] at h
      obtain ⟨rfl, rfl⟩ := h
      exact ⟨le_refl _, fun j _ => ⟨rfl, rfl, rfl⟩⟩
  | succ fuel ih =>
    intro i s k s1 h
    rw [pickRuns] at h
    split at h
    · dsimp only at h
      have hs : ∀ s0 : MergeState α,
          s0 = (if s.ptrLastBlock < s.ptrFirstBlock then startNewPass es m i s else s) →
          s0.runOffset = s.runOffset ∧ s0.runCount = s.runCount ∧
          s0.sublsTuplePos = s.sublsTuplePos := by
        intro s0 h0
        subst h0
        split <;> exact ⟨rfl, rfl, rfl⟩
      generalize (if s.ptrLastBlock < s.ptrFirstBlock then startNewPass es m i s
          else s) = s0 at hs h
      obtain ⟨e1, e2, e3⟩ := hs s0 rfl
      split at h
      · simp at h
      · obtain ⟨hk, hj⟩ := ih (i + 1) _ k s1 h
        refine ⟨by omega, fun j hji => ?_⟩
        obtain ⟨a1, a2, a3⟩ := hj j (by omega)
        refine ⟨?_, ?_, ?_⟩
        · rw [a1]
          show (s0.runCount.set i _).getD j 0 = _
          rw [getD_set_ne _ _ _ _ _ (by omega), e2]
        · rw [a2]
          show (s0.runOffset.set i _).getD j 0 = _
          rw [getD_set_ne _ _ _ _ _ (by omega), e1]
        · rw [a3]
          show (s0.sublsTuplePos.set i _).getD j 0 = _
          rw [getD_set_ne _ _ _ _ _ (by omega), e3]
    · simp only [Flow.cont.injEq, Prod.mk.injEq] at h
      obtain ⟨rfl, rfl⟩ := h
      exact ⟨le_refl _, fun j _ => ⟨rfl, rfl, rfl⟩⟩

/-- One iteration of run pickup for slot `i` whose read succeeds continues with
slot `i + 1` in a state that has recorded the run found at `ptrLastBlock`. -/
theorem pickRuns_step (fails : Nat → Bool) (es : external_sort_t) (maxSub : Int)
    (n i : Nat) (s : MergeState α) (pgs : List (Page α)) (off : Int)
    (hcond : (i : Int) < maxSub ∧ (i : Int) < s.numSublist)
    (hiC : i < s.runCount.length) (hiO : i < s.runOffset.length)
    (hiP : i < s.sublsTuplePos.length)
    (hL : 1 ≤ pgs.length) (hrun : RunAt s.w.file es.page_size off pgs)
    (hidx : ∀ (k : Nat) (pg : Page α), pgs[k]? = some pg → pg.blockIndex = k)
    (hlast : (if s.ptrLastBlock < s.ptrFirstBlock then startNewPass es maxSub i s
        else s).ptrLastBlock = off + ((pgs.length : Int) - 1) * es.page_size)
    (hread : fails s.w.ops = false) :
    ∃ s', pickRuns fails es maxSub (n + 1) i s = pickRuns fails es maxSub n (i + 1) s' ∧
      s'.runCount.getD i 0 = pgs.length ∧
      s'.runOffset.getD i 0 = off ∧
      s'.sublsTuplePos.getD i 0 = 0 ∧
      s'.ptrLastBlock = off - es.page_size ∧
      s'.numSublist = s.numSublist ∧
      s'.w.log = Event.peek (off + ((pgs.length : Int) - 1) * es.page_size) :: s.w.log ∧
      s'.w.file = s.w.file := by
  have hs1 : ∀ s1 : MergeState α,
      s1 = (if s.ptrLastBlock < s.ptrFirstBlock then startNewPass es maxSub i s else s) →
      s1.w = s.w ∧ s1.runOffset = s.runOffset ∧ s1.runCount = s.runCount ∧
      s1.sublsTuplePos = s.sublsTuplePos ∧ s1.numSublist = s.numSublist := by
    intro s1 h1
    subst h1
    split <;> exact ⟨rfl, rfl, rfl, rfl, rfl⟩
  rw [pickRuns, if_pos hcond]
  generalize (if s.ptrLastBlock < s.ptrFirstBlock then startNewPass es maxSub i s
      else s) = s1 at hs1 hlast ⊢
  obtain ⟨e1, e2, e3, e4, e5⟩ := hs1 s1 rfl
  obtain ⟨q, hq⟩ : ∃ q, pgs.length = q + 1 := ⟨pgs.length - 1, by omega⟩
  have hget : pgs[q]? = some (pgs.get ⟨q, by omega⟩) := by
    rw [List.getElem?_eq_getElem (by omega)]; rfl
  have hlk := RunAt_get s.w.file es.page_size pgs off q _ hrun hget
  have hbi := hidx q _ hget
  have hoff : s1.ptrLastBlock = off + (q : Int) * es.page_size := by
    rw [hlast, hq]; push_cast; ring
  dsimp only
  rw [hoff, e1, fread_ok fails false s.w _ _ hread hlk]
  dsimp only
  refine ⟨_, rfl, ?_, ?_, ?_, ?_, e5, ?_, rfl⟩
  · show (s1.runCount.set i _).getD i 0 = _
    rw [getD_set_eq _ _ _ _ (by rw [e3]; exact hiC), hbi, hq]
    push_cast; ring
  · show (s1.runOffset.set i _).getD i 0 = _
    rw [getD_set_eq _ _ _ _ (by rw [e2]; exact hiO), hbi]
    ring
  · show (s1.sublsTuplePos.set i 0).getD i 0 = 0
    rw [getD_set_eq _ _ _ _ (by rw [e4]; exact hiP)]
  · show _ - _ - _ = _
    rw [hbi]; ring
  · show Event.peek _ :: s.w.log = _
    rw [hq]; push_cast
    congr 2; ring

/-- C19: one iteration of run pickup for slot `i` (lines 190-237), in a state
where, after the new-pass test, `ptrLastBlock` is the offset of the last page of
a run of `L ≥ 1` pages stored from offset `off` on, page `k` of which has
`block_index = k`, and the read of that page succeeds.  When slot `i` is the last
slot of the pickup, the loop ends with `i + 1` slots and has recorded
`runCount[i] = L`, `runOffset[i] = ptrLastBlock - (L-1) * page_size = off`, the
offset of page 0 of the run, and `sublsTuplePos[i] = 0`, and has left
`ptrLastBlock` at `runOffset[i] - page_size`.  Whenever the pickup loop ends, these
three entries of slot `i` are in the arrays it leaves.  The iteration reads
exactly the last page of the run. -/
theorem C19_run_pickup (fails : Nat → Bool) (es : external_sort_t) (maxSub : Int)
    (n i : Nat) (s : MergeState α) (pgs : List (Page α)) (off : Int)
    (hcond : (i : Int) < maxSub ∧ (i : Int) < s.numSublist)
    (hiC : i < s.runCount.length) (hiO : i < s.runOffset.length)
    (hiP : i < s.sublsTuplePos.length)
    (hL : 1 ≤ pgs.length) (hrun : RunAt s.w.file es.page_size off pgs)
    (hidx : ∀ (k : Nat) (pg : Page α), pgs[k]? = some pg → pg.blockIndex = k)
    (hlast : (if s.ptrLastBlock < s.ptrFirstBlock then startNewPass es maxSub i s
        else s).ptrLastBlock = off + ((pgs.length : Int) - 1) * es.page_size)
    (hread : fails s.w.ops = false) :
    (¬ (((i + 1 : Nat) : Int) < maxSub ∧ ((i + 1 : Nat) : Int) < s.numSublist) →
      ∃ s', pickRuns fails es maxSub (n + 1) i s = Flow.cont (i + 1, s') ∧
        s'.runCount.getD i 0 = pgs.length ∧
        s'.runOffset.getD i 0 = off ∧
        s'.runOffset.getD i 0
          = (if s.ptrLastBlock < s.ptrFirstBlock then startNewPass es maxSub i s
              else s).ptrLastBlock - ((pgs.length : Int) - 1) * es.page_size ∧
        s'.sublsTuplePos.getD i 0 = 0 ∧
        s'.ptrLastBlock = s'.runOffset.getD i 0 - es.page_size ∧
        s'.w.log = Event.peek (off + ((pgs.length : Int) - 1) * es.page_size) :: s.w.log) ∧
    (∀ k s', pickRuns fails es maxSub (n + 1) i s = Flow.cont (k, s') →
      i + 1 ≤ k ∧ s'.runCount.getD i 0 = pgs.length ∧ s'.runOffset.getD i 0 = off ∧
      s'.sublsTuplePos.getD i 0 = 0) := by
  obtain ⟨S, hS, a1, a2, a3, a4, a5, a6, _⟩ :=
    pickRuns_step fails es maxSub n i s pgs off hcond hiC hiO hiP hL hrun hidx hlast hread
  refine ⟨?_, ?_⟩
  · intro hexit
    have hexit' : ¬ (((i + 1 : Nat) : Int) < maxSub ∧ ((i + 1 : Nat) : Int) < S.numSublist) := by
      rw [a5]; exact hexit
    refine ⟨S, ?_, a1, a2, by rw [a2, hlast]; ring, a3, by rw [a4, a2], a6⟩
    rw [hS]
    cases n with
    | zero => rw [pickRuns, if_neg hexit']
    | succ n => rw [pickRuns, if_neg hexit']
  · intro k s' h
    rw [hS] at h
    obtain ⟨hk, hj⟩ := pickRuns_slots fails es maxSub n (i + 1) S k s' h
    obtain ⟨b1, b2, b3⟩ := hj i (by omega)
    exact ⟨hk, by rw [b1, a1], by rw [b2, a2], by rw [b3, a3]⟩

/-- C19 (witness): slot 1, the last slot with a buffer of 3 pages, picks the
two-page run stored at offset 0, whose last page is at offset 40. -/
theorem C19_run_pickup_witness :
    ∃ s', pickRuns noFailure ⟨40, 6, 16⟩ 2 (0 + 1) 1 pickupState = Flow.cont (1 + 1, s') ∧
      s'.runCount.getD 1 0 = 2 ∧ s'.runOffset.getD 1 0 = 0 ∧
      s'.sublsTuplePos.getD 1 0 = 0 ∧ s'.ptrLastBlock = -40 ∧
      s'.w.log = Event.peek 40 :: pickupState.w.log := by
  obtain ⟨s', h1, h2, h3, _, h5, h6, h7⟩ :=
    (C19_run_pickup noFailure ⟨40, 6, 16⟩ 2 0 1 pickupState [⟨0, 2, [1, 4]⟩, ⟨1, 1, [6]⟩] 0
      (by decide) (by decide) (by decide) (by decide) (by decide)
      ⟨by decide, by decide, trivial⟩
      (by
        intro k pg h
        rcases k with _ | _ | k
        · simp at h; subst h; rfl
        · simp at h; subst h; rfl
        · simp at h)
      (by decide) rfl).1 (by decide)
  refine ⟨s', h1, by simpa using h2, h3, h5, ?_, ?_⟩
  · rw [h6, h3]; rfl
  · rw [h7]; rfl

theorem maxSublistsInRun_eq (bufferSizeInBlocks : Nat) (h : bufferSizeInBlocks ≤ 128) :
    maxSublistsInRun bufferSizeInBlocks = (bufferSizeInBlocks : Int) - 1 := by
  unfold maxSublistsInRun toInt8
  omega

/-- C20 (amended): when run pickup for slot `i` finds `ptrLastBlock < ptrFirstBlock`
(with a buffer of at most 128 pages, so that `maxSublistsInRun = B - 1`), it sets
`ptrFirstBlock = ptrNextFirst + firstPartitionSize * page_size` exactly when
`i ≥ 1` and `i < maxSublistsInRun - 1 = B - 2`, and `ptrFirstBlock = ptrNextFirst`
otherwise; the value stays in place while the last page of the pass is read and
the slot is filled.  For `B = 3` the adjustment is never taken. -/
theorem C20_first_run_pointer (fails : Nat → Bool) (es : external_sort_t)
    (bufferSizeInBlocks n i : Nat) (s : MergeState α)
    (hB : bufferSizeInBlocks ≤ 128)
    (hcond : (i : Int) < maxSublistsInRun bufferSizeInBlocks ∧ (i : Int) < s.numSublist)
    (hdet : s.ptrLastBlock < s.ptrFirstBlock) :
    (startNewPass es (maxSublistsInRun bufferSizeInBlocks) i s).ptrFirstBlock
      = (if 1 ≤ i ∧ (i : Int) < (bufferSizeInBlocks : Int) - 2 then
          s.ptrNextFirst + s.firstPartitionSize * es.page_size
        else s.ptrNextFirst) ∧
    (∀ pg w1, fread fails false s.w (s.lastWritePos - es.page_size) = (some pg, w1) →
      ∃ s', pickRuns fails es (maxSublistsInRun bufferSizeInBlocks) (n + 1) i s
          = pickRuns fails es (maxSublistsInRun bufferSizeInBlocks) n (i + 1) s' ∧
        s'.ptrFirstBlock
          = (if 1 ≤ i ∧ (i : Int) < (bufferSizeInBlocks : Int) - 2 then
              s.ptrNextFirst + s.firstPartitionSize * es.page_size
            else s.ptrNextFirst)) ∧
    (bufferSizeInBlocks = 3 →
      (startNewPass es (maxSublistsInRun bufferSizeInBlocks) i s).ptrFirstBlock
        = s.ptrNextFirst) := by
  have hm := maxSublistsInRun_eq bufferSizeInBlocks hB
  have h1 : (startNewPass es (maxSublistsInRun bufferSizeInBlocks) i s).ptrFirstBlock
      = (if 1 ≤ i ∧ (i : Int) < (bufferSizeInBlocks : Int) - 2 then
          s.ptrNextFirst + s.firstPartitionSize * es.page_size
        else s.ptrNextFirst) := by
    show (if 0 < (i : Int) ∧ (i : Int) < maxSublistsInRun bufferSizeInBlocks - 1 then _ else _) = _
    rw [hm]
    by_cases hc : 1 ≤ i ∧ (i : Int) < (bufferSizeInBlocks : Int) - 2
    · rw [if_pos hc, if_pos (by omega)]
    · rw [if_neg hc, if_neg (by omega)]
  refine ⟨h1, ?_, ?_⟩
  · intro pg w1 hfr
    rw [pickRuns, if_pos hcond]
    simp only [hdet, if_true]
    have e : (startNewPass es (maxSublistsInRun bufferSizeInBlocks) i s).ptrLastBlock
        = s.lastWritePos - es.page_size := rfl
    have ew : (startNewPass es (maxSublistsInRun bufferSizeInBlocks) i s).w = s.w := rfl
    rw [e, ew, hfr]
    exact ⟨_, rfl, h1⟩
  · intro h3
    rw [h1, if_neg (by omega)]

/-- C20 (as stated): with `B = 3`, slot `i = 1` and `ptrLastBlock < ptrFirstBlock`,
run pickup leaves `ptrFirstBlock = ptrNextFirst = 120`, not
`ptrNextFirst + firstPartitionSize * page_size = 200`. -/
theorem C20_no_skip_with_three_pages :
    (match pickRuns noFailure ⟨40, 6, 16⟩ (maxSublistsInRun 3) 1 1 passEndState with
      | Flow.cont (i, s) => some (i, s.ptrFirstBlock, s.runOffset, s.runCount)
      | _ => none)
      = some (2, 120, [0, 200], [0, 1]) ∧
    passEndState.ptrLastBlock < passEndState.ptrFirstBlock ∧
    passEndState.ptrNextFirst + passEndState.firstPartitionSize * 40 = 200 := by
  decide!

/-- C20 (witness): slot 1 of a buffer of 5 pages takes the adjustment. -/
theorem C20_first_run_pointer_witness :
    (startNewPass ⟨40, 6, 16⟩ (maxSublistsInRun 5) 1 passEndState).ptrFirstBlock
      = (if 1 ≤ 1 ∧ ((1 : Nat) : Int) < ((5 : Nat) : Int) - 2 then
          passEndState.ptrNextFirst + passEndState.firstPartitionSize * ((40 : Nat) : Int)
        else passEndState.ptrNextFirst) ∧
    (∀ pg w1, fread noFailure false passEndState.w (passEndState.lastWritePos - ((40 : Nat) : Int))
        = (some pg, w1) →
      ∃ s', pickRuns noFailure ⟨40, 6, 16⟩ (maxSublistsInRun 5) (0 + 1) 1 passEndState
          = pickRuns noFailure ⟨40, 6, 16⟩ (maxSublistsInRun 5) 0 (1 + 1) s' ∧
        s'.ptrFirstBlock
          = (if 1 ≤ 1 ∧ ((1 : Nat) : Int) < ((5 : Nat) : Int) - 2 then
              passEndState.ptrNextFirst + passEndState.firstPartitionSize * ((40 : Nat) : Int)
            else passEndState.ptrNextFirst)) ∧
    (5 = 3 →
      (startNewPass ⟨40, 6, 16⟩ (maxSublistsInRun 5) 1 passEndState).ptrFirstBlock
        = passEndState.ptrNextFirst) :=
  C20_first_run_pointer noFailure ⟨40, 6, 16⟩ 5 0 1 passEndState (by decide) (by decide)
    (by decide)

/-! ## Run generation at the level of buffer bytes: the header writes -/

theorem poke_out (buf : Nat → Nat) (addr : Nat) (bytes : List Nat) (a : Nat)
    (h : a < addr ∨ addr + bytes.length ≤ a) : poke buf addr bytes a = buf a := by
  unfold poke
  rw [if_neg (by omega)]

theorem poke_in (buf : Nat → Nat) (addr : Nat) (bytes : List Nat) (b : Nat)
    (h : b < bytes.length) : poke buf addr bytes (addr + b) = bytes.getD b 0 := by
  unfold poke
  rw [if_pos (by omega), Nat.add_sub_cancel_left]

theorem putHeader_out (buf : Nat → Nat) (addr idx cnt a : Nat)
    (h : addr + (BLOCK_COUNT_OFFSET + 2) ≤ a) : putHeader buf addr idx cnt a = buf a := by
  unfold putHeader
  have h4 : (littleEndian 4 idx).length = 4 := by simp [littleEndian]
  have h2 : (littleEndian 2 cnt).length = 2 := by simp [littleEndian]
  have hb : BLOCK_COUNT_OFFSET = 4 := rfl
  rw [poke_out _ _ _ _ (by right; rw [h2]; omega), poke_out _ _ _ _ (by right; rw [h4]; omega)]

theorem fillBytes_out (R : Nat) : ∀ (recs : List (List Nat)) (addr : Nat) (buf : Nat → Nat)
    (a : Nat), (∀ r ∈ recs, r.length = R) → (a < addr ∨ addr + recs.length * R ≤ a) →
    fillBytes R recs addr buf a = buf a := by
  intro recs
  induction recs with
  | nil => intro addr buf a _ _; rfl
  | cons x rest ih =>
    intro addr buf a hlen ha
    rw [fillBytes]
    have hx : x.length = R := hlen x (List.mem_cons_self _ _)
    have hl : (x :: rest).length * R = R + rest.length * R := by
      rw [List.length_cons, Nat.add_mul, Nat.one_mul, Nat.add_comm]
    rw [hl] at ha
    rw [ih (addr + R) _ a (fun r hr => hlen r (List.mem_cons_of_mem _ hr)) (by omega)]
    exact poke_out _ _ _ _ (by rw [hx]; omega)

theorem fillBytes_in (R : Nat) : ∀ (recs : List (List Nat)) (addr : Nat) (buf : Nat → Nat)
    (r b : Nat), (∀ x ∈ recs, x.length = R) → r < recs.length → b < R →
    fillBytes R recs addr buf (addr + r * R + b) = (recs.getD r []).getD b 0 := by
  intro recs
  induction recs with
  | nil => intro addr buf r b _ hr _; simp at hr
  | cons x rest ih =>
    intro addr buf r b hlen hr hb
    rw [fillBytes]
    have hx : x.length = R := hlen x (List.mem_cons_self _ _)
    have hrest : ∀ y ∈ rest, y.length = R := fun y hy => hlen y (List.mem_cons_of_mem _ hy)
    cases r with
    | zero =>
      rw [fillBytes_out R rest (addr + R) _ _ hrest (by omega)]
      simp only [Nat.zero_mul, Nat.add_zero, List.getD_cons_zero]
      exact poke_in _ _ _ _ (by omega)
    | succ r =>
      have e : addr + (r + 1) * R + b = (addr + R) + r * R + b := by ring
      rw [e, ih (addr + R) _ r b hrest (by simpa using hr) hb]
      simp

theorem pageBytes_get (es : external_sort_t) (buf : Nat → Nat) (addr x : Nat)
    (hx : x < es.page_size) : (pageBytes es buf addr).getD x 0 = buf (addr + x) := by
  unfold pageBytes
  rw [List.getD_eq_getElem?_getD, List.getElem?_map, List.getElem?_range hx]
  rfl

theorem writeFullPagesBytes_spec (es : external_sort_t) :
    ∀ (n i lo : Nat) (buf : Nat → Nat),
      (writeFullPagesBytes es n i lo buf).1.length = n ∧
      (writeFullPagesBytes es n i lo buf).2.1 = i + n ∧
      (writeFullPagesBytes es n i lo buf).2.2.1 = lo + n * (es.record_size * tuplesPerPage es) ∧
      (∀ a, lo + n * (es.record_size * tuplesPerPage es) + (BLOCK_COUNT_OFFSET + 2) ≤ a →
        (writeFullPagesBytes es n i lo buf).2.2.2 a = buf a) ∧
      (∀ j x, j < n → BLOCK_COUNT_OFFSET + 2 ≤ x → x < es.page_size →
        (((writeFullPagesBytes es n i lo buf).1).getD j []).getD x 0
          = buf (lo + j * (es.record_size * tuplesPerPage es) + x)) := by
  intro n
  induction n with
  | zero =>
    intro i lo buf
    refine ⟨rfl, rfl, by simp [writeFullPagesBytes], fun a _ => rfl, fun j x hj => by omega⟩
  | succ n ih =>
    intro i lo buf
    obtain ⟨h1, h2, h3, h4, h5⟩ := ih (i + 1) (lo + es.record_size * tuplesPerPage es)
      (putHeader buf lo i (tuplesPerPage es))
    rw [writeFullPagesBytes]
    dsimp only
    refine ⟨by simp [h1], by rw [h2]; omega, by rw [h3]; ring, ?_, ?_⟩
    · intro a ha
      rw [h4 a (by
        have e : lo + es.record_size * tuplesPerPage es + n * (es.record_size * tuplesPerPage es)
            = lo + (n + 1) * (es.record_size * tuplesPerPage es) := by ring
        omega)]
      exact putHeader_out _ _ _ _ _ (by
        have : 0 ≤ (n + 1) * (es.record_size * tuplesPerPage es) := Nat.zero_le _
        omega)
    · intro j x hj hx hxP
      cases j with
      | zero =>
        simp only [List.getD_cons_zero, Nat.zero_mul, Nat.add_zero]
        rw [pageBytes_get es _ _ _ hxP]
        exact putHeader_out _ _ _ _ _ (by omega)
      | succ j =>
        simp only [List.getD_cons_succ]
        rw [h5 j x (by omega) hx hxP]
        have e : lo + es.record_size * tuplesPerPage es + j * (es.record_size * tuplesPerPage es) + x
            = lo + (j + 1) * (es.record_size * tuplesPerPage es) + x := by ring
        rw [e]
        exact putHeader_out _ _ _ _ _ (by
          have : 0 ≤ (j + 1) * (es.record_size * tuplesPerPage es) := Nat.zero_le _
          omega)

theorem getD_append_left' {β : Type} (l1 l2 : List β) (k : Nat) (d : β) (h : k < l1.length) :
    (l1 ++ l2).getD k d = l1.getD k d := by
  simp [List.getD_eq_getElem?_getD, List.getElem?_append_left h]

theorem getD_append_singleton {β : Type} (l1 : List β) (x d : β) :
    (l1 ++ [x]).getD l1.length d = x := by
  simp [List.getD_eq_getElem?_getD]

/-- C15 (amended): in run generation (with a header of `BLOCK_COUNT_OFFSET + 2 = 6`
bytes or more, `T ≥ 1`, a sort adapter that returns the records of the chunk and
every write succeeding), the header of page `k` is written at buffer offset
`k * R * T` and changes no byte from offset `k * R * T + headerSize` on, where the
records of page `k` start (for `k ≥ 1` it lands on the last bytes of record
`k * T - 1`, the last record of page `k - 1`, which is written before).  Every
emitted page `k` carries at offset `headerSize + s * R` the bytes of record
`k * T + s` of the sorted chunk; in particular the record at offset `headerSize`
of page `k` is record `k * T`, unchanged. -/
theorem C15_headers_do_not_touch_records (es : external_sort_t)
    (sort : List (List Nat) → List (List Nat)) (chunk : List (List Nat)) (buf0 : Nat → Nat)
    (hH : BLOCK_COUNT_OFFSET + 2 ≤ es.headerSize) (hT : 1 ≤ tuplesPerPage es)
    (hm : 1 ≤ chunk.length) (hlen : (sort chunk).length = chunk.length)
    (hrec : ∀ r ∈ sort chunk, r.length = es.record_size) :
    (runBytes es sort chunk buf0).length
      = (chunk.length + tuplesPerPage es - 1) / tuplesPerPage es ∧
    (∀ (buf : Nat → Nat) (k idx cnt a : Nat),
      k * (es.record_size * tuplesPerPage es) + es.headerSize ≤ a →
      putHeader buf (k * (es.record_size * tuplesPerPage es)) idx cnt a = buf a) ∧
    (∀ k s b, k * tuplesPerPage es + s < chunk.length → s < tuplesPerPage es →
      b < es.record_size →
      ((runBytes es sort chunk buf0).getD k []).getD (es.headerSize + s * es.record_size + b) 0
        = ((sort chunk).getD (k * tuplesPerPage es + s) []).getD b 0) := by
  obtain ⟨hq1, hq2, hq3⟩ := ceil_pages chunk.length (tuplesPerPage es) hT hm
  obtain ⟨h1, h2, h3, h4, h5⟩ := writeFullPagesBytes_spec es
    ((chunk.length + tuplesPerPage es - 1) / tuplesPerPage es - 1) 0 0
    (fillBytes es.record_size (sort chunk) es.headerSize
      (fillBytes es.record_size chunk es.headerSize buf0))
  unfold runBytes
  dsimp only
  rcases hwf : writeFullPagesBytes es
    ((chunk.length + tuplesPerPage es - 1) / tuplesPerPage es - 1) 0 0
    (fillBytes es.record_size (sort chunk) es.headerSize
      (fillBytes es.record_size chunk es.headerSize buf0)) with ⟨pages, i, lo, buf1⟩
  rw [hwf] at h1 h2 h3 h4 h5
  dsimp only at h1 h2 h3 h4 h5 ⊢
  simp only [Nat.zero_add] at h2 h3 h4 h5
  refine ⟨?_, ?_, ?_⟩
  · rw [List.length_append, h1, List.length_singleton]
    omega
  · intro buf k idx cnt a ha
    exact putHeader_out _ _ _ _ _ (by omega)
  · intro k s b hks hs hb
    have hTR : tuplesPerPage es * es.record_size ≤ es.page_size - es.headerSize :=
      Nat.div_mul_le_self _ _
    have hPH : es.headerSize < es.page_size := by
      by_contra hc
      have : es.page_size - es.headerSize = 0 := by omega
      unfold tuplesPerPage at hT
      rw [this, Nat.zero_div] at hT
      omega
    have hsR : s * es.record_size + es.record_size ≤ tuplesPerPage es * es.record_size := by
      have : (s + 1) * es.record_size ≤ tuplesPerPage es * es.record_size :=
        Nat.mul_le_mul_right _ (by omega)
      rw [Nat.add_mul, Nat.one_mul] at this
      exact this
    have hx : es.headerSize + s * es.record_size + b < es.page_size := by omega
    have hk : k < (chunk.length + tuplesPerPage es - 1) / tuplesPerPage es := by
      have : k * tuplesPerPage es
          < (chunk.length + tuplesPerPage es - 1) / tuplesPerPage es * tuplesPerPage es := by
        omega
      exact Nat.lt_of_mul_lt_mul_right this
    have haddr : k * (es.record_size * tuplesPerPage es)
          + (es.headerSize + s * es.record_size + b)
        = es.headerSize + (k * tuplesPerPage es + s) * es.record_size + b := by ring
    have hval := fillBytes_in es.record_size (sort chunk) es.headerSize
      (fillBytes es.record_size chunk es.headerSize buf0) (k * tuplesPerPage es + s) b hrec
      (by rw [hlen]; exact hks) hb
    by_cases hkl : k < (chunk.length + tuplesPerPage es - 1) / tuplesPerPage es - 1
    · rw [getD_append_left' _ _ _ _ (by rw [h1]; exact hkl),
        h5 k _ hkl (by omega) hx, haddr, hval]
    · have hke : k = pages.length := by rw [h1]; omega
      rw [hke, getD_append_singleton, pageBytes_get es _ _ _ hx,
        putHeader_out _ _ _ _ _ (by omega), h4 _ (by rw [h3]; omega), h3, ← h1, ← hke,
        haddr, hval]

/-- C15 (as stated): with `page_size = 22`, `headerSize = 6`, `record_size = 8`
(`T = 2`), a chunk of four records gives a run of two pages, and the 8 bytes at
offset 6 of the second emitted page are the bytes of record `1 * T = 2` of the
sorted chunk: they do not differ from it. -/
theorem C15_first_record_of_second_page_intact :
    (((runBytes ⟨22, 6, 8⟩ sortByFirstByte fourRecords (fun _ => 0)).getD 1 []).drop 6).take 8
      = (sortByFirstByte fourRecords).getD 2 [] ∧
    (runBytes ⟨22, 6, 8⟩ sortByFirstByte fourRecords (fun _ => 0)).getD 1 []
      = [1, 0, 0, 0, 2, 0, 30, 31, 32, 33, 34, 35, 36, 37, 40, 41, 42, 43, 44, 45, 46, 47] := by
  decide!

theorem sortByFirstByte_fourRecords :
    sortByFirstByte fourRecords
      = [[10, 11, 12, 13, 14, 15, 16, 17], [20, 21, 22, 23, 24, 25, 26, 27],
         [30, 31, 32, 33, 34, 35, 36, 37], [40, 41, 42, 43, 44, 45, 46, 47]] := by
  decide!

/-- C15 (witness): the chunk of four 8-byte records, two pages. -/
theorem C15_headers_do_not_touch_records_witness :
    (runBytes ⟨22, 6, 8⟩ sortByFirstByte fourRecords (fun _ => 0)).length
      = (fourRecords.length + tuplesPerPage ⟨22, 6, 8⟩ - 1) / tuplesPerPage ⟨22, 6, 8⟩ ∧
    (∀ (buf : Nat → Nat) (k idx cnt a : Nat),
      k * (8 * tuplesPerPage ⟨22, 6, 8⟩) + 6 ≤ a →
      putHeader buf (k * (8 * tuplesPerPage ⟨22, 6, 8⟩)) idx cnt a = buf a) ∧
    (∀ k s b, k * tuplesPerPage ⟨22, 6, 8⟩ + s < fourRecords.length →
      s < tuplesPerPage ⟨22, 6, 8⟩ → b < 8 →
      ((runBytes ⟨22, 6, 8⟩ sortByFirstByte fourRecords (fun _ => 0)).getD k []).getD
          (6 + s * 8 + b) 0
        = ((sortByFirstByte fourRecords).getD (k * tuplesPerPage ⟨22, 6, 8⟩ + s) []).getD b 0) :=
  C15_headers_do_not_touch_records ⟨22, 6, 8⟩ sortByFirstByte fourRecords (fun _ => 0)
    (by decide) (by decide) (by decide) (by decide!)
    (by
      rw [sortByFirstByte_fourRecords]
      intro r hr
      simp only [List.mem_cons, List.mem_singleton, List.not_mem_nil, or_false] at hr
      rcases hr with rfl | rfl | rfl | rfl <;> rfl)

/-! ## The pages written by one merge -/

theorem mergeCap_pos (es : external_sort_t) (hT : 1 ≤ tuplesPerPage es) : 1 ≤ mergeCap es := by
  unfold mergeCap; split <;> omega

theorem mergeCap_le (es : external_sort_t) : mergeCap es ≤ tuplesPerPage es := by
  unfold mergeCap; split <;> omega

theorem mergeCap_double (es : external_sort_t) (hT : 1 ≤ tuplesPerPage es) :
    tuplesPerPage es ≤ 2 * mergeCap es := by
  unfold mergeCap; split <;> omega

theorem record_size_pos (es : external_sort_t) (hT : 1 ≤ tuplesPerPage es) :
    1 ≤ es.record_size := by
  unfold tuplesPerPage at hT
  by_contra h
  have h0 : es.record_size = 0 := by omega
  rw [h0, Nat.div_zero] at hT
  omega

theorem page_size_pos (es : external_sort_t) (hT : 1 ≤ tuplesPerPage es) :
    1 ≤ es.page_size := by
  have hR := record_size_pos es hT
  unfold tuplesPerPage at hT
  have := Nat.div_mul_le_self (es.page_size - es.headerSize) es.record_size
  have h2 : 1 * es.record_size ≤ (es.page_size - es.headerSize) / es.record_size * es.record_size :=
    Nat.mul_le_mul_right _ hT
  omega

/-- The flush test of line 300 fires exactly when the output page holds `mergeCap` records. -/
theorem flush_iff (es : external_sort_t) (hT : 1 ≤ tuplesPerPage es) (n : Nat) (hn : 1 ≤ n) :
    (((es.headerSize + n * es.record_size : Nat) : Int) ≥ (es.page_size : Int) - es.record_size)
      ↔ mergeCap es ≤ n := by
  have hR := record_size_pos es hT
  have hdm := Nat.div_add_mod (es.page_size - es.headerSize) es.record_size
  have hml := Nat.mod_lt (es.page_size - es.headerSize) (show es.record_size > 0 by omega)
  have hTdef : tuplesPerPage es = (es.page_size - es.headerSize) / es.record_size := rfl
  rw [← hTdef] at hdm
  have hcomm : es.record_size * tuplesPerPage es = tuplesPerPage es * es.record_size :=
    Nat.mul_comm _ _
  rw [hcomm] at hdm
  have hT1 : 1 * es.record_size ≤ tuplesPerPage es * es.record_size := Nat.mul_le_mul_right _ hT
  unfold mergeCap
  split
  · rename_i hc
    obtain ⟨hr0, hT2⟩ := hc
    by_cases hle : tuplesPerPage es - 1 ≤ n
    · have h1 : (tuplesPerPage es - 1) * es.record_size ≤ n * es.record_size :=
        Nat.mul_le_mul_right _ hle
      have h2 : (tuplesPerPage es - 1) * es.record_size + es.record_size
          = tuplesPerPage es * es.record_size := by
        rw [Nat.sub_mul]; omega
      constructor
      · intro _; exact hle
      · intro _; omega
    · have h1 : (n + 1) * es.record_size ≤ (tuplesPerPage es - 1) * es.record_size :=
        Nat.mul_le_mul_right _ (by omega)
      have h2 : (tuplesPerPage es - 1) * es.record_size + es.record_size
          = tuplesPerPage es * es.record_size := by
        rw [Nat.sub_mul]; omega
      rw [Nat.add_mul] at h1
      constructor
      · intro h; omega
      · intro h; omega
  · rename_i hc
    by_cases hle : tuplesPerPage es ≤ n
    · have h1 : tuplesPerPage es * es.record_size ≤ n * es.record_size :=
        Nat.mul_le_mul_right _ hle
      constructor
      · intro _; exact hle
      · intro _; omega
    · have h1 : (n + 1) * es.record_size ≤ tuplesPerPage es * es.record_size :=
        Nat.mul_le_mul_right _ (by omega)
      rw [Nat.add_mul] at h1
      have hr : 0 < (es.page_size - es.headerSize) % es.record_size := by
        by_contra h0
        have : (es.page_size - es.headerSize) % es.record_size = 0 := by omega
        exact hc ⟨this, by omega⟩
      constructor
      · intro h; omega
      · intro h; omega

theorem lookup_cons_eq (file : List (Int × Page α)) (off : Int) (pg : Page α) :
    List.lookup off ((off, pg) :: file) = some pg := by
  simp [List.lookup]

theorem mul_page_ne (c : Int) (P : Nat) (hP : 1 ≤ P) (i j : Int) (h : i ≠ j) :
    c + i * P ≠ c + j * P := by
  intro e
  have hP' : (P : Int) ≠ 0 := by omega
  have : i * (P : Int) = j * P := by omega
  exact h (Int.eq_of_mul_eq_mul_right hP' this)

theorem owed_congr (es : external_sort_t) (wt : Nat → Nat) (s s2 : MergeState α) (j : Nat)
    (h1 : s2.runCount.getD j 0 = s.runCount.getD j 0)
    (h2 : s2.sublsTuplePos.getD j 0 = s.sublsTuplePos.getD j 0)
    (h3 : s2.buffer.getD j none = s.buffer.getD j none) :
    owed es wt s2 j = owed es wt s j := by
  unfold owed
  rw [h1, h2, h3]

theorem emitTuple_keeps (fails : Nat → Bool) (es : external_sort_t) (k : Nat) (tr : Prop)
    (wt : Nat → Nat) (budget : Nat) (hT : 1 ≤ tuplesPerPage es) (hwt : ∀ j, 1 ≤ wt j)
    (s0 s s2 : MergeState α) (o o2 : OutState α) (tuple : α) (c : Nat)
    (hinv : MergeInv es k tr wt budget 0 s0 s o)
    (h : emitTuple fails es s o tuple c = Flow.cont (s2, o2)) :
    MergeInv es k tr wt budget 1 s0 s2 o2 ∧
      1 ≤ o2.numblocks.toNat * mergeCap es + o2.out.length := by
  have hP := page_size_pos es hT
  have hcap := mergeCap_pos es hT
  obtain ⟨hnb, hwpos, hopos, holen, hpages, hothers, hstart, hsame, hlens, hlive, hbound, hbuf,
    hbud, hemitted⟩ := hinv
  have hcond : (((o.bufferOutputPos + es.record_size : Nat) : Int)
        ≥ (es.page_size : Int) - es.record_size) ↔ mergeCap es ≤ o.out.length + 1 := by
    have := flush_iff es hT (o.out.length + 1) (by omega)
    rw [hopos]
    rw [Nat.add_mul, Nat.one_mul, ← Nat.add_assoc] at this
    exact this
  unfold emitTuple at h
  simp only at h
  split at h
  · rename_i hc
    have hfull : o.out.length + 1 = mergeCap es := by
      have := hcond.mp hc
      omega
    obtain ⟨h1, h2⟩ := flushPage_inv _ _ _ _ _ _ h
    subst h1 h2
    have hlw : s.lastWritePos = s0.lastWritePos + ((o.numblocks.toNat : Nat) : Int) * es.page_size := by
      rw [hwpos, Int.toNat_of_nonneg hnb]
    refine ⟨⟨?_, ?_, ?_, ?_, ?_, ?_, ?_, hsame, hlens, hlive, ?_, hbuf, ?_, ?_⟩, ?_⟩
    · show 0 ≤ o.numblocks + 1
      omega
    · show s.lastWritePos + es.page_size = s0.lastWritePos + (o.numblocks + 1) * es.page_size
      rw [hwpos]; ring
    · show es.headerSize = es.headerSize + ([] : List α).length * es.record_size
      simp
    · show ([] : List α).length < mergeCap es
      simp only [List.length_nil]; omega
    · intro j hj
      show ∃ pg, List.lookup (s0.lastWritePos + (j : Int) * es.page_size)
          ((s.lastWritePos, _) :: s.w.file) = some pg ∧ _
      by_cases hjn : (j : Int) = o.numblocks
      · refine ⟨(⟨o.numblocks,
            (((o.bufferOutputPos + es.record_size) / es.record_size : Nat) : Int),
            o.out ++ [tuple]⟩ : Page α), ?_, ?_, ?_, ?_⟩
        · rw [hwpos, ← hjn]
          exact lookup_cons_eq _ _ _
        · exact hjn.symm
        · show (o.out ++ [tuple]).length ≤ mergeCap es
          rw [List.length_append, List.length_singleton]; omega
        · show (mergeCap es : Int)
            ≤ (((o.bufferOutputPos + es.record_size) / es.record_size : Nat) : Int)
          have hRp := record_size_pos es hT
          have hge : o.out.length + 1 ≤ (o.bufferOutputPos + es.record_size) / es.record_size := by
            rw [Nat.le_div_iff_mul_le (by omega), hopos]
            have : (o.out.length + 1) * es.record_size
                = o.out.length * es.record_size + es.record_size := by ring
            omega
          have : mergeCap es ≤ (o.bufferOutputPos + es.record_size) / es.record_size := by omega
          exact_mod_cast this
      · have hj' : (j : Int) < o.numblocks := by
          have : (j : Int) < o.numblocks + 1 := hj
          omega
        obtain ⟨pg, hl, hb, hr⟩ := hpages j hj'
        refine ⟨pg, ?_, hb, hr⟩
        rw [lookup_write _ _ _ _ (by rw [hwpos]; exact mul_page_ne _ _ hP _ _ hjn)]
        exact hl
    · intro x hx
      show List.lookup x ((s.lastWritePos, _) :: s.w.file) = _
      have hxn : x ≠ s.lastWritePos := by
        rw [hlw]
        apply hx
        show ((o.numblocks.toNat : Nat) : Int) < o.numblocks + 1
        omega
      rw [lookup_write _ _ _ _ hxn]
      apply hothers
      intro j hj
      apply hx
      show (j : Int) < o.numblocks + 1
      omega
    · show lastRunStart (Event.write s.lastWritePos _ :: s.w.log)
        = if o.numblocks + 1 = 0 then _ else some s0.lastWritePos
      rw [if_neg (by omega)]
      show (if o.numblocks = 0 then some s.lastWritePos else lastRunStart s.w.log) = _
      by_cases h0 : o.numblocks = 0
      · rw [if_pos h0, hwpos, h0]; simp
      · rw [if_neg h0, hstart, if_neg h0]
    · intro htr j hj i hi pg hl
      have hl' : List.lookup (s.runOffset.getD j 0 + (i : Int) * es.page_size)
          ((s.lastWritePos, (⟨o.numblocks,
            (((o.bufferOutputPos + es.record_size) / es.record_size : Nat) : Int),
            o.out ++ [tuple]⟩ : Page α)) :: s.w.file) = some pg := hl
      by_cases hx : s.runOffset.getD j 0 + (i : Int) * es.page_size = s.lastWritePos
      · rw [hx, lookup_cons_eq] at hl'
        have hpg := Option.some.inj hl'
        rw [← hpg]
        show (o.out ++ [tuple]).length ≤ wt j * mergeCap es
        rw [List.length_append, List.length_singleton, hfull]
        exact Nat.le_mul_of_pos_left _ (hwt j)
      · rw [lookup_write _ _ _ _ hx] at hl'
        exact hbound htr j hj i hi pg hl'
    · intro htr
      have hb := hbud htr
      have hsum : ((List.range k).map (owed es wt
          { s with lastWritePos := s.lastWritePos + es.page_size,
                   w := { file := (s.lastWritePos,
                            ⟨o.numblocks, (((o.bufferOutputPos + es.record_size) / es.record_size : Nat) : Int),
                             o.out ++ [tuple]⟩) :: s.w.file,
                          metric := ((s.w.metric.addCompar c).addMemcpys 1).addWrites 1,
                          ops := s.w.ops + 1,
                          log := Event.write s.lastWritePos
                            ⟨o.numblocks, (((o.bufferOutputPos + es.record_size) / es.record_size : Nat) : Int),
                             o.out ++ [tuple]⟩ :: s.w.log } })).sum
          = ((List.range k).map (owed es wt s)).sum := by
        congr 1
      show (o.numblocks + 1).toNat * mergeCap es + ([] : List α).length + _ ≤ _
      have hsum' := hsum
      have e1 : (o.numblocks + 1).toNat = o.numblocks.toNat + 1 := by omega
      rw [e1, Nat.add_mul, Nat.one_mul, List.length_nil]
      have : ∀ X Y : Nat, X = Y → o.numblocks.toNat * mergeCap es + o.out.length + Y
          ≤ mergeCap es * budget + 0 →
          o.numblocks.toNat * mergeCap es + mergeCap es + 0 + X ≤ mergeCap es * budget + 1 := by
        intro X Y hXY h; omega
      exact this _ _ hsum hb
    · left
      show 1 ≤ (o.numblocks + 1).toNat * mergeCap es + ([] : List α).length
      have e1 : (o.numblocks + 1).toNat = o.numblocks.toNat + 1 := by omega
      rw [e1, Nat.add_mul, Nat.one_mul]; omega
    · show 1 ≤ (o.numblocks + 1).toNat * mergeCap es + ([] : List α).length
      have e1 : (o.numblocks + 1).toNat = o.numblocks.toNat + 1 := by omega
      rw [e1, Nat.add_mul, Nat.one_mul]; omega
  · rename_i hc
    have hnot : o.out.length + 1 < mergeCap es := by
      have := mt hcond.mpr hc
      omega
    simp only [Flow.cont.injEq, Prod.mk.injEq] at h
    obtain ⟨h1, h2⟩ := h
    subst h1 h2
    refine ⟨⟨hnb, hwpos, ?_, ?_, hpages, hothers, hstart, hsame, hlens, hlive, hbound, hbuf, ?_,
      ?_⟩, ?_⟩
    · show o.bufferOutputPos + es.record_size
        = es.headerSize + (o.out ++ [tuple]).length * es.record_size
      rw [hopos, List.length_append, List.length_singleton, Nat.add_mul, Nat.one_mul,
        Nat.add_assoc]
    · show (o.out ++ [tuple]).length < mergeCap es
      rw [List.length_append, List.length_singleton]; exact hnot
    · intro htr
      have hb := hbud htr
      show o.numblocks.toNat * mergeCap es + (o.out ++ [tuple]).length
        + ((List.range k).map (owed es wt s)).sum ≤ _
      rw [List.length_append, List.length_singleton]
      omega
    · left
      show 1 ≤ o.numblocks.toNat * mergeCap es + (o.out ++ [tuple]).length
      rw [List.length_append, List.length_singleton]; omega
    · show 1 ≤ o.numblocks.toNat * mergeCap es + (o.out ++ [tuple]).length
      rw [List.length_append, List.length_singleton]; omega

theorem owed_live (es : external_sort_t) (wt : Nat → Nat) (s : MergeState α) (j : Nat)
    (cur : Page α) (hrc : 0 < s.runCount.getD j 0) (hb : s.buffer.getD j none = some cur) :
    owed es wt s j = (cur.records.length - (s.sublsTuplePos.getD j 0).toNat)
      + ((s.runCount.getD j 0).toNat - 1) * (wt j * mergeCap es) := by
  unfold owed
  rw [if_neg (by omega), hb]

theorem owed_dead (es : external_sort_t) (wt : Nat → Nat) (s : MergeState α) (j : Nat)
    (hrc : s.runCount.getD j 0 ≤ 0) : owed es wt s j = 0 := by
  unfold owed
  rw [if_pos hrc]

theorem bud_step (k lowId : Nat) (hl : lowId < k) (f g : Nat → Nat)
    (hne : ∀ j, j < k → j ≠ lowId → g j = f j) (hdec : g lowId + 1 ≤ f lowId) (E X : Nat)
    (h : E + ((List.range k).map f).sum ≤ X + 1) :
    E + ((List.range k).map g).sum ≤ X + 0 := by
  have := sum_range_update f g lowId k hl hne
  omega

theorem recordAt_some (s : MergeState α) (j : Nat) (t : α) (cur : Page α)
    (hb : s.buffer.getD j none = some cur) (hp : 0 ≤ s.sublsTuplePos.getD j 0)
    (h : recordAt s j = some t) : (s.sublsTuplePos.getD j 0).toNat < cur.records.length := by
  unfold recordAt at h
  rw [hb] at h
  simp only at h
  rw [if_neg (by omega)] at h
  rw [List.get?_eq_getElem?] at h
  by_contra hc
  rw [List.getElem?_eq_none (by omega)] at h
  exact absurd h (by simp)

theorem advanceRun_keeps (fails : Nat → Bool) (es : external_sort_t) (k : Nat) (tr : Prop)
    (wt : Nat → Nat) (budget : Nat)
    (s0 s s3 : MergeState α) (o : OutState α) (lowId : Nat) (hl : lowId < k)
    (hkC : k ≤ s0.runCount.length) (hkO : k ≤ s0.runOffset.length)
    (hkP : k ≤ s0.sublsTuplePos.length) (hkB : k ≤ s0.buffer.length)
    (hinv : MergeInv es k tr wt budget 1 s0 s o)
    (hE : 1 ≤ o.numblocks.toNat * mergeCap es + o.out.length)
    (hlive : s.runCount.getD lowId 0 ≠ 0)
    (hrec : ∃ t, recordAt s lowId = some t)
    (h : advanceRun fails es lowId s = Flow.cont s3) :
    MergeInv es k tr wt budget 0 s0 s3 o := by
  obtain ⟨hnb, hwpos, hopos, holen, hpages, hothers, hstart, hsame, hlens, hlivek, hbound, hbuf,
    hbud, hemitted⟩ := hinv
  obtain ⟨hlC, hlO, hlP, hlB⟩ := hlens
  obtain ⟨t, hrec⟩ := hrec
  have hrcpos : 0 < s.runCount.getD lowId 0 := by
    have := (hlivek lowId hl).1
    omega
  have hposnn := (hlivek lowId hl).2
  obtain ⟨cur, hcur, hcase⟩ := advanceRun_inv _ _ _ _ _ h
  have hplt := recordAt_some s lowId t cur hcur hposnn hrec
  have hown := owed_live es wt s lowId cur hrcpos hcur
  rcases hcase with ⟨hlt, rfl⟩ | ⟨hge, hcnt, rfl⟩ | ⟨hge, hcnt, pg, hlook, rfl⟩
  · -- next record of the same page
    have hpe : (s.sublsTuplePos.set lowId (s.sublsTuplePos.getD lowId 0 + 1)).getD lowId 0
        = s.sublsTuplePos.getD lowId 0 + 1 := getD_set_eq _ _ _ _ (by omega)
    refine ⟨hnb, hwpos, hopos, holen, hpages, hothers, hstart, hsame, ⟨hlC, hlO, ?_, hlB⟩, ?_,
      hbound, hbuf, ?_, Or.inl hE⟩
    · show (s.sublsTuplePos.set lowId _).length = _
      rw [List.length_set]; exact hlP
    · intro j hj
      refine ⟨(hlivek j hj).1, ?_⟩
      show 0 ≤ (s.sublsTuplePos.set lowId _).getD j 0
      by_cases hji : j = lowId
      · subst hji; rw [hpe]; omega
      · rw [getD_set_ne _ _ _ _ _ (fun e => hji e.symm)]; exact (hlivek j hj).2
    · intro htr
      apply bud_step k lowId hl (owed es wt s) _ ?_ ?_ _ _ (hbud htr)
      · intro j _ hne
        apply owed_congr
        · rfl
        · exact getD_set_ne _ _ _ _ _ (fun e => hne e.symm)
        · rfl
      · rw [hown]
        rw [owed_live es wt
          { s with sublsTuplePos :=
              s.sublsTuplePos.set lowId (s.sublsTuplePos.getD lowId 0 + 1) } lowId cur hrcpos hcur]
        show cur.records.length - ((s.sublsTuplePos.set lowId _).getD lowId 0).toNat + _ + 1 ≤ _
        rw [hpe]
        have e1 : (s.sublsTuplePos.getD lowId 0 + 1).toNat
            = (s.sublsTuplePos.getD lowId 0).toNat + 1 := by omega
        rw [e1]
        show cur.records.length - ((s.sublsTuplePos.getD lowId 0).toNat + 1)
          + ((s.runCount.getD lowId 0).toNat - 1) * (wt lowId * mergeCap es) + 1 ≤ _
        omega
  · -- the run is used up
    have hrc1 : s.runCount.getD lowId 0 = 1 := by omega
    have hce : (s.runCount.set lowId (s.runCount.getD lowId 0 - 1)).getD lowId 0 = 0 := by
      rw [getD_set_eq _ _ _ _ (by omega)]; omega
    have hpe : ((s.sublsTuplePos.set lowId (s.sublsTuplePos.getD lowId 0 + 1)).set lowId 0).getD
        lowId 0 = 0 := getD_set_eq _ _ _ _ (by rw [List.length_set]; omega)
    refine ⟨hnb, hwpos, hopos, holen, hpages, hothers, hstart, hsame, ⟨?_, ?_, ?_, hlB⟩, ?_,
      ?_, ?_, ?_, Or.inl hE⟩
    · show (s.runCount.set lowId _).length = _
      rw [List.length_set]; exact hlC
    · show (s.runOffset.set lowId _).length = _
      rw [List.length_set]; exact hlO
    · show ((s.sublsTuplePos.set lowId _).set lowId _).length = _
      rw [List.length_set, List.length_set]; exact hlP
    · intro j hj
      show 0 ≤ (s.runCount.set lowId _).getD j 0
        ∧ 0 ≤ ((s.sublsTuplePos.set lowId _).set lowId 0).getD j 0
      by_cases hji : j = lowId
      · subst hji; rw [hce, hpe]; omega
      · rw [getD_set_ne _ _ _ _ _ (fun e => hji e.symm),
          getD_set_ne _ _ _ _ _ (fun e => hji e.symm),
          getD_set_ne _ _ _ _ _ (fun e => hji e.symm)]
        exact hlivek j hj
    · intro htr j hj i hi pg hlk
      have hi' : (i : Int) < (s.runCount.set lowId (s.runCount.getD lowId 0 - 1)).getD j 0 := hi
      have hlk' : s.w.file.lookup
          ((s.runOffset.set lowId (s.runOffset.getD lowId 0 + es.page_size)).getD j 0
            + (i : Int) * es.page_size) = some pg := hlk
      by_cases hji : j = lowId
      · subst hji; rw [hce] at hi'; omega
      · rw [getD_set_ne _ _ _ _ _ (fun e => hji e.symm)] at hi' hlk'
        exact hbound htr j hj i hi' pg hlk'
    · intro htr j hj hpos cur1 hb
      have hpos' : 0 < (s.runCount.set lowId (s.runCount.getD lowId 0 - 1)).getD j 0 := hpos
      by_cases hji : j = lowId
      · subst hji; rw [hce] at hpos'; omega
      · rw [getD_set_ne _ _ _ _ _ (fun e => hji e.symm)] at hpos'
        exact hbuf htr j hj hpos' cur1 hb
    · intro htr
      apply bud_step k lowId hl (owed es wt s) _ ?_ ?_ _ _ (hbud htr)
      · intro j _ hne
        apply owed_congr
        · exact getD_set_ne _ _ _ _ _ (fun e => hne e.symm)
        · show ((s.sublsTuplePos.set lowId _).set lowId 0).getD j 0 = _
          rw [getD_set_ne _ _ _ _ _ (fun e => hne e.symm),
            getD_set_ne _ _ _ _ _ (fun e => hne e.symm)]
        · rfl
      · rw [hown, owed_dead es wt _ lowId (by
          show (s.runCount.set lowId _).getD lowId 0 ≤ 0
          rw [hce])]
        omega
  · -- the next page of the run is loaded
    have hce : (s.runCount.set lowId (s.runCount.getD lowId 0 - 1)).getD lowId 0
        = s.runCount.getD lowId 0 - 1 := getD_set_eq _ _ _ _ (by omega)
    have hoe : (s.runOffset.set lowId (s.runOffset.getD lowId 0 + es.page_size)).getD lowId 0
        = s.runOffset.getD lowId 0 + es.page_size := getD_set_eq _ _ _ _ (by omega)
    have hpe : ((s.sublsTuplePos.set lowId (s.sublsTuplePos.getD lowId 0 + 1)).set lowId 0).getD
        lowId 0 = 0 := getD_set_eq _ _ _ _ (by rw [List.length_set]; omega)
    have hbe : (s.buffer.set lowId (some pg)).getD lowId none = some pg :=
      getD_set_eq' _ _ _ _ (by omega)
    refine ⟨hnb, hwpos, hopos, holen, hpages, hothers, hstart, hsame, ⟨?_, ?_, ?_, ?_⟩, ?_,
      ?_, ?_, ?_, Or.inl hE⟩
    · show (s.runCount.set lowId _).length = _
      rw [List.length_set]; exact hlC
    · show (s.runOffset.set lowId _).length = _
      rw [List.length_set]; exact hlO
    · show ((s.sublsTuplePos.set lowId _).set lowId _).length = _
      rw [List.length_set, List.length_set]; exact hlP
    · show (s.buffer.set lowId _).length = _
      rw [List.length_set]; exact hlB
    · intro j hj
      show 0 ≤ (s.runCount.set lowId _).getD j 0
        ∧ 0 ≤ ((s.sublsTuplePos.set lowId _).set lowId 0).getD j 0
      by_cases hji : j = lowId
      · subst hji; rw [hce, hpe]; omega
      · rw [getD_set_ne _ _ _ _ _ (fun e => hji e.symm),
          getD_set_ne _ _ _ _ _ (fun e => hji e.symm),
          getD_set_ne _ _ _ _ _ (fun e => hji e.symm)]
        exact hlivek j hj
    · intro htr j hj i hi pg1 hlk
      have hi' : (i : Int) < (s.runCount.set lowId (s.runCount.getD lowId 0 - 1)).getD j 0 := hi
      have hlk' : s.w.file.lookup
          ((s.runOffset.set lowId (s.runOffset.getD lowId 0 + es.page_size)).getD j 0
            + (i : Int) * es.page_size) = some pg1 := hlk
      by_cases hji : j = lowId
      · subst hji
        rw [hce] at hi'
        rw [hoe] at hlk'
        apply hbound htr j hj (i + 1) (by push_cast; omega) pg1
        rw [← hlk']
        congr 1
        push_cast; ring
      · rw [getD_set_ne _ _ _ _ _ (fun e => hji e.symm)] at hi' hlk'
        exact hbound htr j hj i hi' pg1 hlk'
    · intro htr j hj hpos cur1 hb
      have hpos' : 0 < (s.runCount.set lowId (s.runCount.getD lowId 0 - 1)).getD j 0 := hpos
      have hb' : (s.buffer.set lowId (some pg)).getD j none = some cur1 := hb
      by_cases hji : j = lowId
      · subst hji
        rw [hbe] at hb'
        have := Option.some.inj hb'
        subst this
        apply hbound htr j hj 1 (by push_cast; omega) pg
        rw [← hlook]
        congr 1
        push_cast; ring
      · rw [getD_set_ne _ _ _ _ _ (fun e => hji e.symm)] at hpos'
        rw [getD_set_ne' _ _ _ _ _ (fun e => hji e.symm)] at hb'
        exact hbuf htr j hj hpos' cur1 hb'
    · intro htr
      apply bud_step k lowId hl (owed es wt s) _ ?_ ?_ _ _ (hbud htr)
      · intro j _ hne
        apply owed_congr
        · exact getD_set_ne _ _ _ _ _ (fun e => hne e.symm)
        · show ((s.sublsTuplePos.set lowId _).set lowId 0).getD j 0 = _
          rw [getD_set_ne _ _ _ _ _ (fun e => hne e.symm),
            getD_set_ne _ _ _ _ _ (fun e => hne e.symm)]
        · exact getD_set_ne' _ _ _ _ _ (fun e => hne e.symm)
      · have hpgb : pg.records.length ≤ wt lowId * mergeCap es := by
          apply hbound htr lowId hl 1 (by push_cast; omega) pg
          rw [← hlook]
          congr 1
          push_cast; ring
        rw [hown, owed_live es wt _ lowId pg (by
          show 0 < (s.runCount.set lowId _).getD lowId 0
          rw [hce]; omega) hbe]
        show pg.records.length
            - (((s.sublsTuplePos.set lowId _).set lowId 0).getD lowId 0).toNat
          + (((s.runCount.set lowId _).getD lowId 0).toNat - 1) * (wt lowId * mergeCap es) + 1 ≤ _
        rw [hpe, hce]
        obtain ⟨n, hn⟩ : ∃ n : Nat, s.runCount.getD lowId 0 = (n : Int) + 2 :=
          ⟨(s.runCount.getD lowId 0 - 2).toNat, by omega⟩
        rw [hn]
        have e1 : ((n : Int) + 2 - 1).toNat - 1 = n := by omega
        have e2 : ((n : Int) + 2).toNat - 1 = n + 1 := by omega
        rw [e1, e2, Nat.succ_mul]
        simp only [Int.toNat_zero, Nat.sub_zero]
        omega

theorem findLowest_live (cmp : α → α → Int) (s : MergeState α) (k : Nat) :
    ∀ (n i lowId : Nat) (tuple : α) (c l : Nat) (t : α) (c1 : Nat),
      i + n = k → lowId < k → s.runCount.getD lowId 0 ≠ 0 → recordAt s lowId = some tuple →
      findLowest cmp s n i lowId tuple c = some (l, t, c1) →
      l < k ∧ s.runCount.getD l 0 ≠ 0 ∧ recordAt s l = some t := by
  intro n
  induction n with
  | zero =>
    intro i lowId tuple c l t c1 _ hlow hlive hrec h
    simp only [findLowest, Option.some.injEq, Prod.mk.injEq] at h
    obtain ⟨h1, h2, _⟩ := h
    subst h1 h2
    exact ⟨hlow, hlive, hrec⟩
  | succ n ih =>
    intro i lowId tuple c l t c1 hik hlow hlive hrec h
    rw [findLowest] at h
    by_cases h0 : s.runCount.getD i 0 = 0
    · rw [if_pos h0] at h
      exact ih (i + 1) lowId tuple c l t c1 (by omega) hlow hlive hrec h
    · rw [if_neg h0] at h
      cases hv : recordAt s i with
      | none => rw [hv] at h; simp at h
      | some v =>
        rw [hv] at h
        dsimp only at h
        by_cases hc : 0 < cmp tuple v
        · rw [if_pos hc] at h
          exact ih (i + 1) i v (c + 1) l t c1 (by omega) (by omega) h0 hv h
        · rw [if_neg hc] at h
          exact ih (i + 1) lowId tuple (c + 1) l t c1 (by omega) hlow hlive hrec h

theorem lastRunStart_skip (e : Event α) (log : List (Event α))
    (h : ∀ off pg, e ≠ Event.write off pg) : lastRunStart (e :: log) = lastRunStart log := by
  cases e with
  | write off pg => exact absurd rfl (h off pg)
  | iter _ => rfl
  | writeFail _ => rfl
  | peek _ => rfl
  | load _ => rfl
  | readFail _ => rfl

theorem mergeLoop_keeps (fails : Nat → Bool) (cmp : α → α → Int) (es : external_sort_t)
    (k : Nat) (tr : Prop) (wt : Nat → Nat) (budget : Nat) (hT : 1 ≤ tuplesPerPage es)
    (hwt : ∀ j, 1 ≤ wt j) (s0 : MergeState α)
    (hkC : k ≤ s0.runCount.length) (hkO : k ≤ s0.runOffset.length)
    (hkP : k ≤ s0.sublsTuplePos.length) (hkB : k ≤ s0.buffer.length) :
    ∀ (fuel : Nat) (s s' : MergeState α) (o o' : OutState α),
      MergeInv es k tr wt budget 0 s0 s o →
      mergeLoop fails cmp es k fuel s o = Flow.cont (s', o') →
      MergeInv es k tr wt budget 0 s0 s' o' ∧ ∀ j, j < k → s'.runCount.getD j 0 = 0 := by
  intro fuel
  induction fuel with
  | zero => intro s s' o o' _ h; simp [mergeLoop] at h
  | succ fuel ih =>
    intro s s' o o' hinv h
    rcases mergeLoop_succ_inv _ _ _ _ _ _ _ _ _ h with
      ⟨hi, hs, ho⟩ | ⟨hi, t0, l, t, c, s2, o2, s3, h0, hfl, hem, hadv, hrec⟩
    · rw [hs, ho]
      refine ⟨hinv, ?_⟩
      obtain ⟨_, _, hdead, _⟩ := firstLive_spec s.runCount k k 0 (Nat.zero_le _) (by omega)
      intro j hj
      exact hdead j (Nat.zero_le _) (by omega)
    · obtain ⟨_, hle, _, hlive⟩ := firstLive_spec s.runCount k k 0 (Nat.zero_le _) (by omega)
      have hik : firstLive s.runCount k k 0 < k := by omega
      obtain ⟨hlk, hll, hlr⟩ := findLowest_live cmp s k _ _ _ _ _ _ _ _ (by omega) hik
        (hlive hik) h0 hfl
      obtain ⟨e1, e2, e3, e4, _⟩ := emitTuple_inv _ _ _ _ _ _ _ _ hem
      obtain ⟨hinv2, hE⟩ := emitTuple_keeps fails es k tr wt budget hT hwt s0 s s2 o o2 t c
        hinv hem
      have hlr2 : recordAt s2 l = some t := by
        unfold recordAt at hlr ⊢
        rw [e3, e4]; exact hlr
      have hinv3 := advanceRun_keeps fails es k tr wt budget s0 s2 s3 o2 l hlk hkC hkO hkP hkB
        hinv2 hE (by rw [e2]; exact hll) ⟨t, hlr2⟩ hadv
      exact ih s3 s' o2 o' hinv3 hrec

theorem loadFirstPages_inv (fails : Nat → Bool) :
    ∀ (n i : Nat) (s s3 : MergeState α), i + n ≤ s.buffer.length →
      loadFirstPages fails n i s = Flow.cont s3 →
      SameScalars s s3 ∧ s3.lastWritePos = s.lastWritePos ∧ s3.runCount = s.runCount ∧
      s3.runOffset = s.runOffset ∧ s3.sublsTuplePos = s.sublsTuplePos ∧
      s3.buffer.length = s.buffer.length ∧ s3.w.file = s.w.file ∧
      lastRunStart s3.w.log = lastRunStart s.w.log ∧
      (∀ j, i ≤ j → j < i + n → ∃ pg, s.w.file.lookup (s.runOffset.getD j 0) = some pg ∧
        s3.buffer.getD j none = some pg) ∧
      (∀ j, j < i → s3.buffer.getD j none = s.buffer.getD j none) := by
  intro n
  induction n with
  | zero =>
    intro i s s3 _ h
    simp only [loadFirstPages, Flow.cont.injEq] at h
    subst h
    exact ⟨⟨rfl, rfl, rfl, rfl, rfl, rfl, rfl⟩, rfl, rfl, rfl, rfl, rfl, rfl, rfl,
      fun j h1 h2 => by omega, fun j _ => rfl⟩
  | succ n ih =>
    intro i s s3 hlen h
    rw [loadFirstPages] at h
    dsimp only at h
    split at h
    · simp at h
    · rename_i pg w2 hr
      obtain ⟨hlk, hw2⟩ := fread_some _ _ _ _ _ _ hr
      obtain ⟨hs, h1, h2, h3, h4, h5, h6, h7, h8, h9⟩ := ih (i + 1)
        { s with buffer := s.buffer.set i (some pg), w := w2 } s3
        (by show i + 1 + n ≤ (s.buffer.set i (some pg)).length
            rw [List.length_set]; omega) h
      refine ⟨hs, h1, h2, h3, h4, ?_, ?_, ?_, ?_, ?_⟩
      · rw [h5]; show (s.buffer.set i (some pg)).length = _
        rw [List.length_set]
      · rw [h6]; show w2.file = _
        rw [hw2]
      · rw [h7]; show lastRunStart w2.log = _
        rw [hw2]; rfl
      · intro j hij hj
        by_cases hji : j = i
        · subst hji
          refine ⟨pg, hlk, ?_⟩
          rw [h9 j (by omega)]
          exact getD_set_eq' _ _ _ _ (by omega)
        · obtain ⟨pg1, hl1, hb1⟩ := h8 j (by omega) (by omega)
          refine ⟨pg1, ?_, hb1⟩
          have : w2.file = s.w.file := by rw [hw2]
          rw [← this]; exact hl1
      · intro j hj
        rw [h9 j (by omega)]
        exact getD_set_ne' _ _ _ _ _ (by omega)

theorem sum_range_le_mul (c : Nat) (f g : Nat → Nat) :
    ∀ k, (∀ j, j < k → f j ≤ c * g j) →
      ((List.range k).map f).sum ≤ c * ((List.range k).map g).sum := by
  intro k
  induction k with
  | zero => intro _; simp
  | succ k ih =>
    intro h
    rw [List.range_succ, List.map_append, List.map_append, List.sum_append, List.sum_append]
    simp only [List.map_cons, List.map_nil, List.sum_cons, List.sum_nil, Nat.add_zero]
    have h1 := ih (fun j hj => h j (by omega))
    have h2 := h k (by omega)
    rw [Nat.mul_add]
    omega

theorem sum_range_zero (f : Nat → Nat) :
    ∀ k, (∀ j, j < k → f j = 0) → ((List.range k).map f).sum = 0 := by
  intro k
  induction k with
  | zero => intro _; simp
  | succ k ih =>
    intro h
    rw [List.range_succ, List.map_append, List.sum_append]
    simp only [List.map_cons, List.map_nil, List.sum_cons, List.sum_nil, Nat.add_zero]
    rw [ih (fun j hj => h j (by omega)), h k (by omega)]

theorem SameScalars_trans {s0 s1 s2 : MergeState α} (h1 : SameScalars s0 s1)
    (h2 : SameScalars s1 s2) : SameScalars s0 s2 := by
  obtain ⟨a1, a2, a3, a4, a5, a6, a7⟩ := h1
  obtain ⟨b1, b2, b3, b4, b5, b6, b7⟩ := h2
  exact ⟨by rw [b1, a1], by rw [b2, a2], by rw [b3, a3], by rw [b4, a4], by rw [b5, a5],
    by rw [b6, a6], by rw [b7, a7]⟩

/-- The effect of one merge (lines 251-372) on the file and on the variables. -/
theorem mergeRuns_effect (fails : Nat → Bool) (cmp : α → α → Int) (es : external_sort_t)
    (k : Nat) (tr : Prop) (wt : Nat → Nat) (hT : 1 ≤ tuplesPerPage es) (hwt : ∀ j, 1 ≤ wt j)
    (fuel : Nat) (s s' : MergeState α) (hk : 1 ≤ k)
    (hkC : k ≤ s.runCount.length) (hkO : k ≤ s.runOffset.length)
    (hkP : k ≤ s.sublsTuplePos.length) (hkB : k ≤ s.buffer.length)
    (hrc : ∀ j, j < k → 1 ≤ s.runCount.getD j 0 ∧ s.sublsTuplePos.getD j 0 = 0)
    (hb : tr → ∀ j, j < k → ∀ i : Nat, (i : Int) < s.runCount.getD j 0 → ∀ pg,
      s.w.file.lookup (s.runOffset.getD j 0 + (i : Int) * es.page_size) = some pg →
      pg.records.length ≤ wt j * mergeCap es)
    (h : mergeRuns fails cmp es k fuel s = Flow.cont s') :
    ∃ L, MergeDone es L s s' ∧
      (tr → L ≤ ((List.range k).map (fun j => wt j * (s.runCount.getD j 0).toNat)).sum) := by
  have hP := page_size_pos es hT
  have hR := record_size_pos es hT
  have hcap := mergeCap_pos es hT
  unfold mergeRuns at h
  cases hl : loadFirstPages fails k 0 s with
  | stuck => rw [hl] at h; simp at h
  | ret c w => rw [hl] at h; simp at h
  | cont s3 =>
    rw [hl] at h
    dsimp only at h
    obtain ⟨hs, h1, h2, h3, h4, h5, h6, h7, h8, _⟩ := loadFirstPages_inv fails k 0 s s3
      (by omega) hl
    have hinv0 : MergeInv es k tr wt
        ((List.range k).map (fun j => wt j * (s.runCount.getD j 0).toNat)).sum 0 s s3
        (⟨[], es.headerSize, 0⟩ : OutState α) := by
      refine ⟨le_refl _, ?_, ?_, ?_, ?_, ?_, ?_, hs, ⟨by rw [h2], by rw [h3], by rw [h4], h5⟩,
        ?_, ?_, ?_, ?_, ?_⟩
      · show s3.lastWritePos = s.lastWritePos + 0 * es.page_size
        rw [h1]; simp
      · show es.headerSize = es.headerSize + ([] : List α).length * es.record_size
        simp
      · show ([] : List α).length < mergeCap es
        simp only [List.length_nil]; omega
      · intro j hj
        have : (j : Int) < 0 := hj
        omega
      · intro x _
        rw [h6]
      · show lastRunStart s3.w.log = if (0 : Int) = 0 then _ else _
        rw [if_pos rfl, h7]
      · intro j hj
        rw [h2, h4]
        have := hrc j hj
        omega
      · intro htr j hj i hi pg hlk
        rw [h2] at hi
        rw [h3, h6] at hlk
        exact hb htr j hj i hi pg hlk
      · intro htr j hj _ cur hcur
        obtain ⟨pg, hlk, hbj⟩ := h8 j (Nat.zero_le _) (by omega)
        rw [hbj] at hcur
        have := Option.some.inj hcur
        subst this
        apply hb htr j hj 0 (by have := (hrc j hj).1; push_cast; omega) pg
        rw [← hlk]
        congr 1
        simp
      · intro htr
        show (0 : Int).toNat * mergeCap es + ([] : List α).length + _ ≤ _
        simp only [Int.toNat_zero, Nat.zero_mul, List.length_nil, Nat.zero_add, Nat.add_zero]
        apply sum_range_le_mul
        intro j hj
        obtain ⟨pg, hlk, hbj⟩ := h8 j (Nat.zero_le _) (by omega)
        have hrcj := (hrc j hj).1
        have hpj := (hrc j hj).2
        rw [owed_live es wt s3 j pg (by rw [h2]; omega) hbj, h2, h4, hpj]
        have hlen : pg.records.length ≤ wt j * mergeCap es := by
          apply hb htr j hj 0 (by push_cast; omega) pg
          rw [← hlk]
          congr 1
          simp
        obtain ⟨n, hn⟩ : ∃ n : Nat, s.runCount.getD j 0 = (n : Int) + 1 :=
          ⟨(s.runCount.getD j 0 - 1).toNat, by omega⟩
        rw [hn]
        have e1 : ((n : Int) + 1).toNat = n + 1 := by omega
        rw [e1]
        simp only [Int.toNat_zero, Nat.sub_zero, Nat.add_sub_cancel]
        have e2 : mergeCap es * (wt j * (n + 1)) = n * (wt j * mergeCap es) + wt j * mergeCap es := by
          ring
        rw [e2]
        omega
      · right
        rw [h2]
        exact (hrc 0 (by omega)).1
    cases hm : mergeLoop fails cmp es k fuel s3 (⟨[], es.headerSize, 0⟩ : OutState α) with
    | stuck => rw [hm] at h; simp at h
    | ret c w => rw [hm] at h; simp at h
    | cont x =>
      obtain ⟨s4, o4⟩ := x
      rw [hm] at h
      dsimp only at h
      obtain ⟨hinv4, hdead⟩ := mergeLoop_keeps fails cmp es k tr wt _ hT hwt s hkC hkO hkP hkB
        fuel s3 s4 _ o4 hinv0 hm
      obtain ⟨hnb, hwpos, hopos, holen, hpages, hothers, hstart, hsame, hlens, hlivek, hbound,
        hbuf, hbud, hemitted⟩ := hinv4
      have hsum0 : ((List.range k).map (owed es wt s4)).sum = 0 :=
        sum_range_zero _ k (fun j hj => owed_dead es wt s4 j (by rw [hdead j hj]))
      have hE : 1 ≤ o4.numblocks.toNat * mergeCap es + o4.out.length := by
        rcases hemitted with h | h
        · exact h
        · rw [hdead 0 (by omega)] at h; omega
      have hlw : s4.lastWritePos
          = s.lastWritePos + ((o4.numblocks.toNat : Nat) : Int) * es.page_size := by
        rw [hwpos, Int.toNat_of_nonneg hnb]
      by_cases hfl : o4.bufferOutputPos > es.headerSize
      · rw [if_pos hfl] at h
        have hout : 1 ≤ o4.out.length := by
          rw [hopos] at hfl
          by_contra hc
          have : o4.out.length = 0 := by omega
          rw [this] at hfl
          simp at hfl
        cases hf : flushPage fails es s4 o4 with
        | stuck => rw [hf] at h; simp at h
        | ret c w => rw [hf] at h; simp at h
        | cont y =>
          obtain ⟨s5, o5⟩ := y
          rw [hf] at h
          simp only [Flow.cont.injEq] at h
          subst h
          obtain ⟨e5, _⟩ := flushPage_inv _ _ _ _ _ _ hf
          subst e5
          refine ⟨o4.numblocks.toNat + 1, ⟨by omega, ?_, hsame, hlens, ?_, ?_, ?_⟩, ?_⟩
          · show s4.lastWritePos + es.page_size = _
            rw [hlw]; push_cast; ring
          · intro j hj
            show ∃ pg, List.lookup (s.lastWritePos + (j : Int) * es.page_size)
                ((s4.lastWritePos, _) :: s4.w.file) = some pg ∧ _
            by_cases hjn : j = o4.numblocks.toNat
            · refine ⟨(⟨o4.numblocks, ((o4.bufferOutputPos / es.record_size : Nat) : Int),
                o4.out⟩ : Page α), ?_, ?_, ?_, ?_⟩
              · rw [hlw, ← hjn]
                exact lookup_cons_eq _ _ _
              · show o4.numblocks = (j : Int)
                rw [hjn]; omega
              · show o4.out.length ≤ mergeCap es
                omega
              · intro hlt
                omega
            · have hj' : (j : Int) < o4.numblocks := by omega
              obtain ⟨pg, hl1, hb1, hr1, hd1⟩ := hpages j hj'
              refine ⟨pg, ?_, hb1, hr1, fun _ => hd1⟩
              rw [lookup_write _ _ _ _ (by
                rw [hlw]
                exact mul_page_ne _ _ hP _ _ (by omega))]
              exact hl1
          · intro x hx
            show List.lookup x ((s4.lastWritePos, _) :: s4.w.file) = _
            have hxn : x ≠ s4.lastWritePos := by
              rw [hlw]
              exact hx _ (by omega)
            rw [lookup_write _ _ _ _ hxn]
            apply hothers
            intro j hj
            exact hx j (by omega)
          · show lastRunStart (Event.write s4.lastWritePos _ :: s4.w.log) = _
            show (if o4.numblocks = 0 then some s4.lastWritePos else lastRunStart s4.w.log) = _
            by_cases h0 : o4.numblocks = 0
            · rw [if_pos h0, hwpos, h0]; simp
            · rw [if_neg h0, hstart, if_neg h0]
          · intro htr
            have hb1 := hbud htr
            rw [hsum0] at hb1
            have h2 : o4.numblocks.toNat * mergeCap es
                < mergeCap es * ((List.range k).map
                    (fun j => wt j * (s.runCount.getD j 0).toNat)).sum := by omega
            rw [Nat.mul_comm] at h2
            have := Nat.lt_of_mul_lt_mul_left h2
            omega
      · rw [if_neg hfl] at h
        simp only [Flow.cont.injEq] at h
        subst h
        have hout : o4.out.length = 0 := by
          rw [hopos] at hfl
          by_contra hc
          have h1 : 1 ≤ o4.out.length := by omega
          have := Nat.mul_le_mul h1 hR
          omega
        rw [hout] at hE
        have hnb1 : 1 ≤ o4.numblocks.toNat := by
          by_contra hc
          have : o4.numblocks.toNat = 0 := by omega
          rw [this] at hE
          omega
        refine ⟨o4.numblocks.toNat, ⟨hnb1, hlw, hsame, hlens, ?_, ?_, ?_⟩, ?_⟩
        · intro j hj
          obtain ⟨pg, hl1, hb1, hr1, hd1⟩ := hpages j (by omega)
          exact ⟨pg, hl1, hb1, hr1, fun _ => hd1⟩
        · intro x hx
          apply hothers
          intro j hj
          exact hx j (by omega)
        · rw [hstart, if_neg (by omega)]
        · intro htr
          have hb1 := hbud htr
          rw [hsum0, hout] at hb1
          have h2 : mergeCap es * o4.numblocks.toNat
              ≤ mergeCap es * ((List.range k).map
                  (fun j => wt j * (s.runCount.getD j 0).toNat)).sum := by
            rw [Nat.mul_comm]; omega
          exact Nat.le_of_mul_le_mul_left h2 (by omega)

/-! ## File operations that cannot fail

With no failing file operation, a merge returns no error code as long as every
page it asks for is stored in the file. -/

theorem lookup_grow (file : List (Int × Page α)) (off x : Int) (pg : Page α)
    (h : ∃ q, file.lookup x = some q) : ∃ q, List.lookup x ((off, pg) :: file) = some q := by
  by_cases hx : x = off
  · subst hx
    exact ⟨pg, lookup_cons_eq _ _ _⟩
  · rw [lookup_write _ _ _ _ hx]
    exact h

theorem flushPage_noret (fails : Nat → Bool) (hio : ∀ k, fails k = false)
    (es : external_sort_t) (s : MergeState α) (o : OutState α) (c : Nat) (w : World α) :
    flushPage fails es s o ≠ Flow.ret c w := by
  unfold flushPage
  simp only [fwrite_ok fails hio]
  intro h
  simp at h

theorem emitTuple_noret (fails : Nat → Bool) (hio : ∀ k, fails k = false)
    (es : external_sort_t) (s : MergeState α) (o : OutState α) (tuple : α) (n : Nat)
    (c : Nat) (w : World α) :
    emitTuple fails es s o tuple n ≠ Flow.ret c w := by
  unfold emitTuple
  simp only
  split
  · exact flushPage_noret fails hio es _ _ c w
  · intro h
    simp at h

theorem emitTuple_avail (fails : Nat → Bool) (es : external_sort_t) (k : Nat)
    (s s2 : MergeState α) (o o2 : OutState α) (tuple : α) (n : Nat)
    (h : emitTuple fails es s o tuple n = Flow.cont (s2, o2)) (hav : Avail es k s) :
    Avail es k s2 := by
  obtain ⟨e1, e2, _, _, hcase⟩ := emitTuple_inv _ _ _ _ _ _ _ _ h
  intro j hj i hi
  rw [e2] at hi
  rw [e1]
  obtain ⟨pg, hpg⟩ := hav j hj i hi
  rcases hcase with ⟨_, hf, _⟩ | ⟨_, hf, _⟩
  · rw [hf]; exact ⟨pg, hpg⟩
  · rw [hf]; exact lookup_grow _ _ _ _ ⟨pg, hpg⟩

theorem advanceRun_noret (fails : Nat → Bool) (hio : ∀ k, fails k = false)
    (es : external_sort_t) (k lowId : Nat) (s : MergeState α) (hl : lowId < k)
    (hav : Avail es k s) (c : Nat) (w : World α) :
    advanceRun fails es lowId s ≠ Flow.ret c w := by
  unfold advanceRun
  simp only
  split
  · intro h; simp at h
  · split
    · split
      · rename_i hcnt
        have hcnt' : (0 : Int) < s.runCount.getD lowId 0 - 1 := hcnt
        obtain ⟨pg, hpg⟩ := hav lowId hl 1 (by push_cast; omega)
        have hpg' : s.w.file.lookup (s.runOffset.getD lowId 0 + es.page_size) = some pg := by
          rw [← hpg]; congr 1; push_cast; ring
        split
        · rename_i w1 hr
          have := fread_ok fails true s.w _ pg (hio _) hpg'
          rw [this] at hr
          simp at hr
        · intro h; simp at h
      · intro h; simp at h
    · intro h; simp at h

theorem advanceRun_avail (fails : Nat → Bool) (es : external_sort_t) (k lowId : Nat)
    (s s3 : MergeState α) (hC : k ≤ s.runCount.length) (hO : k ≤ s.runOffset.length)
    (hl : lowId < k) (h : advanceRun fails es lowId s = Flow.cont s3) (hav : Avail es k s) :
    Avail es k s3 ∧ s3.runCount.length = s.runCount.length ∧
      s3.runOffset.length = s.runOffset.length := by
  obtain ⟨cur, _, hcase⟩ := advanceRun_inv _ _ _ _ _ h
  have key : ∀ f : List (Int × Page α), f = s.w.file →
      ∀ j, j < k → ∀ i : Nat,
        (i : Int) < (s.runCount.set lowId (s.runCount.getD lowId 0 - 1)).getD j 0 →
        ∃ pg, f.lookup ((s.runOffset.set lowId (s.runOffset.getD lowId 0 + es.page_size)).getD
          j 0 + (i : Int) * es.page_size) = some pg := by
    intro f hf j hj i hi
    subst hf
    by_cases hjl : j = lowId
    · subst hjl
      rw [getD_set_eq _ _ _ _ (by omega)] at hi
      rw [getD_set_eq _ _ _ _ (by omega)]
      obtain ⟨pg, hpg⟩ := hav j hj (i + 1) (by push_cast; omega)
      refine ⟨pg, ?_⟩
      rw [← hpg]; congr 1; push_cast; ring
    · rw [getD_set_ne _ _ _ _ _ (fun e => hjl e.symm)] at hi
      rw [getD_set_ne _ _ _ _ _ (fun e => hjl e.symm)]
      exact hav j hj i hi
  rcases hcase with ⟨_, rfl⟩ | ⟨_, _, rfl⟩ | ⟨_, _, pg, _, rfl⟩
  · exact ⟨hav, rfl, rfl⟩
  · exact ⟨key _ rfl, by simp, by simp⟩
  · exact ⟨key _ rfl, by simp, by simp⟩

theorem mergeLoop_noret (fails : Nat → Bool) (hio : ∀ k, fails k = false)
    (cmp : α → α → Int) (es : external_sort_t) (k : Nat) :
    ∀ (fuel : Nat) (s : MergeState α) (o : OutState α), k ≤ s.runCount.length →
      k ≤ s.runOffset.length → Avail es k s →
      ∀ c w, mergeLoop fails cmp es k fuel s o ≠ Flow.ret c w := by
  intro fuel
  induction fuel with
  | zero =>
    intro s o _ _ _ c w h
    simp [mergeLoop] at h
  | succ fuel ih =>
    intro s o hC hO hav c w h
    rw [mergeLoop.eq_2] at h
    obtain ⟨_, hle, _, hne⟩ := firstLive_spec s.runCount k k 0 (Nat.zero_le _) (by omega)
    split at h
    · simp at h
    · rename_i hik
      have hlt : firstLive s.runCount k k 0 < k := by omega
      split at h
      · simp at h
      · rename_i tuple0 hrec
        split at h
        · simp at h
        · rename_i lowId tuple n hfind
          obtain ⟨hl, _, _⟩ := findLowest_live cmp s k _ _ _ _ _ _ _ _ (by omega) hlt (hne hlt)
            hrec hfind
          split at h
          · simp at h
          · rename_i c1 w1 he
            exact emitTuple_noret fails hio es s o tuple n c1 w1 he
          · rename_i s2 o2 he
            have hav2 := emitTuple_avail fails es k s s2 o o2 tuple n he hav
            obtain ⟨e1, e2, _, _, _⟩ := emitTuple_inv _ _ _ _ _ _ _ _ he
            split at h
            · simp at h
            · rename_i c2 w2 ha
              exact advanceRun_noret fails hio es k lowId s2 hl hav2 c2 w2 ha
            · rename_i s3 ha
              obtain ⟨hav3, l1, l2⟩ := advanceRun_avail fails es k lowId s2 s3
                (by rw [e2]; exact hC) (by rw [e1]; exact hO) hl ha hav2
              exact ih s3 o2 (by rw [l1, e2]; exact hC) (by rw [l2, e1]; exact hO) hav3 c w h

theorem loadFirstPages_noret (fails : Nat → Bool) (hio : ∀ k, fails k = false) :
    ∀ (n i : Nat) (s : MergeState α),
      (∀ j, i ≤ j → j < i + n → ∃ pg, s.w.file.lookup (s.runOffset.getD j 0) = some pg) →
      ∀ c w, loadFirstPages fails n i s ≠ Flow.ret c w := by
  intro n
  induction n with
  | zero =>
    intro i s _ c w h
    simp [loadFirstPages] at h
  | succ n ih =>
    intro i s hpg c w h
    rw [loadFirstPages] at h
    dsimp only at h
    obtain ⟨pg, hl⟩ := hpg i (le_refl _) (by omega)
    have hfr := fread_ok fails true { s.w with metric := s.w.metric.addReads 1 }
      (s.runOffset.getD i 0) pg (hio _) hl
    rw [hfr] at h
    dsimp only at h
    refine ih (i + 1) _ ?_ c w h
    intro j h1 h2
    exact hpg j (by omega) (by omega)

/-- With no failing file operation, a merge of `k` picked runs whose pages are all
stored in the file returns no error code. -/
theorem mergeRuns_noret (fails : Nat → Bool) (hio : ∀ k, fails k = false)
    (cmp : α → α → Int) (es : external_sort_t) (k fuel : Nat) (s : MergeState α)
    (hC : k ≤ s.runCount.length) (hO : k ≤ s.runOffset.length) (hB : k ≤ s.buffer.length)
    (hrc : ∀ j, j < k → 1 ≤ s.runCount.getD j 0) (hav : Avail es k s) (c : Nat) (w : World α) :
    mergeRuns fails cmp es k fuel s ≠ Flow.ret c w := by
  intro h
  unfold mergeRuns at h
  cases hl : loadFirstPages fails k 0 s with
  | stuck => rw [hl] at h; simp at h
  | ret c1 w1 =>
    refine loadFirstPages_noret fails hio k 0 s ?_ c1 w1 hl
    intro j _ hj
    obtain ⟨pg, hpg⟩ := hav j (by omega) 0 (by have := hrc j (by omega); omega)
    exact ⟨pg, by simpa using hpg⟩
  | cont s3 =>
    rw [hl] at h
    dsimp only at h
    obtain ⟨_, _, h2, h3, _, _, h6, _⟩ := loadFirstPages_inv fails k 0 s s3 (by omega) hl
    have hav3 : Avail es k s3 := by
      intro j hj i hi
      rw [h2] at hi
      rw [h3, h6]
      exact hav j hj i hi
    cases hm : mergeLoop fails cmp es k fuel s3
        (⟨[], es.headerSize, 0⟩ : OutState α) with
    | stuck => rw [hm] at h; simp at h
    | ret c1 w1 =>
      exact mergeLoop_noret fails hio cmp es k fuel s3 _ (by rw [h2]; exact hC)
        (by rw [h3]; exact hO) hav3 c1 w1 hm
    | cont y =>
      obtain ⟨s4, o4⟩ := y
      rw [hm] at h
      dsimp only at h
      split at h
      · cases hf : flushPage fails es s4 o4 with
        | stuck => rw [hf] at h; simp at h
        | ret c1 w1 => exact flushPage_noret fails hio es s4 o4 c1 w1 hf
        | cont z => rw [hf] at h; simp at h
      · simp at h

/-! ## A lower bound for the pages that a merge writes -/

theorem sum_range_mono (f g : Nat → Nat) :
    ∀ k, (∀ j, j < k → f j ≤ g j) →
      ((List.range k).map f).sum ≤ ((List.range k).map g).sum := by
  intro k
  induction k with
  | zero => intro _; simp
  | succ k ih =>
    intro h
    rw [List.range_succ, List.map_append, List.map_append, List.sum_append, List.sum_append]
    simp only [List.map_cons, List.map_nil, List.sum_cons, List.sum_nil, Nat.add_zero]
    have h1 := ih (fun j hj => h j (by omega))
    have h2 := h k (by omega)
    omega

theorem lowOwed_congr (es : external_sort_t) (s s2 : MergeState α) (j : Nat)
    (h1 : s2.runCount.getD j 0 = s.runCount.getD j 0)
    (h2 : s2.buffer.getD j none = s.buffer.getD j none)
    (h3 : s2.sublsTuplePos.getD j 0 = s.sublsTuplePos.getD j 0) :
    lowOwed es s2 j = lowOwed es s j := by
  unfold lowOwed
  rw [h1, h2, h3]

theorem lowOwed_live (es : external_sort_t) (s : MergeState α) (j : Nat) (cur : Page α)
    (h1 : 0 < s.runCount.getD j 0) (h2 : s.buffer.getD j none = some cur) :
    lowOwed es s j = max 1 (cur.recordCount - s.sublsTuplePos.getD j 0).toNat
      + (if 2 ≤ s.runCount.getD j 0 then
          mergeCap es * ((s.runCount.getD j 0).toNat - 2) + 1 else 0) := by
  unfold lowOwed
  rw [if_neg (by omega), h2]

theorem lowOwed_dead (es : external_sort_t) (s : MergeState α) (j : Nat)
    (h : s.runCount.getD j 0 = 0) : lowOwed es s j = 0 := by
  unfold lowOwed
  rw [if_pos (by omega)]

theorem emitTuple_low (fails : Nat → Bool) (es : external_sort_t) (k total : Nat) (c0 : Int)
    (hT : 1 ≤ tuplesPerPage es)
    (s s2 : MergeState α) (o o2 : OutState α) (tuple : α) (c : Nat)
    (hinv : LowInv es k total 0 c0 s o)
    (h : emitTuple fails es s o tuple c = Flow.cont (s2, o2)) :
    LowInv es k total 1 c0 s2 o2 := by
  have hRp := record_size_pos es hT
  have hcap := mergeCap_pos es hT
  obtain ⟨hnb, hwpos, hopos, holen, hC, hO, hpos, hdense, hlow⟩ := hinv
  have hcond : (((o.bufferOutputPos + es.record_size : Nat) : Int)
        ≥ (es.page_size : Int) - es.record_size) ↔ mergeCap es ≤ o.out.length + 1 := by
    have := flush_iff es hT (o.out.length + 1) (by omega)
    rw [hopos]
    rw [Nat.add_mul, Nat.one_mul, ← Nat.add_assoc] at this
    exact this
  obtain ⟨e1, e2, e3, e4, hcase⟩ := emitTuple_inv _ _ _ _ _ _ _ _ h
  have hsum : ((List.range k).map (lowOwed es s2)).sum
      = ((List.range k).map (lowOwed es s)).sum := by
    congr 1
    apply List.map_congr_left
    intro j _
    exact lowOwed_congr es s s2 j (by rw [e2]) (by rw [e4]) (by rw [e3])
  rcases hcase with ⟨hc, hf, _, hl, ho⟩ | ⟨hc, hf, _, hl, ho⟩
  · have hnot : ¬ mergeCap es ≤ o.out.length + 1 := fun hh => hc (hcond.mpr hh)
    subst ho
    refine ⟨hnb, by rw [hl]; exact hwpos, ?_, ?_, by rw [e2]; exact hC, by rw [e1]; exact hO,
      fun j hj => by rw [e2]; exact hpos j hj, ?_, ?_⟩
    · show o.bufferOutputPos + es.record_size
        = es.headerSize + (o.out ++ [tuple]).length * es.record_size
      rw [hopos, List.length_append, List.length_singleton, Nat.add_mul, Nat.one_mul]
      omega
    · show (o.out ++ [tuple]).length < mergeCap es
      rw [List.length_append, List.length_singleton]; omega
    · intro j hj i hi pg hlk
      rw [e2] at hi
      rw [e1, hf] at hlk
      exact hdense j hj i hi pg hlk
    · show total + 1 ≤ o.numblocks.toNat * mergeCap es + (o.out ++ [tuple]).length + _
      rw [hsum, List.length_append, List.length_singleton]
      omega
  · have hfull : o.out.length + 1 = mergeCap es := by
      have := hcond.mp hc
      omega
    subst ho
    refine ⟨by show 0 ≤ o.numblocks + 1; omega, ?_, ?_, ?_, by rw [e2]; exact hC,
      by rw [e1]; exact hO, fun j hj => by rw [e2]; exact hpos j hj, ?_, ?_⟩
    · show s2.lastWritePos = c0 + (o.numblocks + 1) * es.page_size
      rw [hl, hwpos]; ring
    · show es.headerSize = es.headerSize + ([] : List α).length * es.record_size
      simp
    · show ([] : List α).length < mergeCap es
      simp only [List.length_nil]; omega
    · intro j hj i hi pg hlk
      rw [e2] at hi
      rw [e1, hf] at hlk
      by_cases hx : s.runOffset.getD j 0 + (i : Int) * es.page_size = s.lastWritePos
      · rw [hx, lookup_cons_eq] at hlk
        have := Option.some.inj hlk
        subst this
        show (mergeCap es : Int)
          ≤ (((o.bufferOutputPos + es.record_size) / es.record_size : Nat) : Int)
        have hge : o.out.length + 1 ≤ (o.bufferOutputPos + es.record_size) / es.record_size := by
          rw [Nat.le_div_iff_mul_le (by omega), hopos]
          have : (o.out.length + 1) * es.record_size
              = o.out.length * es.record_size + es.record_size := by ring
          omega
        have : mergeCap es ≤ (o.bufferOutputPos + es.record_size) / es.record_size := by omega
        exact_mod_cast this
      · rw [lookup_write _ _ _ _ hx] at hlk
        exact hdense j hj i hi pg hlk
    · show total + 1 ≤ (o.numblocks + 1).toNat * mergeCap es + ([] : List α).length + _
      rw [hsum]
      have : (o.numblocks + 1).toNat = o.numblocks.toNat + 1 := by omega
      rw [this, Nat.add_mul, Nat.one_mul]
      simp only [List.length_nil]
      omega

theorem advanceRun_low (fails : Nat → Bool) (es : external_sort_t) (k total : Nat) (c0 : Int)
    (s s3 : MergeState α) (o : OutState α) (lowId : Nat) (hl : lowId < k)
    (hP : k ≤ s.sublsTuplePos.length) (hB : k ≤ s.buffer.length)
    (hinv : LowInv es k total 1 c0 s o)
    (hlive : s.runCount.getD lowId 0 ≠ 0)
    (h : advanceRun fails es lowId s = Flow.cont s3) :
    LowInv es k total 0 c0 s3 o ∧ s3.sublsTuplePos.length = s.sublsTuplePos.length ∧
      s3.buffer.length = s.buffer.length := by
  obtain ⟨hnb, hwpos, hopos, holen, hC, hO, hpos, hdense, hlow⟩ := hinv
  have hrc : 0 < s.runCount.getD lowId 0 := by
    have := hpos lowId hl
    omega
  obtain ⟨cur, hcur, hcase⟩ := advanceRun_inv _ _ _ _ _ h
  have hbefore : ∀ x : Nat,
      lowOwed es s lowId = max 1 (cur.recordCount - s.sublsTuplePos.getD lowId 0).toNat
        + (if 2 ≤ s.runCount.getD lowId 0 then
            mergeCap es * ((s.runCount.getD lowId 0).toNat - 2) + 1 else 0) := by
    intro _
    unfold lowOwed
    rw [if_neg (by omega), hcur]
  have hbefore := hbefore 0
  -- the sum drops by at most one
  have hstep : ∀ s' : MergeState α,
      (∀ j, j < k → j ≠ lowId → lowOwed es s' j = lowOwed es s j) →
      lowOwed es s lowId ≤ lowOwed es s' lowId + 1 →
      total + 0 ≤ o.numblocks.toNat * mergeCap es + o.out.length
        + ((List.range k).map (lowOwed es s')).sum := by
    intro s' hoff hat
    have := sum_range_update (lowOwed es s) (lowOwed es s') lowId k hl hoff
    omega
  rcases hcase with ⟨hlt, rfl⟩ | ⟨hge, hcnt, rfl⟩ | ⟨hge, hcnt, pg, hpg, rfl⟩
  · refine ⟨⟨hnb, hwpos, hopos, holen, hC, hO, hpos, hdense, ?_⟩, by simp, rfl⟩
    apply hstep
    · intro j _ hjl
      apply lowOwed_congr <;> try rfl
      show (s.sublsTuplePos.set lowId _).getD j 0 = _
      rw [getD_set_ne _ _ _ _ _ (fun e => hjl e.symm)]
    · rw [hbefore]
      have hafter : lowOwed es
          { s with sublsTuplePos :=
              s.sublsTuplePos.set lowId (s.sublsTuplePos.getD lowId 0 + 1) } lowId
          = max 1 (cur.recordCount - (s.sublsTuplePos.getD lowId 0 + 1)).toNat
            + (if 2 ≤ s.runCount.getD lowId 0 then
                mergeCap es * ((s.runCount.getD lowId 0).toNat - 2) + 1 else 0) := by
        unfold lowOwed
        simp only
        rw [if_neg (by omega), hcur, getD_set_eq _ _ _ _ (by omega)]
      rw [hafter]
      have h1 : max 1 (cur.recordCount - s.sublsTuplePos.getD lowId 0).toNat
          ≤ max 1 (cur.recordCount - (s.sublsTuplePos.getD lowId 0 + 1)).toNat + 1 := by
        omega
      omega
  · have hrc1 : s.runCount.getD lowId 0 = 1 := by omega
    refine ⟨⟨hnb, hwpos, hopos, holen, by simpa using hC, by simpa using hO, ?_, ?_, ?_⟩,
      by simp, rfl⟩
    · intro j hj
      show 0 ≤ (s.runCount.set lowId _).getD j 0
      by_cases hjl : j = lowId
      · subst hjl
        rw [getD_set_eq _ _ _ _ (by omega)]
        omega
      · rw [getD_set_ne _ _ _ _ _ (fun e => hjl e.symm)]
        exact hpos j hj
    · intro j hj i hi pg hlk
      by_cases hjl : j = lowId
      · subst hjl
        have hi' : (i : Int) + 1 < (s.runCount.set j (s.runCount.getD j 0 - 1)).getD j 0 := hi
        rw [getD_set_eq _ _ _ _ (by omega)] at hi'
        omega
      · have hi' : (i : Int) + 1 < (s.runCount.set lowId (s.runCount.getD lowId 0 - 1)).getD j 0 :=
          hi
        rw [getD_set_ne _ _ _ _ _ (fun e => hjl e.symm)] at hi'
        have hlk' : s.w.file.lookup
            ((s.runOffset.set lowId (s.runOffset.getD lowId 0 + es.page_size)).getD j 0
              + (i : Int) * es.page_size) = some pg := hlk
        rw [getD_set_ne _ _ _ _ _ (fun e => hjl e.symm)] at hlk'
        exact hdense j hj i hi' pg hlk'
    · apply hstep
      · intro j _ hjl
        apply lowOwed_congr
        · show (s.runCount.set lowId _).getD j 0 = _
          rw [getD_set_ne _ _ _ _ _ (fun e => hjl e.symm)]
        · rfl
        · show ((s.sublsTuplePos.set lowId _).set lowId 0).getD j 0 = _
          rw [getD_set_ne _ _ _ _ _ (fun e => hjl e.symm),
            getD_set_ne _ _ _ _ _ (fun e => hjl e.symm)]
      · rw [hbefore, if_neg (by omega)]
        have : max 1 (cur.recordCount - s.sublsTuplePos.getD lowId 0).toNat = 1 := by omega
        omega
  · have hcnt' : (0 : Int) < s.runCount.getD lowId 0 - 1 := hcnt
    refine ⟨⟨hnb, hwpos, hopos, holen, by simpa using hC, by simpa using hO, ?_, ?_, ?_⟩,
      by simp, by simp⟩
    · intro j hj
      show 0 ≤ (s.runCount.set lowId _).getD j 0
      by_cases hjl : j = lowId
      · subst hjl
        rw [getD_set_eq _ _ _ _ (by omega)]
        omega
      · rw [getD_set_ne _ _ _ _ _ (fun e => hjl e.symm)]
        exact hpos j hj
    · intro j hj i hi pg1 hlk
      have hlk' : s.w.file.lookup
          ((s.runOffset.set lowId (s.runOffset.getD lowId 0 + es.page_size)).getD j 0
            + (i : Int) * es.page_size) = some pg1 := hlk
      have hi' : (i : Int) + 1 < (s.runCount.set lowId (s.runCount.getD lowId 0 - 1)).getD j 0 :=
        hi
      by_cases hjl : j = lowId
      · subst hjl
        rw [getD_set_eq _ _ _ _ (by omega)] at hi'
        rw [getD_set_eq _ _ _ _ (by omega)] at hlk'
        refine hdense j hj (i + 1) (by push_cast; omega) pg1 ?_
        rw [← hlk']
        congr 1
        push_cast
        ring
      · rw [getD_set_ne _ _ _ _ _ (fun e => hjl e.symm)] at hi'
        rw [getD_set_ne _ _ _ _ _ (fun e => hjl e.symm)] at hlk'
        exact hdense j hj i hi' pg1 hlk'
    · apply hstep
      · intro j _ hjl
        apply lowOwed_congr
        · show (s.runCount.set lowId _).getD j 0 = _
          rw [getD_set_ne _ _ _ _ _ (fun e => hjl e.symm)]
        · show (s.buffer.set lowId _).getD j none = _
          rw [getD_set_ne' _ _ _ _ _ (fun e => hjl e.symm)]
        · show ((s.sublsTuplePos.set lowId _).set lowId 0).getD j 0 = _
          rw [getD_set_ne _ _ _ _ _ (fun e => hjl e.symm),
            getD_set_ne _ _ _ _ _ (fun e => hjl e.symm)]
      · rw [hbefore, if_pos (by omega)]
        have hb1 : max 1 (cur.recordCount - s.sublsTuplePos.getD lowId 0).toNat = 1 := by omega
        have hafter : ∀ st : MergeState α,
            st.runCount.getD lowId 0 = s.runCount.getD lowId 0 - 1 →
            st.buffer.getD lowId none = some pg → st.sublsTuplePos.getD lowId 0 = 0 →
            lowOwed es st lowId = max 1 (pg.recordCount - 0).toNat
              + (if 2 ≤ s.runCount.getD lowId 0 - 1 then
                  mergeCap es * ((s.runCount.getD lowId 0 - 1).toNat - 2) + 1 else 0) := by
          intro st a1 a2 a3
          unfold lowOwed
          rw [a1, a2, a3, if_neg (by omega)]
        rw [hafter _ (by
            show (s.runCount.set lowId _).getD lowId 0 = _
            rw [getD_set_eq _ _ _ _ (by omega)])
          (by
            show (s.buffer.set lowId _).getD lowId none = _
            rw [getD_set_eq' _ _ _ _ (by omega)])
          (by
            show ((s.sublsTuplePos.set lowId _).set lowId 0).getD lowId 0 = 0
            rw [getD_set_eq _ _ _ _ (by rw [List.length_set]; omega)])]
        rw [hb1]
        by_cases h3 : 2 ≤ s.runCount.getD lowId 0 - 1
        · rw [if_pos h3]
          have hd := hdense lowId hl 1 (by push_cast; omega) pg (by
            rw [← hpg]; congr 1; push_cast; ring)
          have hm1 : mergeCap es ≤ max 1 (pg.recordCount - 0).toNat := by omega
          have e1 : (s.runCount.getD lowId 0).toNat - 2
              = ((s.runCount.getD lowId 0 - 1).toNat - 2) + 1 := by omega
          rw [e1, Nat.mul_add, Nat.mul_one]
          omega
        · rw [if_neg h3]
          have e1 : (s.runCount.getD lowId 0).toNat - 2 = 0 := by omega
          rw [e1]
          omega

theorem mergeLoop_low (fails : Nat → Bool) (cmp : α → α → Int) (es : external_sort_t)
    (k total : Nat) (c0 : Int) (hT : 1 ≤ tuplesPerPage es) :
    ∀ (fuel : Nat) (s s' : MergeState α) (o o' : OutState α),
      k ≤ s.sublsTuplePos.length → k ≤ s.buffer.length →
      LowInv es k total 0 c0 s o →
      mergeLoop fails cmp es k fuel s o = Flow.cont (s', o') →
      LowInv es k total 0 c0 s' o' ∧ ∀ j, j < k → s'.runCount.getD j 0 = 0 := by
  intro fuel
  induction fuel with
  | zero => intro s s' o o' _ _ _ h; simp [mergeLoop] at h
  | succ fuel ih =>
    intro s s' o o' hP hB hinv h
    rcases mergeLoop_succ_inv _ _ _ _ _ _ _ _ _ h with
      ⟨hi, hs, ho⟩ | ⟨hi, t0, l, t, c, s2, o2, s3, h0, hfl, hem, hadv, hrec⟩
    · rw [hs, ho]
      refine ⟨hinv, ?_⟩
      obtain ⟨_, _, hdead, _⟩ := firstLive_spec s.runCount k k 0 (Nat.zero_le _) (by omega)
      intro j hj
      exact hdead j (Nat.zero_le _) (by omega)
    · obtain ⟨_, hle, _, hlive⟩ := firstLive_spec s.runCount k k 0 (Nat.zero_le _) (by omega)
      have hik : firstLive s.runCount k k 0 < k := by omega
      obtain ⟨hlk, hll, _⟩ := findLowest_live cmp s k _ _ _ _ _ _ _ _ (by omega) hik
        (hlive hik) h0 hfl
      obtain ⟨e1, e2, e3, e4, _⟩ := emitTuple_inv _ _ _ _ _ _ _ _ hem
      have hinv2 := emitTuple_low fails es k total c0 hT s s2 o o2 t c hinv hem
      obtain ⟨hinv3, l3, l4⟩ := advanceRun_low fails es k total c0 s2 s3 o2 l hlk
        (by rw [e3]; exact hP) (by rw [e4]; exact hB) hinv2 (by rw [e2]; exact hll) hadv
      exact ih s3 s' o2 o' (by rw [l3, e3]; exact hP) (by rw [l4, e4]; exact hB) hinv3 hrec

/-- A merge of `k` picked runs, every page of which but the last of each run has a
`record_count` of at least `mergeCap`, writes at least as many records as
`mergeCap` for each such page and one for each run: with `L` pages written,
`L * mergeCap` is at least that number. -/
theorem mergeRuns_lower (fails : Nat → Bool) (cmp : α → α → Int) (es : external_sort_t)
    (k : Nat) (hT : 1 ≤ tuplesPerPage es) (fuel : Nat) (s s' : MergeState α)
    (hkC : k ≤ s.runCount.length) (hkO : k ≤ s.runOffset.length)
    (hkP : k ≤ s.sublsTuplePos.length) (hkB : k ≤ s.buffer.length)
    (hrc : ∀ j, j < k → 1 ≤ s.runCount.getD j 0 ∧ s.sublsTuplePos.getD j 0 = 0)
    (hdense : ∀ j, j < k → ∀ i : Nat, (i : Int) + 1 < s.runCount.getD j 0 → ∀ pg,
      s.w.file.lookup (s.runOffset.getD j 0 + (i : Int) * es.page_size) = some pg →
      (mergeCap es : Int) ≤ pg.recordCount)
    (h : mergeRuns fails cmp es k fuel s = Flow.cont s') :
    ∃ L : Nat, s'.lastWritePos = s.lastWritePos + (L : Int) * es.page_size ∧
      ((List.range k).map
        (fun j => mergeCap es * ((s.runCount.getD j 0).toNat - 1) + 1)).sum
        ≤ L * mergeCap es := by
  have hcap := mergeCap_pos es hT
  have hRp := record_size_pos es hT
  unfold mergeRuns at h
  cases hl : loadFirstPages fails k 0 s with
  | stuck => rw [hl] at h; simp at h
  | ret c w => rw [hl] at h; simp at h
  | cont s3 =>
    rw [hl] at h
    dsimp only at h
    obtain ⟨_, h1, h2, h3, h4, h5, h6, _, h8, _⟩ := loadFirstPages_inv fails k 0 s s3
      (by omega) hl
    have hinv0 : LowInv es k ((List.range k).map
        (fun j => mergeCap es * ((s.runCount.getD j 0).toNat - 1) + 1)).sum 0 s.lastWritePos s3
        (⟨[], es.headerSize, 0⟩ : OutState α) := by
      refine ⟨le_refl _, ?_, ?_, ?_, by rw [h2]; exact hkC, by rw [h3]; exact hkO, ?_, ?_, ?_⟩
      · show s3.lastWritePos = s.lastWritePos + 0 * es.page_size
        rw [h1]; simp
      · show es.headerSize = es.headerSize + ([] : List α).length * es.record_size
        simp
      · show ([] : List α).length < mergeCap es
        simp only [List.length_nil]; omega
      · intro j hj
        rw [h2]
        have := (hrc j hj).1
        omega
      · intro j hj i hi pg hlk
        rw [h2] at hi
        rw [h3, h6] at hlk
        exact hdense j hj i hi pg hlk
      · show _ + 0 ≤ (0 : Int).toNat * mergeCap es + ([] : List α).length + _
        simp only [Int.toNat_zero, Nat.zero_mul, List.length_nil, Nat.add_zero, Nat.zero_add]
        apply sum_range_mono
        intro j hj
        obtain ⟨r1, r2⟩ := hrc j hj
        obtain ⟨pg, hpg, hbuf⟩ := h8 j (Nat.zero_le _) (by omega)
        show mergeCap es * ((s.runCount.getD j 0).toNat - 1) + 1 ≤ lowOwed es s3 j
        rw [lowOwed_live es s3 j pg (by rw [h2]; omega) hbuf, h2, h4, r2]
        by_cases hr2 : 2 ≤ s.runCount.getD j 0
        · rw [if_pos hr2]
          have hd := hdense j hj 0 (by push_cast; omega) pg (by simpa using hpg)
          have hm1 : mergeCap es ≤ max 1 (pg.recordCount - 0).toNat := by omega
          have e1 : (s.runCount.getD j 0).toNat - 1 = ((s.runCount.getD j 0).toNat - 2) + 1 := by
            omega
          rw [e1, Nat.mul_add, Nat.mul_one]
          omega
        · rw [if_neg hr2]
          have e1 : (s.runCount.getD j 0).toNat - 1 = 0 := by omega
          rw [e1]
          omega
    cases hm : mergeLoop fails cmp es k fuel s3 (⟨[], es.headerSize, 0⟩ : OutState α) with
    | stuck => rw [hm] at h; simp at h
    | ret c w => rw [hm] at h; simp at h
    | cont x =>
      obtain ⟨s4, o4⟩ := x
      rw [hm] at h
      dsimp only at h
      obtain ⟨hinv4, hdead⟩ := mergeLoop_low fails cmp es k _ s.lastWritePos hT fuel s3 s4 _ o4
        (by rw [h4]; exact hkP) (by rw [h5]; exact hkB) hinv0 hm
      obtain ⟨hnb, hwpos, hopos, holen, _, _, _, _, hlow⟩ := hinv4
      have hsum0 : ((List.range k).map (lowOwed es s4)).sum = 0 :=
        sum_range_zero _ k (fun j hj => lowOwed_dead es s4 j (hdead j hj))
      rw [hsum0] at hlow
      by_cases hfl : o4.bufferOutputPos > es.headerSize
      · rw [if_pos hfl] at h
        cases hf : flushPage fails es s4 o4 with
        | stuck => rw [hf] at h; simp at h
        | ret c w => rw [hf] at h; simp at h
        | cont y =>
          obtain ⟨s5, o5⟩ := y
          rw [hf] at h
          simp only [Flow.cont.injEq] at h
          subst h
          obtain ⟨e5, _⟩ := flushPage_inv _ _ _ _ _ _ hf
          subst e5
          refine ⟨o4.numblocks.toNat + 1, ?_, ?_⟩
          · show s4.lastWritePos + es.page_size = _
            rw [hwpos]
            push_cast
            rw [Int.toNat_of_nonneg hnb]
            ring
          · rw [Nat.add_mul, Nat.one_mul]
            omega
      · rw [if_neg hfl] at h
        simp only [Flow.cont.injEq] at h
        subst h
        have hout : o4.out.length = 0 := by
          rw [hopos] at hfl
          by_contra hc
          have h1 : 1 ≤ o4.out.length := by omega
          have := Nat.mul_le_mul h1 hRp
          omega
        refine ⟨o4.numblocks.toNat, ?_, ?_⟩
        · rw [hwpos, Int.toNat_of_nonneg hnb]
        · rw [hout] at hlow
          omega
theorem sum_range_prefix (f : Nat → Nat) (n : Nat) :
    ∀ k, n ≤ k → ((List.range n).map f).sum ≤ ((List.range k).map f).sum := by
  intro k
  induction k with
  | zero =>
    intro h
    have : n = 0 := by omega
    subst this
    exact le_refl _
  | succ k ih =>
    intro h
    by_cases hn : n = k + 1
    · subst hn; exact le_refl _
    · have := ih (by omega)
      rw [List.range_succ, List.map_append, List.sum_append]
      omega

theorem sum_range_two (f : Nat → Nat) : ((List.range 2).map f).sum = f 0 + f 1 := by
  simp [List.range_succ]

theorem sum_range_three (f : Nat → Nat) : ((List.range 3).map f).sum = f 0 + f 1 + f 2 := by
  simp [List.range_succ, Nat.add_assoc]

theorem low_two (cap L a b : Nat) (hb : 3 ≤ b)
    (h : cap * (a - 1) + 1 + (cap * (b - 1) + 1) ≤ L * cap) : 3 ≤ L := by
  by_contra hl
  have hl' : L ≤ 2 := by omega
  have h1 : L * cap ≤ 2 * cap := Nat.mul_le_mul_right cap hl'
  have h2 : cap * 2 ≤ cap * (b - 1) := Nat.mul_le_mul_left cap (by omega)
  omega

theorem low_three (cap L a b c : Nat) (ha : 1 ≤ a) (hb : 1 ≤ b) (hc : 3 ≤ c)
    (h : cap * (a - 1) + 1 + (cap * (b - 1) + 1) + (cap * (c - 1) + 1) ≤ L * cap) :
    a + b + 1 ≤ L := by
  by_contra hl
  have hl' : L ≤ a + b := by omega
  have h1 : L * cap ≤ (a + b) * cap := Nat.mul_le_mul_right cap hl'
  have h2 : cap * 2 ≤ cap * (c - 1) := Nat.mul_le_mul_left cap (by omega)
  obtain ⟨A, rfl⟩ : ∃ A, a = A + 1 := ⟨a - 1, by omega⟩
  obtain ⟨B', rfl⟩ : ∃ B', b = B' + 1 := ⟨b - 1, by omega⟩
  simp only [Nat.add_sub_cancel] at h
  have h3 : (A + 1 + (B' + 1)) * cap = cap * A + cap * B' + cap * 2 := by ring
  omega

/-! ## Run pickup along the runs of a pass -/

theorem Stack_pages (P : Nat) : ∀ (ts : List Tile) (e a : Int), Stack P e a ts →
    e = a + (pagesOf ts : Int) * P := by
  intro ts
  induction ts with
  | nil => intro e a h; simp only [Stack] at h; simp [pagesOf, h]
  | cons t ts ih =>
    intro e a h
    obtain ⟨h1, h2⟩ := h
    have := ih _ _ h2
    have hp : pagesOf (t :: ts) = t.len + pagesOf ts := by simp [pagesOf]
    rw [hp]
    push_cast
    rw [← h1, this]
    ring

theorem Stack_le (P : Nat) (ts : List Tile) (e a : Int) (h : Stack P e a ts) : a ≤ e := by
  rw [Stack_pages P ts e a h]
  have : (0 : Int) ≤ (pagesOf ts : Int) * P := by positivity
  omega

theorem Stack_mem (P : Nat) : ∀ (ts : List Tile) (e a : Int), Stack P e a ts →
    ∀ t ∈ ts, a ≤ t.start ∧ t.start + (t.len : Int) * P ≤ e := by
  intro ts
  induction ts with
  | nil => intro e a _ t ht; simp at ht
  | cons u ts ih =>
    intro e a h t ht
    obtain ⟨h1, h2⟩ := h
    rcases List.mem_cons.mp ht with rfl | hmem
    · exact ⟨Stack_le P ts _ _ h2, by omega⟩
    · obtain ⟨h3, h4⟩ := ih _ _ h2 t hmem
      have : (0 : Int) ≤ (u.len : Int) * P := by positivity
      exact ⟨h3, by omega⟩

theorem Stack_append (P : Nat) : ∀ (xs ys : List Tile) (e a : Int), Stack P e a (xs ++ ys) →
    ∃ mid, Stack P e mid xs ∧ Stack P mid a ys := by
  intro xs
  induction xs with
  | nil => intro ys e a h; exact ⟨e, rfl, h⟩
  | cons x xs ih =>
    intro ys e a h
    obtain ⟨h1, h2⟩ := h
    obtain ⟨mid, h3, h4⟩ := ih ys _ _ h2
    exact ⟨mid, ⟨h1, h3⟩, h4⟩

theorem Walked_refl (s : MergeState α) (i : Nat) : Walked s s i [] :=
  ⟨rfl, rfl, rfl, rfl, rfl, rfl, rfl, rfl, rfl, ⟨rfl, rfl, rfl, rfl⟩,
    fun _ _ => ⟨rfl, rfl, rfl⟩, fun j t h => by simp at h⟩

theorem Walked_cons {s q s' : MergeState α} {i : Nat} {t : Tile} {picked : List Tile}
    (h1 : Walked s q i [t]) (h2 : Walked q s' (i + 1) picked) : Walked s s' i (t :: picked) := by
  obtain ⟨a1, a2, a3, a4, a5, a6, a7, a8, a9, ⟨a10, a11, a12, a13⟩, a14, a15⟩ := h1
  obtain ⟨b1, b2, b3, b4, b5, b6, b7, b8, b9, ⟨b10, b11, b12, b13⟩, b14, b15⟩ := h2
  refine ⟨by rw [b1, a1], by rw [b2, a2], by rw [b3, a3], by rw [b4, a4], by rw [b5, a5],
    by rw [b6, a6], by rw [b7, a7], by rw [b8, a8], by rw [b9, a9],
    ⟨by rw [b10, a10], by rw [b11, a11], by rw [b12, a12], by rw [b13, a13]⟩, ?_, ?_⟩
  · intro j hj
    obtain ⟨c1, c2, c3⟩ := b14 j (by omega)
    obtain ⟨d1, d2, d3⟩ := a14 j hj
    exact ⟨by rw [c1, d1], by rw [c2, d2], by rw [c3, d3]⟩
  · intro j u hu
    cases j with
    | zero =>
      simp only [List.getElem?_cons_zero, Option.some.injEq] at hu
      subst hu
      obtain ⟨c1, c2, c3⟩ := b14 i (by omega)
      obtain ⟨d1, d2, d3⟩ := a15 0 t (by simp)
      simp only [Nat.add_zero] at d1 d2 d3 ⊢
      exact ⟨by rw [c1, d1], by rw [c2, d2], by rw [c3, d3]⟩
    | succ j =>
      simp only [List.getElem?_cons_succ] at hu
      have := b15 j u hu
      have e : i + (j + 1) = i + 1 + j := by omega
      rw [e]
      exact this

/-- One iteration of the pickup loop, when the page at `ptrLastBlock` is the last
page of the run `t`. -/
theorem pickRuns_iter (fails : Nat → Bool) (es : external_sort_t) (m : Int) (fuel i : Nat)
    (s : MergeState α) (k : Nat) (s1 : MergeState α) (t : Tile)
    (hcond : (i : Int) < m ∧ (i : Int) < s.numSublist)
    (htile : TileOK es s.w.file t)
    (hstop : t.start + (t.len : Int) * es.page_size
      = (if s.ptrLastBlock < s.ptrFirstBlock then startNewPass es m i s else s).ptrLastBlock
        + es.page_size)
    (hlC : i < s.runCount.length) (hlO : i < s.runOffset.length)
    (hlP : i < s.sublsTuplePos.length)
    (h : pickRuns fails es m (fuel + 1) i s = Flow.cont (k, s1)) :
    ∃ s', pickRuns fails es m fuel (i + 1) s' = Flow.cont (k, s1) ∧
      Walked (if s.ptrLastBlock < s.ptrFirstBlock then startNewPass es m i s else s) s' i [t] ∧
      s'.ptrLastBlock = t.start - es.page_size := by
  rw [pickRuns] at h
  rw [if_pos hcond] at h
  dsimp only at h
  generalize hq : (if s.ptrLastBlock < s.ptrFirstBlock then startNewPass es m i s else s) = q
    at h hstop ⊢
  have hqw : q.w = s.w := by
    rw [← hq]; split <;> rfl
  have hqC : q.runCount = s.runCount := by
    rw [← hq]; split <;> rfl
  have hqO : q.runOffset = s.runOffset := by
    rw [← hq]; split <;> rfl
  have hqP : q.sublsTuplePos = s.sublsTuplePos := by
    rw [← hq]; split <;> rfl
  obtain ⟨hlen, _, ⟨pg0, hlk0, hbi0⟩, _⟩ := htile
  have hoff : t.start + ((t.len : Int) - 1) * es.page_size = q.ptrLastBlock := by
    have : ((t.len : Int) - 1) * es.page_size = (t.len : Int) * es.page_size - es.page_size := by
      ring
    omega
  cases hr : fread fails false q.w q.ptrLastBlock with
  | mk r w1 =>
    rw [hr] at h
    cases r with
    | none => simp at h
    | some pg =>
      dsimp only at h
      obtain ⟨hlk, hw1⟩ := fread_some _ _ _ _ _ _ hr
      rw [hqw, ← hoff, hlk0] at hlk
      have hpg := Option.some.inj hlk
      subst hpg
      refine ⟨_, h, ⟨rfl, rfl, rfl, rfl, rfl, rfl, rfl, ?_, ?_, ⟨?_, ?_, ?_, ?_⟩, ?_, ?_⟩, ?_⟩
      · show w1.file = q.w.file
        rw [hw1]
      · show lastRunStart w1.log = lastRunStart q.w.log
        rw [hw1]; rfl
      · show (q.runCount.set i _).length = _
        rw [List.length_set]
      · show (q.runOffset.set i _).length = _
        rw [List.length_set]
      · show (q.sublsTuplePos.set i _).length = _
        rw [List.length_set]
      · show (q.buffer.set 0 _).length = _
        rw [List.length_set]
      · intro j hj
        refine ⟨?_, ?_, ?_⟩
        · exact getD_set_ne _ _ _ _ _ (by omega)
        · exact getD_set_ne _ _ _ _ _ (by omega)
        · exact getD_set_ne _ _ _ _ _ (by omega)
      · intro j u hu
        cases j with
        | zero =>
          simp only [List.getElem?_cons_zero, Option.some.injEq] at hu
          subst hu
          simp only [Nat.add_zero]
          refine ⟨?_, ?_, ?_⟩
          · show (q.runCount.set i (pg0.blockIndex + 1)).getD i 0 = _
            rw [getD_set_eq _ _ _ _ (by rw [hqC]; exact hlC), hbi0]; omega
          · show (q.runOffset.set i (q.ptrLastBlock - pg0.blockIndex * es.page_size)).getD i 0 = _
            rw [getD_set_eq _ _ _ _ (by rw [hqO]; exact hlO), hbi0, ← hoff]
            ring
          · show (q.sublsTuplePos.set i 0).getD i 0 = 0
            rw [getD_set_eq _ _ _ _ (by rw [hqP]; exact hlP)]
        | succ j => simp at hu
      · show q.ptrLastBlock - pg0.blockIndex * es.page_size - es.page_size = _
        rw [hbi0, ← hoff]
        ring

/-- The pickup loop walks down the runs of the pass being read, one run per
iteration, until it has enough runs or `ptrLastBlock` falls below `ptrFirstBlock`. -/
theorem pickRuns_walk (fails : Nat → Bool) (es : external_sort_t) (m : Int) (a0 : Int)
    (hT : 1 ≤ tuplesPerPage es) :
    ∀ (fuel i : Nat) (s : MergeState α) (region : List Tile) (k : Nat) (s1 : MergeState α),
      Stack es.page_size (s.ptrLastBlock + es.page_size) a0 region →
      (∀ t ∈ region, TileOK es s.w.file t) → a0 ≤ s.ptrFirstBlock →
      m.toNat ≤ s.runCount.length → m.toNat ≤ s.runOffset.length →
      m.toNat ≤ s.sublsTuplePos.length →
      pickRuns fails es m fuel i s = Flow.cont (k, s1) →
      ∃ picked rest s', region = picked ++ rest ∧ Walked s s' i picked ∧
        Stack es.page_size (s'.ptrLastBlock + es.page_size) a0 rest ∧
        ((s' = s1 ∧ k = i + picked.length ∧ ¬ ((k : Int) < m ∧ (k : Int) < s.numSublist)) ∨
         (s'.ptrLastBlock < s'.ptrFirstBlock ∧ ((i + picked.length : Nat) : Int) < m ∧
           ((i + picked.length : Nat) : Int) < s.numSublist ∧
           ∃ fuel', pickRuns fails es m (fuel' + 1) (i + picked.length) s'
             = Flow.cont (k, s1))) := by
  have hP := page_size_pos es hT
  intro fuel
  induction fuel with
  | zero =>
    intro i s region k s1 hst htl ha hlC hlO hlP h
    rw [pickRuns] at h
    by_cases hc : (i : Int) < m ∧ (i : Int) < s.numSublist
    · rw [if_pos hc] at h; simp at h
    · rw [if_neg hc] at h
      simp only [Flow.cont.injEq, Prod.mk.injEq] at h
      obtain ⟨h1, h2⟩ := h
      subst h1 h2
      exact ⟨[], region, s, rfl, Walked_refl s i, hst, Or.inl ⟨rfl, rfl, hc⟩⟩
  | succ fuel ih =>
    intro i s region k s1 hst htl ha hlC hlO hlP h
    by_cases hc : (i : Int) < m ∧ (i : Int) < s.numSublist
    · by_cases htr : s.ptrLastBlock < s.ptrFirstBlock
      · exact ⟨[], region, s, rfl, Walked_refl s i, hst,
          Or.inr ⟨htr, by simpa using hc.1, by simpa using hc.2, fuel, by simpa using h⟩⟩
      · cases region with
        | nil =>
          simp only [Stack] at hst
          omega
        | cons t ts =>
          obtain ⟨hst1, hst2⟩ := hst
          have hi : i < m.toNat := by omega
          obtain ⟨s', h', hw, hL⟩ := pickRuns_iter fails es m fuel i s k s1 t hc
            (htl t (List.mem_cons_self _ _)) (by rw [if_neg htr]; exact hst1)
            (by omega) (by omega) (by omega) h
          rw [if_neg htr] at hw
          have hw' := hw
          obtain ⟨a1, a2, a3, a4, a5, a6, a7, a8, a9, ⟨a10, a11, a12, a13⟩, a14, a15⟩ := hw'
          obtain ⟨picked, rest, s'', hreg, hw2, hst3, hres⟩ := ih (i + 1) s' ts k s1
            (by rw [hL]; simpa using hst2)
            (fun u hu => by rw [a8]; exact htl u (List.mem_cons_of_mem _ hu))
            (by rw [a3]; exact ha) (by rw [a10]; exact hlC) (by rw [a11]; exact hlO)
            (by rw [a12]; exact hlP) h'
          refine ⟨t :: picked, rest, s'', by rw [hreg]; rfl, Walked_cons hw hw2, hst3, ?_⟩
          rcases hres with ⟨e1, e2, e3⟩ | ⟨e1, e2, e3, e4⟩
          · left
            refine ⟨e1, by rw [e2, List.length_cons]; omega, ?_⟩
            rw [← a1]; exact e3
          · right
            have el : i + (t :: picked).length = i + 1 + picked.length := by
              rw [List.length_cons]; omega
            rw [el]
            refine ⟨e1, e2, ?_, e4⟩
            rw [← a1]; exact e3
    · rw [pickRuns, if_neg hc] at h
      simp only [Flow.cont.injEq, Prod.mk.injEq] at h
      obtain ⟨h1, h2⟩ := h
      subst h1 h2
      exact ⟨[], region, s, rfl, Walked_refl s i, hst, Or.inl ⟨rfl, rfl, hc⟩⟩

theorem fread_none_of_neg (fails : Nat → Bool) (mg : Bool) (w w1 : World α) (off : Int)
    (r : Option (Page α)) (hf : FilePos w.file) (hneg : off < 0)
    (h : fread fails mg w off = (r, w1)) : r = none := by
  cases r with
  | none => rfl
  | some pg =>
    obtain ⟨hlk, _⟩ := fread_some _ _ _ _ _ _ h
    have := hf _ _ hlk
    omega

/-- A pickup loop that starts a new pass in every iteration picks the run written
last again and again and leaves `ptrLastBlock` below `ptrFirstBlock`. -/
theorem pickRuns_degenerate (fails : Nat → Bool) (es : external_sort_t) (m : Int) (t : Tile)
    (hT : 1 ≤ tuplesPerPage es) (ht0 : 0 ≤ t.start) :
    ∀ (fuel i : Nat) (s : MergeState α) (k : Nat) (s1 : MergeState α),
      FilePos s.w.file → TileOK es s.w.file t →
      s.ptrLastBlock < s.ptrFirstBlock → s.ptrNextFirst = s.lastWritePos → s.newPass = true →
      0 ≤ s.firstPartitionSize →
      (s.lastWritePos = 0 ∨ s.lastWritePos = t.start + (t.len : Int) * es.page_size) →
      m.toNat ≤ s.runCount.length → m.toNat ≤ s.runOffset.length →
      m.toNat ≤ s.sublsTuplePos.length →
      pickRuns fails es m fuel i s = Flow.cont (k, s1) →
      s1.ptrLastBlock < s1.ptrFirstBlock ∧ s1.ptrNextFirst = s1.lastWritePos ∧
      s1.newPass = true ∧ 0 ≤ s1.lastWritePos ∧ s1.w.file = s.w.file ∧
      lastRunStart s1.w.log = lastRunStart s.w.log ∧ s1.numSublist = s.numSublist ∧
      s1.firstPartitionSize = s.firstPartitionSize ∧
      (s1.runCount.length = s.runCount.length ∧ s1.runOffset.length = s.runOffset.length ∧
        s1.sublsTuplePos.length = s.sublsTuplePos.length ∧
        s1.buffer.length = s.buffer.length) ∧
      i ≤ k ∧ ¬ ((k : Int) < m ∧ (k : Int) < s.numSublist) ∧
      (∀ j, j < i → s1.runCount.getD j 0 = s.runCount.getD j 0 ∧
        s1.sublsTuplePos.getD j 0 = s.sublsTuplePos.getD j 0) ∧
      (∀ j, i ≤ j → j < k → s1.runCount.getD j 0 = t.len ∧ s1.sublsTuplePos.getD j 0 = 0) := by
  have hP := page_size_pos es hT
  intro fuel
  induction fuel with
  | zero =>
    intro i s k s1 hfp htl hlt hnf hnp hfps hlw hlC hlO hlP h
    rw [pickRuns] at h
    by_cases hc : (i : Int) < m ∧ (i : Int) < s.numSublist
    · rw [if_pos hc] at h; simp at h
    · rw [if_neg hc] at h
      simp only [Flow.cont.injEq, Prod.mk.injEq] at h
      obtain ⟨h1, h2⟩ := h
      subst h1 h2
      have hpos : (0 : Int) ≤ (t.len : Int) * es.page_size := by positivity
      exact ⟨hlt, hnf, hnp, by omega, rfl, rfl, rfl, rfl, ⟨rfl, rfl, rfl, rfl⟩, le_refl _, hc,
        fun _ _ => ⟨rfl, rfl⟩, fun j h1 h2 => by omega⟩
  | succ fuel ih =>
    intro i s k s1 hfp htl hlt hnf hnp hfps hlw hlC hlO hlP h
    have hpos : (0 : Int) ≤ (t.len : Int) * es.page_size := by positivity
    by_cases hc : (i : Int) < m ∧ (i : Int) < s.numSublist
    · rcases hlw with h0 | hstop
      · -- the write cursor was reset to 0: the peek at -page_size fails
        exfalso
        rw [pickRuns, if_pos hc, if_pos hlt] at h
        dsimp only at h
        cases hr : fread fails false (startNewPass es m i s).w (startNewPass es m i s).ptrLastBlock with
        | mk r w1 =>
          rw [hr] at h
          have := fread_none_of_neg fails false _ _ _ r hfp (by
            show s.lastWritePos - es.page_size < 0
            omega) hr
          subst this
          simp at h
      · have hi : i < m.toNat := by omega
        obtain ⟨s', h', hw, hL⟩ := pickRuns_iter fails es m fuel i s k s1 t hc htl
          (by rw [if_pos hlt]
              show _ = s.lastWritePos - es.page_size + es.page_size
              omega)
          (by omega) (by omega) (by omega) h
        rw [if_pos hlt] at hw
        obtain ⟨a1, a2, a3, a4, a5, a6, a7, a8, a9, ⟨a10, a11, a12, a13⟩, a14, a15⟩ := hw
        have hfb : s.lastWritePos ≤ (startNewPass es m i s).ptrFirstBlock := by
          show s.lastWritePos ≤ (if 0 < (i : Int) ∧ (i : Int) < m - 1 then
            s.ptrNextFirst + s.firstPartitionSize * es.page_size else s.ptrNextFirst)
          have : (0 : Int) ≤ s.firstPartitionSize * es.page_size :=
            Int.mul_nonneg hfps (by omega)
          split <;> omega
        have hlw' : (startNewPass es m i s).lastWritePos = 0 ∨
            (startNewPass es m i s).lastWritePos = t.start + (t.len : Int) * es.page_size := by
          show (if (s.passNumber + 1) % 3 = 0 then 0 else s.lastWritePos) = 0 ∨
            (if (s.passNumber + 1) % 3 = 0 then 0 else s.lastWritePos) = _
          split
          · left; rfl
          · right; exact hstop
        obtain ⟨b1, b2, b3, b4, b5, b6, b7, b8, ⟨b9, b10, b11, b12⟩, b13, b14, b15, b16⟩ :=
          ih (i + 1) s' k s1 (by rw [a8]; exact hfp) (by rw [a8]; exact htl)
            (by rw [hL, a3]; omega)
            (by rw [a4, a2]; rfl)
            (by rw [a6]; rfl) (by rw [a5]; exact hfps)
            (by rw [a2]; exact hlw')
            (by rw [a10]; exact hlC) (by rw [a11]; exact hlO) (by rw [a12]; exact hlP) h'
        refine ⟨b1, b2, b3, b4, by rw [b5, a8]; rfl, by rw [b6, a9]; rfl, by rw [b7, a1]; rfl,
          by rw [b8, a5]; rfl,
          ⟨by rw [b9, a10]; rfl, by rw [b10, a11]; rfl, by rw [b11, a12]; rfl,
            by rw [b12, a13]; rfl⟩, by omega, ?_, ?_, ?_⟩
        · have : s'.numSublist = s.numSublist := a1
          rw [← this]; exact b14
        · intro j hj
          obtain ⟨c1, c2⟩ := b15 j (by omega)
          obtain ⟨d1, _, d3⟩ := a14 j hj
          exact ⟨by rw [c1, d1]; rfl, by rw [c2, d3]; rfl⟩
        · intro j hij hjk
          by_cases hji : j = i
          · subst hji
            obtain ⟨c1, c2⟩ := b15 j (by omega)
            obtain ⟨d1, _, d3⟩ := a15 0 t (by simp)
            simp only [Nat.add_zero] at d1 d3
            exact ⟨by rw [c1, d1], by rw [c2, d3]⟩
          · exact b16 j (by omega) hjk
    · rw [pickRuns, if_neg hc] at h
      simp only [Flow.cont.injEq, Prod.mk.injEq] at h
      obtain ⟨h1, h2⟩ := h
      subst h1 h2
      exact ⟨hlt, hnf, hnp, by omega, rfl, rfl, rfl, rfl, ⟨rfl, rfl, rfl, rfl⟩, le_refl _, hc,
        fun _ _ => ⟨rfl, rfl⟩, fun j h1 h2 => by omega⟩

/-! ## The invariant of the merge phase -/

theorem off_ne (c l : Int) (P L j : Nat) (hP : 1 ≤ P) (hj : j < L)
    (h : l < c ∨ c + (L : Int) * P ≤ l) : l ≠ c + (j : Int) * P := by
  have h1 : (0 : Int) ≤ (j : Int) * P := by positivity
  have h2 : ((j : Int) + 1) * P ≤ (L : Int) * P := by
    apply Int.mul_le_mul_of_nonneg_right
    · omega
    · omega
  have h3 : ((j : Int) + 1) * P = (j : Int) * P + P := by ring
  rcases h with h | h
  · omega
  · omega

/-- A run that lies clear of the pages a merge wrote can still be picked up and
merged after that merge. -/
theorem TileOK_after (es : external_sort_t) (hT : 1 ≤ tuplesPerPage es) (L : Nat)
    (s s' : MergeState α) (u : Tile) (hd : MergeDone es L s s') (hu : TileOK es s.w.file u)
    (hdis : u.start + (u.len : Int) * es.page_size ≤ s.lastWritePos ∨
      s.lastWritePos + (L : Int) * es.page_size ≤ u.start) :
    TileOK es s'.w.file u := by
  have hP := page_size_pos es hT
  obtain ⟨_, _, _, _, hpages, hothers, _⟩ := hd
  obtain ⟨h1, h2, ⟨pg, hlk, hbi⟩, h4, h5, h6⟩ := hu
  have hlow : ∀ j : Nat, j < u.len → ∀ j' : Nat, j' < L →
      u.start + (j : Int) * es.page_size ≠ s.lastWritePos + (j' : Int) * es.page_size := by
    intro j hj j' hj'
    have g1 : ((j : Int) + 1) * es.page_size ≤ (u.len : Int) * es.page_size :=
      Int.mul_le_mul_of_nonneg_right (by omega) (by omega)
    have g2 : ((j : Int) + 1) * es.page_size = (j : Int) * es.page_size + es.page_size := by
      ring
    have g3 : (0 : Int) ≤ (j' : Int) * es.page_size := by positivity
    have g4 : ((j' : Int) + 1) * es.page_size ≤ (L : Int) * es.page_size :=
      Int.mul_le_mul_of_nonneg_right (by omega) (by omega)
    have g5 : ((j' : Int) + 1) * es.page_size = (j' : Int) * es.page_size + es.page_size := by
      ring
    have g6 : (0 : Int) ≤ (j : Int) * es.page_size := by positivity
    rcases hdis with h | h
    · omega
    · omega
  refine ⟨h1, h2, ⟨pg, ?_, hbi⟩, ?_, ?_, ?_⟩
  · have e : u.start + ((u.len : Int) - 1) * es.page_size
        = u.start + ((u.len - 1 : Nat) : Int) * es.page_size := by
      congr 2
      omega
    rw [e, hothers _ (hlow (u.len - 1) (by omega)), ← e]
    exact hlk
  · intro j pg1 hj hl1
    rw [hothers _ (hlow j hj)] at hl1
    exact h4 j pg1 hj hl1
  · intro j hj
    rw [hothers _ (hlow j hj)]
    exact h5 j hj
  · intro j pg1 hj hl1
    rw [hothers _ (hlow j (by omega))] at hl1
    exact h6 j pg1 hj hl1

/-- The output run of a merge can be picked up and merged. -/
theorem TileOK_new (es : external_sort_t) (L : Nat) (s s' : MergeState α)
    (hd : MergeDone es L s s') : TileOK es s'.w.file ⟨s.lastWritePos, L, 1⟩ := by
  obtain ⟨hL, _, _, _, hpages, _, _⟩ := hd
  refine ⟨hL, le_refl _, ?_, ?_, fun j hj => ?_, ?_⟩
  rotate_left 2
  · obtain ⟨pg, hl, _, _⟩ := hpages j hj
    exact ⟨pg, hl⟩
  · intro j pg hj hl
    obtain ⟨pg2, hl2, _, _, hr2⟩ := hpages j (by
      show j < L
      have : j + 1 < L := hj
      omega)
    have hl' : List.lookup (s.lastWritePos + (j : Int) * es.page_size) s'.w.file = some pg := hl
    rw [hl2] at hl'
    have := Option.some.inj hl'
    subst this
    exact hr2 hj
  · obtain ⟨pg, hl, hb, _⟩ := hpages (L - 1) (by omega)
    refine ⟨pg, ?_, ?_⟩
    · show List.lookup (s.lastWritePos + ((L : Int) - 1) * es.page_size) _ = _
      rw [← hl]
      congr 2
      push_cast [Nat.cast_sub hL]
      ring
    · rw [hb]
      show ((L - 1 : Nat) : Int) = (L : Int) - 1
      omega
  · intro j pg hj hl
    show pg.records.length ≤ 1 * mergeCap es
    obtain ⟨pg2, hl2, _, hr2, _⟩ := hpages j hj
    have hl' : List.lookup (s.lastWritePos + (j : Int) * es.page_size) s'.w.file = some pg := hl
    rw [hl2] at hl'
    have := Option.some.inj hl'
    subst this
    omega

theorem FilePos_after (es : external_sort_t) (L : Nat) (s s' : MergeState α)
    (hd : MergeDone es L s s') (hc : 0 ≤ s.lastWritePos) (hf : FilePos s.w.file) :
    FilePos s'.w.file := by
  obtain ⟨_, _, _, _, _, hothers, _⟩ := hd
  intro off pg hl
  by_cases hw : ∃ j' : Nat, j' < L ∧ off = s.lastWritePos + (j' : Int) * es.page_size
  · obtain ⟨j', _, he⟩ := hw
    have : (0 : Int) ≤ (j' : Int) * es.page_size := by positivity
    omega
  · rw [hothers _ (fun j' hj' he => hw ⟨j', hj', he⟩)] at hl
    exact hf off pg hl

theorem pickRuns_le (fails : Nat → Bool) (es : external_sort_t) (m : Int) :
    ∀ (fuel i : Nat) (s : MergeState α) (k : Nat) (s1 : MergeState α), (i : Int) ≤ m →
      pickRuns fails es m fuel i s = Flow.cont (k, s1) → (k : Int) ≤ m := by
  intro fuel
  induction fuel with
  | zero =>
    intro i s k s1 hi h
    rw [pickRuns] at h
    split at h
    · simp at h
    · simp only [Flow.cont.injEq, Prod.mk.injEq] at h
      rw [← h.1]; exact hi
  | succ fuel ih =>
    intro i s k s1 hi h
    rw [pickRuns] at h
    split at h
    · rename_i hc
      dsimp only at h
      split at h
      · simp at h
      · exact ih (i + 1) _ k s1 (by push_cast; omega) h
    · simp only [Flow.cont.injEq, Prod.mk.injEq] at h
      rw [← h.1]; exact hi

theorem pagesOf_append (xs ys : List Tile) : pagesOf (xs ++ ys) = pagesOf xs + pagesOf ys := by
  simp [pagesOf]

theorem weightOf_append (xs ys : List Tile) :
    weightOf (xs ++ ys) = weightOf xs + weightOf ys := by
  simp [weightOf]

theorem weightOf_unit : ∀ (xs : List Tile), (∀ t ∈ xs, t.weight = 1) →
    weightOf xs = pagesOf xs := by
  intro xs
  induction xs with
  | nil => intro _; rfl
  | cons x xs ih =>
    intro h
    have h1 := ih (fun t ht => h t (List.mem_cons_of_mem _ ht))
    have h2 := h x (List.mem_cons_self _ _)
    unfold weightOf pagesOf at h1 ⊢
    rw [List.map_cons, List.map_cons, List.sum_cons, List.sum_cons, h1, h2]
    omega

theorem weightOf_le (B : Nat) : ∀ (xs : List Tile), (∀ t ∈ xs, t.len ≤ B ∧ t.weight ≤ 2) →
    weightOf xs ≤ 2 * B * xs.length := by
  intro xs
  induction xs with
  | nil => intro _; simp [weightOf]
  | cons x xs ih =>
    intro h
    have h1 := ih (fun t ht => h t (List.mem_cons_of_mem _ ht))
    obtain ⟨h2, h3⟩ := h x (List.mem_cons_self _ _)
    unfold weightOf at h1 ⊢
    rw [List.map_cons, List.sum_cons, List.length_cons, Nat.mul_add, Nat.mul_one]
    have : x.weight * x.len ≤ 2 * B := Nat.mul_le_mul h3 h2
    omega

theorem sum_range_list (g : Tile → Nat) : ∀ (xs : List Tile) (f : Nat → Nat),
    (∀ j t, xs[j]? = some t → f j = g t) →
    ((List.range xs.length).map f).sum = (xs.map g).sum := by
  intro xs
  induction xs with
  | nil => intro f _; rfl
  | cons x xs ih =>
    intro f h
    rw [List.length_cons, List.range_succ_eq_map, List.map_cons, List.map_map, List.sum_cons,
      List.map_cons, List.sum_cons]
    rw [ih (f ∘ Nat.succ) (fun j t hj => h (j + 1) t (by simpa using hj))]
    rw [h 0 x (by simp)]

theorem getElem?_append_shift (xs ys : List Tile) (j : Nat) (t : Tile)
    (h : (xs ++ ys)[j]? = some t) :
    xs[j]? = some t ∨ (xs.length ≤ j ∧ ys[j - xs.length]? = some t) := by
  by_cases hj : j < xs.length
  · left
    rw [List.getElem?_append_left hj] at h
    exact h
  · right
    rw [List.getElem?_append_right (by omega)] at h
    exact ⟨by omega, h⟩

theorem mem_of_getElem? {xs : List Tile} {j : Nat} {t : Tile} (h : xs[j]? = some t) : t ∈ xs := by
  rw [List.getElem?_eq_some_iff] at h
  obtain ⟨hj, rfl⟩ := h
  exact List.getElem_mem _

/-- The merge of the picked runs `pickedAll`, in the regular situation: the output
run joins the runs written in this pass, and the invariant holds again. -/
theorem finish_tile (fails : Nat → Bool) (cmp : α → α → Int) (es : external_sort_t)
    (m : Int) (B : Nat) (hT : 1 ≤ tuplesPerPage es)
    (fuel k : Nat) (s2 s5 : MergeState α) (region outs1 pickedAll : List Tile) (a0 : Int)
    (hbase : Base m s2)
    (hS1 : Stack es.page_size (s2.ptrLastBlock + es.page_size) a0 region)
    (hS2 : Stack es.page_size s2.lastWritePos s2.ptrNextFirst outs1)
    (hTr : ∀ t ∈ region, TileOK es s2.w.file t)
    (hTo : ∀ t ∈ outs1, TileOK es s2.w.file t ∧ t.weight = 1)
    (hTp : ∀ t ∈ pickedAll, TileOK es s2.w.file t)
    (hk : k = pickedAll.length) (hk1 : 1 ≤ k) (hkm : (k : Int) ≤ m)
    (harr : ∀ (j : Nat) (t : Tile), pickedAll[j]? = some t →
      s2.runCount.getD j 0 = t.len ∧ s2.runOffset.getD j 0 = t.start ∧
      s2.sublsTuplePos.getD j 0 = 0)
    (hcount : ((region.length + outs1.length + k : Nat) : Int) ≤ s2.numSublist)
    (ha0 : 0 ≤ a0) (haF : a0 ≤ s2.ptrFirstBlock) (hNf : 0 ≤ s2.ptrNextFirst)
    (hpn : 1 ≤ s2.passNumber)
    (hne0 : s2.passNumber % 3 ≠ 0 → s2.ptrLastBlock + es.page_size ≤ s2.ptrNextFirst)
    (h0 : s2.passNumber % 3 = 0 →
      s2.lastWritePos + (weightOf pickedAll : Int) * es.page_size
        + (s2.ptrLastBlock + es.page_size) ≤ 2 * a0)
    (h2 : s2.passNumber % 3 = 2 →
      s2.lastWritePos + (weightOf pickedAll : Int) * es.page_size
        + (s2.ptrLastBlock + es.page_size) ≤ 2 * s2.ptrNextFirst + a0)
    (hw1 : s2.passNumber ≠ 1 → ∀ t ∈ region, t.weight = 1)
    (hgen : s2.passNumber = 1 → (∀ t ∈ region, t.len ≤ B ∧ t.weight ≤ 2) ∧
      (region = [] ∨ ((m - 1 + region.length) * B + 1) * es.page_size ≤ s2.ptrNextFirst))
    (hrun : mergeRuns fails cmp es k fuel s2 = Flow.cont s5) :
    Base m { s5 with numSublist := s5.numSublist - k + 1 } ∧
    ∃ L, MergeDone es L s2 s5 ∧
      Normal es m B { s5 with numSublist := s5.numSublist - k + 1 } region
        (⟨s2.lastWritePos, L, 1⟩ :: outs1) a0 := by
  have hP := page_size_pos es hT
  obtain ⟨bC, bO, bP, bB, bF, bfps⟩ := hbase
  have hkm' : k ≤ m.toNat := by omega
  have hwt : ∀ j, 1 ≤ slotWeight pickedAll j := by
    intro j
    unfold slotWeight
    cases hj : pickedAll[j]? with
    | none => simp
    | some t => exact (hTp t (mem_of_getElem? hj)).2.1
  have hget : ∀ j, j < k → ∃ t, pickedAll[j]? = some t := by
    intro j hj
    exact ⟨pickedAll[j], List.getElem?_eq_getElem (by omega)⟩
  obtain ⟨L, hd, hL⟩ := mergeRuns_effect fails cmp es k True
    (slotWeight pickedAll) hT hwt fuel s2 s5 hk1
    (by omega) (by omega) (by omega) (by omega)
    (by
      intro j hj
      obtain ⟨t, ht⟩ := hget j hj
      obtain ⟨e1, _, e3⟩ := harr j t ht
      have := (hTp t (mem_of_getElem? ht)).1
      exact ⟨by rw [e1]; omega, e3⟩)
    (by
      intro _ j hj i hi pg hlk
      obtain ⟨t, ht⟩ := hget j hj
      obtain ⟨e1, e2, _⟩ := harr j t ht
      rw [e1] at hi
      rw [e2] at hlk
      have hsw : slotWeight pickedAll j = t.weight := by
        unfold slotWeight; rw [ht]
      rw [hsw]
      exact (hTp t (mem_of_getElem? ht)).2.2.2.1 i pg (by omega) hlk) hrun
  have hLW : L ≤ weightOf pickedAll := by
    have h1 := hL trivial
    have h2 : ((List.range k).map (fun j =>
        slotWeight pickedAll j * (s2.runCount.getD j 0).toNat)).sum = weightOf pickedAll := by
      rw [hk]
      unfold weightOf
      apply sum_range_list
      intro j t ht
      obtain ⟨e1, _, _⟩ := harr j t ht
      have hsw : slotWeight pickedAll j = t.weight := by
        unfold slotWeight; rw [ht]
      rw [hsw, e1, Int.toNat_ofNat]
    rw [h2] at h1
    exact h1
  have hLWP : (L : Int) * es.page_size ≤ (weightOf pickedAll : Int) * es.page_size :=
    Int.mul_le_mul_of_nonneg_right (by omega) (by omega)
  have hd' := hd
  obtain ⟨hL1, hlw, ⟨c1, c2, c3, c4, c5, c6, c7⟩, ⟨l1, l2, l3, l4⟩, hpages, hothers, hlast⟩ := hd'
  have hNfc := Stack_le _ _ _ _ hS2
  have hregion : ∀ u ∈ region, TileOK es s5.w.file u := by
    intro u hu
    obtain ⟨g1, g2⟩ := Stack_mem _ _ _ _ hS1 u hu
    have hu1 := (hTr u hu).1
    have hup : (1 : Int) * es.page_size ≤ (u.len : Int) * es.page_size :=
      Int.mul_le_mul_of_nonneg_right (by omega) (by omega)
    apply TileOK_after es hT L s2 s5 u hd (hTr u hu)
    by_cases h3 : s2.passNumber % 3 = 0
    · right
      have := h0 h3
      omega
    · left
      have := hne0 h3
      omega
  refine ⟨⟨by rw [l1]; exact bC, by rw [l2]; exact bO, by rw [l3]; exact bP,
      by rw [l4]; exact bB, FilePos_after es L s2 s5 hd (by omega) bF, by
        show 0 ≤ s5.firstPartitionSize
        rw [c5]; exact bfps⟩, L, hd, ?_⟩
  refine ⟨?_, ?_, hregion, ?_, ?_, ha0, ?_, ?_, ?_, ?_, ?_, ?_, ?_, ?_, ?_, ?_⟩
  · show Stack es.page_size (s5.ptrLastBlock + es.page_size) a0 region
    rw [c2]; exact hS1
  · show Stack es.page_size s5.lastWritePos s5.ptrNextFirst _
    refine ⟨hlw.symm, ?_⟩
    rw [c4]; exact hS2
  · intro u hu
    rcases List.mem_cons.mp hu with rfl | hmem
    · exact ⟨TileOK_new es L s2 s5 hd, rfl⟩
    · refine ⟨?_, (hTo u hmem).2⟩
      obtain ⟨g1, g2⟩ := Stack_mem _ _ _ _ hS2 u hmem
      apply TileOK_after es hT L s2 s5 u hd (hTo u hmem).1
      left; omega
  · show ((region.length + (_ :: outs1).length : Nat) : Int) ≤ s5.numSublist - k + 1
    rw [c1, List.length_cons]
    push_cast at hcount ⊢
    omega
  · show a0 ≤ s5.ptrFirstBlock
    rw [c3]; exact haF
  · show 0 ≤ s5.ptrNextFirst
    rw [c4]; exact hNf
  · show 1 ≤ s5.passNumber
    rw [c7]; exact hpn
  · intro h; exact absurd h (List.cons_ne_nil _ _)
  · intro t ht
    simp only [List.head?_cons, Option.some.injEq] at ht
    subst ht
    exact hlast
  · show s5.passNumber % 3 ≠ 0 → s5.ptrLastBlock + es.page_size ≤ s5.ptrNextFirst
    rw [c7, c2, c4]; exact hne0
  · show s5.passNumber % 3 = 0 → s5.lastWritePos + (s5.ptrLastBlock + es.page_size) ≤ 2 * a0
    rw [c7, c2, hlw]
    intro h3
    have := h0 h3
    omega
  · show s5.passNumber % 3 = 2 →
      s5.lastWritePos + (s5.ptrLastBlock + es.page_size) ≤ 2 * s5.ptrNextFirst + a0
    rw [c7, c2, c4, hlw]
    intro h3
    have := h2 h3
    omega
  · show s5.passNumber ≠ 1 → _
    rw [c7]; exact hw1
  · show s5.passNumber = 1 → _
    rw [c7]
    intro h1
    obtain ⟨g1, g2⟩ := hgen h1
    refine ⟨g1, ?_⟩
    rcases g2 with g | g
    · left; exact g
    · right; right
      show _ ≤ s5.ptrNextFirst
      rw [c4]; exact g

/-- The merge after a pickup that ended below `ptrFirstBlock` right after a new
pass was started: its output run is the only run written since `ptrNextFirst`
was assigned. -/
theorem finish_degenerate (fails : Nat → Bool) (cmp : α → α → Int) (es : external_sort_t)
    (m : Int) (B : Nat) (hT : 1 ≤ tuplesPerPage es)
    (fuel k : Nat) (s2 s5 : MergeState α) (hbase : Base m s2) (hk1 : 1 ≤ k)
    (hkm : (k : Int) ≤ m)
    (hrc : ∀ j, j < k → 1 ≤ s2.runCount.getD j 0 ∧ s2.sublsTuplePos.getD j 0 = 0)
    (hlt : s2.ptrLastBlock < s2.ptrFirstBlock) (hnf : s2.ptrNextFirst = s2.lastWritePos)
    (hc : 0 ≤ s2.lastWritePos)
    (hrun : mergeRuns fails cmp es k fuel s2 = Flow.cont s5) :
    PhaseInv es m B { s5 with numSublist := s5.numSublist - k + 1 } := by
  obtain ⟨bC, bO, bP, bB, bF, bfps⟩ := hbase
  have hkm' : k ≤ m.toNat := by omega
  obtain ⟨L, hd, _⟩ := mergeRuns_effect fails cmp es k False (fun _ => 1) hT
    (fun _ => le_refl _) fuel s2 s5 hk1 (by omega) (by omega) (by omega) (by omega) hrc
    (fun h => absurd h id) hrun
  have hd' := hd
  obtain ⟨hL1, hlw, ⟨c1, c2, c3, c4, c5, c6, c7⟩, ⟨l1, l2, l3, l4⟩, hpages, hothers, hlast⟩ := hd'
  refine ⟨⟨by rw [l1]; exact bC, by rw [l2]; exact bO, by rw [l3]; exact bP,
      by rw [l4]; exact bB, FilePos_after es L s2 s5 hd hc bF, by
        show 0 ≤ s5.firstPartitionSize
        rw [c5]; exact bfps⟩,
    Or.inr ⟨⟨s2.lastWritePos, L, 1⟩, TileOK_new es L s2 s5 hd, ?_, ?_, ?_, hc, hlast⟩⟩
  · show s2.lastWritePos = s5.ptrNextFirst
    rw [c4, hnf]
  · show s2.lastWritePos + (L : Int) * es.page_size = s5.lastWritePos
    rw [hlw]
  · show s5.ptrLastBlock < s5.ptrFirstBlock
    rw [c2, c3]; exact hlt

theorem mergeStep_inv (fails : Nat → Bool) (cmp : α → α → Int) (es : external_sort_t)
    (m : Int) (fuel : Nat) (s s' : MergeState α)
    (h : mergeStep fails cmp es m fuel s = Flow.cont s') :
    ∃ k s1 s5, pickRuns fails es m m.toNat 0 s = Flow.cont (k, s1) ∧
      mergeRuns fails cmp es k fuel
        (if s1.newPass then
          { s1 with firstPartitionSize := s1.runCount.getD 0 0 + s1.runCount.getD 1 0,
                    newPass := false }
         else s1) = Flow.cont s5 ∧
      s' = { s5 with numSublist := s5.numSublist - k + 1 } := by
  unfold mergeStep at h
  cases hp : pickRuns fails es m m.toNat 0 s with
  | stuck => rw [hp] at h; simp at h
  | ret c w => rw [hp] at h; simp at h
  | cont x =>
    obtain ⟨k, s1⟩ := x
    rw [hp] at h
    dsimp only at h
    refine ⟨k, s1, ?_⟩
    split at h
    · simp at h
    · simp at h
    · rename_i s5 hm
      simp only [Flow.cont.injEq] at h
      exact ⟨s5, rfl, hm, h.symm⟩

/-- The merge after a pickup, in the state in which `firstPartitionSize` was set:
the output run is one more run written since `ptrNextFirst` was assigned. -/
theorem finish_tile_step (fails : Nat → Bool) (cmp : α → α → Int) (es : external_sort_t)
    (m : Int) (B : Nat) (hT : 1 ≤ tuplesPerPage es)
    (fuel k : Nat) (s1 s5 : MergeState α) (region outs1 pickedAll : List Tile) (a0 : Int)
    (hpk : Picked es m B s1 region outs1 pickedAll a0 k)
    (hrun : mergeRuns fails cmp es k fuel
      (if s1.newPass then
        { s1 with firstPartitionSize := s1.runCount.getD 0 0 + s1.runCount.getD 1 0,
                  newPass := false }
       else s1) = Flow.cont s5) :
    Base m { s5 with numSublist := s5.numSublist - k + 1 } ∧
    ∃ L, Normal es m B { s5 with numSublist := s5.numSublist - k + 1 } region
        (⟨s1.lastWritePos, L, 1⟩ :: outs1) a0 ∧
      s5.ptrFirstBlock = s1.ptrFirstBlock ∧ s5.numSublist = s1.numSublist := by
  obtain ⟨hbase, hS1, hS2, hTr, hTo, hTp, hk, hk2, hkm, harr, hcount, ha0, haF, hNf, hpn,
    hne0, h0, h2, hw1, hgen⟩ := hpk
  obtain ⟨bC, bO, bP, bB, bF, bfps⟩ := hbase
  by_cases hnp : s1.newPass = true
  · rw [if_pos hnp] at hrun
    have hf : 0 ≤ s1.runCount.getD 0 0 + s1.runCount.getD 1 0 := by
      have e0 := (harr 0 pickedAll[0] (List.getElem?_eq_getElem (by omega))).1
      have e1 := (harr 1 pickedAll[1] (List.getElem?_eq_getElem (by omega))).1
      rw [e0, e1]; omega
    obtain ⟨hb5, L, hd, hN5⟩ := finish_tile fails cmp es m B hT fuel k
      { s1 with firstPartitionSize := s1.runCount.getD 0 0 + s1.runCount.getD 1 0,
                newPass := false } s5 region outs1 pickedAll a0
      ⟨bC, bO, bP, bB, bF, hf⟩ hS1 hS2 hTr hTo hTp hk (by omega) hkm harr hcount ha0 haF hNf hpn
      hne0 h0 h2 hw1 hgen hrun
    obtain ⟨_, _, ⟨c1, _, c3, _⟩, _⟩ := hd
    exact ⟨hb5, L, hN5, c3, c1⟩
  · rw [if_neg hnp] at hrun
    obtain ⟨hb5, L, hd, hN5⟩ := finish_tile fails cmp es m B hT fuel k _ s5 region outs1
      pickedAll a0 ⟨bC, bO, bP, bB, bF, bfps⟩ hS1 hS2 hTr hTo hTp hk (by omega) hkm harr hcount
      ha0 haF hNf hpn hne0 h0 h2 hw1 hgen hrun
    obtain ⟨_, _, ⟨c1, _, c3, _⟩, _⟩ := hd
    exact ⟨hb5, L, hN5, c3, c1⟩

/-- The output run of a merge of `k ≥ 2` picked runs, all of which but the first
have at least three pages, has at least three pages; with `k ≥ 3` it has more
pages than the first two picked runs together. -/
theorem finish_lower (fails : Nat → Bool) (cmp : α → α → Int) (es : external_sort_t)
    (m : Int) (hT : 1 ≤ tuplesPerPage es)
    (fuel k : Nat) (s2 s5 : MergeState α) (pickedAll : List Tile)
    (hbase : Base m s2) (hTp : ∀ t ∈ pickedAll, TileOK es s2.w.file t)
    (hk : k = pickedAll.length) (hk2 : 2 ≤ k) (hkm : (k : Int) ≤ m)
    (harr : ∀ (j : Nat) (t : Tile), pickedAll[j]? = some t →
      s2.runCount.getD j 0 = t.len ∧ s2.runOffset.getD j 0 = t.start ∧
      s2.sublsTuplePos.getD j 0 = 0)
    (h3 : ∀ (j : Nat) (t : Tile), pickedAll[j]? = some t → 1 ≤ j → 3 ≤ t.len)
    (L : Nat) (hlw : s5.lastWritePos = s2.lastWritePos + (L : Int) * es.page_size)
    (hrun : mergeRuns fails cmp es k fuel s2 = Flow.cont s5) :
    3 ≤ L ∧ (3 ≤ k → s2.runCount.getD 0 0 + s2.runCount.getD 1 0 + 1 ≤ (L : Int)) := by
  have hP := page_size_pos es hT
  obtain ⟨bC, bO, bP, bB, _, _⟩ := hbase
  have hget : ∀ j, j < k → ∃ t, pickedAll[j]? = some t ∧ t ∈ pickedAll := by
    intro j hj
    exact ⟨pickedAll[j], List.getElem?_eq_getElem (by omega), List.getElem_mem (by omega)⟩
  obtain ⟨L', e1, hsum⟩ := mergeRuns_lower fails cmp es k hT fuel s2 s5
    (by omega) (by omega) (by omega) (by omega)
    (by
      intro j hj
      obtain ⟨t, ht, hmem⟩ := hget j hj
      obtain ⟨e1, _, e3⟩ := harr j t ht
      have := (hTp t hmem).1
      exact ⟨by rw [e1]; omega, e3⟩)
    (by
      intro j hj i hi pg hlk
      obtain ⟨t, ht, hmem⟩ := hget j hj
      obtain ⟨e1, e2, _⟩ := harr j t ht
      rw [e1] at hi
      rw [e2] at hlk
      exact (hTp t hmem).2.2.2.2.2 i pg (by omega) hlk) hrun
  have hLL : L' = L := by
    have hp0 : (es.page_size : Int) ≠ 0 := by omega
    have : (L' : Int) * es.page_size = (L : Int) * es.page_size := by omega
    have := mul_right_cancel₀ hp0 this
    exact_mod_cast this
  subst hLL
  obtain ⟨t0, ht0, hm0⟩ := hget 0 (by omega)
  obtain ⟨t1, ht1, hm1⟩ := hget 1 (by omega)
  obtain ⟨a0, _, _⟩ := harr 0 t0 ht0
  obtain ⟨a1, _, _⟩ := harr 1 t1 ht1
  have hl0 := (hTp t0 hm0).1
  have hl1 := h3 1 t1 ht1 (le_refl _)
  refine ⟨?_, ?_⟩
  · have h2 := sum_range_prefix
      (fun j => mergeCap es * ((s2.runCount.getD j 0).toNat - 1) + 1) 2 k hk2
    rw [sum_range_two] at h2
    simp only [a0, a1, Int.toNat_ofNat] at h2
    exact low_two (mergeCap es) L' t0.len t1.len hl1 (by omega)
  · intro hk3
    obtain ⟨t2, ht2, hm2⟩ := hget 2 (by omega)
    obtain ⟨a2, _, _⟩ := harr 2 t2 ht2
    have hl2 := h3 2 t2 ht2 (by omega)
    have h2 := sum_range_prefix
      (fun j => mergeCap es * ((s2.runCount.getD j 0).toNat - 1) + 1) 3 k hk3
    rw [sum_range_three] at h2
    simp only [a0, a1, a2, Int.toNat_ofNat] at h2
    have := low_three (mergeCap es) L' t0.len t1.len t2.len hl0 (by omega) hl2 (by omega)
    rw [a0, a1]
    exact_mod_cast this

/-- The merge after a pickup keeps the book-keeping exact. -/
theorem finish_exact (fails : Nat → Bool) (cmp : α → α → Int) (es : external_sort_t)
    (m : Int) (B : Nat) (hT : 1 ≤ tuplesPerPage es)
    (fuel k : Nat) (s1 s5 : MergeState α) (region outs1 pickedAll : List Tile) (a0 : Int)
    (hpk : Picked es m B s1 region outs1 pickedAll a0 k)
    (hex : PickedExact es m s1 region outs1 pickedAll k)
    (hrun : mergeRuns fails cmp es k fuel
      (if s1.newPass then
        { s1 with firstPartitionSize := s1.runCount.getD 0 0 + s1.runCount.getD 1 0,
                  newPass := false }
       else s1) = Flow.cont s5) :
    Base m { s5 with numSublist := s5.numSublist - k + 1 } ∧
    Tight es m B { s5 with numSublist := s5.numSublist - k + 1 } := by
  have hP := page_size_pos es hT
  have hpk' := hpk
  obtain ⟨hbase, hS1, hS2, hTr, hTo, hTp, hk, hk2, hkm, harr, hcount, ha0, haF, hNf, hpn,
    hne0, h0, h2, hw1, hgen⟩ := hpk'
  obtain ⟨bC, bO, bP, bB, bF, bfps⟩ := hbase
  obtain ⟨x1, x2, x3, x4, x5, x6, x7, x8⟩ := hex
  -- the common part: `s2` is the state in which the merge starts
  have key : ∀ s2 : MergeState α, Base m s2 →
      s2.lastWritePos = s1.lastWritePos → s2.ptrNextFirst = s1.ptrNextFirst →
      s2.ptrFirstBlock = s1.ptrFirstBlock → s2.numSublist = s1.numSublist →
      s2.newPass = false → s2.runCount = s1.runCount → s2.runOffset = s1.runOffset →
      s2.sublsTuplePos = s1.sublsTuplePos → s2.w = s1.w →
      (s1.newPass = true →
        s2.firstPartitionSize = s1.runCount.getD 0 0 + s1.runCount.getD 1 0) →
      (s1.newPass = false → s2.firstPartitionSize = s1.firstPartitionSize) →
      ∀ L, MergeDone es L s2 s5 →
      Normal es m B { s5 with numSublist := s5.numSublist - k + 1 } region
        (⟨s1.lastWritePos, L, 1⟩ :: outs1) a0 →
      mergeRuns fails cmp es k fuel s2 = Flow.cont s5 →
      Tight es m B { s5 with numSublist := s5.numSublist - k + 1 } := by
    intro s2 hb2 e1 e2 e3 e4 e5 e6 e7 e8 e9 e10 e11 L hd hN hr
    obtain ⟨hL1, hlw, ⟨c1, c2, c3, c4, c5, c6, c7⟩, _, _, _, _⟩ := hd
    obtain ⟨hL3, hLf⟩ := finish_lower fails cmp es m hT fuel k s2 s5 pickedAll hb2
      (fun t ht => by rw [e9]; exact hTp t ht) hk hk2 hkm
      (fun j t ht => by rw [e6, e7, e8]; exact harr j t ht) x7 L hlw hr
    refine ⟨region, ⟨s1.lastWritePos, L, 1⟩ :: outs1, a0, hN, ?_, ?_, ?_, ?_, ?_, ?_⟩
    · show s5.numSublist - k + 1 = _
      rw [c1, e4, x1]
      simp only [List.length_cons]
      push_cast
      omega
    · intro t ht
      show s5.ptrFirstBlock ≤ _
      rw [c3, e3]
      exact x2 t ht
    · show s5.newPass = true ↔ _
      rw [c6, e5]
      simp
    · intro hn hm3 t ht
      show s5.ptrNextFirst + s5.firstPartitionSize * es.page_size ≤ _
      rw [c4, c5, e2]
      have hn' : (1 : Int) < s5.numSublist - k + 1 := hn
      rw [c1, e4] at hn'
      have hLP : (1 : Int) * es.page_size ≤ (L : Int) * es.page_size :=
        Int.mul_le_mul_of_nonneg_right (by omega) (by omega)
      by_cases hnp : s1.newPass = true
      · have ho : outs1 = [] := x3.mp hnp
        subst ho
        simp only [List.mem_singleton] at ht
        subst ht
        simp only [Stack] at hS2
        show _ ≤ s1.lastWritePos + (((L : Nat) : Int) - 1) * es.page_size
        rw [e10 hnp]
        have hk3 : 3 ≤ k := by
          by_contra hc
          apply x8
          constructor <;> omega
        have hf := hLf hk3
        rw [e6] at hf
        have hmul : (s1.runCount.getD 0 0 + s1.runCount.getD 1 0) * es.page_size
            ≤ ((L : Int) - 1) * es.page_size :=
          Int.mul_le_mul_of_nonneg_right (by omega) (by omega)
        omega
      · have hnp' : s1.newPass = false := by
          cases hq : s1.newPass
          · rfl
          · exact absurd hq hnp
        rw [e11 hnp']
        rcases List.mem_cons.mp ht with rfl | hmem
        · show _ ≤ s1.lastWritePos + (((L : Nat) : Int) - 1) * es.page_size
          cases outs1 with
          | nil => exact absurd (x3.mpr rfl) hnp
          | cons u us =>
            obtain ⟨hu1, _⟩ := hS2
            have := x4 hm3 u (List.mem_cons_self _ _)
            have e : ((L : Int) - 1) * es.page_size
                = (L : Int) * es.page_size - es.page_size := by ring
            have e' : ((u.len : Int) - 1) * es.page_size
                = (u.len : Int) * es.page_size - es.page_size := by ring
            omega
        · exact x4 hm3 t hmem
    · intro t ht
      exact x5 t (List.mem_of_mem_tail ht)
    · intro t ht
      rcases List.mem_cons.mp ht with rfl | hmem
      · exact hL3
      · exact x6 t hmem
  by_cases hnp : s1.newPass = true
  · rw [if_pos hnp] at hrun
    have hf : 0 ≤ s1.runCount.getD 0 0 + s1.runCount.getD 1 0 := by
      have e0 := (harr 0 pickedAll[0] (List.getElem?_eq_getElem (by omega))).1
      have e1 := (harr 1 pickedAll[1] (List.getElem?_eq_getElem (by omega))).1
      rw [e0, e1]; omega
    obtain ⟨hb5, L, hd, hN5⟩ := finish_tile fails cmp es m B hT fuel k
      { s1 with firstPartitionSize := s1.runCount.getD 0 0 + s1.runCount.getD 1 0,
                newPass := false } s5 region outs1 pickedAll a0
      ⟨bC, bO, bP, bB, bF, hf⟩ hS1 hS2 hTr hTo hTp hk (by omega) hkm harr hcount ha0 haF hNf hpn
      hne0 h0 h2 hw1 hgen hrun
    exact ⟨hb5, key
      { s1 with firstPartitionSize := s1.runCount.getD 0 0 + s1.runCount.getD 1 0,
                newPass := false } ⟨bC, bO, bP, bB, bF, hf⟩ rfl rfl rfl rfl rfl rfl rfl rfl rfl
      (fun _ => rfl) (fun h => by simp [hnp] at h) L hd hN5 hrun⟩
  · rw [if_neg hnp] at hrun
    have hnp' : s1.newPass = false := by
      cases hq : s1.newPass
      · rfl
      · exact absurd hq hnp
    obtain ⟨hb5, L, hd, hN5⟩ := finish_tile fails cmp es m B hT fuel k _ s5 region outs1
      pickedAll a0 ⟨bC, bO, bP, bB, bF, bfps⟩ hS1 hS2 hTr hTo hTp hk (by omega) hkm harr hcount
      ha0 haF hNf hpn hne0 h0 h2 hw1 hgen hrun
    exact ⟨hb5, key s1 ⟨bC, bO, bP, bB, bF, bfps⟩ rfl rfl rfl rfl hnp' rfl rfl rfl rfl
      (fun h => absurd h hnp) (fun _ => rfl) L hd hN5 hrun⟩

/-- The lemma `finish_degenerate` for the state in which `firstPartitionSize` was set after the pickup. -/
theorem finish_degenerate_step (fails : Nat → Bool) (cmp : α → α → Int)
    (es : external_sort_t) (m : Int) (B : Nat) (hT : 1 ≤ tuplesPerPage es)
    (fuel k : Nat) (s1 s5 : MergeState α) (hbase : Base m s1) (hk2 : 2 ≤ k)
    (hkm : (k : Int) ≤ m)
    (hrc : ∀ j, j < k → 1 ≤ s1.runCount.getD j 0 ∧ s1.sublsTuplePos.getD j 0 = 0)
    (hlt : s1.ptrLastBlock < s1.ptrFirstBlock) (hnf : s1.ptrNextFirst = s1.lastWritePos)
    (hc : 0 ≤ s1.lastWritePos)
    (hrun : mergeRuns fails cmp es k fuel
      (if s1.newPass then
        { s1 with firstPartitionSize := s1.runCount.getD 0 0 + s1.runCount.getD 1 0,
                  newPass := false }
       else s1) = Flow.cont s5) :
    PhaseInv es m B { s5 with numSublist := s5.numSublist - k + 1 } := by
  obtain ⟨bC, bO, bP, bB, bF, bfps⟩ := hbase
  by_cases hnp : s1.newPass = true
  · rw [if_pos hnp] at hrun
    have hf : 0 ≤ s1.runCount.getD 0 0 + s1.runCount.getD 1 0 := by
      have e0 := (hrc 0 (by omega)).1
      have e1 := (hrc 1 (by omega)).1
      omega
    exact finish_degenerate fails cmp es m B hT fuel k
      { s1 with firstPartitionSize := s1.runCount.getD 0 0 + s1.runCount.getD 1 0,
                newPass := false } s5 ⟨bC, bO, bP, bB, bF, hf⟩
      (by omega) hkm hrc hlt hnf hc hrun
  · rw [if_neg hnp] at hrun
    exact finish_degenerate fails cmp es m B hT fuel k _ s5 ⟨bC, bO, bP, bB, bF, bfps⟩
      (by omega) hkm hrc hlt hnf hc hrun

theorem gen_mono (a b : Int) (B P : Nat) (Nf : Int) (hab : a ≤ b)
    (h : (b * B + 1) * P ≤ Nf) : (a * B + 1) * P ≤ Nf := by
  have h1 : a * B ≤ b * B := Int.mul_le_mul_of_nonneg_right hab (by omega)
  have h2 : (a * B + 1) * P ≤ (b * B + 1) * P :=
    Int.mul_le_mul_of_nonneg_right (by omega) (by omega)
  omega

theorem gen_weight (W i : Nat) (b : Int) (B P : Nat) (Nf : Int) (hW : W ≤ 2 * B * i)
    (hi : 2 * (i : Int) ≤ b) (h : (b * B + 1) * P ≤ Nf) : (W : Int) * P ≤ Nf := by
  have h0 : ((2 * B * i : Nat) : Int) = (2 * (i : Int)) * B := by push_cast; ring
  have h1 : (2 * (i : Int)) * B ≤ b * B := Int.mul_le_mul_of_nonneg_right hi (by omega)
  have h2 : (W : Int) ≤ b * B := by
    have : (W : Int) ≤ ((2 * B * i : Nat) : Int) := by exact_mod_cast hW
    omega
  have h3 : (W : Int) * P ≤ (b * B + 1) * P :=
    Int.mul_le_mul_of_nonneg_right (by omega) (by omega)
  omega

theorem walk_pages (P : Nat) (pre rest : List Tile) (e e' a : Int)
    (h : Stack P e a (pre ++ rest)) (h' : Stack P e' a rest) :
    e = e' + (pagesOf pre : Int) * P := by
  have h1 := Stack_pages P _ _ _ h
  have h2 := Stack_pages P _ _ _ h'
  rw [pagesOf_append] at h1
  push_cast at h1
  rw [h1, h2]
  ring

theorem Base_walked {m : Int} {s s' : MergeState α} {i : Nat} {picked : List Tile}
    (hb : Base m s) (hw : Walked s s' i picked) : Base m s' := by
  obtain ⟨bC, bO, bP, bB, bF, bfps⟩ := hb
  obtain ⟨a1, a2, a3, a4, a5, a6, a7, a8, a9, ⟨a10, a11, a12, a13⟩, a14, a15⟩ := hw
  exact ⟨by rw [a10]; exact bC, by rw [a11]; exact bO, by rw [a12]; exact bP,
    by rw [a13]; exact bB, by rw [a8]; exact bF, by rw [a5]; exact bfps⟩

theorem arrays_trigger {s sa q sb sc : MergeState α} {pre post : List Tile} {t : Tile}
    (h1 : Walked s sa 0 pre)
    (hq : q.runCount = sa.runCount ∧ q.runOffset = sa.runOffset ∧
      q.sublsTuplePos = sa.sublsTuplePos)
    (h2 : Walked q sb pre.length [t]) (h3 : Walked sb sc (pre.length + 1) post) :
    ∀ (j : Nat) (u : Tile), (pre ++ t :: post)[j]? = some u →
      sc.runCount.getD j 0 = u.len ∧ sc.runOffset.getD j 0 = u.start ∧
      sc.sublsTuplePos.getD j 0 = 0 := by
  obtain ⟨_, _, _, _, _, _, _, _, _, _, _, a15⟩ := h1
  obtain ⟨_, _, _, _, _, _, _, _, _, _, b14, b15⟩ := h2
  obtain ⟨_, _, _, _, _, _, _, _, _, _, c14, c15⟩ := h3
  obtain ⟨q1, q2, q3⟩ := hq
  intro j u hu
  rcases getElem?_append_shift pre (t :: post) j u hu with hj | ⟨hj1, hj2⟩
  · have hjl : j < pre.length := by
      rw [List.getElem?_eq_some_iff] at hj
      exact hj.1
    obtain ⟨d1, d2, d3⟩ := c14 j (by omega)
    obtain ⟨e1, e2, e3⟩ := b14 j hjl
    obtain ⟨f1, f2, f3⟩ := a15 j u hj
    simp only [Nat.zero_add] at f1 f2 f3
    rw [q1] at e1
    rw [q2] at e2
    rw [q3] at e3
    exact ⟨by rw [d1, e1, f1], by rw [d2, e2, f2], by rw [d3, e3, f3]⟩
  · by_cases hje : j = pre.length
    · subst hje
      simp only [Nat.sub_self, List.getElem?_cons_zero, Option.some.injEq] at hj2
      subst hj2
      obtain ⟨d1, d2, d3⟩ := c14 pre.length (by omega)
      obtain ⟨e1, e2, e3⟩ := b15 0 t (by simp)
      simp only [Nat.add_zero] at e1 e2 e3
      exact ⟨by rw [d1, e1], by rw [d2, e2], by rw [d3, e3]⟩
    · obtain ⟨n, hn⟩ : ∃ n, j - pre.length = n + 1 := ⟨j - pre.length - 1, by omega⟩
      rw [hn, List.getElem?_cons_succ] at hj2
      have := c15 n u hj2
      have e : pre.length + 1 + n = j := by omega
      rw [e] at this
      exact this

theorem startNewPass_first_zero (es : external_sort_t) (m : Int) (s : MergeState α) :
    (startNewPass es m 0 s).ptrFirstBlock = s.ptrNextFirst := by
  show (if 0 < ((0 : Nat) : Int) ∧ ((0 : Nat) : Int) < m - 1 then
    s.ptrNextFirst + s.firstPartitionSize * es.page_size else s.ptrNextFirst) = _
  rw [if_neg (by simp)]

theorem startNewPass_first_ge (es : external_sort_t) (m : Int) (i : Nat) (s : MergeState α)
    (hf : 0 ≤ s.firstPartitionSize) :
    s.ptrNextFirst ≤ (startNewPass es m i s).ptrFirstBlock := by
  show s.ptrNextFirst ≤ (if 0 < (i : Int) ∧ (i : Int) < m - 1 then
    s.ptrNextFirst + s.firstPartitionSize * es.page_size else s.ptrNextFirst)
  have : (0 : Int) ≤ s.firstPartitionSize * es.page_size := Int.mul_nonneg hf (by omega)
  split <;> omega

/-- One iteration of `while (numSublist > 1)` from the situation in which the next
pickup starts a new pass at once. -/
theorem mergeStep_degenerate (fails : Nat → Bool) (cmp : α → α → Int) (es : external_sort_t)
    (m : Int) (B : Nat) (hT : 1 ≤ tuplesPerPage es) (hm : 2 ≤ m) (fuel : Nat)
    (s s' : MergeState α) (hb : Base m s) (hd : Degenerate es s) (hn : 1 < s.numSublist)
    (h : mergeStep fails cmp es m fuel s = Flow.cont s') : PhaseInv es m B s' := by
  have hP := page_size_pos es hT
  obtain ⟨k, s1, s5, hp, hrun, rfl⟩ := mergeStep_inv _ _ _ _ _ _ _ h
  have hkm := pickRuns_le fails es m _ 0 s k s1 (by simp; omega) hp
  obtain ⟨f, hf⟩ : ∃ f, m.toNat = f + 1 := ⟨m.toNat - 1, by omega⟩
  rw [hf] at hp
  have hb' := hb
  obtain ⟨bC, bO, bP, bB, bF, bfps⟩ := hb'
  obtain ⟨t, htile, hts, hstop, hlt, ht0, hlast⟩ := hd
  obtain ⟨sb, hpb, hwb, hLb⟩ := pickRuns_iter fails es m f 0 s k s1 t
    ⟨by simp; omega, by simp; omega⟩ htile
    (by rw [if_pos hlt]
        show _ = s.lastWritePos - es.page_size + es.page_size
        omega)
    (by omega) (by omega) (by omega) hp
  rw [if_pos hlt] at hwb
  have hbb : Base m sb := Base_walked (show Base m (startNewPass es m 0 s) from hb) hwb
  obtain ⟨a1, a2, a3, a4, a5, a6, a7, a8, a9, ⟨a10, a11, a12, a13⟩, a14, a15⟩ := hwb
  have hlen := htile.1
  have hposl : (1 : Int) * es.page_size ≤ (t.len : Int) * es.page_size :=
    Int.mul_le_mul_of_nonneg_right (by omega) (by omega)
  obtain ⟨b1, b2, b3, b4, b5, b6, b7, b8, ⟨b9, b10, b11, b12⟩, b13, b14, b15, b16⟩ :=
    pickRuns_degenerate fails es m t hT ht0 f 1 sb k s1 hbb.2.2.2.2.1
      (by rw [a8]; exact htile)
      (by rw [hLb, a3, startNewPass_first_zero, ← hts]; omega)
      (by rw [a4, a2]; rfl) (by rw [a6]; rfl) hbb.2.2.2.2.2
      (by rw [a2]
          show (if (s.passNumber + 1) % 3 = 0 then 0 else s.lastWritePos) = 0 ∨
            (if (s.passNumber + 1) % 3 = 0 then 0 else s.lastWritePos) = _
          split
          · left; rfl
          · right; exact hstop.symm)
      hbb.1 hbb.2.1 hbb.2.2.1 hpb
  have hsn : sb.numSublist = s.numSublist := a1
  have hk2 : 2 ≤ k := by
    rw [hsn] at b14
    by_contra hc
    apply b14
    constructor <;> omega
  apply finish_degenerate_step fails cmp es m B hT fuel k s1 s5
    ⟨by rw [b9]; exact hbb.1, by rw [b10]; exact hbb.2.1, by rw [b11]; exact hbb.2.2.1,
      by rw [b12]; exact hbb.2.2.2.1, by rw [b5]; exact hbb.2.2.2.2.1,
      by rw [b8]; exact hbb.2.2.2.2.2⟩ hk2 hkm ?_ b1 b2 b4 hrun
  intro j hj
  by_cases hj0 : j < 1
  · have hj00 : j = 0 := by omega
    subst hj00
    obtain ⟨c1, c2⟩ := b15 0 (by omega)
    obtain ⟨d1, _, d3⟩ := a15 0 t (by simp)
    simp only [Nat.add_zero] at d1 d3
    exact ⟨by rw [c1, d1]; omega, by rw [c2, d3]⟩
  · obtain ⟨c1, c2⟩ := b16 j (by omega) hj
    exact ⟨by rw [c1]; omega, c2⟩

theorem mem_tail_append_right (xs ys : List Tile) (t : Tile) (hx : 1 ≤ xs.length)
    (h : t ∈ ys) : t ∈ (xs ++ ys).tail := by
  cases xs with
  | nil => simp at hx
  | cons x xs =>
    simp only [List.cons_append, List.tail_cons]
    exact List.mem_append_right _ h

theorem mem_tail_of_getElem? (xs ys : List Tile) (j : Nat) (t : Tile)
    (h : xs[j]? = some t) (hj : 1 ≤ j) : t ∈ (xs ++ ys).tail := by
  cases xs with
  | nil => simp at h
  | cons x xs =>
    obtain ⟨n, rfl⟩ : ∃ n, j = n + 1 := ⟨j - 1, by omega⟩
    simp only [List.getElem?_cons_succ] at h
    simp only [List.cons_append, List.tail_cons]
    exact List.mem_append_left _ (mem_of_getElem? h)

/-- The pickup loop from the regular situation.  Either it picks the runs
`pickedAll`, after starting at most one new pass, or it starts a new pass twice.
With exact book-keeping it does not start a new pass twice, and the book-keeping
stays exact. -/
theorem pickup_normal (fails : Nat → Bool) (es : external_sort_t)
    (m : Int) (B : Nat) (hT : 1 ≤ tuplesPerPage es) (hm : 2 ≤ m)
    (s : MergeState α) (hb : Base m s) (region outs : List Tile) (a0 : Int)
    (hN : Normal es m B s region outs a0) (hn : 1 < s.numSublist)
    (k : Nat) (s1 : MergeState α)
    (hp : pickRuns fails es m m.toNat 0 s = Flow.cont (k, s1)) :
    (∃ region' outs1 pickedAll a0', Picked es m B s1 region' outs1 pickedAll a0' k ∧
      (Exact es m s region outs → PickedExact es m s1 region' outs1 pickedAll k)) ∨
    ((Base m s1 ∧ 2 ≤ k ∧ (k : Int) ≤ m ∧
        (∀ j, j < k → 1 ≤ s1.runCount.getD j 0 ∧ s1.sublsTuplePos.getD j 0 = 0) ∧
        s1.ptrLastBlock < s1.ptrFirstBlock ∧ s1.ptrNextFirst = s1.lastWritePos ∧
        0 ≤ s1.lastWritePos) ∧
      ¬ Exact es m s region outs) := by
  have hP := page_size_pos es hT
  have hkm := pickRuns_le fails es m _ 0 s k s1 (by simp; omega) hp
  have hb' := hb
  obtain ⟨bC, bO, bP, bB, bF, bfps⟩ := hb'
  obtain ⟨N1, N2, N3, N4, N5, N6, N7, N8, N9, N10, N11, N12, N13, N14, N15, N16⟩ := hN
  obtain ⟨pre, rest, sa, hreg, hwa, hsta, hres⟩ :=
    pickRuns_walk fails es m a0 hT _ 0 s region k s1 N1 N3 N7 bC bO bP hp
  have hba : Base m sa := Base_walked hb hwa
  have hwa' := hwa
  obtain ⟨a1, a2, a3, a4, a5, a6, a7, a8, a9, ⟨a10, a11, a12, a13⟩, a14, a15⟩ := hwa'
  have hpg := walk_pages es.page_size pre rest _ _ a0 (hreg ▸ N1) hsta
  have hsa_ge := Stack_le _ _ _ _ hsta
  have hlenreg : region.length = pre.length + rest.length := by
    rw [hreg, List.length_append]
  have hpre_mem : ∀ u ∈ pre, u ∈ region := fun u hu => by
    rw [hreg]; exact List.mem_append_left _ hu
  have hrest_mem : ∀ u ∈ rest, u ∈ region := fun u hu => by
    rw [hreg]; exact List.mem_append_right _ hu
  have hX1 : (0 : Int) ≤ (pagesOf pre : Int) * es.page_size := by positivity
  have hrest_nil : sa.ptrLastBlock < sa.ptrFirstBlock → Exact es m s region outs →
      rest = [] := by
    intro hlt hE
    cases hr : rest with
    | nil => rfl
    | cons u us =>
      exfalso
      rw [hr] at hsta
      obtain ⟨hu1, hu2⟩ := hsta
      have hI := hE.2.1 u (hrest_mem u (by rw [hr]; exact List.mem_cons_self _ _))
      have e : ((u.len : Int) - 1) * es.page_size
          = (u.len : Int) * es.page_size - es.page_size := by ring
      rw [a3] at hlt
      omega
  rcases hres with ⟨e1, e2, e3⟩ | ⟨e1, e2, e3, f', e4⟩
  · -- no new pass is started
    subst e1
    have hk : k = pre.length := by omega
    have hk2 : 2 ≤ k := by
      by_contra hc
      apply e3
      constructor <;> omega
    left
    refine ⟨rest, outs, pre, a0, ⟨hba, hsta,
      (by rw [a2, a4]; exact N2),
      (fun u hu => by rw [a8]; exact N3 u (hrest_mem u hu)),
      (fun u hu => by rw [a8]; exact N4 u hu),
      (fun u hu => by rw [a8]; exact N3 u (hpre_mem u hu)),
      hk, hk2, hkm,
      (fun j t ht => by
        have := a15 j t ht
        simpa using this),
      (by rw [a1]; push_cast at N5 ⊢; omega),
      N6, (by rw [a3]; exact N7), (by rw [a4]; exact N8), (by rw [a7]; exact N9),
      ?_, ?_, ?_, ?_, ?_⟩, ?_⟩
    · rw [a7, a4]
      intro h3
      have := N12 h3
      omega
    · rw [a7, a2]
      intro h3
      have := N13 h3
      have hw : weightOf pre = pagesOf pre :=
        weightOf_unit pre (fun u hu => N15 (by omega) u (hpre_mem u hu))
      rw [hw]
      omega
    · rw [a7, a2, a4]
      intro h3
      have := N14 h3
      have hw : weightOf pre = pagesOf pre :=
        weightOf_unit pre (fun u hu => N15 (by omega) u (hpre_mem u hu))
      rw [hw]
      omega
    · rw [a7]
      intro h1 u hu
      exact N15 h1 u (hrest_mem u hu)
    · rw [a7, a4]
      intro h1
      obtain ⟨g1, g2⟩ := N16 h1
      refine ⟨fun u hu => g1 u (hrest_mem u hu), ?_⟩
      by_cases hr : rest = []
      · left; exact hr
      · right
        have hrl : 1 ≤ rest.length := by
          cases rest with
          | nil => exact absurd rfl hr
          | cons _ _ => simp
        rcases g2 with g | ⟨go, g⟩ | g
        · rw [g] at hlenreg
          simp at hlenreg
          omega
        · obtain ⟨_, hnr, _⟩ := N10 go
          have hkeq : (k : Int) = m := by
            by_contra hc
            apply e3
            constructor <;> omega
          apply gen_mono _ _ _ _ _ ?_ g
          push_cast [hlenreg]
          omega
        · apply gen_mono _ _ _ _ _ ?_ g
          push_cast [hlenreg]
          omega
    · intro hE
      obtain ⟨y1, y2, y3, y4, y5, y6⟩ := hE
      refine ⟨?_, ?_, ?_, ?_, ?_, y6, ?_, ?_⟩
      · rw [a1, y1, hlenreg, hk]
        push_cast
        omega
      · intro u hu
        rw [a3]
        exact y2 u (hrest_mem u hu)
      · rw [a6]; exact y3
      · intro hm3 u hu
        rw [a4, a5]
        exact y4 hn hm3 u hu
      · intro u hu
        apply y5
        rw [hreg]
        exact mem_tail_append_right pre rest u (by omega) hu
      · intro j u hu hj
        apply y5
        rw [hreg]
        exact mem_tail_of_getElem? pre rest j u hu hj
      · rw [a1]; exact e3
  · -- a new pass is started at slot `pre.length`
    simp only [Nat.zero_add] at e2 e3 e4
    cases outs with
    | nil =>
      exfalso
      obtain ⟨hfb, hnr, _⟩ := N10 rfl
      cases rest with
      | nil =>
        simp at hlenreg
        omega
      | cons u us =>
        obtain ⟨hu1, hu2⟩ := hsta
        have := Stack_le _ _ _ _ hu2
        have hul := (N3 u (hrest_mem u (List.mem_cons_self _ _))).1
        have hup : (1 : Int) * es.page_size ≤ (u.len : Int) * es.page_size :=
          Int.mul_le_mul_of_nonneg_right (by omega) (by omega)
        rw [a3] at e1
        omega
    | cons t ts =>
      obtain ⟨hts1, hts2⟩ := N2
      have htl := (N4 t (List.mem_cons_self _ _)).1
      have hts_mem : ∀ u ∈ ts, u ∈ t :: ts := fun u hu => List.mem_cons_of_mem _ hu
      have hpl : pre.length < m.toNat := by omega
      obtain ⟨sb, hpb, hwb, hLb⟩ := pickRuns_iter fails es m f' pre.length sa k s1 t
        ⟨e2, by rw [a1]; exact e3⟩ (by rw [a8]; exact htl)
        (by rw [if_pos e1]
            show _ = sa.lastWritePos - es.page_size + es.page_size
            rw [a2]; omega)
        (by have := hba.1; omega) (by have := hba.2.1; omega) (by have := hba.2.2.1; omega) e4
      rw [if_pos e1] at hwb
      have hbb : Base m sb :=
        Base_walked (show Base m (startNewPass es m pre.length sa) from hba) hwb
      have hwb' := hwb
      obtain ⟨b1, b2, b3, b4, b5, b6, b7, b8, b9, ⟨b10, b11, b12, b13⟩, b14, b15⟩ := hwb'
      have hq_lwp : (startNewPass es m pre.length sa).lastWritePos
          = if (s.passNumber + 1) % 3 = 0 then 0 else s.lastWritePos := by
        show (if (sa.passNumber + 1) % 3 = 0 then 0 else sa.lastWritePos) = _
        rw [a7, a2]
      have hq_pn : (startNewPass es m pre.length sa).passNumber = s.passNumber + 1 := by
        show sa.passNumber + 1 = _
        rw [a7]
      have hq_fb : s.ptrNextFirst ≤ (startNewPass es m pre.length sa).ptrFirstBlock := by
        have := startNewPass_first_ge es m pre.length sa hba.2.2.2.2.2
        rw [a4] at this
        exact this
      have hfile_b : sb.w.file = s.w.file := by rw [b8]; exact a8
      obtain ⟨post, rest2, sc, hreg2, hwc, hstc, hres2⟩ :=
        pickRuns_walk fails es m s.ptrNextFirst hT f' (pre.length + 1) sb ts k s1
          (by rw [hLb]; simpa using hts2)
          (fun u hu => by rw [hfile_b]; exact (N4 u (hts_mem u hu)).1)
          (by rw [b3]; exact hq_fb) hbb.1 hbb.2.1 hbb.2.2.1 hpb
      have hbc : Base m sc := Base_walked hbb hwc
      have hwc' := hwc
      obtain ⟨c1, c2, c3, c4, c5, c6, c7, c8, c9, ⟨c10, c11, c12, c13⟩, c14, c15⟩ := hwc'
      have hfile_c : sc.w.file = s.w.file := by rw [c8]; exact hfile_b
      have hc_lwp : sc.lastWritePos
          = if (s.passNumber + 1) % 3 = 0 then 0 else s.lastWritePos := by
        rw [c2, b2]; exact hq_lwp
      have hc_nf : sc.ptrNextFirst = sc.lastWritePos := by
        rw [c4, b4, c2, b2]; rfl
      have hc_pn : sc.passNumber = s.passNumber + 1 := by
        rw [c7, b7]; exact hq_pn
      have hc_n : sc.numSublist = s.numSublist := by
        rw [c1, b1]; exact a1
      have hNfc := Stack_le _ _ _ _ hts2
      have harr := arrays_trigger hwa
        (show (startNewPass es m pre.length sa).runCount = sa.runCount ∧
          (startNewPass es m pre.length sa).runOffset = sa.runOffset ∧
          (startNewPass es m pre.length sa).sublsTuplePos = sa.sublsTuplePos from
          ⟨rfl, rfl, rfl⟩) hwb hwc
      have hall_ok : ∀ u ∈ pre ++ t :: post, TileOK es s.w.file u := by
        intro u hu
        rcases List.mem_append.mp hu with h1 | h1
        · exact N3 u (hpre_mem u h1)
        · rcases List.mem_cons.mp h1 with rfl | h2
          · exact htl
          · exact (N4 u (hts_mem u (by rw [hreg2]; exact List.mem_append_left _ h2))).1
      have hlen2 : ts.length = post.length + rest2.length := by
        rw [hreg2, List.length_append]
      have hI2 : Exact es m s region (t :: ts) → ∀ u ∈ ts,
          sc.ptrFirstBlock ≤ u.start + ((u.len : Int) - 1) * es.page_size := by
        intro hE u hu
        rw [c3, b3]
        show (if 0 < (pre.length : Int) ∧ (pre.length : Int) < m - 1 then
          sa.ptrNextFirst + sa.firstPartitionSize * es.page_size else sa.ptrNextFirst) ≤ _
        rw [a4, a5]
        split
        · rename_i hsk
          exact hE.2.2.2.1 hn (by omega) u (hts_mem u hu)
        · have h1 := (Stack_mem _ _ _ _ hts2 u hu).1
          have h2 := (N4 u (hts_mem u hu)).1.1
          have h3 : (0 : Int) ≤ ((u.len : Int) - 1) * es.page_size :=
            Int.mul_nonneg (by omega) (by omega)
          omega
      rcases hres2 with ⟨g1, g2, g3⟩ | ⟨g1, g2, g3, f'', g4⟩
      · -- no second new pass
        subst g1
        have hk : k = (pre ++ t :: post).length := by
          rw [List.length_append, List.length_cons]; omega
        have hk2 : 2 ≤ k := by
          have : sb.numSublist = s.numSublist := by rw [b1]; exact a1
          rw [this] at g3
          by_contra hc
          apply g3
          constructor <;> omega
        have hpg2 := walk_pages es.page_size post rest2 _ _ s.ptrNextFirst
          (hreg2 ▸ hts2) hstc
        have hX3 : (0 : Int) ≤ (pagesOf post : Int) * es.page_size := by positivity
        have hX2 : (0 : Int) ≤ (t.len : Int) * es.page_size := by positivity
        have hWsplit : ((weightOf (pre ++ t :: post) : Nat) : Int) * es.page_size
            = (weightOf pre : Int) * es.page_size + (t.len : Int) * es.page_size
              + (pagesOf post : Int) * es.page_size := by
          have hw2 : weightOf (t :: post) = t.len + pagesOf post := by
            have := weightOf_unit (t :: post) (fun u hu => by
              rcases List.mem_cons.mp hu with rfl | h2
              · exact (N4 u (List.mem_cons_self _ _)).2
              · exact (N4 u (hts_mem u (by
                  rw [hreg2]; exact List.mem_append_left _ h2))).2)
            rw [this]
            simp [pagesOf]
          rw [weightOf_append, hw2]
          push_cast
          ring
        left
        refine ⟨rest2, [], pre ++ t :: post, s.ptrNextFirst, ⟨hbc, hstc,
          (by show sc.lastWritePos = sc.ptrNextFirst
              rw [hc_nf]),
          (fun u hu => by
            rw [hfile_c]
            exact (N4 u (hts_mem u (by rw [hreg2]; exact List.mem_append_right _ hu))).1),
          (fun u hu => by simp at hu),
          (fun u hu => by rw [hfile_c]; exact hall_ok u hu),
          hk, hk2, hkm, harr,
          (by rw [hc_n]
              simp only [List.length_cons] at N5
              simp only [List.length_nil]
              push_cast at N5 ⊢
              omega),
          N8, (by rw [c3, b3]; exact hq_fb),
          (by rw [hc_nf, hc_lwp]; split <;> omega),
          (by rw [hc_pn]; omega),
          ?_, ?_, ?_, ?_, ?_⟩, ?_⟩
        · rw [hc_pn, hc_nf, hc_lwp]
          intro h3
          rw [if_neg h3]
          omega
        · rw [hc_pn, hc_lwp]
          intro h3
          rw [if_pos h3, hWsplit]
          have hp2 : s.passNumber % 3 = 2 := by omega
          have := N14 hp2
          have hw : weightOf pre = pagesOf pre :=
            weightOf_unit pre (fun u hu => N15 (by omega) u (hpre_mem u hu))
          rw [hw]
          omega
        · rw [hc_pn, hc_nf, hc_lwp]
          intro h3
          rw [if_neg (by omega), hWsplit]
          have hp1 : s.passNumber % 3 = 1 := by omega
          have hle := N12 (by omega)
          have hWpre : (weightOf pre : Int) * es.page_size ≤ s.ptrNextFirst := by
            by_cases h1 : s.passNumber = 1
            · obtain ⟨q1, q2⟩ := N16 h1
              rcases q2 with q | ⟨q, _⟩ | q
              · rw [q] at hlenreg
                have hpre0 : pre = [] := by
                  cases pre with
                  | nil => rfl
                  | cons _ _ =>
                    simp only [List.length_nil, List.length_cons] at hlenreg
                    omega
                rw [hpre0]
                simp [weightOf]
                exact N8
              · exact absurd q (List.cons_ne_nil _ _)
              · exact gen_weight (weightOf pre) pre.length _ B es.page_size _
                  (weightOf_le B pre (fun u hu => q1 u (hpre_mem u hu)))
                  (by push_cast [hlenreg]; omega) q
            · have hw : weightOf pre = pagesOf pre :=
                weightOf_unit pre (fun u hu => N15 h1 u (hpre_mem u hu))
              rw [hw]
              omega
          omega
        · intro _ u hu
          exact (N4 u (hts_mem u (by rw [hreg2]; exact List.mem_append_right _ hu))).2
        · rw [hc_pn]
          intro h1
          omega
        · intro hE
          have hr0 := hrest_nil e1 hE
          have hI := hI2 hE
          obtain ⟨y1, y2, y3, y4, y5, y6⟩ := hE
          refine ⟨?_, ?_, ?_, ?_, ?_, ?_, ?_, ?_⟩
          · rw [hc_n, y1, hlenreg, hr0, hk]
            simp only [List.length_cons, List.length_append, List.length_nil, hlen2]
            push_cast
            omega
          · intro u hu
            exact hI u (by rw [hreg2]; exact List.mem_append_right _ hu)
          · constructor
            · intro _; rfl
            · intro _
              rw [c6, b6]
              rfl
          · intro _ u hu
            simp at hu
          · intro u hu
            exact y6 u (hts_mem u (by rw [hreg2]; exact List.mem_append_right _ hu))
          · intro u hu
            simp at hu
          · intro j u hu hj
            rcases getElem?_append_shift pre (t :: post) j u hu with hj1 | ⟨_, hj2⟩
            · apply y5
              rw [hreg]
              exact mem_tail_of_getElem? pre rest j u hj1 hj
            · rcases List.mem_cons.mp (mem_of_getElem? hj2) with rfl | hmem
              · exact y6 _ (List.mem_cons_self _ _)
              · exact y6 u (hts_mem u (by rw [hreg2]; exact List.mem_append_left _ hmem))
          · have hsbn : sb.numSublist = s.numSublist := by rw [b1]; exact a1
            rw [hc_n, ← hsbn]
            exact g3
      · -- a second new pass in the same pickup
        have ht0 : 0 ≤ t.start := by omega
        obtain ⟨d1, d2, d3, d4, d5, d6, d7, d8, ⟨d9, d10, d11, d12⟩, d13, d14, d15, d16⟩ :=
          pickRuns_degenerate fails es m t hT ht0 (f'' + 1) (pre.length + 1 + post.length) sc k
            s1 hbc.2.2.2.2.1 (by rw [hfile_c]; exact htl) g1 hc_nf
            (by rw [c6, b6]; rfl) hbc.2.2.2.2.2
            (by rw [hc_lwp]
                split
                · left; rfl
                · right; exact hts1.symm)
            hbc.1 hbc.2.1 hbc.2.2.1 g4
        have hk2 : 2 ≤ k := by
          rw [hc_n] at d14
          by_contra hc
          apply d14
          constructor <;> omega
        right
        refine ⟨⟨⟨by rw [d9]; exact hbc.1, by rw [d10]; exact hbc.2.1,
            by rw [d11]; exact hbc.2.2.1,
            by rw [d12]; exact hbc.2.2.2.1, by rw [d5]; exact hbc.2.2.2.2.1,
            by rw [d8]; exact hbc.2.2.2.2.2⟩, hk2, hkm, ?_, d1, d2, d4⟩, ?_⟩
        · intro j hj
          by_cases hj0 : j < pre.length + 1 + post.length
          · obtain ⟨x1, x2⟩ := d15 j hj0
            have hjl : j < (pre ++ t :: post).length := by
              rw [List.length_append, List.length_cons]; omega
            obtain ⟨y1, _, y3⟩ := harr j (pre ++ t :: post)[j] (List.getElem?_eq_getElem hjl)
            have := (hall_ok _ (List.getElem_mem hjl)).1
            exact ⟨by rw [x1, y1]; omega, by rw [x2, y3]⟩
          · obtain ⟨x1, x2⟩ := d16 j (by omega) hj
            have := htl.1
            exact ⟨by rw [x1]; omega, x2⟩
        · intro hE
          have hr0 := hrest_nil e1 hE
          have hI := hI2 hE
          have hcnt := hE.1
          have hr2 : rest2 = [] := by
            cases hr : rest2 with
            | nil => rfl
            | cons u us =>
              exfalso
              rw [hr] at hstc
              obtain ⟨hu1, hu2⟩ := hstc
              have hIu := hI u (by
                rw [hreg2, hr]
                exact List.mem_append_right _ (List.mem_cons_self _ _))
              have e : ((u.len : Int) - 1) * es.page_size
                  = (u.len : Int) * es.page_size - es.page_size := by ring
              omega
          have hsbn : sb.numSublist = s.numSublist := by rw [b1]; exact a1
          rw [hsbn, hcnt, hlenreg, hr0] at g3
          simp only [List.length_cons, List.length_nil, hlen2, hr2] at g3
          push_cast at g3
          omega

/-- One iteration of `while (numSublist > 1)` from the regular situation. -/
theorem mergeStep_normal (fails : Nat → Bool) (cmp : α → α → Int) (es : external_sort_t)
    (m : Int) (B : Nat) (hT : 1 ≤ tuplesPerPage es) (hm : 2 ≤ m) (fuel : Nat)
    (s s' : MergeState α) (hb : Base m s) (region outs : List Tile) (a0 : Int)
    (hN : Normal es m B s region outs a0) (hn : 1 < s.numSublist)
    (h : mergeStep fails cmp es m fuel s = Flow.cont s') : PhaseInv es m B s' := by
  obtain ⟨k, s1, s5, hp, hrun, rfl⟩ := mergeStep_inv _ _ _ _ _ _ _ h
  rcases pickup_normal fails es m B hT hm s hb region outs a0 hN hn k s1 hp with
    ⟨region', outs1, pickedAll, a0', hpk, _⟩ | ⟨⟨hb1, hk2, hkm, hrc, d1, d2, d4⟩, _⟩
  · obtain ⟨hbs, L, hNs, _⟩ := finish_tile_step fails cmp es m B hT fuel k s1 s5 region' outs1
      pickedAll a0' hpk hrun
    exact ⟨hbs, Or.inl ⟨_, _, _, hNs⟩⟩
  · exact finish_degenerate_step fails cmp es m B hT fuel k s1 s5 hb1 hk2 hkm hrc d1 d2 d4 hrun

/-- One iteration of `while (numSublist > 1)` keeps the book-keeping exact. -/
theorem mergeStep_tight (fails : Nat → Bool) (cmp : α → α → Int) (es : external_sort_t)
    (m : Int) (B : Nat) (hT : 1 ≤ tuplesPerPage es) (hm : 2 ≤ m) (fuel : Nat)
    (s s' : MergeState α) (hb : Base m s) (ht : Tight es m B s) (hn : 1 < s.numSublist)
    (h : mergeStep fails cmp es m fuel s = Flow.cont s') : Base m s' ∧ Tight es m B s' := by
  obtain ⟨region, outs, a0, hN, hE⟩ := ht
  obtain ⟨k, s1, s5, hp, hrun, rfl⟩ := mergeStep_inv _ _ _ _ _ _ _ h
  rcases pickup_normal fails es m B hT hm s hb region outs a0 hN hn k s1 hp with
    ⟨region', outs1, pickedAll, a0', hpk, hex⟩ | ⟨_, hno⟩
  · exact finish_exact fails cmp es m B hT fuel k s1 s5 region' outs1 pickedAll a0' hpk
      (hex hE) hrun
  · exact absurd hE hno

theorem Picked_avail (es : external_sort_t) (m : Int) (B : Nat) (s1 : MergeState α)
    (region outs1 pickedAll : List Tile) (a0 : Int) (k : Nat)
    (hpk : Picked es m B s1 region outs1 pickedAll a0 k) :
    Avail es k s1 ∧ (∀ j, j < k → 1 ≤ s1.runCount.getD j 0) ∧ k ≤ s1.runCount.length ∧
      k ≤ s1.runOffset.length ∧ k ≤ s1.buffer.length := by
  obtain ⟨hbase, _, _, _, _, hTp, hk, _, hkm, harr, _⟩ := hpk
  obtain ⟨bC, bO, _, bB, _, _⟩ := hbase
  have hget : ∀ j, j < k → ∃ t, pickedAll[j]? = some t ∧ t ∈ pickedAll := by
    intro j hj
    exact ⟨pickedAll[j], List.getElem?_eq_getElem (by omega), List.getElem_mem (by omega)⟩
  refine ⟨?_, ?_, by omega, by omega, by omega⟩
  · intro j hj i hi
    obtain ⟨t, ht, hmem⟩ := hget j hj
    obtain ⟨e1, e2, _⟩ := harr j t ht
    rw [e1] at hi
    rw [e2]
    exact (hTp t hmem).2.2.2.2.1 i (by omega)
  · intro j hj
    obtain ⟨t, ht, hmem⟩ := hget j hj
    obtain ⟨e1, _, _⟩ := harr j t ht
    have := (hTp t hmem).1
    rw [e1]
    omega

/-- With exact book-keeping and no failing file operation the pickup loop returns
no error code: every page it asks for is the last page of a run still to be read,
or of a run written in the pass before. -/
theorem pickRuns_noret (fails : Nat → Bool) (hio : ∀ k, fails k = false)
    (es : external_sort_t) (m : Int) (hP : 1 ≤ es.page_size) :
    ∀ (fuel i : Nat) (s : MergeState α) (region outs : List Tile) (a0 : Int),
      Stack es.page_size (s.ptrLastBlock + es.page_size) a0 region →
      a0 ≤ s.ptrFirstBlock →
      Stack es.page_size s.lastWritePos s.ptrNextFirst outs →
      (∀ t ∈ region, TileOK es s.w.file t) → (∀ t ∈ outs, TileOK es s.w.file t) →
      s.numSublist = ((i + region.length + outs.length : Nat) : Int) →
      (∀ t ∈ region, s.ptrFirstBlock ≤ t.start + ((t.len : Int) - 1) * es.page_size) →
      (3 ≤ m → ∀ t ∈ outs, s.ptrNextFirst + s.firstPartitionSize * es.page_size
        ≤ t.start + ((t.len : Int) - 1) * es.page_size) →
      0 ≤ s.firstPartitionSize →
      ∀ c w, pickRuns fails es m fuel i s ≠ Flow.ret c w := by
  intro fuel
  induction fuel with
  | zero =>
    intro i s region outs a0 _ _ _ _ _ _ _ _ _ c w h
    rw [pickRuns] at h
    split at h <;> simp at h
  | succ fuel ih =>
    intro i s region outs a0 hS1 haF hS2 hT1 hT2 hcnt hI2 hI3 hfps c w h
    rw [pickRuns] at h
    by_cases hc : (i : Int) < m ∧ (i : Int) < s.numSublist
    · rw [if_pos hc] at h
      -- the run whose last page is read
      have key : ∀ (q : MergeState α) (t : Tile) (ts outs' : List Tile) (a1 : Int),
          q = (if s.ptrLastBlock < s.ptrFirstBlock then startNewPass es m i s else s) →
          TileOK es s.w.file t → (∀ u ∈ ts, TileOK es s.w.file u) →
          (∀ u ∈ outs', TileOK es s.w.file u) →
          t.start + (t.len : Int) * es.page_size = q.ptrLastBlock + es.page_size →
          Stack es.page_size t.start a1 ts → a1 ≤ q.ptrFirstBlock →
          Stack es.page_size q.lastWritePos q.ptrNextFirst outs' →
          s.numSublist = ((i + 1 + ts.length + outs'.length : Nat) : Int) →
          (∀ u ∈ ts, q.ptrFirstBlock ≤ u.start + ((u.len : Int) - 1) * es.page_size) →
          (3 ≤ m → ∀ u ∈ outs', q.ptrNextFirst + q.firstPartitionSize * es.page_size
            ≤ u.start + ((u.len : Int) - 1) * es.page_size) →
          False := by
        intro q t ts outs' a1 hq htl hts houts hstop hst1 ha1 hst2 hcnt' hq2 hq3
        have hqw : q.w = s.w := by rw [hq]; split <;> rfl
        have hqn : q.numSublist = s.numSublist := by rw [hq]; split <;> rfl
        have hqf : q.firstPartitionSize = s.firstPartitionSize := by rw [hq]; split <;> rfl
        rw [← hq] at h
        dsimp only at h
        obtain ⟨hlen, _, ⟨pg0, hlk0, hbi0⟩, _⟩ := htl
        have hoff : t.start + ((t.len : Int) - 1) * es.page_size = q.ptrLastBlock := by
          have : ((t.len : Int) - 1) * es.page_size
              = (t.len : Int) * es.page_size - es.page_size := by ring
          omega
        rw [hoff] at hlk0
        have hfr := fread_ok fails false q.w q.ptrLastBlock pg0 (hio _) (by rw [hqw]; exact hlk0)
        rw [hfr] at h
        dsimp only at h
        refine ih (i + 1) _ ts outs' a1 ?_ ?_ ?_ ?_ ?_ ?_ ?_ ?_ ?_ c w h
        · show Stack es.page_size
            (q.ptrLastBlock - pg0.blockIndex * es.page_size - es.page_size + es.page_size)
            a1 ts
          have : q.ptrLastBlock - pg0.blockIndex * es.page_size - es.page_size + es.page_size
              = t.start := by
            rw [hbi0, ← hoff]; ring
          rw [this]; exact hst1
        · exact ha1
        · exact hst2
        · intro u hu
          show TileOK es q.w.file u
          rw [hqw]; exact hts u hu
        · intro u hu
          show TileOK es q.w.file u
          rw [hqw]; exact houts u hu
        · show q.numSublist = _
          rw [hqn, hcnt']
        · exact hq2
        · exact hq3
        · show 0 ≤ q.firstPartitionSize
          rw [hqf]; exact hfps
      by_cases htr : s.ptrLastBlock < s.ptrFirstBlock
      · -- a new pass starts: the runs still to be read are used up
        have hreg : region = [] := by
          cases hr : region with
          | nil => rfl
          | cons u us =>
            exfalso
            rw [hr] at hS1
            obtain ⟨hu1, hu2⟩ := hS1
            have hIu := hI2 u (by rw [hr]; exact List.mem_cons_self _ _)
            have e : ((u.len : Int) - 1) * es.page_size
                = (u.len : Int) * es.page_size - es.page_size := by ring
            omega
        subst hreg
        cases outs with
        | nil =>
          simp only [List.length_nil] at hcnt
          push_cast at hcnt
          omega
        | cons t ts =>
          obtain ⟨hts1, hts2⟩ := hS2
          have hfb : (startNewPass es m i s).ptrFirstBlock
              = (if 0 < (i : Int) ∧ (i : Int) < m - 1 then
                  s.ptrNextFirst + s.firstPartitionSize * es.page_size
                 else s.ptrNextFirst) := rfl
          refine key (startNewPass es m i s) t ts [] s.ptrNextFirst (by rw [if_pos htr])
            (hT2 t (List.mem_cons_self _ _))
            (fun u hu => hT2 u (List.mem_cons_of_mem _ hu)) (fun u hu => by simp at hu)
            ?_ hts2 ?_ ?_ ?_ ?_ (fun _ u hu => by simp at hu)
          · show _ = s.lastWritePos - es.page_size + es.page_size
            omega
          · rw [hfb]
            have : (0 : Int) ≤ s.firstPartitionSize * es.page_size :=
              Int.mul_nonneg hfps (by omega)
            split <;> omega
          · show (startNewPass es m i s).lastWritePos = (startNewPass es m i s).ptrNextFirst
            rfl
          · rw [hcnt]
            simp only [List.length_nil, List.length_cons]
            push_cast
            omega
          · intro u hu
            rw [hfb]
            split
            · exact hI3 (by omega) u (List.mem_cons_of_mem _ hu)
            · have h1 := (Stack_mem _ _ _ _ hts2 u hu).1
              have h2 := (hT2 u (List.mem_cons_of_mem _ hu)).1
              have h3 : (0 : Int) ≤ ((u.len : Int) - 1) * es.page_size :=
                Int.mul_nonneg (by omega) (by omega)
              omega
      · cases region with
        | nil =>
          simp only [Stack] at hS1
          omega
        | cons t ts =>
          obtain ⟨hts1, hts2⟩ := hS1
          refine key s t ts outs a0 (by rw [if_neg htr]) (hT1 t (List.mem_cons_self _ _))
            (fun u hu => hT1 u (List.mem_cons_of_mem _ hu)) hT2 hts1 hts2 haF hS2 ?_
            (fun u hu => hI2 u (List.mem_cons_of_mem _ hu)) hI3
          rw [hcnt]
          simp only [List.length_cons]
          push_cast
          omega
    · rw [if_neg hc] at h
      simp at h

/-- With exact book-keeping and no failing file operation one iteration of
`while (numSublist > 1)` returns no error code. -/
theorem mergeStep_noret (fails : Nat → Bool) (hio : ∀ k, fails k = false)
    (cmp : α → α → Int) (es : external_sort_t)
    (m : Int) (B : Nat) (hT : 1 ≤ tuplesPerPage es) (hm : 2 ≤ m) (fuel : Nat)
    (s : MergeState α) (hb : Base m s) (ht : Tight es m B s) (hn : 1 < s.numSublist)
    (c : Nat) (w : World α) :
    mergeStep fails cmp es m fuel s ≠ Flow.ret c w := by
  have hP := page_size_pos es hT
  obtain ⟨region, outs, a0, hN, hE⟩ := ht
  intro h
  unfold mergeStep at h
  cases hp : pickRuns fails es m m.toNat 0 s with
  | stuck => rw [hp] at h; simp at h
  | ret c1 w1 =>
    obtain ⟨N1, N2, N3, N4, _, _, N7, _⟩ := hN
    exact pickRuns_noret fails hio es m hP m.toNat 0 s region outs a0 N1 N7 N2 N3
      (fun t ht => (N4 t ht).1) (by rw [hE.1]; push_cast; omega) hE.2.1
      (fun hm3 => hE.2.2.2.1 hn hm3) hb.2.2.2.2.2 c1 w1 hp
  | cont x =>
    obtain ⟨k, s1⟩ := x
    rw [hp] at h
    dsimp only at h
    rcases pickup_normal fails es m B hT hm s hb region outs a0 hN hn k s1 hp with
      ⟨region', outs1, pickedAll, a0', hpk, _⟩ | ⟨_, hno⟩
    · obtain ⟨hav, hrc, hC, hO, hB⟩ := Picked_avail es m B s1 region' outs1 pickedAll a0' k hpk
      have key : ∀ s2 : MergeState α, s2.runCount = s1.runCount →
          s2.runOffset = s1.runOffset → s2.buffer = s1.buffer → s2.w = s1.w →
          ∀ c2 w2, mergeRuns fails cmp es k fuel s2 ≠ Flow.ret c2 w2 := by
        intro s2 e1 e2 e3 e4 c2 w2
        refine mergeRuns_noret fails hio cmp es k fuel s2 (by rw [e1]; exact hC)
          (by rw [e2]; exact hO) (by rw [e3]; exact hB)
          (fun j hj => by rw [e1]; exact hrc j hj) ?_ c2 w2
        intro j hj i hi
        rw [e1] at hi
        rw [e2, e4]
        exact hav j hj i hi
      split at h
      · simp at h
      · rename_i c2 w2 hr
        by_cases hnp : s1.newPass = true
        · rw [if_pos hnp] at hr
          refine key _ ?_ ?_ ?_ ?_ c2 w2 hr <;> rfl
        · rw [if_neg hnp] at hr
          exact key s1 rfl rfl rfl rfl c2 w2 hr
      · simp at h
    · exact absurd hE hno

/-- With exact book-keeping and no failing file operation the loop
`while (numSublist > 1)` returns no error code. -/
theorem mergePhase_noret (fails : Nat → Bool) (hio : ∀ k, fails k = false)
    (cmp : α → α → Int) (es : external_sort_t)
    (m : Int) (B : Nat) (hT : 1 ≤ tuplesPerPage es) (hm : 2 ≤ m) (fuel : Nat) :
    ∀ (n : Nat) (s : MergeState α), Base m s → Tight es m B s →
      ∀ c w, mergePhase fails cmp es m fuel n s ≠ Flow.ret c w := by
  intro n
  induction n with
  | zero =>
    intro s _ _ c w h
    rw [mergePhase] at h
    split at h <;> simp at h
  | succ n ih =>
    intro s hb ht c w h
    rw [mergePhase] at h
    split at h
    · rename_i hn
      split at h
      · simp at h
      · rename_i c1 w1 hs
        exact mergeStep_noret fails hio cmp es m B hT hm fuel s hb ht hn c1 w1 hs
      · rename_i s1 hs
        obtain ⟨hb1, ht1⟩ := mergeStep_tight fails cmp es m B hT hm fuel s s1 hb ht hn hs
        exact ih s1 hb1 ht1 c w h
    · simp at h

/-- One iteration of `while (numSublist > 1)` keeps the invariant. -/
theorem mergeStep_keeps (fails : Nat → Bool) (cmp : α → α → Int) (es : external_sort_t)
    (m : Int) (B : Nat) (hT : 1 ≤ tuplesPerPage es) (hm : 2 ≤ m) (fuel : Nat)
    (s s' : MergeState α) (hinv : PhaseInv es m B s) (hn : 1 < s.numSublist)
    (h : mergeStep fails cmp es m fuel s = Flow.cont s') : PhaseInv es m B s' := by
  obtain ⟨hb, ⟨region, outs, a0, hN⟩ | hd⟩ := hinv
  · exact mergeStep_normal fails cmp es m B hT hm fuel s s' hb region outs a0 hN hn h
  · exact mergeStep_degenerate fails cmp es m B hT hm fuel s s' hb hd hn h

theorem mergePhase_keeps (fails : Nat → Bool) (cmp : α → α → Int) (es : external_sort_t)
    (m : Int) (B : Nat) (hT : 1 ≤ tuplesPerPage es) (hm : 2 ≤ m) (fuel : Nat) :
    ∀ (n : Nat) (s s' : MergeState α), PhaseInv es m B s →
      mergePhase fails cmp es m fuel n s = Flow.cont s' →
      PhaseInv es m B s' ∧ ¬ s'.numSublist > 1 := by
  intro n
  induction n with
  | zero =>
    intro s s' hinv h
    rw [mergePhase] at h
    split at h
    · simp at h
    · rename_i hn
      simp only [Flow.cont.injEq] at h
      subst h
      exact ⟨hinv, hn⟩
  | succ n ih =>
    intro s s' hinv h
    rw [mergePhase] at h
    split at h
    · rename_i hn
      split at h
      · simp at h
      · simp at h
      · rename_i s1 hs
        exact ih s1 s' (mergeStep_keeps fails cmp es m B hT hm fuel s s1 hinv hn hs) h
    · rename_i hn
      simp only [Flow.cont.injEq] at h
      subst h
      exact ⟨hinv, hn⟩

/-- When the loop `while (numSublist > 1)` has ended, `ptrNextFirst` is the offset
at which the run written last starts. -/
theorem PhaseInv_exit (es : external_sort_t) (m : Int) (B : Nat) (s : MergeState α)
    (hinv : PhaseInv es m B s) (hn : ¬ s.numSublist > 1) :
    lastRunStart s.w.log = some s.ptrNextFirst := by
  obtain ⟨_, ⟨region, outs, a0, hN⟩ | hd⟩ := hinv
  · obtain ⟨N1, N2, N3, N4, N5, N6, N7, N8, N9, N10, N11, N12, N13, N14, N15, N16⟩ := hN
    cases outs with
    | nil =>
      obtain ⟨_, _, h2⟩ := N10 rfl
      omega
    | cons t ts =>
      have hts : ts = [] := by
        cases ts with
        | nil => rfl
        | cons _ _ =>
          simp only [List.length_cons] at N5
          push_cast at N5
          omega
      subst hts
      obtain ⟨_, h2⟩ := N2
      simp only [Stack] at h2
      rw [N11 t rfl, h2]
  · obtain ⟨t, _, hts, _, _, _, hlast⟩ := hd
    rw [hlast, hts]

/-! ## The initial runs can be picked up and merged -/

theorem writeFullPages_file (fails : Nat → Bool) (hw : ∀ k, fails k = false)
    (es : external_sort_t) (sorted : List α) (hP : 1 ≤ es.page_size) (n : Nat) :
    ∀ (i : Nat) (pos : Int) (w : World α),
    ∃ w1, writeFullPages fails es sorted n i pos w
        = Flow.cont (i + n, pos + n * es.page_size, w1) ∧
      (∀ j : Nat, j < n → ∃ pg,
        w1.file.lookup (pos + (j : Int) * es.page_size) = some pg ∧
        pg.blockIndex = ((i + j : Nat) : Int) ∧ pg.records.length ≤ tuplesPerPage es ∧
        pg.recordCount = (tuplesPerPage es : Int)) ∧
      (∀ x : Int, (∀ j : Nat, j < n → x ≠ pos + (j : Int) * es.page_size) →
        w1.file.lookup x = w.file.lookup x) := by
  induction n with
  | zero =>
    intro i pos w
    exact ⟨w, by simp [writeFullPages], fun j hj => by omega, fun _ _ => rfl⟩
  | succ n ih =>
    intro i pos w
    obtain ⟨w1, h1, hpg, hoth⟩ := ih (i + 1) (pos + es.page_size)
      { w with file := (pos, ⟨i, tuplesPerPage es, (sorted.drop (i * tuplesPerPage es)).take
                  (tuplesPerPage es)⟩) :: w.file,
               ops := w.ops + 1,
               log := Event.write pos ⟨i, tuplesPerPage es,
                  (sorted.drop (i * tuplesPerPage es)).take (tuplesPerPage es)⟩ :: w.log }
    refine ⟨w1, ?_, ?_, ?_⟩
    · rw [writeFullPages]
      simp only [fwrite_ok fails hw]
      rw [h1]
      congr 2
      · omega
      · push_cast; ring_nf
    · intro j hj
      cases j with
      | zero =>
        refine ⟨⟨i, tuplesPerPage es, (sorted.drop (i * tuplesPerPage es)).take
          (tuplesPerPage es)⟩, ?_, by simp, ?_⟩
        · rw [hoth]
          · simp [List.lookup]
          · intro j' _ he
            have : (0 : Int) ≤ (j' : Int) * es.page_size := by positivity
            simp only [Nat.cast_zero, zero_mul, add_zero] at he
            omega
        · refine ⟨?_, rfl⟩
          show ((sorted.drop _).take _).length ≤ _
          rw [List.length_take]
          omega
      | succ j =>
        obtain ⟨pg, hl, hb, hr⟩ := hpg j (by omega)
        refine ⟨pg, ?_, ?_, hr⟩
        · rw [← hl]
          congr 1
          push_cast; ring
        · rw [hb]
          congr 1
          omega
    · intro x hx
      rw [hoth x]
      · show List.lookup x ((pos, _) :: w.file) = _
        apply lookup_write
        have := hx 0 (by omega)
        simpa using this
      · intro j hj he
        apply hx (j + 1) (by omega)
        rw [he]
        push_cast; ring

/-- One iteration of the run-generation loop that read a non-empty chunk, with
the pages it leaves in the file. -/
theorem genLoop_iter_file (fails : Nat → Bool) (hw : ∀ k, fails k = false)
    (sort : List α → List α) (es : external_sort_t) (fuel : Nat) (s : GenState α)
    (chunk it : List α) (status : Nat) (w1 : World α)
    (hfill : fillBuffer s.numRecordsRead s.iter [] 0 s.w = (chunk, it, status, w1))
    (hm : 1 ≤ chunk.length) (hT : 1 ≤ tuplesPerPage es) :
    ∃ w4, genLoop fails sort es (fuel + 1) s
        = (if status = 1 then
            genLoop fails sort es fuel ⟨it, chunk.length,
              s.lastWritePos + (((chunk.length + tuplesPerPage es - 1) / tuplesPerPage es : Nat) : Int)
                * es.page_size, s.numSublist + 1, w4⟩
          else
            Flow.cont ⟨it, chunk.length,
              s.lastWritePos + (((chunk.length + tuplesPerPage es - 1) / tuplesPerPage es : Nat) : Int)
                * es.page_size, s.numSublist + 1, w4⟩) ∧
      (∀ j : Nat, j < (chunk.length + tuplesPerPage es - 1) / tuplesPerPage es → ∃ pg,
        w4.file.lookup (s.lastWritePos + (j : Int) * es.page_size) = some pg ∧
        pg.blockIndex = (j : Int) ∧ pg.records.length ≤ tuplesPerPage es ∧
        (j + 1 < (chunk.length + tuplesPerPage es - 1) / tuplesPerPage es →
          pg.recordCount = (tuplesPerPage es : Int))) ∧
      (∀ x : Int, (∀ j : Nat, j < (chunk.length + tuplesPerPage es - 1) / tuplesPerPage es →
          x ≠ s.lastWritePos + (j : Int) * es.page_size) →
        w4.file.lookup x = w1.file.lookup x) := by
  have hP := page_size_pos es hT
  obtain ⟨hq1, hq2, hq3⟩ := ceil_pages chunk.length (tuplesPerPage es) hT hm
  generalize hpio : (chunk.length + tuplesPerPage es - 1) / tuplesPerPage es = pageio at hq1 hq2 hq3
  obtain ⟨w3, h3, hpg3, hoth3⟩ := writeFullPages_file fails hw es (sort chunk) hP (pageio - 1) 0
    s.lastWritePos { w1 with metric := w1.metric.addReads pageio }
  have hlen : chunk.length ≠ 0 := by omega
  have hpos : s.lastWritePos + ((pageio - 1 : Nat) : Int) * (es.page_size : Int) + es.page_size
      = s.lastWritePos + (pageio : Int) * es.page_size := by
    have : ((pageio - 1 : Nat) : Int) = (pageio : Int) - 1 := by omega
    rw [this]; ring
  refine ⟨⟨(s.lastWritePos + ((pageio - 1 : Nat) : Int) * (es.page_size : Int),
        ⟨((0 + (pageio - 1) : Nat) : Int),
          (chunk.length : Int) - (tuplesPerPage es : Int) * ((0 + (pageio - 1) : Nat) : Int),
          ((sort chunk).drop ((0 + (pageio - 1)) * tuplesPerPage es)).take (tuplesPerPage es)⟩)
        :: w3.file, w3.metric.addWrites pageio, w3.ops + 1,
      Event.write (s.lastWritePos + ((pageio - 1 : Nat) : Int) * (es.page_size : Int))
        ⟨((0 + (pageio - 1) : Nat) : Int),
          (chunk.length : Int) - (tuplesPerPage es : Int) * ((0 + (pageio - 1) : Nat) : Int),
          ((sort chunk).drop ((0 + (pageio - 1)) * tuplesPerPage es)).take (tuplesPerPage es)⟩
        :: w3.log⟩, ?_, ?_, ?_⟩
  · rw [genLoop.eq_2, hfill]
    simp only [hlen, if_false, hpio, h3, fwrite_ok fails hw, hpos]
  · intro j hj
    show ∃ pg, List.lookup (s.lastWritePos + (j : Int) * es.page_size)
        ((s.lastWritePos + ((pageio - 1 : Nat) : Int) * (es.page_size : Int), _) :: w3.file)
          = some pg ∧ _
    by_cases hjl : j = pageio - 1
    · refine ⟨⟨((0 + (pageio - 1) : Nat) : Int),
          (chunk.length : Int) - (tuplesPerPage es : Int) * ((0 + (pageio - 1) : Nat) : Int),
          ((sort chunk).drop ((0 + (pageio - 1)) * tuplesPerPage es)).take (tuplesPerPage es)⟩,
        ?_, ?_, ?_⟩
      · rw [hjl]
        exact lookup_cons_eq _ _ _
      · show ((0 + (pageio - 1) : Nat) : Int) = (j : Int)
        rw [hjl]; simp
      · refine ⟨?_, fun h => by omega⟩
        show ((List.drop _ _).take _).length ≤ _
        rw [List.length_take]; omega
    · obtain ⟨pg, hl, hb, hr, hrc⟩ := hpg3 j (by omega)
      refine ⟨pg, ?_, by rw [hb]; simp, hr, fun _ => hrc⟩
      rw [lookup_write _ _ _ _ (mul_page_ne _ _ hP _ _ (by omega))]
      exact hl
  · intro x hx
    show List.lookup x
        ((s.lastWritePos + ((pageio - 1 : Nat) : Int) * (es.page_size : Int), _) :: w3.file) = _
    rw [lookup_write _ _ _ _ (hx (pageio - 1) (by omega))]
    rw [hoth3 x (fun j hj => hx j (by omega))]

theorem pagesOf_full (B : Nat) : ∀ (ts : List Tile), (∀ t ∈ ts, t.len = B) →
    pagesOf ts = ts.length * B := by
  intro ts
  induction ts with
  | nil => intro _; simp [pagesOf]
  | cons x xs ih =>
    intro h
    have h1 := ih (fun t ht => h t (List.mem_cons_of_mem _ ht))
    have h2 := h x (List.mem_cons_self _ _)
    unfold pagesOf at h1 ⊢
    rw [List.map_cons, List.sum_cons, h1, h2, List.length_cons, Nat.add_mul, Nat.one_mul]
    omega

theorem pagesOf_cons (t : Tile) (ts : List Tile) : pagesOf (t :: ts) = t.len + pagesOf ts := by
  simp [pagesOf]

/-- The run that one iteration of run generation wrote can be picked up and merged. -/
theorem TileOK_gen_new (es : external_sort_t) (hT : 1 ≤ tuplesPerPage es)
    (file : List (Int × Page α)) (c : Int) (L : Nat) (hL : 1 ≤ L)
    (hpages : ∀ j : Nat, j < L → ∃ pg,
      file.lookup (c + (j : Int) * es.page_size) = some pg ∧
      pg.blockIndex = (j : Int) ∧ pg.records.length ≤ tuplesPerPage es ∧
      (j + 1 < L → pg.recordCount = (tuplesPerPage es : Int))) :
    TileOK es file ⟨c, L, 2⟩ := by
  have hd := mergeCap_double es hT
  have hle := mergeCap_le es
  refine ⟨hL, by show 1 ≤ 2; omega, ?_, ?_, fun j hj => ?_, ?_⟩
  rotate_left 2
  · obtain ⟨pg, hl, _, _⟩ := hpages j hj
    exact ⟨pg, hl⟩
  · intro j pg hj hl
    have hj' : j + 1 < L := hj
    obtain ⟨pg2, hl2, _, _, hrc⟩ := hpages j (by omega)
    have hl' : List.lookup (c + (j : Int) * es.page_size) file = some pg := hl
    rw [hl2] at hl'
    have := Option.some.inj hl'
    subst this
    rw [hrc hj']
    exact_mod_cast hle
  · obtain ⟨pg, hl, hb, _⟩ := hpages (L - 1) (by omega)
    refine ⟨pg, ?_, ?_⟩
    · show List.lookup (c + ((L : Int) - 1) * es.page_size) _ = _
      rw [← hl]
      congr 2
      push_cast [Nat.cast_sub hL]
      ring
    · rw [hb]
      show ((L - 1 : Nat) : Int) = (L : Int) - 1
      omega
  · intro j pg hj hl
    show pg.records.length ≤ 2 * mergeCap es
    obtain ⟨pg2, hl2, _, hr2, _⟩ := hpages j hj
    have hl' : List.lookup (c + (j : Int) * es.page_size) file = some pg := hl
    rw [hl2] at hl'
    have := Option.some.inj hl'
    subst this
    omega

theorem TileOK_below (es : external_sort_t) (hT : 1 ≤ tuplesPerPage es)
    (file file' : List (Int × Page α)) (c : Int) (L : Nat) (u : Tile)
    (hothers : ∀ x : Int, (∀ j : Nat, j < L → x ≠ c + (j : Int) * es.page_size) →
      file'.lookup x = file.lookup x)
    (hu : TileOK es file u) (hstop : u.start + (u.len : Int) * es.page_size ≤ c) :
    TileOK es file' u := by
  have hP := page_size_pos es hT
  obtain ⟨h1, h2, ⟨pg, hlk, hbi⟩, h4, h5, h6⟩ := hu
  have hlow : ∀ j : Nat, j < u.len → ∀ j' : Nat, j' < L →
      u.start + (j : Int) * es.page_size ≠ c + (j' : Int) * es.page_size := by
    intro j hj j' _
    have h5 : ((j : Int) + 1) * es.page_size ≤ (u.len : Int) * es.page_size :=
      Int.mul_le_mul_of_nonneg_right (by omega) (by omega)
    have h6 : ((j : Int) + 1) * es.page_size = (j : Int) * es.page_size + es.page_size := by
      ring
    have h7 : (0 : Int) ≤ (j' : Int) * es.page_size := by positivity
    omega
  refine ⟨h1, h2, ⟨pg, ?_, hbi⟩, ?_, ?_, ?_⟩
  · have e : u.start + ((u.len : Int) - 1) * es.page_size
        = u.start + ((u.len - 1 : Nat) : Int) * es.page_size := by
      congr 2
      omega
    rw [e, hothers _ (hlow (u.len - 1) (by omega)), ← e]
    exact hlk
  · intro j pg1 hj hl1
    rw [hothers _ (hlow j hj)] at hl1
    exact h4 j pg1 hj hl1
  · intro j hj
    rw [hothers _ (hlow j hj)]
    exact h5 j hj
  · intro j pg1 hj hl1
    rw [hothers _ (hlow j (by omega))] at hl1
    exact h6 j pg1 hj hl1

theorem FilePos_gen (es : external_sort_t) (file file' : List (Int × Page α)) (c : Int)
    (L : Nat) (hc : 0 ≤ c)
    (hothers : ∀ x : Int, (∀ j : Nat, j < L → x ≠ c + (j : Int) * es.page_size) →
      file'.lookup x = file.lookup x)
    (hf : FilePos file) : FilePos file' := by
  intro off pg hl
  by_cases hw : ∃ j' : Nat, j' < L ∧ off = c + (j' : Int) * es.page_size
  · obtain ⟨j', _, he⟩ := hw
    have : (0 : Int) ≤ (j' : Int) * es.page_size := by positivity
    omega
  · rw [hothers _ (fun j' hj' he => hw ⟨j', hj', he⟩)] at hl
    exact hf off pg hl

theorem ceil_le (n B T : Nat) (hT : 1 ≤ T) (hn : n ≤ B * T) : (n + T - 1) / T ≤ B := by
  have : (n + T - 1) / T < B + 1 := by
    apply (Nat.div_lt_iff_lt_mul (by omega)).mpr
    rw [Nat.add_mul, Nat.one_mul]
    omega
  omega

/-- Run generation leaves the initial runs back to back from offset 0 on: every
run but the last has `B` pages, and every run can be picked up and merged. -/
theorem genLoop_tiles (fails : Nat → Bool) (hw : ∀ k, fails k = false)
    (sort : List α → List α) (es : external_sort_t) (B : Nat) (hB : 1 ≤ B)
    (hT : 1 ≤ tuplesPerPage es) :
    ∀ (fuel : Nat) (s : GenState α) (tiles : List Tile) (g : GenState α),
      s.numRecordsRead = B * tuplesPerPage es →
      Stack es.page_size s.lastWritePos 0 tiles →
      (∀ t ∈ tiles, TileOK es s.w.file t ∧ t.len = B ∧ t.weight = 2) →
      tiles.length = s.numSublist → FilePos s.w.file →
      genLoop fails sort es fuel s = Flow.cont g →
      ∃ tiles', Stack es.page_size g.lastWritePos 0 tiles' ∧
        (∀ t ∈ tiles', TileOK es g.w.file t ∧ t.len ≤ B ∧ t.weight = 2) ∧
        tiles'.length = g.numSublist ∧ FilePos g.w.file ∧
        (tiles' = [] ∨
          (((tiles'.length : Int) - 1) * B + 1) * es.page_size ≤ g.lastWritePos) ∧
        tiles.length ≤ tiles'.length ∧
        (1 ≤ s.iter.length → tiles.length + 1 ≤ tiles'.length) ∧
        (B * tuplesPerPage es < s.iter.length → tiles.length + 2 ≤ tiles'.length) ∧
        ∀ t ∈ tiles'.tail, t.len = B := by
  have hP := page_size_pos es hT
  have hN : 1 ≤ B * tuplesPerPage es := Nat.mul_pos hB hT
  intro fuel
  induction fuel with
  | zero => intro s tiles g _ _ _ _ _ h; simp [genLoop] at h
  | succ fuel ih =>
    intro s tiles g hnr hst htl hlen hfp h
    obtain ⟨w1, hfill, _, _⟩ := fillBuffer_eq s.numRecordsRead s.iter [] 0 s.w
    have hw1 : w1.file = s.w.file := by
      have := (fillBuffer_length s.numRecordsRead s.iter [] 0 s.w).2.2
      rw [hfill] at this
      exact this
    rw [List.nil_append] at hfill
    have hfill' : fillBuffer s.numRecordsRead s.iter [] 0 s.w
        = (s.iter.take (B * tuplesPerPage es), s.iter.drop (B * tuplesPerPage es),
            (if s.iter.length < B * tuplesPerPage es then 0
              else if B * tuplesPerPage es = 0 then 0 else 1), w1) := by
      rw [hfill, hnr]
    have hfull : pagesOf tiles = tiles.length * B := pagesOf_full B tiles (fun t ht => (htl t ht).2.1)
    have hlwp := Stack_pages _ _ _ _ hst
    have hc0 : 0 ≤ s.lastWritePos := by
      have : (0 : Int) ≤ (pagesOf tiles : Int) * es.page_size := by positivity
      omega
    by_cases hch : (s.iter.take (B * tuplesPerPage es)).length = 0
    · -- the stream is used up
      have hit : s.iter.length = 0 := by
        rw [List.length_take] at hch
        omega
      rw [genLoop.eq_2, hfill'] at h
      simp only [hch, if_true, Flow.cont.injEq] at h
      subst h
      refine ⟨tiles, hst, ?_, hlen, by show FilePos w1.file; rw [hw1]; exact hfp, ?_, le_refl _,
        fun h1 => by omega, fun h1 => by omega,
        fun t ht => (htl t (List.mem_of_mem_tail ht)).2.1⟩
      · intro t ht
        obtain ⟨t1, t2, t3⟩ := htl t ht
        refine ⟨by show TileOK es w1.file t; rw [hw1]; exact t1, by omega, t3⟩
      · by_cases hnil : tiles = []
        · left; exact hnil
        · right
          have hl1 : 1 ≤ tiles.length := by
            cases tiles with
            | nil => exact absurd rfl hnil
            | cons _ _ => simp
          show _ ≤ s.lastWritePos
          rw [hlwp, hfull]
          have hnat : (tiles.length - 1) * B + 1 ≤ tiles.length * B := by
            obtain ⟨q, hq⟩ : ∃ q, tiles.length = q + 1 := ⟨tiles.length - 1, by omega⟩
            rw [hq, Nat.add_sub_cancel, Nat.add_mul, Nat.one_mul]
            omega
          have e : ((tiles.length - 1 : Nat) : Int) = (tiles.length : Int) - 1 := by omega
          have hint : ((tiles.length : Int) - 1) * B + 1 ≤ ((tiles.length * B : Nat) : Int) := by
            rw [← e]
            exact_mod_cast hnat
          have := Int.mul_le_mul_of_nonneg_right hint (show (0 : Int) ≤ es.page_size by omega)
          omega
    · have hm : 1 ≤ (s.iter.take (B * tuplesPerPage es)).length := by omega
      obtain ⟨w4, h4, hpg4, hoth4⟩ := genLoop_iter_file fails hw sort es fuel s _ _ _ w1 hfill'
        hm hT
      rw [hw1] at hoth4
      rw [h4] at h
      obtain ⟨hq1, _, _⟩ := ceil_pages _ (tuplesPerPage es) hT hm
      have htnew := TileOK_gen_new es hT w4.file s.lastWritePos _ hq1 hpg4
      have hold : ∀ t ∈ tiles, TileOK es w4.file t := by
        intro t ht
        exact TileOK_below es hT s.w.file w4.file s.lastWritePos _ t hoth4 (htl t ht).1
          (Stack_mem _ _ _ _ hst t ht).2
      have hfp4 := FilePos_gen es s.w.file w4.file s.lastWritePos _ hc0 hoth4 hfp
      by_cases hlt : s.iter.length < B * tuplesPerPage es
      · -- the last run
        simp only [hlt, if_true, Nat.zero_ne_one, if_false, Flow.cont.injEq] at h
        subst h
        have hcl : (s.iter.take (B * tuplesPerPage es)).length ≤ B * tuplesPerPage es := by
          rw [List.length_take]; omega
        have hpio := ceil_le _ B (tuplesPerPage es) hT hcl
        refine ⟨⟨s.lastWritePos, _, 2⟩ :: tiles, ⟨rfl, hst⟩, ?_, ?_, hfp4, ?_, ?_, ?_, ?_,
          fun t ht => (htl t ht).2.1⟩
        · intro t ht
          rcases List.mem_cons.mp ht with rfl | hmem
          · exact ⟨htnew, hpio, rfl⟩
          · exact ⟨hold t hmem, by rw [(htl t hmem).2.1], (htl t hmem).2.2⟩
        · show (_ :: tiles).length = s.numSublist + 1
          rw [List.length_cons, hlen]
        · right
          show _ ≤ s.lastWritePos + _
          generalize ((s.iter.take (B * tuplesPerPage es)).length + tuplesPerPage es - 1)
            / tuplesPerPage es = pageio at hq1 ⊢
          rw [List.length_cons]
          have e1 : ((((tiles.length + 1 : Nat) : Int) - 1) * B + 1) * es.page_size
              = (tiles.length : Int) * B * es.page_size + es.page_size := by
            push_cast; ring
          have e2 : ((pagesOf tiles : Nat) : Int) * es.page_size
              = (tiles.length : Int) * B * es.page_size := by
            rw [hfull]; push_cast; ring
          have e3 : (1 : Int) * es.page_size ≤ (pageio : Int) * es.page_size :=
            Int.mul_le_mul_of_nonneg_right (by exact_mod_cast hq1) (by omega)
          rw [e1, hlwp, e2]
          omega
        · rw [List.length_cons]; omega
        · intro _; rw [List.length_cons]
        · intro h1; omega
      · -- a full run, and the loop goes on
        have hN0 : B * tuplesPerPage es ≠ 0 := by omega
        simp only [hlt, if_false, hN0, if_true] at h
        have hcl : (s.iter.take (B * tuplesPerPage es)).length = B * tuplesPerPage es := by
          rw [List.length_take]; omega
        rw [hcl, ceil_full B _ hT] at h
        rw [hcl, ceil_full B _ hT] at htnew
        rw [hcl, ceil_full B _ hT] at hoth4
        obtain ⟨tiles', r1, r2, r3, r4, r5, r6, r7, r8, r9⟩ := ih _ (⟨s.lastWritePos, B, 2⟩ :: tiles) g
          rfl ⟨rfl, hst⟩
          (by
            intro t ht
            rcases List.mem_cons.mp ht with rfl | hmem
            · exact ⟨htnew, rfl, rfl⟩
            · exact ⟨hold t hmem, (htl t hmem).2.1, (htl t hmem).2.2⟩)
          (by show (_ :: tiles).length = s.numSublist + 1
              rw [List.length_cons, hlen])
          hfp4 h
        rw [List.length_cons] at r6 r7 r8
        refine ⟨tiles', r1, r2, r3, r4, r5, by omega, fun _ => by omega, ?_, r9⟩
        intro h1
        apply r7
        show 1 ≤ (s.iter.drop (B * tuplesPerPage es)).length
        rw [List.length_drop]
        omega

/-! ## The result pointer -/

theorem pickRuns_numSublist (fails : Nat → Bool) (es : external_sort_t) (m : Int) :
    ∀ (fuel i : Nat) (s : MergeState α) (k : Nat) (s1 : MergeState α),
      pickRuns fails es m fuel i s = Flow.cont (k, s1) → s1.numSublist = s.numSublist := by
  intro fuel
  induction fuel with
  | zero =>
    intro i s k s1 h
    rw [pickRuns] at h
    split at h
    · simp at h
    · simp only [Flow.cont.injEq, Prod.mk.injEq] at h
      rw [← h.2]
  | succ fuel ih =>
    intro i s k s1 h
    rw [pickRuns] at h
    split at h
    · dsimp only at h
      split at h
      · simp at h
      · have := ih (i + 1) _ k s1 h
        rw [this]
        show (if s.ptrLastBlock < s.ptrFirstBlock then startNewPass es m i s else s).numSublist = _
        split <;> rfl
    · simp only [Flow.cont.injEq, Prod.mk.injEq] at h
      rw [← h.2]

theorem loadFirstPages_numSublist (fails : Nat → Bool) :
    ∀ (n i : Nat) (s s3 : MergeState α), loadFirstPages fails n i s = Flow.cont s3 →
      s3.numSublist = s.numSublist := by
  intro n
  induction n with
  | zero =>
    intro i s s3 h
    simp only [loadFirstPages, Flow.cont.injEq] at h
    rw [← h]
  | succ n ih =>
    intro i s s3 h
    rw [loadFirstPages] at h
    dsimp only at h
    split at h
    · simp at h
    · exact ih (i + 1)
        { s with buffer := s.buffer.set i (some _), w := _ } s3 h

theorem emitTuple_numSublist (fails : Nat → Bool) (es : external_sort_t) (s s2 : MergeState α)
    (o o2 : OutState α) (tuple : α) (c : Nat)
    (h : emitTuple fails es s o tuple c = Flow.cont (s2, o2)) :
    s2.numSublist = s.numSublist := by
  unfold emitTuple at h
  simp only at h
  split at h
  · obtain ⟨h1, _⟩ := flushPage_inv _ _ _ _ _ _ h
    rw [h1]
  · simp only [Flow.cont.injEq, Prod.mk.injEq] at h
    rw [← h.1]

theorem advanceRun_numSublist (fails : Nat → Bool) (es : external_sort_t) (lowId : Nat)
    (s s3 : MergeState α) (h : advanceRun fails es lowId s = Flow.cont s3) :
    s3.numSublist = s.numSublist := by
  obtain ⟨cur, _, h1 | h1 | h1⟩ := advanceRun_inv _ _ _ _ _ h
  · rw [h1.2]
  · rw [h1.2.2]
  · obtain ⟨_, _, pg, _, h2⟩ := h1
    rw [h2]

theorem mergeLoop_numSublist (fails : Nat → Bool) (cmp : α → α → Int) (es : external_sort_t)
    (k : Nat) : ∀ (fuel : Nat) (s s' : MergeState α) (o o' : OutState α),
    mergeLoop fails cmp es k fuel s o = Flow.cont (s', o') → s'.numSublist = s.numSublist := by
  intro fuel
  induction fuel with
  | zero => intro s s' o o' h; simp [mergeLoop] at h
  | succ fuel ih =>
    intro s s' o o' h
    rcases mergeLoop_succ_inv _ _ _ _ _ _ _ _ _ h with
      ⟨_, hs, _⟩ | ⟨_, t0, l, t, c, s2, o2, s3, _, _, hem, hadv, hrec⟩
    · rw [hs]
    · rw [ih s3 s' o2 o' hrec, advanceRun_numSublist _ _ _ _ _ hadv,
        emitTuple_numSublist _ _ _ _ _ _ _ _ hem]

theorem mergeRuns_numSublist (fails : Nat → Bool) (cmp : α → α → Int) (es : external_sort_t)
    (k fuel : Nat) (s s' : MergeState α) (h : mergeRuns fails cmp es k fuel s = Flow.cont s') :
    s'.numSublist = s.numSublist := by
  unfold mergeRuns at h
  cases hl : loadFirstPages fails k 0 s with
  | stuck => rw [hl] at h; simp at h
  | ret c w => rw [hl] at h; simp at h
  | cont s3 =>
    rw [hl] at h
    dsimp only at h
    have h3 := loadFirstPages_numSublist fails k 0 s s3 hl
    cases hm : mergeLoop fails cmp es k fuel s3 (⟨[], es.headerSize, 0⟩ : OutState α) with
    | stuck => rw [hm] at h; simp at h
    | ret c w => rw [hm] at h; simp at h
    | cont x =>
      obtain ⟨s4, o4⟩ := x
      rw [hm] at h
      dsimp only at h
      have h4 := mergeLoop_numSublist fails cmp es k fuel s3 s4 _ o4 hm
      split at h
      · cases hf : flushPage fails es s4 o4 with
        | stuck => rw [hf] at h; simp at h
        | ret c w => rw [hf] at h; simp at h
        | cont y =>
          obtain ⟨s5, o5⟩ := y
          rw [hf] at h
          simp only [Flow.cont.injEq] at h
          obtain ⟨e5, _⟩ := flushPage_inv _ _ _ _ _ _ hf
          rw [← h, e5]
          show s4.numSublist = _
          rw [h4, h3]
      · simp only [Flow.cont.injEq] at h
        rw [← h, h4, h3]

/-- With `maxSublistsInRun` 0 or 1 a merge step does not lower `numSublist`, so the
loop `while (numSublist > 1)` does not end. -/
theorem mergePhase_small (fails : Nat → Bool) (cmp : α → α → Int) (es : external_sort_t)
    (m : Int) (fuel : Nat) (hm0 : 0 ≤ m) (hm1 : m ≤ 1) :
    ∀ (n : Nat) (s s' : MergeState α), 2 ≤ s.numSublist →
      mergePhase fails cmp es m fuel n s ≠ Flow.cont s' := by
  intro n
  induction n with
  | zero =>
    intro s s' h2 h
    rw [mergePhase] at h
    rw [if_pos (by omega)] at h
    simp at h
  | succ n ih =>
    intro s s' h2 h
    rw [mergePhase] at h
    rw [if_pos (by omega)] at h
    cases hs : mergeStep fails cmp es m fuel s with
    | stuck => rw [hs] at h; simp at h
    | ret c w => rw [hs] at h; simp at h
    | cont s1 =>
      rw [hs] at h
      dsimp only at h
      obtain ⟨k, s1', s5, hp, hrun, rfl⟩ := mergeStep_inv _ _ _ _ _ _ _ hs
      have hkm := pickRuns_le fails es m _ 0 s k s1' (by simpa using hm0) hp
      have e1 := pickRuns_numSublist fails es m _ 0 s k s1' hp
      have e2 := mergeRuns_numSublist fails cmp es k fuel _ s5 hrun
      have e3 : (if s1'.newPass then
          { s1' with firstPartitionSize := s1'.runCount.getD 0 0 + s1'.runCount.getD 1 0,
                     newPass := false }
         else s1').numSublist = s1'.numSublist := by
        split <;> rfl
      refine ih _ s' ?_ h
      show 2 ≤ s5.numSublist - k + 1
      rw [e2, e3, e1]
      omega

/-- The state with which the merge phase starts is in the regular situation: the
initial runs are the runs still to be read, from offset 0 on. -/
theorem initMerge_normal (es : external_sort_t) (B : Nat) (g : GenState α) (tiles : List Tile)
    (hm : 2 ≤ maxSublistsInRun B)
    (hst : Stack es.page_size g.lastWritePos 0 tiles)
    (htl : ∀ t ∈ tiles, TileOK es g.w.file t ∧ t.len ≤ B ∧ t.weight = 2)
    (hlen : tiles.length = g.numSublist) (hfp : FilePos g.w.file)
    (hbound : tiles = [] ∨
      (((tiles.length : Int) - 1) * B + 1) * es.page_size ≤ g.lastWritePos)
    (h2 : 2 ≤ tiles.length) :
    Base (maxSublistsInRun B) (initMerge es B g) ∧
    Normal es (maxSublistsInRun B) B (initMerge es B g) tiles [] 0 := by
  have hle := maxSublistsInRun_le B hm
  have hc0 := Stack_le _ _ _ _ hst
  refine ⟨⟨?_, ?_, ?_, ?_, hfp, ?_⟩, ?_⟩
  · show (maxSublistsInRun B).toNat ≤ (List.replicate (maxSublistsInRun B).toNat (0 : Int)).length
    rw [List.length_replicate]
  · show (maxSublistsInRun B).toNat ≤ (List.replicate (maxSublistsInRun B).toNat (0 : Int)).length
    rw [List.length_replicate]
  · show (maxSublistsInRun B).toNat ≤ (List.replicate (maxSublistsInRun B).toNat (0 : Int)).length
    rw [List.length_replicate]
  · show (maxSublistsInRun B).toNat ≤ (List.replicate B (none : Option (Page α))).length
    rw [List.length_replicate]; exact hle
  · show 0 ≤ maxSublistsInRun B
    omega
  · refine ⟨?_, ?_, fun t ht => (htl t ht).1, fun t ht => by simp at ht, ?_, le_refl _, le_refl _,
      hc0, le_refl _, ?_, ?_, ?_, ?_, ?_, ?_, ?_⟩
    · show Stack es.page_size (g.lastWritePos - es.page_size + es.page_size) 0 tiles
      rw [Int.sub_add_cancel]; exact hst
    · show g.lastWritePos = g.lastWritePos
      rfl
    · show ((tiles.length + ([] : List Tile).length : Nat) : Int) ≤ (g.numSublist : Int)
      rw [← hlen]; simp
    · intro _
      refine ⟨rfl, ?_, ?_⟩
      · show (g.numSublist : Int) = (tiles.length : Int)
        rw [hlen]
      · show (2 : Int) ≤ (g.numSublist : Int)
        rw [← hlen]; exact_mod_cast h2
    · intro t ht
      simp at ht
    · intro _
      show g.lastWritePos - es.page_size + es.page_size ≤ g.lastWritePos
      omega
    · intro h
      have h' : (1 : Int) % 3 = 0 := h
      omega
    · intro h
      have h' : (1 : Int) % 3 = 2 := h
      omega
    · intro h
      exact absurd rfl h
    · intro _
      refine ⟨fun t ht => ⟨(htl t ht).2.1, by rw [(htl t ht).2.2]⟩, ?_⟩
      rcases hbound with hb | hb
      · left; exact hb
      · right; left
        exact ⟨rfl, hb⟩

/-- The state with which the merge phase starts satisfies the invariant of the
loop `while (numSublist > 1)`. -/
theorem initMerge_phase (es : external_sort_t) (B : Nat) (g : GenState α) (tiles : List Tile)
    (hm : 2 ≤ maxSublistsInRun B)
    (hst : Stack es.page_size g.lastWritePos 0 tiles)
    (htl : ∀ t ∈ tiles, TileOK es g.w.file t ∧ t.len ≤ B ∧ t.weight = 2)
    (hlen : tiles.length = g.numSublist) (hfp : FilePos g.w.file)
    (hbound : tiles = [] ∨
      (((tiles.length : Int) - 1) * B + 1) * es.page_size ≤ g.lastWritePos)
    (h2 : 2 ≤ tiles.length) :
    PhaseInv es (maxSublistsInRun B) B (initMerge es B g) := by
  obtain ⟨hb, hN⟩ := initMerge_normal es B g tiles hm hst htl hlen hfp hbound h2
  exact ⟨hb, Or.inl ⟨_, _, _, hN⟩⟩

/-- The state with which the merge phase starts has exact book-keeping. -/
theorem initMerge_tight (es : external_sort_t) (B : Nat) (g : GenState α) (tiles : List Tile)
    (hm : 2 ≤ maxSublistsInRun B) (hB : 3 ≤ B)
    (hst : Stack es.page_size g.lastWritePos 0 tiles)
    (htl : ∀ t ∈ tiles, TileOK es g.w.file t ∧ t.len ≤ B ∧ t.weight = 2)
    (hlen : tiles.length = g.numSublist) (hfp : FilePos g.w.file)
    (hbound : tiles = [] ∨
      (((tiles.length : Int) - 1) * B + 1) * es.page_size ≤ g.lastWritePos)
    (h2 : 2 ≤ tiles.length) (htail : ∀ t ∈ tiles.tail, t.len = B) :
    Base (maxSublistsInRun B) (initMerge es B g) ∧
    Tight es (maxSublistsInRun B) B (initMerge es B g) := by
  obtain ⟨hb, hN⟩ := initMerge_normal es B g tiles hm hst htl hlen hfp hbound h2
  refine ⟨hb, tiles, [], 0, hN, ?_, ?_, ?_, ?_, ?_, ?_⟩
  · show (g.numSublist : Int) = ((tiles.length + ([] : List Tile).length : Nat) : Int)
    rw [← hlen]
    simp
  · intro t ht
    show (0 : Int) ≤ _
    have h1 := (Stack_mem _ _ _ _ hst t ht).1
    have h2 := (htl t ht).1.1
    have h3 : (0 : Int) ≤ ((t.len : Int) - 1) * es.page_size :=
      Int.mul_nonneg (by omega) (by omega)
    omega
  · exact ⟨fun _ => rfl, fun _ => rfl⟩
  · intro _ _ t ht
    simp at ht
  · intro t ht
    rw [htail t ht]
    exact hB
  · intro t ht
    simp at ht

/-- With no failing file operation run generation returns no error code. -/
theorem genLoop_noret (fails : Nat → Bool) (hio : ∀ k, fails k = false)
    (sort : List α → List α) (es : external_sort_t) :
    ∀ (fuel : Nat) (s : GenState α) (c : Nat) (w : World α),
      genLoop fails sort es fuel s ≠ Flow.ret c w := by
  intro fuel
  induction fuel with
  | zero =>
    intro s c w h
    simp [genLoop] at h
  | succ fuel ih =>
    intro s c w h
    rw [genLoop] at h
    split at h
    rename_i chunk it status w1 _
    split at h
    · simp at h
    · dsimp only at h
      obtain ⟨w3, hw3, _⟩ := writeFullPages_ok fails hio es (sort chunk)
        ((chunk.length + tuplesPerPage es - 1) / tuplesPerPage es - 1) 0 s.lastWritePos
        { w1 with metric := (w1.metric.addReads
            ((chunk.length + tuplesPerPage es - 1) / tuplesPerPage es)) }
      rw [hw3] at h
      simp only [fwrite_ok fails hio] at h
      split at h
      · exact ih _ c w h
      · simp at h

/-- With a buffer of 3 to 128 pages, at least two initial runs, no failing file
operation and successful allocations, an outcome of the sort is a normal return:
the code is 0 and a result pointer is stored. -/
theorem sort_stores_pointer (sort : List α → List α) (cmp : α → α → Int)
    (fails : Nat → Bool) (alloc : Alloc) (es : external_sort_t) (B : Nat) (input : List α)
    (w0 : World α) (hB : 3 ≤ B) (hB128 : B ≤ 128) (hT : 1 ≤ tuplesPerPage es)
    (hruns : B * tuplesPerPage es < input.length) (hio : ∀ k, fails k = false)
    (hfile : FilePos w0.file) (halloc : alloc.sublsTuplePos = true)
    (fuel : Nat) (o : Outcome α)
    (h : extern_merge_sort_iterator_block fuel sort cmp fails alloc es B input w0 = some o) :
    o.code = 0 ∧ ∃ p, o.resultFilePtr = some p := by
  have hm : 2 ≤ maxSublistsInRun B := by
    rw [maxSublistsInRun_eq _ hB128]; omega
  unfold extern_merge_sort_iterator_block at h
  dsimp only at h
  cases hg : genLoop fails sort es fuel
      { iter := input, numRecordsRead := B * tuplesPerPage es, lastWritePos := 0,
        numSublist := 0, w := w0 } with
  | stuck => rw [hg] at h; simp at h
  | ret c w => exact absurd hg (genLoop_noret fails hio sort es fuel _ c w)
  | cont g =>
    rw [hg] at h
    dsimp only at h
    obtain ⟨tiles, r1, r2, r3, r4, r5, r6, r7, r8, r9⟩ := genLoop_tiles fails hio sort es B
      (by omega) hT fuel
      { iter := input, numRecordsRead := B * tuplesPerPage es, lastWritePos := 0,
        numSublist := 0, w := w0 } [] g rfl rfl (fun t ht => by simp at ht) rfl hfile hg
    have h2 : 2 ≤ tiles.length := by
      have := r8 hruns
      simpa using this
    have hn2 : 2 ≤ g.numSublist := by omega
    rw [if_neg (by omega)] at h
    split at h
    · rename_i ha
      exfalso
      apply ha
      exact ⟨halloc, by omega⟩
    · split at h
      · simp at h
      · obtain ⟨hb, ht⟩ := initMerge_tight es B g tiles hm hB r1 r2 r3 r4 r5 h2 r9
        cases hmp : mergePhase fails cmp es (maxSublistsInRun B) fuel fuel (initMerge es B g) with
        | stuck => rw [hmp] at h; simp at h
        | ret c w =>
          exact absurd hmp (mergePhase_noret fails hio cmp es (maxSublistsInRun B) B hT hm fuel
            fuel (initMerge es B g) hb ht c w)
        | cont s =>
          rw [hmp] at h
          simp only [Option.some.injEq] at h
          rw [← h]
          exact ⟨rfl, _, rfl⟩

/-- When the sort stores a result pointer after merging at least two initial runs,
it returned 0 and the pointer is the offset at which the run written last starts. -/
theorem result_pointer_sound (sort : List α → List α) (cmp : α → α → Int)
    (fails : Nat → Bool) (alloc : Alloc) (es : external_sort_t) (B : Nat) (input : List α)
    (w0 : World α) (hB : 1 ≤ B) (hT : 1 ≤ tuplesPerPage es)
    (hruns : B * tuplesPerPage es < input.length) (hio : ∀ k, fails k = false)
    (hfile : FilePos w0.file) (fuel : Nat) (o : Outcome α) (p : Int)
    (h : extern_merge_sort_iterator_block fuel sort cmp fails alloc es B input w0 = some o)
    (hres : o.resultFilePtr = some p) :
    o.code = 0 ∧ lastRunStart o.w.log = some p := by
  unfold extern_merge_sort_iterator_block at h
  dsimp only at h
  cases hg : genLoop fails sort es fuel
      { iter := input, numRecordsRead := B * tuplesPerPage es, lastWritePos := 0,
        numSublist := 0, w := w0 } with
  | stuck => rw [hg] at h; simp at h
  | ret c w =>
    rw [hg] at h
    simp only [Option.some.injEq] at h
    rw [← h] at hres
    simp at hres
  | cont g =>
    rw [hg] at h
    dsimp only at h
    obtain ⟨tiles, r1, r2, r3, r4, r5, r6, r7, r8, _⟩ := genLoop_tiles fails hio sort es B hB hT fuel
      { iter := input, numRecordsRead := B * tuplesPerPage es, lastWritePos := 0,
        numSublist := 0, w := w0 } [] g rfl rfl (fun t ht => by simp at ht) rfl hfile hg
    have h2 : 2 ≤ tiles.length := by
      have := r8 hruns
      simpa using this
    have hn2 : 2 ≤ g.numSublist := by omega
    rw [if_neg (by omega)] at h
    split at h
    · simp only [Option.some.injEq] at h
      rw [← h] at hres
      simp at hres
    · rename_i ha
      split at h
      · simp at h
      · cases hmp : mergePhase fails cmp es (maxSublistsInRun B) fuel fuel (initMerge es B g) with
        | stuck => rw [hmp] at h; simp at h
        | ret c w =>
          rw [hmp] at h
          simp only [Option.some.injEq] at h
          rw [← h] at hres
          simp at hres
        | cont s =>
          rw [hmp] at h
          simp only [Option.some.injEq] at h
          rw [← h] at hres ⊢
          simp only [Option.some.injEq] at hres
          refine ⟨rfl, ?_⟩
          show lastRunStart s.w.log = some p
          rw [← hres]
          have ha' : alloc.sublsTuplePos = true ∧ 0 ≤ maxSublistsInRun B := by
            by_contra hc
            exact ha hc
          by_cases hm : 2 ≤ maxSublistsInRun B
          · have hinit := initMerge_phase es B g tiles hm r1 r2 r3 r4 r5 h2
            obtain ⟨hinv, hexit⟩ := mergePhase_keeps fails cmp es (maxSublistsInRun B) B hT hm fuel
              fuel (initMerge es B g) s hinit hmp
            exact PhaseInv_exit es (maxSublistsInRun B) B s hinv hexit
          · exfalso
            exact mergePhase_small fails cmp es (maxSublistsInRun B) fuel ha'.2 (by omega) fuel
              (initMerge es B g) s (by
                show (2 : Int) ≤ (g.numSublist : Int)
                exact_mod_cast hn2) hmp

/-- C12: for every buffer of `B ≥ 3` pages and every input that gives at least two
initial runs (`tuplesPerPage ≥ 1` and more than `B * tuplesPerPage` records), in a
configuration whose `tuplesPerPage` fits an `int16_t`, whose `B * tuplesPerPage`
fits an `int32_t` and whose file offsets fit the `int32_t` entries of `runOffset`
(the pages of at most three passes, of at most `n` pages each, lie side by side
before the write cursor returns to offset 0), with no failing file operation and a
scratch file that has no page at a negative offset: whenever the sort stores a
result pointer, it returned 0 and the stored value (`ptrNextFirst` at loop exit) is
the offset of the newest written page with `block_index` 0, that is, the offset at
which the last merge step wrote the first page of its output run; so the final
merge is the first merge after `ptrNextFirst` was last assigned.  The sort does
return: for records larger than the page header, a buffer of at most 128 pages, a
sort adapter that keeps the number of records and a scratch file of well-formed
pages, every run of the call ends with an outcome.  And with successful
allocations that outcome is a normal return, however many passes the merge phase
takes and whether or not lines 197-198 move `ptrFirstBlock`: the sort returns 0
and stores a pointer, which is the offset at which the last merge step wrote the
first page of its output run. -/
theorem C12_result_pointer_is_start_of_last_merge (sort : List α → List α)
    (cmp : α → α → Int) (fails : Nat → Bool) (alloc : Alloc) (es : external_sort_t)
    (bufferSizeInBlocks : Nat) (input : List α) (w0 : World α)
    (hB : 3 ≤ bufferSizeInBlocks) (hT : 1 ≤ tuplesPerPage es)
    (hruns : bufferSizeInBlocks * tuplesPerPage es < input.length)
    (hio : ∀ k, fails k = false) (hfile : FilePos w0.file)
    (hT16 : tuplesPerPage es ≤ 32767)
    (h32 : bufferSizeInBlocks * tuplesPerPage es ≤ 2147483647)
    (hoff : 3 * input.length * es.page_size ≤ 2147483647) :
    (∀ fuel o p,
      extern_merge_sort_iterator_block fuel sort cmp fails alloc es bufferSizeInBlocks
        input w0 = some o →
      o.resultFilePtr = some p → o.code = 0 ∧ lastRunStart o.w.log = some p) ∧
    ((∀ l, (sort l).length = l.length) → es.headerSize < es.record_size →
      bufferSizeInBlocks ≤ 128 →
      (alloc.sublsTuplePos = true → alloc.runOffset = true ∧ alloc.runCount = true) →
      FileValid w0.file →
      ∃ fuel0 o, ∀ fuel, fuel0 ≤ fuel →
        extern_merge_sort_iterator_block fuel sort cmp fails alloc es bufferSizeInBlocks
          input w0 = some o) ∧
    (bufferSizeInBlocks ≤ 128 → (∀ l, (sort l).length = l.length) →
      es.headerSize < es.record_size →
      alloc.sublsTuplePos = true → alloc.runOffset = true → alloc.runCount = true →
      FileValid w0.file →
      ∃ fuel0 o p, (∀ fuel, fuel0 ≤ fuel →
        extern_merge_sort_iterator_block fuel sort cmp fails alloc es bufferSizeInBlocks
          input w0 = some o) ∧
        o.code = 0 ∧ o.resultFilePtr = some p ∧ lastRunStart o.w.log = some p) := by
  have _ := And.intro hT16 (And.intro h32 hoff)
  refine ⟨fun fuel o p h hres =>
      result_pointer_sound sort cmp fails alloc es bufferSizeInBlocks input w0 (by omega) hT
        hruns hio hfile fuel o p h hres,
    fun hsort hRH hB128 halloc hvalid =>
      sort_returns sort cmp fails alloc es bufferSizeInBlocks input w0 hsort hRH
        (by rw [maxSublistsInRun_eq _ hB128]; omega) halloc hvalid, ?_⟩
  intro hB128 hsort hRH ha1 ha2 ha3 hvalid
  obtain ⟨fuel0, o, ho⟩ := sort_returns sort cmp fails alloc es bufferSizeInBlocks input w0
    hsort hRH (by rw [maxSublistsInRun_eq _ hB128]; omega) (fun _ => ⟨ha2, ha3⟩) hvalid
  obtain ⟨hc, p, hp⟩ := sort_stores_pointer sort cmp fails alloc es bufferSizeInBlocks input w0
    hB hB128 hT hruns hio hfile ha1 fuel0 o (ho fuel0 (le_refl _))
  exact ⟨fuel0, o, p, ho, hc, hp,
    (result_pointer_sound sort cmp fails alloc es bufferSizeInBlocks input w0 (by omega) hT
      hruns hio hfile fuel0 o p (ho fuel0 (le_refl _)) hp).2⟩

theorem FilePos_nil : FilePos ([] : List (Int × Page α)) := by
  intro off pg h
  simp at h

theorem thirteen_keys_result :
    (extern_merge_sort_iterator_block 30 sortKeys compareKeys noFailure allocOk
        ⟨22, 6, 16⟩ 3 [12, 11, 10, 9, 8, 7, 6, 5, 4, 3, 2, 1, 0] emptyWorld).map
        (fun o => (o.code, o.resultFilePtr))
      = some (0, some 0) := by
  decide!

theorem thirteen_keys_passes :
    (afterMergePhase 30 sortKeys compareKeys noFailure ⟨22, 6, 16⟩ 3
        [12, 11, 10, 9, 8, 7, 6, 5, 4, 3, 2, 1, 0] emptyWorld).map
        (fun s => (s.passNumber, s.ptrNextFirst, s.numSublist))
      = some (3, 0, 1) := by
  decide!

theorem thirteen_keys_four_pages :
    (extern_merge_sort_iterator_block 30 sortKeys compareKeys noFailure allocOk
        ⟨22, 6, 16⟩ 4 [12, 11, 10, 9, 8, 7, 6, 5, 4, 3, 2, 1, 0] emptyWorld).map
        (fun o => (o.code, o.resultFilePtr))
      = some (0, some 484) := by
  decide!

theorem thirteen_keys_skip :
    (afterMergePhase 30 sortKeys compareKeys noFailure ⟨22, 6, 16⟩ 4
        [12, 11, 10, 9, 8, 7, 6, 5, 4, 3, 2, 1, 0] emptyWorld).map
        (fun s => (s.passNumber, s.ptrFirstBlock, s.ptrNextFirst, s.numSublist))
      = some (2, 396, 484, 1) := by
  decide!

/-- C12 (witness): the 13 keys 12, 11, .., 0 with `page_size = 22`, `headerSize = 6`
and `record_size = 16` (one record per page).  With a buffer of 3 pages run
generation leaves five runs and the merge phase takes three passes, the third of
which writes from offset 0 on (`afterMergePhase` ends in pass 3): the sort returns
0 with result pointer 0, the offset at which the last merge step wrote the first
page of its output.  With a buffer of 4 pages the merge phase takes two passes and
the second starts at slot 1 of a pickup, so that line 198 sets `ptrFirstBlock` to
`ptrNextFirst + firstPartitionSize * page_size = 286 + 5 * 22`: the sort returns 0
with result pointer 484, again the start of the run written last.  For both buffer
sizes the theorem gives the normal return for every sufficient fuel. -/
theorem C12_result_pointer_is_start_of_last_merge_witness :
    (3 ≤ 3 ∧ 1 ≤ tuplesPerPage ⟨22, 6, 16⟩ ∧
      3 * tuplesPerPage ⟨22, 6, 16⟩ < [12, 11, 10, 9, 8, 7, 6, 5, 4, 3, 2, 1, 0].length) ∧
    (∃ o, extern_merge_sort_iterator_block 30 sortKeys compareKeys noFailure allocOk
          ⟨22, 6, 16⟩ 3 [12, 11, 10, 9, 8, 7, 6, 5, 4, 3, 2, 1, 0] emptyWorld = some o ∧
        o.resultFilePtr = some 0 ∧ o.code = 0 ∧ lastRunStart o.w.log = some 0) ∧
    (afterMergePhase 30 sortKeys compareKeys noFailure ⟨22, 6, 16⟩ 3
        [12, 11, 10, 9, 8, 7, 6, 5, 4, 3, 2, 1, 0] emptyWorld).map
        (fun s => (s.passNumber, s.ptrNextFirst, s.numSublist)) = some (3, 0, 1) ∧
    (∃ fuel0 o p, (∀ fuel, fuel0 ≤ fuel →
      extern_merge_sort_iterator_block fuel sortKeys compareKeys noFailure allocOk
        ⟨22, 6, 16⟩ 3 [12, 11, 10, 9, 8, 7, 6, 5, 4, 3, 2, 1, 0] emptyWorld = some o) ∧
      o.code = 0 ∧ o.resultFilePtr = some p ∧ lastRunStart o.w.log = some p) ∧
    (∃ o, extern_merge_sort_iterator_block 30 sortKeys compareKeys noFailure allocOk
          ⟨22, 6, 16⟩ 4 [12, 11, 10, 9, 8, 7, 6, 5, 4, 3, 2, 1, 0] emptyWorld = some o ∧
        o.resultFilePtr = some 484 ∧ o.code = 0 ∧ lastRunStart o.w.log = some 484) ∧
    (afterMergePhase 30 sortKeys compareKeys noFailure ⟨22, 6, 16⟩ 4
        [12, 11, 10, 9, 8, 7, 6, 5, 4, 3, 2, 1, 0] emptyWorld).map
        (fun s => (s.passNumber, s.ptrFirstBlock, s.ptrNextFirst, s.numSublist))
      = some (2, 396, 484, 1) ∧
    (∃ fuel0 o p, (∀ fuel, fuel0 ≤ fuel →
      extern_merge_sort_iterator_block fuel sortKeys compareKeys noFailure allocOk
        ⟨22, 6, 16⟩ 4 [12, 11, 10, 9, 8, 7, 6, 5, 4, 3, 2, 1, 0] emptyWorld = some o) ∧
      o.code = 0 ∧ o.resultFilePtr = some p ∧ lastRunStart o.w.log = some p) := by
  have hthm := C12_result_pointer_is_start_of_last_merge sortKeys compareKeys noFailure allocOk
    ⟨22, 6, 16⟩ 3 [12, 11, 10, 9, 8, 7, 6, 5, 4, 3, 2, 1, 0] emptyWorld (by decide) (by decide)
    (by decide) (fun _ => rfl) FilePos_nil (by decide) (by decide) (by decide)
  have hthm4 := C12_result_pointer_is_start_of_last_merge sortKeys compareKeys noFailure
    allocOk ⟨22, 6, 16⟩ 4 [12, 11, 10, 9, 8, 7, 6, 5, 4, 3, 2, 1, 0] emptyWorld (by decide)
    (by decide) (by decide) (fun _ => rfl) FilePos_nil (by decide) (by decide) (by decide)
  refine ⟨⟨by decide, by decide, by decide⟩, ?_, thirteen_keys_passes, ?_, ?_,
    thirteen_keys_skip, ?_⟩
  · obtain ⟨o, ho, hv⟩ := Option.map_eq_some'.mp thirteen_keys_result
    simp only [Prod.mk.injEq] at hv
    obtain ⟨hc, hl⟩ := hthm.1 30 o 0 ho hv.2
    exact ⟨o, ho, hv.2, hc, hl⟩
  · exact hthm.2.2 (by decide) (fun l => List.length_insertionSort _ l) (by decide) rfl rfl
      rfl FileValid_nil
  · obtain ⟨o, ho, hv⟩ := Option.map_eq_some'.mp thirteen_keys_four_pages
    simp only [Prod.mk.injEq] at hv
    obtain ⟨hc, hl⟩ := hthm4.1 30 o 484 ho hv.2
    exact ⟨o, ho, hv.2, hc, hl⟩
  · exact hthm4.2.2 (by decide) (fun l => List.length_insertionSort _ l) (by decide) rfl rfl
      rfl FileValid_nil

/-! ## The first merge of a pass -/

/-- C21 (as stated): nine keys with `page_size = 22`, `headerSize = 6`, `record_size = 16`
(one record per page) and a buffer of 4 pages.  Run generation writes runs of 4, 4
and 1 pages; the first merge step picks all three (`k = 3 = B - 1`) and writes an
output run of 9 pages, while the value stored in `firstPartitionSize` is 5, the
sum `runCount[0] + runCount[1]` of the page counts of the first two picked runs. -/
theorem C21_first_partition_size_counts_two_runs :
    (afterFirstMerge 12 sortKeys compareKeys noFailure ⟨22, 6, 16⟩ 4 [8, 7, 6, 5, 4, 3, 2, 1, 0]
        emptyWorld).map
        (fun s => (s.firstPartitionSize, lastRunLength s.w.log, s.passNumber, s.numSublist))
      = some (5, 9, 1, 1) := by
  decide!

/-! ## The number of merge steps -/

theorem pickRuns_count (fails : Nat → Bool) (es : external_sort_t) (m : Int) :
    ∀ (fuel i : Nat) (s : MergeState α) (k : Nat) (s1 : MergeState α),
      (i : Int) ≤ s.numSublist →
      pickRuns fails es m fuel i s = Flow.cont (k, s1) →
      (k : Int) ≤ s.numSublist ∧ (m ≤ (k : Int) ∨ s.numSublist ≤ (k : Int)) := by
  intro fuel
  induction fuel with
  | zero =>
    intro i s k s1 hi h
    rw [pickRuns] at h
    split at h
    · simp at h
    · rename_i hc
      simp only [Flow.cont.injEq, Prod.mk.injEq] at h
      rw [← h.1]
      exact ⟨hi, by omega⟩
  | succ fuel ih =>
    intro i s k s1 hi h
    rw [pickRuns] at h
    split at h
    · rename_i hc
      dsimp only at h
      have hn : (if s.ptrLastBlock < s.ptrFirstBlock then startNewPass es m i s
          else s).numSublist = s.numSublist := by
        split <;> rfl
      split at h
      · simp at h
      · have key := ih (i + 1) _ k s1
          (by
            show ((i + 1 : Nat) : Int) ≤ (if s.ptrLastBlock < s.ptrFirstBlock then
              startNewPass es m i s else s).numSublist
            rw [hn]; push_cast; omega) h
        have key1 : (k : Int) ≤ (if s.ptrLastBlock < s.ptrFirstBlock then
              startNewPass es m i s else s).numSublist ∧
            (m ≤ (k : Int) ∨ (if s.ptrLastBlock < s.ptrFirstBlock then
              startNewPass es m i s else s).numSublist ≤ (k : Int)) := key
        rw [hn] at key1
        exact key1
    · rename_i hc
      simp only [Flow.cont.injEq, Prod.mk.injEq] at h
      rw [← h.1]
      exact ⟨hi, by omega⟩

/-- One iteration of `while (numSublist > 1)` that runs to its end merges
`k = min(maxSublistsInRun, numSublist)` runs and leaves `numSublist - k + 1`. -/
theorem mergeStep_count (fails : Nat → Bool) (cmp : α → α → Int) (es : external_sort_t)
    (m : Int) (fuel : Nat) (s s' : MergeState α) (hm : 0 ≤ m) (hn : 0 ≤ s.numSublist)
    (h : mergeStep fails cmp es m fuel s = Flow.cont s') :
    ∃ k s1 s5, pickRuns fails es m m.toNat 0 s = Flow.cont (k, s1) ∧
      mergeRuns fails cmp es k fuel
        (if s1.newPass then
          { s1 with firstPartitionSize := s1.runCount.getD 0 0 + s1.runCount.getD 1 0,
                    newPass := false }
         else s1) = Flow.cont s5 ∧
      (k : Int) = min m s.numSublist ∧ s'.numSublist = s.numSublist - k + 1 := by
  obtain ⟨k, s1, s5, hp, hrun, rfl⟩ := mergeStep_inv _ _ _ _ _ _ _ h
  have hkm := pickRuns_le fails es m _ 0 s k s1 (by simpa using hm) hp
  have hkn := pickRuns_count fails es m _ 0 s k s1 (by simpa using hn) hp
  have e1 := pickRuns_numSublist fails es m _ 0 s k s1 hp
  have e2 := mergeRuns_numSublist fails cmp es k fuel _ s5 hrun
  have e3 : (if s1.newPass then
      { s1 with firstPartitionSize := s1.runCount.getD 0 0 + s1.runCount.getD 1 0,
                 newPass := false }
     else s1).numSublist = s1.numSublist := by
    split <;> rfl
  refine ⟨k, s1, s5, hp, hrun, ?_, ?_⟩
  · rcases hkn with ⟨h1, h2 | h2⟩
    · rw [min_def]; split <;> omega
    · rw [min_def]; split <;> omega
  · show s5.numSublist - k + 1 = _
    rw [e2, e3, e1]

theorem ceil_succ (a D : Nat) (hD : 1 ≤ D) (ha : 1 ≤ a) :
    (a + D - 1) / D = (a - 1) / D + 1 := by
  have e : a + D - 1 = (a - 1) + D := by omega
  rw [e, Nat.add_div_right _ (by omega)]

/-- The number of iterations of `while (numSublist > 1)` when every merge takes
`min(D + 1, numSublist)` runs: `ceil((numSublist - 1) / D)`. -/
theorem mergePhase_count (fails : Nat → Bool) (cmp : α → α → Int) (es : external_sort_t)
    (m : Int) (fuel D : Nat) (hD : 1 ≤ D) (hm : m = (D : Int) + 1) :
    ∀ (n : Nat) (s s' : MergeState α), 1 ≤ s.numSublist →
      mergePhase fails cmp es m fuel n s = Flow.cont s' →
      s'.numSublist = 1 ∧
      mergeIterate fails cmp es m fuel ((s.numSublist.toNat - 1 + D - 1) / D) s = Flow.cont s' ∧
      ∀ j sj, j < (s.numSublist.toNat - 1 + D - 1) / D →
        mergeIterate fails cmp es m fuel j s = Flow.cont sj → 1 < sj.numSublist := by
  intro n
  induction n with
  | zero =>
    intro s s' h1 h
    rw [mergePhase] at h
    split at h
    · simp at h
    · rename_i hc
      simp only [Flow.cont.injEq] at h
      subst h
      have e : s.numSublist.toNat = 1 := by omega
      have t0 : (s.numSublist.toNat - 1 + D - 1) / D = 0 := by
        rw [e]; exact Nat.div_eq_of_lt (by omega)
      rw [t0]
      exact ⟨by omega, rfl, fun j sj hj => absurd hj (by omega)⟩
  | succ n ih =>
    intro s s' h1 h
    rw [mergePhase] at h
    split at h
    · rename_i hc
      cases hs : mergeStep fails cmp es m fuel s with
      | stuck => rw [hs] at h; simp at h
      | ret c w => rw [hs] at h; simp at h
      | cont s1 =>
        rw [hs] at h
        dsimp only at h
        obtain ⟨k, _, _, _, _, hk, hn1⟩ :=
          mergeStep_count fails cmp es m fuel s s1 (by omega) (by omega) hs
        have hk2 : (k : Int) = min ((D : Int) + 1) s.numSublist := by rw [← hm]; exact hk
        have hs1 : 1 ≤ s1.numSublist := by
          rw [hn1, hk2, min_def]; split <;> omega
        obtain ⟨r1, r2, r3⟩ := ih s1 s' hs1 h
        have ht : (s.numSublist.toNat - 1 + D - 1) / D
            = (s1.numSublist.toNat - 1 + D - 1) / D + 1 := by
          rw [ceil_succ _ D hD (by omega)]
          congr 1
          by_cases hle : s.numSublist ≤ (D : Int) + 1
          · have e1 : s1.numSublist.toNat = 1 := by
              rw [hn1, hk2, min_def]; split <;> omega
            rw [e1, Nat.div_eq_of_lt (by omega), Nat.div_eq_of_lt (by omega)]
          · have e1 : s1.numSublist.toNat - 1 + D - 1 = s.numSublist.toNat - 1 - 1 := by
              rw [hn1, hk2, min_def]; split <;> omega
            rw [e1]
        rw [ht]
        refine ⟨r1, ?_, ?_⟩
        · simp only [mergeIterate, hs]
          exact r2
        · intro j sj hj hit
          cases j with
          | zero =>
            simp only [mergeIterate, Flow.cont.injEq] at hit
            rw [← hit]; omega
          | succ j =>
            simp only [mergeIterate, hs] at hit
            exact r3 j sj (by omega) hit
    · rename_i hc
      simp only [Flow.cont.injEq] at h
      subst h
      have e : s.numSublist.toNat = 1 := by omega
      have t0 : (s.numSublist.toNat - 1 + D - 1) / D = 0 := by
        rw [e]; exact Nat.div_eq_of_lt (by omega)
      rw [t0]
      exact ⟨by omega, rfl, fun j sj hj => absurd hj (by omega)⟩

/-- C23 (amended): for a buffer of `B` pages with `3 ≤ B ≤ 128`.  Every iteration of
`while (numSublist > 1)` that runs to its end picks and merges
`k = min(B - 1, numSublist) ≥ 2` runs and leaves `numSublist - k + 1` runs.  When
the loop, entered with `N0 ≥ 2` runs, runs to its end (no file operation made it
return), it ends with `numSublist = 1` after exactly `ceil((N0 - 1) / (B - 2))`
iterations: that many merge steps in a row lead to the final state, and after
fewer steps `numSublist` is still above 1.  And the loop does come to an end, by
leaving or by returning an error code: for records larger than the page header
and a file of well-formed pages, with arrays of `B - 1` entries, it gives one and
the same result from some fuel on. -/
theorem C23_merge_step_count (fails : Nat → Bool) (cmp : α → α → Int) (es : external_sort_t)
    (bufferSizeInBlocks : Nat) (hB3 : 3 ≤ bufferSizeInBlocks) (hB : bufferSizeInBlocks ≤ 128) :
    (∀ fuel (s s' : MergeState α), 2 ≤ s.numSublist →
      mergeStep fails cmp es (maxSublistsInRun bufferSizeInBlocks) fuel s = Flow.cont s' →
      ∃ k s1 s5,
        pickRuns fails es (maxSublistsInRun bufferSizeInBlocks)
          (maxSublistsInRun bufferSizeInBlocks).toNat 0 s = Flow.cont (k, s1) ∧
        mergeRuns fails cmp es k fuel
          (if s1.newPass then
            { s1 with firstPartitionSize := s1.runCount.getD 0 0 + s1.runCount.getD 1 0,
                      newPass := false }
           else s1) = Flow.cont s5 ∧
        (k : Int) = min ((bufferSizeInBlocks : Int) - 1) s.numSublist ∧ 2 ≤ k ∧
        s'.numSublist = s.numSublist - k + 1) ∧
    (∀ fuel n (N0 : Nat) (s s' : MergeState α), s.numSublist = N0 → 2 ≤ N0 →
      mergePhase fails cmp es (maxSublistsInRun bufferSizeInBlocks) fuel n s = Flow.cont s' →
      s'.numSublist = 1 ∧
      mergeIterate fails cmp es (maxSublistsInRun bufferSizeInBlocks) fuel
        ((N0 - 1 + (bufferSizeInBlocks - 2) - 1) / (bufferSizeInBlocks - 2)) s = Flow.cont s' ∧
      ∀ j sj, j < (N0 - 1 + (bufferSizeInBlocks - 2) - 1) / (bufferSizeInBlocks - 2) →
        mergeIterate fails cmp es (maxSublistsInRun bufferSizeInBlocks) fuel j s = Flow.cont sj →
        1 < sj.numSublist) ∧
    (es.headerSize < es.record_size → ∀ s : MergeState α, GInv (bufferSizeInBlocks - 1) s →
      ∃ fuel0 r, (∀ fuel n, fuel0 ≤ fuel → s.numSublist.toNat ≤ n →
        mergePhase fails cmp es (maxSublistsInRun bufferSizeInBlocks) fuel n s = r) ∧
        r ≠ Flow.stuck) := by
  have hmax := maxSublistsInRun_eq bufferSizeInBlocks hB
  refine ⟨?_, ?_, ?_⟩
  · intro fuel s s' hn h
    obtain ⟨k, s1, s5, hp, hrun, hk, hn1⟩ :=
      mergeStep_count fails cmp es _ fuel s s' (by omega) (by omega) h
    refine ⟨k, s1, s5, hp, hrun, by rw [← hmax]; exact hk, ?_, hn1⟩
    rw [hmax, min_def] at hk
    split at hk <;> omega
  · intro fuel n N0 s s' hN hN2 h
    have key := mergePhase_count fails cmp es (maxSublistsInRun bufferSizeInBlocks) fuel
      (bufferSizeInBlocks - 2) (by omega) (by rw [hmax]; omega) n s s' (by omega) h
    have e : s.numSublist.toNat = N0 := by omega
    rw [e] at key
    exact key
  · intro hRH s hg
    obtain ⟨fuel0, r, hr, hne⟩ := mergePhase_converges fails cmp es
      (maxSublistsInRun bufferSizeInBlocks) (bufferSizeInBlocks - 1) hRH (by rw [hmax]; omega)
      (by rw [hmax]; omega) s.numSublist.toNat s (by omega) hg
    exact ⟨fuel0, r, fun fuel n hf hn => hr fuel n hf hn, hne⟩

theorem stateOf_some {σ : Type} (r : Flow α σ) (s : σ) (h : stateOf r = some s) :
    r = Flow.cont s := by
  cases r with
  | cont s1 => simp only [stateOf, Option.some.injEq] at h; rw [h]
  | ret c w => simp [stateOf] at h
  | stuck => simp [stateOf] at h

theorem twoRunsState_phase :
    (stateOf (mergePhase noFailure compareKeys ⟨40, 6, 16⟩ (maxSublistsInRun 3) 10 5
      twoRunsState)).map (fun s => s.numSublist) = some 1 := by
  decide!

/-- C23 (witness): `B = 3`, the two runs of `twoRunsState` (`page_size = 40`): the
loop ends after `ceil((2 - 1) / 1) = 1` merge step with one run, and it converges. -/
theorem C23_merge_step_count_witness :
    (3 ≤ 3 ∧ 3 ≤ 128) ∧
    (∃ s', mergePhase noFailure compareKeys ⟨40, 6, 16⟩ (maxSublistsInRun 3) 10 5
          twoRunsState = Flow.cont s' ∧ s'.numSublist = 1 ∧
        mergeIterate noFailure compareKeys ⟨40, 6, 16⟩ (maxSublistsInRun 3) 10 1 twoRunsState
          = Flow.cont s') ∧
    (∃ fuel0 r, (∀ fuel n, fuel0 ≤ fuel → twoRunsState.numSublist.toNat ≤ n →
        mergePhase noFailure compareKeys ⟨40, 6, 16⟩ (maxSublistsInRun 3) fuel n twoRunsState
          = r) ∧ r ≠ Flow.stuck) := by
  have hthm := C23_merge_step_count noFailure compareKeys ⟨40, 6, 16⟩ 3 (by decide) (by decide)
  refine ⟨⟨by decide, by decide⟩, ?_, ?_⟩
  · obtain ⟨s', hs, _⟩ := Option.map_eq_some'.mp twoRunsState_phase
    have hp := stateOf_some _ _ hs
    obtain ⟨h1, h2, _⟩ := hthm.2.1 10 5 2 twoRunsState s' rfl (by decide) hp
    exact ⟨s', hp, h1, h2⟩
  · exact hthm.2.2 (by decide) twoRunsState
      ⟨demoState_file, by decide, by decide, by decide, by decide⟩

/-- C23: with a buffer of 129 pages `maxSublistsInRun` is `(int8_t)128 = -128`;
on 130 one-record pages (two initial runs) the call returns 8 before the merge
loop, so the merge phase does not end with one run. -/
theorem C23_buffer_of_129_pages :
    maxSublistsInRun 129 = -128 ∧
    (extern_merge_sort_iterator_block 3 sortKeys compareKeys noFailure allocOk
        ⟨22, 6, 16⟩ 129 (List.range 130) emptyWorld).map (fun o => (o.code, o.resultFilePtr))
      = some (8, none) := by
  refine ⟨by decide, ?_⟩
  obtain ⟨g, hg, hn, _⟩ := genLoop_runs noFailure (fun _ => rfl) sortKeys ⟨22, 6, 16⟩ 129
    (by decide) (by decide) 2
    { iter := List.range 130, numRecordsRead := 129 * tuplesPerPage ⟨22, 6, 16⟩,
      lastWritePos := 0, numSublist := 0, w := emptyWorld } rfl
    (by simp only [List.length_range]; decide) 3 (by decide)
  unfold extern_merge_sort_iterator_block
  simp only
  rw [hg]
  have hn2 : g.numSublist = 2 := by simpa using hn
  simp [hn2, maxSublistsInRun, toInt8, allocOk]

/-! ## Pass transitions -/

theorem startNewPass_third_pass (es : external_sort_t) (m : Int) (i : Nat) (s : MergeState α)
    (h : s.passNumber ≤ 2 ∨ (3 ≤ s.passNumber ∧ s.lastWritePos = 0 ∧ s.ptrNextFirst = 0)) :
    (startNewPass es m i s).passNumber ≤ 2 ∨
    (3 ≤ (startNewPass es m i s).passNumber ∧ (startNewPass es m i s).lastWritePos = 0 ∧
      (startNewPass es m i s).ptrNextFirst = 0) := by
  have hp : (startNewPass es m i s).passNumber = s.passNumber + 1 := rfl
  have hl : (startNewPass es m i s).lastWritePos
      = if (s.passNumber + 1) % 3 = 0 then 0 else s.lastWritePos := rfl
  have hn : (startNewPass es m i s).ptrNextFirst = (startNewPass es m i s).lastWritePos := rfl
  rw [hn, hl, hp]
  rcases h with h | ⟨h, h0, _⟩
  · by_cases h2 : s.passNumber = 2
    · right
      rw [h2]
      exact ⟨by decide, rfl, rfl⟩
    · left
      omega
  · right
    rw [h0]
    refine ⟨by omega, ?_, ?_⟩ <;> split <;> rfl

/-- Run pickup that starts in pass 1 or 2, or in a later pass with the write
cursor at 0, ends in pass 1 or 2, or in a later pass with the write cursor and
`ptrNextFirst` at 0. -/
theorem pickRuns_third_pass (fails : Nat → Bool) (es : external_sort_t) (m : Int) :
    ∀ (fuel i : Nat) (s : MergeState α) (k : Nat) (s1 : MergeState α),
      (s.passNumber ≤ 2 ∨ (3 ≤ s.passNumber ∧ s.lastWritePos = 0 ∧ s.ptrNextFirst = 0)) →
      pickRuns fails es m fuel i s = Flow.cont (k, s1) →
      (s1.passNumber ≤ 2 ∨ (3 ≤ s1.passNumber ∧ s1.lastWritePos = 0 ∧ s1.ptrNextFirst = 0)) := by
  intro fuel
  induction fuel with
  | zero =>
    intro i s k s1 hq h
    rw [pickRuns] at h
    split at h
    · simp at h
    · simp only [Flow.cont.injEq, Prod.mk.injEq] at h
      rw [← h.2]; exact hq
  | succ fuel ih =>
    intro i s k s1 hq h
    rw [pickRuns] at h
    split at h
    · dsimp only at h
      have hq1 : (if s.ptrLastBlock < s.ptrFirstBlock then startNewPass es m i s
            else s).passNumber ≤ 2 ∨
          (3 ≤ (if s.ptrLastBlock < s.ptrFirstBlock then startNewPass es m i s
            else s).passNumber ∧
           (if s.ptrLastBlock < s.ptrFirstBlock then startNewPass es m i s
            else s).lastWritePos = 0 ∧
           (if s.ptrLastBlock < s.ptrFirstBlock then startNewPass es m i s
            else s).ptrNextFirst = 0) := by
        split
        · exact startNewPass_third_pass es m i s hq
        · exact hq
      split at h
      · simp at h
      · refine ih (i + 1) _ k s1 ?_ h
        exact hq1
    · simp only [Flow.cont.injEq, Prod.mk.injEq] at h
      rw [← h.2]; exact hq

/-- A merge step that runs to its end writes its output run from the write
cursor that run pickup left: the first page of the run, with `block_index` 0, is
at that offset. -/
theorem mergeStep_first_page (fails : Nat → Bool) (cmp : α → α → Int) (es : external_sort_t)
    (m : Int) (M : Nat) (hM : (M : Int) = m) (hM1 : 1 ≤ M) (hT : 1 ≤ tuplesPerPage es)
    (fuel : Nat) (s s' : MergeState α) (hg : GInv M s) (hn : 2 ≤ s.numSublist)
    (h : mergeStep fails cmp es m fuel s = Flow.cont s') :
    ∃ k s1, pickRuns fails es m m.toNat 0 s = Flow.cont (k, s1) ∧
      s'.passNumber = s1.passNumber ∧ s'.ptrNextFirst = s1.ptrNextFirst ∧
      lastRunStart s'.w.log = some s1.lastWritePos ∧
      ∃ pg, s'.w.file.lookup s1.lastWritePos = some pg ∧ pg.blockIndex = 0 := by
  obtain ⟨k, s1, s5, hp, hrun, rfl⟩ := mergeStep_inv _ _ _ _ _ _ _ h
  have ht := pickRuns_total fails es m M hM m.toNat 0 s (by omega) hg (by omega) (by omega)
    (fun j hj => absurd hj (by omega))
  rw [hp] at ht
  obtain ⟨hg1, _, hkm, hkn, hor, hrc⟩ := ht
  dsimp only at hg1 hkm hkn hor hrc
  obtain ⟨_, hO, hC, hP, hB⟩ := hg1
  have hk1 : 1 ≤ k := by omega
  have hkM : k ≤ M := by omega
  refine ⟨k, s1, hp, ?_⟩
  have key : ∀ s2 : MergeState α, s2.runCount = s1.runCount → s2.runOffset = s1.runOffset →
      s2.sublsTuplePos = s1.sublsTuplePos → s2.buffer = s1.buffer →
      s2.passNumber = s1.passNumber → s2.ptrNextFirst = s1.ptrNextFirst →
      s2.lastWritePos = s1.lastWritePos →
      mergeRuns fails cmp es k fuel s2 = Flow.cont s5 →
      s5.passNumber = s1.passNumber ∧ s5.ptrNextFirst = s1.ptrNextFirst ∧
      lastRunStart s5.w.log = some s1.lastWritePos ∧
      ∃ pg, s5.w.file.lookup s1.lastWritePos = some pg ∧ pg.blockIndex = 0 := by
    intro s2 e1 e2 e3 e4 e5 e6 e7 hr
    obtain ⟨L, hd, _⟩ := mergeRuns_effect fails cmp es k False (fun _ => 1) hT
      (fun _ => le_refl 1) fuel s2 s5 hk1 (by rw [e1]; omega) (by rw [e2]; omega)
      (by rw [e3]; omega) (by rw [e4]; omega)
      (fun j hj => by rw [e1, e3]; exact ⟨by have := (hrc j hj).1; omega, (hrc j hj).2⟩)
      (fun hf => absurd hf id) hr
    obtain ⟨hL, _, hsame, _, hpages, _, hstart⟩ := hd
    obtain ⟨_, _, _, hnf, _, _, hpn⟩ := hsame
    obtain ⟨pg, hpg, hbi, _⟩ := hpages 0 (by omega)
    refine ⟨by rw [hpn, e5], by rw [hnf, e6], by rw [hstart, e7], pg, ?_, by simpa using hbi⟩
    rw [← e7]
    simpa using hpg
  by_cases hnp : s1.newPass = true
  · rw [if_pos hnp] at hrun
    refine key _ ?_ ?_ ?_ ?_ ?_ ?_ ?_ hrun <;> rfl
  · rw [if_neg hnp] at hrun
    exact key _ rfl rfl rfl rfl rfl rfl rfl hrun

/-- C22: the body of `if (ptrLastBlock < ptrFirstBlock)` (lines 192-216), for pass
numbers below 127 (the range in which `passNumber++` on an `int8_t` does not
wrap): it sets `ptrLastBlock` to the old write cursor minus `page_size`,
increments `passNumber`, sets the write cursor to 0 when the new pass number is a
multiple of 3 and leaves it as it is otherwise, and sets `ptrNextFirst` to the
resulting write cursor.  Hence a merge step that is entered in pass 1 or 2 and
ends in pass 3 or later, the first merge of the third pass (with well-formed pages
in the file, arrays of `maxSublistsInRun ≥ 1` entries and at least one record per
page), ends with `ptrNextFirst = 0` and has written the first page of its output
run, with `block_index` 0, at file offset 0. -/
theorem C22_pass_transition (fails : Nat → Bool) (cmp : α → α → Int) (es : external_sort_t)
    (m : Int) (M : Nat) (hM : (M : Int) = m) (hM1 : 1 ≤ M) (hT : 1 ≤ tuplesPerPage es) :
    (∀ (i : Nat) (s : MergeState α), s.passNumber < 127 →
      (startNewPass es m i s).ptrLastBlock = s.lastWritePos - es.page_size ∧
      (startNewPass es m i s).passNumber = s.passNumber + 1 ∧
      ((s.passNumber + 1) % 3 = 0 → (startNewPass es m i s).lastWritePos = 0) ∧
      ((s.passNumber + 1) % 3 ≠ 0 → (startNewPass es m i s).lastWritePos = s.lastWritePos) ∧
      (startNewPass es m i s).ptrNextFirst = (startNewPass es m i s).lastWritePos) ∧
    (∀ fuel (s s' : MergeState α), GInv M s → 2 ≤ s.numSublist → s.passNumber ≤ 2 →
      mergeStep fails cmp es m fuel s = Flow.cont s' → 3 ≤ s'.passNumber →
      s'.ptrNextFirst = 0 ∧ lastRunStart s'.w.log = some 0 ∧
      ∃ pg, s'.w.file.lookup 0 = some pg ∧ pg.blockIndex = 0) := by
  refine ⟨?_, ?_⟩
  · intro i s _
    refine ⟨rfl, rfl, ?_, ?_, rfl⟩
    · intro h
      show (if (s.passNumber + 1) % 3 = 0 then 0 else s.lastWritePos) = 0
      rw [if_pos h]
    · intro h
      show (if (s.passNumber + 1) % 3 = 0 then 0 else s.lastWritePos) = s.lastWritePos
      rw [if_neg h]
  · intro fuel s s' hg hn hpass h hne
    obtain ⟨k, s1, hp, e1, e2, e3, pg, e4, e5⟩ :=
      mergeStep_first_page fails cmp es m M hM hM1 hT fuel s s' hg hn h
    have hq := pickRuns_third_pass fails es m _ 0 s k s1 (Or.inl hpass) hp
    rcases hq with hq | ⟨_, hq1, hq2⟩
    · rw [e1] at hne; omega
    · rw [hq1] at e3 e4
      exact ⟨e2.trans hq2, e3, pg, e4, e5⟩

theorem passTwoEndState_step :
    (stateOf (mergeStep noFailure compareKeys ⟨40, 6, 16⟩ 2 10 passTwoEndState)).map
      (fun s => (s.passNumber, s.lastWritePos)) = some (3, 120) := by
  decide!

theorem passTwoEndState_inv : GInv 2 passTwoEndState := by
  refine ⟨?_, by decide, by decide, by decide, by decide⟩
  show FileValid [((200 : Int), (⟨0, 1, [5]⟩ : Page Nat)), (160, ⟨1, 2, [3, 4]⟩),
    (120, ⟨0, 2, [1, 2]⟩)]
  exact ((FileValid_nil.write 120 ⟨0, 2, [1, 2]⟩ ⟨by decide, by decide⟩ (by decide)).write 160
    ⟨1, 2, [3, 4]⟩ ⟨by decide, by decide⟩ (by decide)).write 200 ⟨0, 1, [5]⟩
    ⟨by decide, by decide⟩ (by decide)

/-- C22 (witness): `passTwoEndState` (`page_size = 40`, buffer of 3 pages, pass 2,
write cursor 240): the merge step starts pass 3, resets the write cursor to 0 and
writes its three output pages at 0, 40 and 80. -/
theorem C22_pass_transition_witness :
    (((2 : Nat) : Int) = 2 ∧ 1 ≤ 2 ∧ 1 ≤ tuplesPerPage ⟨40, 6, 16⟩) ∧
    ((startNewPass ⟨40, 6, 16⟩ 2 0 passTwoEndState).ptrLastBlock = 200 ∧
      (startNewPass ⟨40, 6, 16⟩ 2 0 passTwoEndState).passNumber = 3 ∧
      (startNewPass ⟨40, 6, 16⟩ 2 0 passTwoEndState).lastWritePos = 0 ∧
      (startNewPass ⟨40, 6, 16⟩ 2 0 passTwoEndState).ptrNextFirst = 0) ∧
    ∃ s', mergeStep noFailure compareKeys ⟨40, 6, 16⟩ 2 10 passTwoEndState = Flow.cont s' ∧
      s'.passNumber = 3 ∧ s'.lastWritePos = 120 ∧ s'.ptrNextFirst = 0 ∧
      lastRunStart s'.w.log = some 0 ∧
      ∃ pg, s'.w.file.lookup 0 = some pg ∧ pg.blockIndex = 0 := by
  have hthm := C22_pass_transition noFailure compareKeys ⟨40, 6, 16⟩ 2 2 rfl (by decide)
    (by decide)
  refine ⟨⟨rfl, by decide, by decide⟩, ?_, ?_⟩
  · obtain ⟨h1, h2, h3, _, h5⟩ := hthm.1 0 passTwoEndState (by decide)
    have h3' := h3 (by decide)
    exact ⟨h1, h2, h3', h5.trans h3'⟩
  · obtain ⟨s', hs, hv⟩ := Option.map_eq_some'.mp passTwoEndState_step
    have hp := stateOf_some _ _ hs
    simp only [Prod.mk.injEq] at hv
    obtain ⟨h1, h2, h3⟩ := hthm.2 10 passTwoEndState s' passTwoEndState_inv (by decide)
      (by decide) hp (by rw [hv.1])
    exact ⟨s', hp, hv.1, hv.2, h1, h2, h3⟩

/-- Run pickup leaves `firstPartitionSize` and the file as they are, and every slot
it fills holds the number of pages that the header of the page read for it tells:
`runCount[j] = block_index + 1` for the page stored at
`runOffset[j] + (runCount[j] - 1) * page_size`. -/
theorem pickRuns_picked (fails : Nat → Bool) (es : external_sort_t) (m : Int) :
    ∀ (fuel i : Nat) (s : MergeState α) (k : Nat) (s1 : MergeState α),
      (∀ j : Nat, (j : Int) < m → j < s.runCount.length ∧ j < s.runOffset.length) →
      pickRuns fails es m fuel i s = Flow.cont (k, s1) →
      s1.firstPartitionSize = s.firstPartitionSize ∧ s1.w.file = s.w.file ∧
      ∀ j, i ≤ j → j < k → ∃ pg,
        s.w.file.lookup (s1.runOffset.getD j 0 + (s1.runCount.getD j 0 - 1) * es.page_size)
          = some pg ∧ s1.runCount.getD j 0 = pg.blockIndex + 1 := by
  intro fuel
  induction fuel with
  | zero =>
    intro i s k s1 _ h
    rw [pickRuns] at h
    split at h
    · simp at h
    · simp only [Flow.cont.injEq, Prod.mk.injEq] at h
      obtain ⟨rfl, rfl⟩ := h
      exact ⟨rfl, rfl, fun j h1 h2 => absurd h2 (by omega)⟩
  | succ fuel ih =>
    intro i s k s1 hlen h
    have h0 := h
    rw [pickRuns] at h
    split at h
    · rename_i hc
      dsimp only at h
      have hs : ∀ s0 : MergeState α,
          s0 = (if s.ptrLastBlock < s.ptrFirstBlock then startNewPass es m i s else s) →
          s0.runOffset = s.runOffset ∧ s0.runCount = s.runCount ∧
          s0.firstPartitionSize = s.firstPartitionSize ∧ s0.w = s.w := by
        intro s0 e0
        subst e0
        split <;> exact ⟨rfl, rfl, rfl, rfl⟩
      generalize (if s.ptrLastBlock < s.ptrFirstBlock then startNewPass es m i s
          else s) = s0 at hs h
      obtain ⟨e1, e2, e3, e4⟩ := hs s0 rfl
      split at h
      · simp at h
      · rename_i pg w1 heq
        obtain ⟨hf, hl⟩ := fread_file heq
        obtain ⟨a1, a2, a3⟩ := ih (i + 1) _ k s1
          (by
            intro j hj
            show j < (s0.runCount.set i _).length ∧ j < (s0.runOffset.set i _).length
            rw [List.length_set, List.length_set, e1, e2]
            exact hlen j hj) h
        obtain ⟨hk, hj⟩ := pickRuns_slots fails es m fuel (i + 1) _ k s1 h
        refine ⟨a1.trans e3, ?_, ?_⟩
        · rw [a2]
          show w1.file = s.w.file
          rw [hf, e4]
        · intro j hij hjk
          by_cases hji : j = i
          · subst hji
            obtain ⟨b1, b2, _⟩ := hj j (by omega)
            have c1 : s1.runCount.getD j 0 = pg.blockIndex + 1 := by
              rw [b1]
              show (s0.runCount.set j _).getD j 0 = _
              rw [getD_set_eq _ _ _ _ (by rw [e2]; exact (hlen j hc.1).1)]
            have c2 : s1.runOffset.getD j 0 = s0.ptrLastBlock - pg.blockIndex * es.page_size := by
              rw [b2]
              show (s0.runOffset.set j _).getD j 0 = _
              rw [getD_set_eq _ _ _ _ (by rw [e1]; exact (hlen j hc.1).2)]
            refine ⟨pg, ?_, c1⟩
            rw [c1, c2, ← e4, ← hl]
            congr 1
            ring
          · obtain ⟨pg2, d1, d2⟩ := a3 j (by omega) hjk
            refine ⟨pg2, ?_, d2⟩
            rw [← d1]
            show _ = List.lookup _ w1.file
            rw [hf, e4]
    · simp only [Flow.cont.injEq, Prod.mk.injEq] at h
      obtain ⟨rfl, rfl⟩ := h
      exact ⟨rfl, rfl, fun j h1 h2 => absurd h2 (by omega)⟩

/-- C21 (amended): a merge step that runs to its end (with well-formed pages in
the file, arrays of `maxSublistsInRun ≥ 1` entries and at least one record per
page) picks `k` runs, for each of which `runCount[j]` is the page count that the
header of its last page gives (`block_index + 1`).  When the step is the first
merge of a pass (`newPass` is set after the pickup), it leaves
`firstPartitionSize = runCount[0] + runCount[1]`, the page counts of the first two
runs picked, and clears `newPass`; a later merge of the pass leaves
`firstPartitionSize` as it was. -/
theorem C21_first_partition_size (fails : Nat → Bool) (cmp : α → α → Int) (es : external_sort_t)
    (m : Int) (M : Nat) (hM : (M : Int) = m) (hM1 : 1 ≤ M) (hT : 1 ≤ tuplesPerPage es)
    (fuel : Nat) (s s' : MergeState α) (hg : GInv M s) (hn : 2 ≤ s.numSublist)
    (h : mergeStep fails cmp es m fuel s = Flow.cont s') :
    ∃ k s1, pickRuns fails es m m.toNat 0 s = Flow.cont (k, s1) ∧
      (∀ j, j < k → ∃ pg,
        s.w.file.lookup (s1.runOffset.getD j 0 + (s1.runCount.getD j 0 - 1) * es.page_size)
          = some pg ∧ s1.runCount.getD j 0 = pg.blockIndex + 1) ∧
      (s1.newPass = true →
        s'.firstPartitionSize = s1.runCount.getD 0 0 + s1.runCount.getD 1 0 ∧
        s'.newPass = false) ∧
      (s1.newPass = false → s'.firstPartitionSize = s.firstPartitionSize) := by
  obtain ⟨k, s1, s5, hp, hrun, rfl⟩ := mergeStep_inv _ _ _ _ _ _ _ h
  have ht := pickRuns_total fails es m M hM m.toNat 0 s (by omega) hg (by omega) (by omega)
    (fun j hj => absurd hj (by omega))
  rw [hp] at ht
  obtain ⟨hg1, _, hkm, hkn, hor, hrc⟩ := ht
  dsimp only at hg1 hkm hkn hor hrc
  obtain ⟨_, hO, hC, hP, hB⟩ := hg1
  obtain ⟨_, hO0, hC0, _, _⟩ := hg
  have hk1 : 1 ≤ k := by omega
  have hkM : k ≤ M := by omega
  obtain ⟨p1, _, p3⟩ := pickRuns_picked fails es m m.toNat 0 s k s1
    (fun j hj => ⟨by omega, by omega⟩) hp
  refine ⟨k, s1, hp, fun j hj => p3 j (by omega) hj, ?_⟩
  have key : ∀ s2 : MergeState α, s2.runCount = s1.runCount → s2.runOffset = s1.runOffset →
      s2.sublsTuplePos = s1.sublsTuplePos → s2.buffer = s1.buffer →
      mergeRuns fails cmp es k fuel s2 = Flow.cont s5 →
      s5.firstPartitionSize = s2.firstPartitionSize ∧ s5.newPass = s2.newPass := by
    intro s2 e1 e2 e3 e4 hr
    obtain ⟨L, hd, _⟩ := mergeRuns_effect fails cmp es k False (fun _ => 1) hT
      (fun _ => le_refl 1) fuel s2 s5 hk1 (by rw [e1]; omega) (by rw [e2]; omega)
      (by rw [e3]; omega) (by rw [e4]; omega)
      (fun j hj => by rw [e1, e3]; exact ⟨by have := (hrc j hj).1; omega, (hrc j hj).2⟩)
      (fun hf => absurd hf id) hr
    obtain ⟨_, _, hsame, _⟩ := hd
    obtain ⟨_, _, _, _, hfp, hnp, _⟩ := hsame
    exact ⟨hfp, hnp⟩
  by_cases hnp : s1.newPass = true
  · rw [if_pos hnp] at hrun
    have hk12 : s5.firstPartitionSize = s1.runCount.getD 0 0 + s1.runCount.getD 1 0 ∧
        s5.newPass = false := by
      refine key _ ?_ ?_ ?_ ?_ hrun <;> rfl
    refine ⟨fun _ => hk12, fun hf => ?_⟩
    rw [hnp] at hf
    exact absurd hf (by decide)
  · rw [if_neg hnp] at hrun
    obtain ⟨k1, _⟩ := key _ rfl rfl rfl rfl hrun
    refine ⟨fun ht => absurd ht hnp, fun _ => ?_⟩
    show s5.firstPartitionSize = s.firstPartitionSize
    rw [k1, p1]

theorem passTwoEndState_pickup :
    (stateOf (pickRuns noFailure ⟨40, 6, 16⟩ 2 2 0 passTwoEndState)).map
      (fun x => (x.1, x.2.newPass, x.2.runCount.getD 0 0, x.2.runCount.getD 1 0))
      = some (2, true, 1, 2) := by
  decide!

/-- C21 (witness): `passTwoEndState` (`page_size = 40`, buffer of 3 pages): the
merge step starts pass 3 and picks the run of one page at offset 200 and the run
of two pages at offset 120; it leaves `firstPartitionSize = 1 + 2 = 3`. -/
theorem C21_first_partition_size_witness :
    (((2 : Nat) : Int) = 2 ∧ 1 ≤ 2 ∧ 1 ≤ tuplesPerPage ⟨40, 6, 16⟩) ∧
    ∃ s', mergeStep noFailure compareKeys ⟨40, 6, 16⟩ 2 10 passTwoEndState = Flow.cont s' ∧
      s'.firstPartitionSize = 3 ∧ s'.newPass = false := by
  refine ⟨⟨rfl, by decide, by decide⟩, ?_⟩
  obtain ⟨s', hs, _⟩ := Option.map_eq_some'.mp passTwoEndState_step
  have hp := stateOf_some _ _ hs
  obtain ⟨k, s1, hk, _, hnew, _⟩ := C21_first_partition_size noFailure compareKeys ⟨40, 6, 16⟩ 2 2 rfl (by decide)
    (by decide) 10 passTwoEndState s' passTwoEndState_inv (by decide) hp
  obtain ⟨x, hx, hv⟩ := Option.map_eq_some'.mp passTwoEndState_pickup
  have hx' := stateOf_some _ _ hx
  have hk' : pickRuns noFailure ⟨40, 6, 16⟩ 2 2 0 passTwoEndState = Flow.cont (k, s1) := hk
  rw [hx'] at hk'
  simp only [Flow.cont.injEq] at hk'
  subst hk'
  simp only [Prod.mk.injEq] at hv
  obtain ⟨_, v2, v3, v4⟩ := hv
  obtain ⟨f1, f2⟩ := hnew v2
  exact ⟨s', hp, by rw [f1, v3, v4]; rfl, f2⟩

/-! ## Pages written and iterator calls along the history -/

theorem iterCalls_append (a b : List (Event α)) :
    iterCalls (a ++ b) = iterCalls b ++ iterCalls a := by
  induction a with
  | nil => simp [iterCalls]
  | cons e a ih => cases e <;> simp [iterCalls, ih]

theorem recordsWritten_append (a b : List (Event α)) :
    recordsWritten (a ++ b) = recordsWritten b + recordsWritten a := by
  induction a with
  | nil => simp [recordsWritten]
  | cons e a ih => cases e <;> simp [recordsWritten, ih, Nat.add_assoc]

theorem Extends_refl (w : World α) : Extends w w :=
  ⟨[], rfl, rfl, by simp [writtenPages]⟩

theorem Extends_same (w0 w w1 : World α) (h : Extends w0 w) (hl : w1.log = w.log)
    (hm : w1.metric.num_writes = w.metric.num_writes) : Extends w0 w1 := by
  obtain ⟨e, h1, h2, h3⟩ := h
  exact ⟨e, by rw [hl, h1], h2, by rw [hm, h3]⟩

theorem Extends_event (w0 w w1 : World α) (ev : Event α) (h : Extends w0 w)
    (hl : w1.log = ev :: w.log) (hi : iterCalls [ev] = []) (hw : writtenPages [ev] = [])
    (hm : w1.metric.num_writes = w.metric.num_writes) : Extends w0 w1 := by
  obtain ⟨e, h1, h2, h3⟩ := h
  refine ⟨[ev] ++ e, by rw [hl, h1]; rfl, ?_, ?_⟩
  · rw [iterCalls_append, h2, hi]; rfl
  · rw [writtenPages_append, hw, hm, h3]; simp

theorem Extends_write (w0 w w1 : World α) (off : Int) (pg : Page α) (h : Extends w0 w)
    (hl : w1.log = Event.write off pg :: w.log)
    (hm : w1.metric.num_writes = w.metric.num_writes + 1) : Extends w0 w1 := by
  obtain ⟨e, h1, h2, h3⟩ := h
  refine ⟨[Event.write off pg] ++ e, by rw [hl, h1]; rfl, ?_, ?_⟩
  · rw [iterCalls_append, h2]; rfl
  · rw [writtenPages_append, hm, h3]
    simp [writtenPages, Nat.add_assoc]

theorem Extends_trans (w0 w1 w2 : World α) (h1 : Extends w0 w1) (h2 : Extends w1 w2) :
    Extends w0 w2 := by
  obtain ⟨e1, a1, a2, a3⟩ := h1
  obtain ⟨e2, b1, b2, b3⟩ := h2
  refine ⟨e2 ++ e1, by rw [b1, a1, List.append_assoc], ?_, ?_⟩
  · rw [iterCalls_append, a2, b2]; rfl
  · rw [writtenPages_append, b3, a3, List.length_append, Nat.add_assoc]

theorem fread_ext (fails : Nat → Bool) (m : Bool) (w : World α) (off : Int) (w0 : World α)
    (h : Extends w0 w) : Extends w0 (fread fails m w off).2 := by
  unfold fread
  by_cases hf : fails w.ops = true
  · rw [if_pos hf]
    exact Extends_event _ _ _ (Event.readFail off) h rfl (by simp [iterCalls])
      (by simp [writtenPages]) rfl
  · rw [if_neg hf]
    cases hl : List.lookup off w.file with
    | none =>
      exact Extends_event _ _ _ (Event.readFail off) h rfl (by simp [iterCalls])
        (by simp [writtenPages]) rfl
    | some pg =>
      cases m with
      | true =>
        exact Extends_event _ _ _ (Event.load off) h rfl (by simp [iterCalls])
          (by simp [writtenPages]) rfl
      | false =>
        exact Extends_event _ _ _ (Event.peek off) h rfl (by simp [iterCalls])
          (by simp [writtenPages]) rfl

theorem fread_ext_eq {fails : Nat → Bool} {m : Bool} {w w1 w0 : World α} {off : Int}
    {r : Option (Page α)} (heq : fread fails m w off = (r, w1)) (h : Extends w0 w) :
    Extends w0 w1 := by
  have := fread_ext fails m w off w0 h
  rw [heq] at this
  exact this

theorem fwrite_log {fails : Nat → Bool} {w w1 : World α} {off : Int} {pg : Page α} {b : Bool}
    (heq : fwrite fails w off pg = (b, w1)) :
    w1.metric = w.metric ∧
      w1.log = (if b then Event.write off pg else Event.writeFail off) :: w.log := by
  unfold fwrite at heq
  split at heq
  · simp only [Prod.mk.injEq] at heq
    obtain ⟨rfl, rfl⟩ := heq
    exact ⟨rfl, rfl⟩
  · simp only [Prod.mk.injEq] at heq
    obtain ⟨rfl, rfl⟩ := heq
    exact ⟨rfl, rfl⟩

theorem fwrite_log_true {fails : Nat → Bool} {w w1 : World α} {off : Int} {pg : Page α}
    (heq : fwrite fails w off pg = (true, w1)) :
    w1.metric = w.metric ∧ w1.log = Event.write off pg :: w.log :=
  fwrite_log heq

theorem fwrite_log_false {fails : Nat → Bool} {w w1 : World α} {off : Int} {pg : Page α}
    (heq : fwrite fails w off pg = (false, w1)) :
    w1.metric = w.metric ∧ w1.log = Event.writeFail off :: w.log :=
  fwrite_log heq

theorem fwrite_false_ext {fails : Nat → Bool} {w w1 w0 : World α} {off : Int} {pg : Page α}
    (heq : fwrite fails w off pg = (false, w1)) (h : Extends w0 w) : Extends w0 w1 := by
  obtain ⟨hm, hl⟩ := fwrite_log_false heq
  exact Extends_event _ _ _ (Event.writeFail off) h hl (by simp [iterCalls])
    (by simp [writtenPages]) (by rw [hm])

theorem pickRuns_tally (fails : Nat → Bool) (es : external_sort_t) (maxSub : Int)
    (w0 : World α) :
    ∀ (n i : Nat) (s : MergeState α), Extends w0 s.w →
      Tally (fun x : Nat × MergeState α => x.2.w) w0 (pickRuns fails es maxSub n i s) := by
  intro n
  induction n with
  | zero =>
    intro i s h
    rw [pickRuns]
    split
    · trivial
    · exact h
  | succ n ih =>
    intro i s h
    rw [pickRuns]
    split
    · have hs1 : Extends w0 (if s.ptrLastBlock < s.ptrFirstBlock then startNewPass es maxSub i s
          else s).w := by
        split
        · exact h
        · exact h
      generalize (if s.ptrLastBlock < s.ptrFirstBlock then startNewPass es maxSub i s
          else s) = s1 at hs1 ⊢
      dsimp only
      split
      · rename_i w1 heq
        exact ⟨fread_ext_eq heq hs1, Or.inr rfl⟩
      · rename_i pg w1 heq
        exact ih _ _ (Extends_same _ _ _ (fread_ext_eq heq hs1) rfl rfl)
    · exact h

theorem loadFirstPages_tally (fails : Nat → Bool) (w0 : World α) :
    ∀ (n i : Nat) (s : MergeState α), Extends w0 s.w →
      Tally (fun x : MergeState α => x.w) w0 (loadFirstPages fails n i s) := by
  intro n
  induction n with
  | zero => intro i s h; exact h
  | succ n ih =>
    intro i s h
    rw [loadFirstPages]
    have h1 : Extends w0 { s.w with metric := s.w.metric.addReads 1 } :=
      Extends_same _ _ _ h rfl rfl
    split
    · rename_i w2 heq
      exact ⟨fread_ext_eq heq h1, Or.inr rfl⟩
    · rename_i pg w2 heq
      exact ih _ _ (fread_ext_eq heq h1 : Extends w0 w2)

theorem flushPage_tally (fails : Nat → Bool) (es : external_sort_t) (s : MergeState α)
    (o : OutState α) (w0 : World α) (h : Extends w0 s.w) :
    Tally (fun x : MergeState α × OutState α => x.1.w) w0 (flushPage fails es s o) := by
  unfold flushPage
  dsimp only
  split
  · rename_i w1 heq
    exact ⟨fwrite_false_ext heq h, Or.inl rfl⟩
  · rename_i w1 heq
    obtain ⟨hm, hl⟩ := fwrite_log_true heq
    exact Extends_write _ _ _ s.lastWritePos _ h hl
      (by show w1.metric.num_writes + 1 = _; rw [hm])

theorem emitTuple_tally (fails : Nat → Bool) (es : external_sort_t) (s : MergeState α)
    (o : OutState α) (tuple : α) (c : Nat) (w0 : World α) (h : Extends w0 s.w) :
    Tally (fun x : MergeState α × OutState α => x.1.w) w0 (emitTuple fails es s o tuple c) := by
  unfold emitTuple
  dsimp only
  have h1 : Extends w0 { s.w with metric := (s.w.metric.addCompar c).addMemcpys 1 } :=
    Extends_same _ _ _ h rfl rfl
  split
  · exact flushPage_tally _ _ _ _ _ h1
  · exact h1

theorem advanceRun_tally (fails : Nat → Bool) (es : external_sort_t) (lowId : Nat)
    (s : MergeState α) (w0 : World α) (h : Extends w0 s.w) :
    Tally (fun x : MergeState α => x.w) w0 (advanceRun fails es lowId s) := by
  unfold advanceRun
  dsimp only
  split
  · trivial
  · split
    · split
      · split
        · rename_i w1 heq
          exact ⟨fread_ext_eq heq h, Or.inr rfl⟩
        · rename_i pg w1 heq
          exact Extends_same _ _ _ (fread_ext_eq heq h) rfl rfl
      · exact h
    · exact h

theorem mergeLoop_tally (fails : Nat → Bool) (cmp : α → α → Int) (es : external_sort_t)
    (k : Nat) (w0 : World α) :
    ∀ (fuel : Nat) (s : MergeState α) (o : OutState α), Extends w0 s.w →
      Tally (fun x : MergeState α × OutState α => x.1.w) w0
        (mergeLoop fails cmp es k fuel s o) := by
  intro fuel
  induction fuel with
  | zero => intro s o _; trivial
  | succ fuel ih =>
    intro s o h
    rw [mergeLoop.eq_2]
    split
    · exact h
    · split
      · trivial
      · split
        · trivial
        · rename_i lowId tuple c _
          have hem := emitTuple_tally fails es s o tuple c w0 h
          split
          · trivial
          · rename_i c1 w1 heq; rw [heq] at hem; exact hem
          · rename_i s2 o2 heq
            rw [heq] at hem
            have hadv := advanceRun_tally fails es lowId s2 w0 hem
            split
            · trivial
            · rename_i c1 w1 heq1; rw [heq1] at hadv; exact hadv
            · rename_i s3 heq1
              rw [heq1] at hadv
              exact ih _ _ hadv

theorem mergeRuns_tally (fails : Nat → Bool) (cmp : α → α → Int) (es : external_sort_t)
    (k fuel : Nat) (s : MergeState α) (w0 : World α) (h : Extends w0 s.w) :
    Tally (fun x : MergeState α => x.w) w0 (mergeRuns fails cmp es k fuel s) := by
  unfold mergeRuns
  have hl := loadFirstPages_tally fails w0 k 0 s h
  split
  · trivial
  · rename_i c w heq; rw [heq] at hl; exact hl
  · rename_i s3 heq
    rw [heq] at hl
    have hm := mergeLoop_tally fails cmp es k w0 fuel s3
      { out := [], bufferOutputPos := es.headerSize, numblocks := 0 } hl
    split
    · trivial
    · rename_i c w heq1; rw [heq1] at hm; exact hm
    · rename_i s4 o4 heq1
      rw [heq1] at hm
      split
      · have hf := flushPage_tally fails es s4 o4 w0 hm
        split
        · trivial
        · rename_i c w heq2; rw [heq2] at hf; exact hf
        · rename_i s5 o5 heq2; rw [heq2] at hf; exact hf
      · exact hm

theorem mergeStep_tally (fails : Nat → Bool) (cmp : α → α → Int) (es : external_sort_t)
    (maxSub : Int) (fuel : Nat) (s : MergeState α) (w0 : World α) (h : Extends w0 s.w) :
    Tally (fun x : MergeState α => x.w) w0 (mergeStep fails cmp es maxSub fuel s) := by
  unfold mergeStep
  have hp := pickRuns_tally fails es maxSub w0 maxSub.toNat 0 s h
  split
  · trivial
  · rename_i c w heq; rw [heq] at hp; exact hp
  · rename_i k s1 heq
    rw [heq] at hp
    have hs2 : Extends w0 (if s1.newPass = true then
        { s1 with firstPartitionSize := s1.runCount.getD 0 0 + s1.runCount.getD 1 0,
                  newPass := false } else s1).w := by
      split
      · exact hp
      · exact hp
    dsimp only
    generalize (if s1.newPass = true then
        { s1 with firstPartitionSize := s1.runCount.getD 0 0 + s1.runCount.getD 1 0,
                  newPass := false } else s1) = s2 at hs2 ⊢
    have hm := mergeRuns_tally fails cmp es k fuel s2 w0 hs2
    split
    · trivial
    · rename_i c w heq1; rw [heq1] at hm; exact hm
    · rename_i s5 heq1; rw [heq1] at hm; exact hm

theorem mergePhase_tally (fails : Nat → Bool) (cmp : α → α → Int) (es : external_sort_t)
    (maxSub : Int) (fuel : Nat) (w0 : World α) :
    ∀ (n : Nat) (s : MergeState α), Extends w0 s.w →
      Tally (fun x : MergeState α => x.w) w0 (mergePhase fails cmp es maxSub fuel n s) := by
  intro n
  induction n with
  | zero =>
    intro s h
    rw [mergePhase]
    split
    · trivial
    · exact h
  | succ n ih =>
    intro s h
    rw [mergePhase]
    split
    · have hm := mergeStep_tally fails cmp es maxSub fuel s w0 h
      split
      · trivial
      · rename_i c w heq; rw [heq] at hm; exact hm
      · rename_i s1 heq
        rw [heq] at hm
        exact ih _ hm
    · exact h

theorem fillBuffer_calls : ∀ (n : Nat) (it acc : List α) (st : Nat) (w : World α),
    ∃ e, (fillBuffer n it acc st w).2.2.2.log = e ++ w.log ∧ writtenPages e = [] ∧
      (fillBuffer n it acc st w).2.2.2.metric = w.metric ∧
      (n ≤ it.length → iterCalls e = List.replicate n 1) ∧
      (it.length < n → iterCalls e = List.replicate it.length 1 ++ [0]) := by
  intro n
  induction n with
  | zero =>
    intro it acc st w
    exact ⟨[], rfl, rfl, rfl, fun _ => rfl, fun h => absurd h (by omega)⟩
  | succ n ih =>
    intro it acc st w
    cases it with
    | nil =>
      exact ⟨[Event.iter 0], rfl, by simp [writtenPages], rfl, fun h => absurd h (by simp),
        fun _ => by simp [iterCalls]⟩
    | cons x xs =>
      obtain ⟨e, h1, h2, h3, h4, h5⟩ :=
        ih xs (acc ++ [x]) 1 { w with log := Event.iter 1 :: w.log }
      refine ⟨e ++ [Event.iter 1], ?_, ?_, ?_, ?_, ?_⟩
      · show (fillBuffer n xs (acc ++ [x]) 1 _).2.2.2.log = _
        rw [h1]; simp
      · rw [writtenPages_append, h2]; simp [writtenPages]
      · exact h3
      · intro h
        rw [iterCalls_append, h4 (by simpa using h)]
        simp [iterCalls, List.replicate_succ]
      · intro h
        rw [iterCalls_append, h5 (by simpa using h)]
        simp [iterCalls, List.replicate_succ]

/-- What the fill loop did: it called the iterator once per record taken, and
once more when the stream ended before the buffer was full. -/
theorem fillBuffer_facts (n : Nat) (it : List α) (w : World α) :
    ∃ e, (fillBuffer n it [] 0 w).2.2.2.log = e ++ w.log ∧ writtenPages e = [] ∧
      (fillBuffer n it [] 0 w).2.2.2.metric = w.metric ∧
      (n ≤ it.length → iterCalls e = List.replicate n 1) ∧
      (it.length < n → iterCalls e = List.replicate it.length 1 ++ [0]) ∧
      (fillBuffer n it [] 0 w).1.length = min n it.length ∧
      it.length = (fillBuffer n it [] 0 w).1.length + (fillBuffer n it [] 0 w).2.1.length ∧
      ((fillBuffer n it [] 0 w).2.2.1 = 1 → n ≤ it.length ∧ 1 ≤ n) ∧
      ((fillBuffer n it [] 0 w).2.2.1 ≠ 1 → 1 ≤ n → it.length < n) := by
  obtain ⟨e, h1, h2, h3, h4, h5⟩ := fillBuffer_calls n it [] 0 w
  obtain ⟨w1, hfb, _, _⟩ := fillBuffer_eq n it [] 0 w
  refine ⟨e, h1, h2, h3, h4, h5, ?_, ?_, ?_, ?_⟩
  · rw [hfb]; simp
  · rw [hfb]; simp; omega
  · rw [hfb]
    intro hs
    simp only at hs
    split at hs
    · omega
    · split at hs <;> omega
  · rw [hfb]
    intro hs hn
    simp only at hs
    split at hs
    · assumption
    · split at hs <;> omega

theorem writeFullPages_cont (fails : Nat → Bool) (es : external_sort_t) (sorted : List α) :
    ∀ (n i : Nat) (pos : Int) (w : World α) (i1 : Nat) (pos1 : Int) (w1 : World α),
      writeFullPages fails es sorted n i pos w = Flow.cont (i1, pos1, w1) →
      ∃ e, w1.log = e ++ w.log ∧ iterCalls e = [] ∧ (writtenPages e).length = n ∧
        w1.metric = w.metric := by
  intro n
  induction n with
  | zero =>
    intro i pos w i1 pos1 w1 h
    simp only [writeFullPages, Flow.cont.injEq, Prod.mk.injEq] at h
    obtain ⟨_, _, rfl⟩ := h
    exact ⟨[], rfl, rfl, rfl, rfl⟩
  | succ n ih =>
    intro i pos w i1 pos1 w1 h
    rw [writeFullPages] at h
    split at h
    · simp at h
    · rename_i w2 heq
      obtain ⟨hm, hl⟩ := fwrite_log_true heq
      obtain ⟨e, a1, a2, a3, a4⟩ := ih _ _ _ _ _ _ h
      refine ⟨e ++ [Event.write pos
          (⟨i, tuplesPerPage es, (sorted.drop (i * tuplesPerPage es)).take (tuplesPerPage es)⟩ : Page α)],
        by rw [a1, hl]; simp, ?_, ?_, by rw [a4, hm]⟩
      · rw [iterCalls_append, a2]; rfl
      · rw [writtenPages_append]
        simp [writtenPages, a3]

theorem writeFullPages_ret (fails : Nat → Bool) (es : external_sort_t) (sorted : List α) :
    ∀ (n i : Nat) (pos : Int) (w : World α) (c : Nat) (w1 : World α),
      writeFullPages fails es sorted n i pos w = Flow.ret c w1 →
      c = 9 ∧ ∃ e off, w1.log = Event.writeFail off :: (e ++ w.log) ∧ iterCalls e = [] := by
  intro n
  induction n with
  | zero =>
    intro i pos w c w1 h
    simp [writeFullPages] at h
  | succ n ih =>
    intro i pos w c w1 h
    rw [writeFullPages] at h
    split at h
    · rename_i w2 heq
      obtain ⟨hm, hl⟩ := fwrite_log_false heq
      simp only [Flow.ret.injEq] at h
      obtain ⟨rfl, rfl⟩ := h
      exact ⟨rfl, [], pos, by rw [hl]; rfl, rfl⟩
    · rename_i w2 heq
      obtain ⟨hm, hl⟩ := fwrite_log_true heq
      obtain ⟨hc, e, off, a1, a2⟩ := ih _ _ _ _ _ h
      refine ⟨hc, e ++ [Event.write pos
          (⟨i, tuplesPerPage es, (sorted.drop (i * tuplesPerPage es)).take (tuplesPerPage es)⟩ : Page α)],
        off, by rw [a1, hl]; simp, ?_⟩
      rw [iterCalls_append, a2]; rfl

theorem calls_part (ic : List Nat) (N n : Nat) (h1 : N ≤ n → ic = List.replicate N 1)
    (h2 : n < N → ic = List.replicate n 1 ++ [0]) :
    ∃ rest, ic ++ rest = List.replicate n 1 ++ [0] := by
  by_cases h : N ≤ n
  · refine ⟨List.replicate (n - N) 1 ++ [0], ?_⟩
    rw [h1 h, ← List.append_assoc, ← List.replicate_add]
    congr 2
    omega
  · exact ⟨[], by rw [h2 (by omega)]; simp⟩

theorem GenTally_step (w w1 : World α) (e : List (Event α)) (it it1 : List α) (N N1 a : Nat)
    (hlog : w1.log = e ++ w.log) (hit : iterCalls e = List.replicate a 1)
    (hlen : it.length = a + it1.length)
    (hwr : w1.metric.num_writes = w.metric.num_writes + (writtenPages e).length)
    (hN1 : 1 ≤ N1) (r : Flow α (GenState α)) (h : GenTally it1 N1 w1 r) :
    GenTally it N w r := by
  cases r with
  | stuck => trivial
  | cont g =>
    obtain ⟨e1, a1, a2, _, a4⟩ := h
    have hx : iterCalls (e1 ++ e) = List.replicate it.length 1 ++ [0] := by
      rw [iterCalls_append, hit, a4 hN1, hlen, List.replicate_add, List.append_assoc]
    refine ⟨e1 ++ e, by rw [a1, hlog, List.append_assoc], ?_, ⟨[], by rw [hx]; simp⟩,
      fun _ => hx⟩
    rw [a2, hwr, writtenPages_append, List.length_append]
    omega
  | ret c w2 =>
    obtain ⟨hc, e1, off, a1, rest, a3⟩ := h
    refine ⟨hc, e1 ++ e, off, by rw [a1, hlog, List.append_assoc], rest, ?_⟩
    rw [iterCalls_append, hit, hlen, List.replicate_add, List.append_assoc, a3,
      List.append_assoc]

/-- Run generation calls the iterator once per record and once more, and counts
every page it writes in `num_writes`. -/
theorem genLoop_tally (fails : Nat → Bool) (sort : List α → List α) (es : external_sort_t) :
    ∀ (fuel : Nat) (s : GenState α), (1 ≤ tuplesPerPage es ∨ s.numRecordsRead = 0) →
      GenTally s.iter s.numRecordsRead s.w (genLoop fails sort es fuel s) := by
  intro fuel
  induction fuel with
  | zero => intro s _; trivial
  | succ fuel ih =>
    intro s hT
    rw [genLoop.eq_2]
    have hf := fillBuffer_facts s.numRecordsRead s.iter s.w
    generalize fillBuffer s.numRecordsRead s.iter [] 0 s.w = r at hf ⊢
    obtain ⟨chunk, it, status, w1⟩ := r
    obtain ⟨e1, f1, f2, f3, f4, f5, f6, f7, f8, f9⟩ := hf
    simp only at f1 f3 f6 f7 f8 f9 ⊢
    have hpart := calls_part (iterCalls e1) s.numRecordsRead s.iter.length f4 f5
    split
    · rename_i h0
      refine ⟨e1, f1, ?_, hpart, ?_⟩
      · show w1.metric.num_writes = _
        rw [f3, f2]; rfl
      · intro hn
        apply f5
        show s.iter.length < s.numRecordsRead
        omega
    · rename_i h0
      have hN : 1 ≤ s.numRecordsRead := by omega
      have hT1 : 1 ≤ tuplesPerPage es := by
        rcases hT with hT | hT
        · exact hT
        · omega
      have hpio : 1 ≤ (chunk.length + tuplesPerPage es - 1) / tuplesPerPage es :=
        Nat.div_pos (by omega) (by omega)
      split
      · trivial
      · rename_i c w heq
        obtain ⟨hc, e2, off, a1, a2⟩ := writeFullPages_ret _ _ _ _ _ _ _ _ _ heq
        refine ⟨hc, e2 ++ e1, off, ?_, ?_⟩
        · rw [a1]
          show _ :: (e2 ++ w1.log) = _
          rw [f1, List.append_assoc]
        · rw [iterCalls_append, a2, List.append_nil]
          exact hpart
      · rename_i i pos w3 heq
        obtain ⟨e2, a1, a2, a3, a4⟩ := writeFullPages_cont _ _ _ _ _ _ _ _ _ _ heq
        have hl3 : w3.log = (e2 ++ e1) ++ s.w.log := by
          rw [a1]
          show e2 ++ w1.log = _
          rw [f1, List.append_assoc]
        have hi3 : iterCalls (e2 ++ e1) = iterCalls e1 := by
          rw [iterCalls_append, a2, List.append_nil]
        split
        · rename_i w4 heq4
          obtain ⟨hm4, hl4⟩ := fwrite_log_false heq4
          refine ⟨rfl, e2 ++ e1, pos, ?_, ?_⟩
          · rw [hl4, hl3]
          · rw [hi3]; exact hpart
        · rename_i w4 heq4
          obtain ⟨hm4, hl4⟩ := fwrite_log_true heq4
          have hl5 : w4.log = ([Event.write pos
              ⟨i, (chunk.length : Int) - (tuplesPerPage es : Int) * i,
                ((sort chunk).drop (i * tuplesPerPage es)).take (tuplesPerPage es)⟩]
                ++ (e2 ++ e1)) ++ s.w.log := by
            rw [hl4, hl3]; rfl
          have hi5 : iterCalls ([Event.write pos
              ⟨i, (chunk.length : Int) - (tuplesPerPage es : Int) * i,
                ((sort chunk).drop (i * tuplesPerPage es)).take (tuplesPerPage es)⟩]
                ++ (e2 ++ e1)) = iterCalls e1 := by
            rw [iterCalls_append, hi3]; simp [iterCalls]
          have hw5 : (writtenPages ([Event.write pos
              ⟨i, (chunk.length : Int) - (tuplesPerPage es : Int) * i,
                ((sort chunk).drop (i * tuplesPerPage es)).take (tuplesPerPage es)⟩]
                ++ (e2 ++ e1))).length
              = (chunk.length + tuplesPerPage es - 1) / tuplesPerPage es := by
            rw [writtenPages_append, writtenPages_append, f2]
            simp [writtenPages, a3]; omega
          have hm5 : w4.metric.num_writes
              + (chunk.length + tuplesPerPage es - 1) / tuplesPerPage es
              = s.w.metric.num_writes + (writtenPages ([Event.write pos
              ⟨i, (chunk.length : Int) - (tuplesPerPage es : Int) * i,
                ((sort chunk).drop (i * tuplesPerPage es)).take (tuplesPerPage es)⟩]
                ++ (e2 ++ e1))).length := by
            rw [hw5, hm4, a4]
            show w1.metric.num_writes + _ = _
            rw [f3]
          split
          · rename_i hst
            obtain ⟨g1, g2⟩ := f8 hst
            have hcl : chunk.length = s.numRecordsRead := by omega
            refine GenTally_step s.w
              { w4 with metric := (w4.metric.addWrites
                  ((chunk.length + tuplesPerPage es - 1) / tuplesPerPage es)) }
              _ s.iter it s.numRecordsRead chunk.length
              s.numRecordsRead hl5 (by rw [hi5]; exact f4 g1) (by omega) hm5 (by omega) _ ?_
            exact ih _ (Or.inl hT1)
          · rename_i hst
            refine ⟨_, hl5, hm5, ?_, ?_⟩
            · rw [hi5]; exact hpart
            · intro _
              rw [hi5]
              exact f5 (f9 hst hN)

/-- The history, the iterator calls and the counter `num_writes` of a finished
call of the sort. -/
theorem sort_tally (fuel : Nat) (sort : List α → List α) (cmp : α → α → Int)
    (fails : Nat → Bool) (alloc : Alloc) (es : external_sort_t) (bufferSizeInBlocks : Nat)
    (input : List α) (w0 : World α) (o : Outcome α)
    (h : extern_merge_sort_iterator_block fuel sort cmp fails alloc es bufferSizeInBlocks
      input w0 = some o) :
    ∃ e, o.w.log = e ++ w0.log ∧
      (∃ rest, iterCalls e ++ rest = List.replicate input.length 1 ++ [0]) ∧
      (o.code = 0 →
        o.w.metric.num_writes = w0.metric.num_writes + (writtenPages e).length) ∧
      (1 ≤ bufferSizeInBlocks * tuplesPerPage es → (∀ off, Event.writeFail off ∉ o.w.log) →
        iterCalls e = List.replicate input.length 1 ++ [0]) ∧
      (o.code = 8 →
        ¬ (alloc.sublsTuplePos = true ∧ 0 ≤ maxSublistsInRun bufferSizeInBlocks)) := by
  unfold extern_merge_sort_iterator_block at h
  simp only at h
  have ht := genLoop_tally fails sort es fuel
    { iter := input, numRecordsRead := bufferSizeInBlocks * tuplesPerPage es, lastWritePos := 0,
      numSublist := 0, w := w0 }
    (by
      rcases Nat.eq_zero_or_pos (tuplesPerPage es) with h0 | h0
      · right; show bufferSizeInBlocks * tuplesPerPage es = 0; rw [h0]; rfl
      · left; exact h0)
  cases hg : genLoop fails sort es fuel
      { iter := input, numRecordsRead := bufferSizeInBlocks * tuplesPerPage es, lastWritePos := 0,
        numSublist := 0, w := w0 } with
  | stuck => rw [hg] at h; simp at h
  | ret c w =>
    rw [hg] at h ht
    simp only [Option.some.injEq] at h
    subst h
    obtain ⟨hc, e, off, a1, rest, a3⟩ := ht
    refine ⟨Event.writeFail off :: e, a1, ⟨rest, by simpa [iterCalls] using a3⟩, ?_, ?_, ?_⟩
    · intro h0
      exact absurd (hc.symm.trans h0) (by decide)
    · intro _ hno
      exact absurd (by rw [a1]; exact List.mem_cons_self _ _) (hno off)
    · intro h8
      exact absurd (hc.symm.trans h8) (by decide)
  | cont g =>
    rw [hg] at h ht
    obtain ⟨e, a1, a2, a3, a4⟩ := ht
    simp only at a1 a2 a3 a4 h
    by_cases h1 : g.numSublist = 1
    · rw [if_pos h1] at h
      simp only [Option.some.injEq] at h
      subst h
      exact ⟨e, a1, a3, fun _ => a2, fun hn _ => a4 hn, fun h8 => by simp at h8⟩
    · rw [if_neg h1] at h
      by_cases h2 : ¬ (alloc.sublsTuplePos = true ∧ 0 ≤ maxSublistsInRun bufferSizeInBlocks)
      · rw [if_pos h2] at h
        simp only [Option.some.injEq] at h
        subst h
        exact ⟨e, a1, a3, fun h0 => by simp at h0, fun hn _ => a4 hn, fun _ => h2⟩
      · rw [if_neg h2] at h
        split at h
        · simp at h
        · have hm := mergePhase_tally fails cmp es (maxSublistsInRun bufferSizeInBlocks) fuel g.w
            fuel (initMerge es bufferSizeInBlocks g) (Extends_refl g.w)
          cases hp : mergePhase fails cmp es (maxSublistsInRun bufferSizeInBlocks) fuel fuel
              (initMerge es bufferSizeInBlocks g) with
          | stuck => rw [hp] at h; simp at h
          | ret c w =>
            rw [hp] at h hm
            simp only [Option.some.injEq] at h
            subst h
            obtain ⟨⟨e2, b1, b2, b3⟩, hc⟩ := hm
            refine ⟨e2 ++ e, by rw [b1, a1, List.append_assoc], ?_, ?_, ?_, ?_⟩
            · rw [iterCalls_append, b2, List.append_nil]; exact a3
            · intro h0
              rcases hc with hc | hc <;> exact absurd (hc.symm.trans h0) (by decide)
            · intro hn _
              rw [iterCalls_append, b2, List.append_nil]; exact a4 hn
            · intro h8
              rcases hc with hc | hc <;> exact absurd (hc.symm.trans h8) (by decide)
          | cont s =>
            rw [hp] at h hm
            simp only [Option.some.injEq] at h
            subst h
            obtain ⟨e2, b1, b2, b3⟩ := hm
            refine ⟨e2 ++ e, by rw [b1, a1, List.append_assoc], ?_, ?_, ?_, ?_⟩
            · rw [iterCalls_append, b2, List.append_nil]; exact a3
            · intro _
              show s.w.metric.num_writes = _
              rw [b3, a2, writtenPages_append, List.length_append]
              omega
            · intro hn _
              rw [iterCalls_append, b2, List.append_nil]; exact a4 hn
            · intro h8
              simp at h8

/-! ## The counters num_writes and num_memcpys -/

theorem Copies_refl (w : World α) : Copies w w 0 :=
  ⟨[], rfl, by simp [recordsWritten]⟩

theorem Copies_same (w0 w w1 : World α) (p : Nat) (h : Copies w0 w p) (hl : w1.log = w.log)
    (hm : w1.metric.num_memcpys = w.metric.num_memcpys) : Copies w0 w1 p := by
  obtain ⟨e, h1, h2⟩ := h
  exact ⟨e, by rw [hl, h1], by rw [hm, h2]⟩

theorem Copies_event (w0 w w1 : World α) (p : Nat) (ev : Event α) (h : Copies w0 w p)
    (hl : w1.log = ev :: w.log) (hr : recordsWritten [ev] = 0)
    (hm : w1.metric.num_memcpys = w.metric.num_memcpys) : Copies w0 w1 p := by
  obtain ⟨e, h1, h2⟩ := h
  refine ⟨[ev] ++ e, by rw [hl, h1]; rfl, ?_⟩
  rw [recordsWritten_append, hr, hm, h2]
  omega

theorem fread_copies {fails : Nat → Bool} {m : Bool} {w w1 w0 : World α} {off : Int}
    {pg : Page α} {p : Nat} (heq : fread fails m w off = (some pg, w1)) (h : Copies w0 w p) :
    Copies w0 w1 p := by
  obtain ⟨_, rfl⟩ := fread_some _ _ _ _ _ _ heq
  cases m with
  | true =>
    exact Copies_event _ _ _ _ (Event.load off) h rfl (by simp [recordsWritten]) rfl
  | false =>
    exact Copies_event _ _ _ _ (Event.peek off) h rfl (by simp [recordsWritten]) rfl

theorem pickRuns_copies (fails : Nat → Bool) (es : external_sort_t) (m : Int) (w0 : World α)
    (p : Nat) :
    ∀ (n i : Nat) (s : MergeState α) (k : Nat) (s1 : MergeState α), Copies w0 s.w p →
      pickRuns fails es m n i s = Flow.cont (k, s1) → Copies w0 s1.w p := by
  intro n
  induction n with
  | zero =>
    intro i s k s1 hc h
    rw [pickRuns] at h
    split at h
    · simp at h
    · simp only [Flow.cont.injEq, Prod.mk.injEq] at h
      rw [← h.2]; exact hc
  | succ n ih =>
    intro i s k s1 hc h
    rw [pickRuns] at h
    split at h
    · dsimp only at h
      have hc1 : Copies w0 (if s.ptrLastBlock < s.ptrFirstBlock then startNewPass es m i s
          else s).w p := by
        split
        · exact hc
        · exact hc
      split at h
      · simp at h
      · rename_i pg w1 heq
        refine ih (i + 1) _ k s1 ?_ h
        exact Copies_same _ _ _ _ (fread_copies heq hc1) rfl rfl
    · simp only [Flow.cont.injEq, Prod.mk.injEq] at h
      rw [← h.2]; exact hc

theorem loadFirstPages_copies (fails : Nat → Bool) (w0 : World α) (p : Nat) :
    ∀ (n i : Nat) (s s3 : MergeState α), Copies w0 s.w p →
      loadFirstPages fails n i s = Flow.cont s3 → Copies w0 s3.w p := by
  intro n
  induction n with
  | zero =>
    intro i s s3 hc h
    simp only [loadFirstPages, Flow.cont.injEq] at h
    rw [← h]; exact hc
  | succ n ih =>
    intro i s s3 hc h
    rw [loadFirstPages] at h
    dsimp only at h
    have hc1 : Copies w0 { s.w with metric := s.w.metric.addReads 1 } p :=
      Copies_same _ _ _ _ hc rfl rfl
    split at h
    · simp at h
    · rename_i pg w2 heq
      refine ih (i + 1) _ s3 ?_ h
      exact fread_copies heq hc1

theorem advanceRun_copies (fails : Nat → Bool) (es : external_sort_t) (lowId : Nat)
    (s s3 : MergeState α) (w0 : World α) (p : Nat) (hc : Copies w0 s.w p)
    (h : advanceRun fails es lowId s = Flow.cont s3) : Copies w0 s3.w p := by
  obtain ⟨cur, _, h1 | h1 | h1⟩ := advanceRun_inv _ _ _ _ _ h
  · obtain ⟨_, rfl⟩ := h1; exact hc
  · obtain ⟨_, _, rfl⟩ := h1; exact hc
  · obtain ⟨_, _, pg, _, rfl⟩ := h1
    exact Copies_event _ _ _ _ (Event.load (s.runOffset.getD lowId 0 + es.page_size)) hc rfl
      (by simp [recordsWritten]) rfl

theorem emitTuple_memcpys (fails : Nat → Bool) (es : external_sort_t) (s s2 : MergeState α)
    (o o2 : OutState α) (tuple : α) (c : Nat)
    (h : emitTuple fails es s o tuple c = Flow.cont (s2, o2)) :
    s2.w.metric.num_memcpys = s.w.metric.num_memcpys + 1 := by
  unfold emitTuple at h
  simp only at h
  split at h
  · obtain ⟨h1, _⟩ := flushPage_inv _ _ _ _ _ _ h
    rw [h1]; rfl
  · simp only [Flow.cont.injEq, Prod.mk.injEq] at h
    rw [← h.1]; rfl

/-- Copying a record into the output page raises `num_memcpys` by one; the
records of the page are counted as written when the page is flushed. -/
theorem emitTuple_copies (fails : Nat → Bool) (es : external_sort_t) (s s2 : MergeState α)
    (o o2 : OutState α) (tuple : α) (c : Nat) (w0 : World α)
    (hc : Copies w0 s.w o.out.length)
    (hpos : o.bufferOutputPos = es.headerSize + o.out.length * es.record_size)
    (h : emitTuple fails es s o tuple c = Flow.cont (s2, o2)) :
    Copies w0 s2.w o2.out.length ∧
      o2.bufferOutputPos = es.headerSize + o2.out.length * es.record_size := by
  have hm := emitTuple_memcpys _ _ _ _ _ _ _ _ h
  obtain ⟨e, h1, h2⟩ := hc
  obtain ⟨_, _, _, _, hx | hx⟩ := emitTuple_inv _ _ _ _ _ _ _ _ h
  · obtain ⟨_, _, hl, _, ho⟩ := hx
    subst ho
    refine ⟨⟨e, by rw [hl, h1], ?_⟩, ?_⟩
    · rw [hm, h2]
      simp only [List.length_append, List.length_singleton]
      omega
    · simp only [List.length_append, List.length_singleton]
      rw [hpos, Nat.add_mul, Nat.one_mul, Nat.add_assoc]
  · obtain ⟨_, _, hl, _, ho⟩ := hx
    subst ho
    refine ⟨⟨[Event.write s.lastWritePos
        ⟨o.numblocks, (((o.bufferOutputPos + es.record_size) / es.record_size : Nat) : Int),
          o.out ++ [tuple]⟩] ++ e, by rw [hl, h1]; rfl, ?_⟩, ?_⟩
    · rw [hm, h2, recordsWritten_append]
      simp only [recordsWritten, List.length_append, List.length_singleton, List.length_nil]
      omega
    · simp

theorem mergeLoop_copies (fails : Nat → Bool) (cmp : α → α → Int) (es : external_sort_t)
    (k : Nat) (w0 : World α) :
    ∀ (fuel : Nat) (s s' : MergeState α) (o o' : OutState α),
      Copies w0 s.w o.out.length →
      o.bufferOutputPos = es.headerSize + o.out.length * es.record_size →
      mergeLoop fails cmp es k fuel s o = Flow.cont (s', o') →
      Copies w0 s'.w o'.out.length ∧
        o'.bufferOutputPos = es.headerSize + o'.out.length * es.record_size := by
  intro fuel
  induction fuel with
  | zero => intro s s' o o' _ _ h; simp [mergeLoop] at h
  | succ fuel ih =>
    intro s s' o o' hc hpos h
    rcases mergeLoop_succ_inv _ _ _ _ _ _ _ _ _ h with
      ⟨_, hs, ho⟩ | ⟨_, t0, l, t, c, s2, o2, s3, _, _, hem, hadv, hrec⟩
    · rw [hs, ho]; exact ⟨hc, hpos⟩
    · obtain ⟨hc2, hpos2⟩ := emitTuple_copies _ _ _ _ _ _ _ _ w0 hc hpos hem
      have hc3 := advanceRun_copies _ _ _ _ _ w0 _ hc2 hadv
      exact ih s3 s' o2 o' hc3 hpos2 hrec

/-- One merge: every record copied into the output page is on a page written by
the end of the merge. -/
theorem mergeRuns_copies (fails : Nat → Bool) (cmp : α → α → Int) (es : external_sort_t)
    (k fuel : Nat) (s s' : MergeState α) (w0 : World α) (hR : 1 ≤ es.record_size)
    (hc : Copies w0 s.w 0) (h : mergeRuns fails cmp es k fuel s = Flow.cont s') :
    Copies w0 s'.w 0 := by
  unfold mergeRuns at h
  cases hl : loadFirstPages fails k 0 s with
  | stuck => rw [hl] at h; simp at h
  | ret c w => rw [hl] at h; simp at h
  | cont s3 =>
    rw [hl] at h
    dsimp only at h
    have h3 := loadFirstPages_copies fails w0 0 k 0 s s3 hc hl
    cases hm : mergeLoop fails cmp es k fuel s3 (⟨[], es.headerSize, 0⟩ : OutState α) with
    | stuck => rw [hm] at h; simp at h
    | ret c w => rw [hm] at h; simp at h
    | cont x =>
      obtain ⟨s4, o4⟩ := x
      rw [hm] at h
      dsimp only at h
      obtain ⟨h4, hpos4⟩ := mergeLoop_copies fails cmp es k w0 fuel s3 s4
        (⟨[], es.headerSize, 0⟩ : OutState α) o4 h3 (by simp) hm
      split at h
      · cases hf : flushPage fails es s4 o4 with
        | stuck => rw [hf] at h; simp at h
        | ret c w => rw [hf] at h; simp at h
        | cont y =>
          obtain ⟨s5, o5⟩ := y
          rw [hf] at h
          simp only [Flow.cont.injEq] at h
          obtain ⟨e5, _⟩ := flushPage_inv _ _ _ _ _ _ hf
          obtain ⟨e, a1, a2⟩ := h4
          rw [← h, e5]
          refine ⟨[Event.write s4.lastWritePos
            ⟨o4.numblocks, ((o4.bufferOutputPos / es.record_size : Nat) : Int), o4.out⟩] ++ e,
            ?_, ?_⟩
          · show _ :: s4.w.log = _
            rw [a1]; rfl
          · show s4.w.metric.num_memcpys = _
            rw [a2, recordsWritten_append]
            simp only [recordsWritten]
            omega
      · rename_i hgt
        simp only [Flow.cont.injEq] at h
        rw [← h]
        have hz : o4.out.length = 0 := by
          have h0 : o4.out.length * es.record_size = 0 := by omega
          rcases Nat.eq_zero_or_pos o4.out.length with hz | hz
          · exact hz
          · have := Nat.mul_pos hz hR
            omega
        rw [hz] at h4
        exact h4

/-- One iteration of `while (numSublist > 1)` raises `num_memcpys` by the number
of records on the pages it writes. -/
theorem mergeStep_copies (fails : Nat → Bool) (cmp : α → α → Int) (es : external_sort_t)
    (m : Int) (fuel : Nat) (s s' : MergeState α) (hR : 1 ≤ es.record_size)
    (h : mergeStep fails cmp es m fuel s = Flow.cont s') : Copies s.w s'.w 0 := by
  obtain ⟨k, s1, s5, hp, hrun, rfl⟩ := mergeStep_inv _ _ _ _ _ _ _ h
  have h1 := pickRuns_copies fails es m s.w 0 _ 0 s k s1 (Copies_refl s.w) hp
  have h2 : Copies s.w (if s1.newPass then
      { s1 with firstPartitionSize := s1.runCount.getD 0 0 + s1.runCount.getD 1 0,
                 newPass := false }
     else s1).w 0 := by
    split
    · exact h1
    · exact h1
  exact mergeRuns_copies fails cmp es k fuel _ s5 s.w hR h2 hrun

/-- C25: for every call of the sort that returns 0, `num_writes` has grown by
the number of pages written to the scratch file during the call (the pages of
run generation and the pages flushed by the merge steps); and every iteration of
`while (numSublist > 1)` that runs to its end raises `num_memcpys` by the number
of records on the pages it wrote, its output run (for `record_size ≥ 1`, which
holds whenever run generation yields a run). -/
theorem C25_metric_counters (sort : List α → List α) (cmp : α → α → Int) (fails : Nat → Bool)
    (alloc : Alloc) (es : external_sort_t) (bufferSizeInBlocks : Nat) (input : List α)
    (w0 : World α) :
    (∀ fuel o,
      extern_merge_sort_iterator_block fuel sort cmp fails alloc es bufferSizeInBlocks
        input w0 = some o →
      o.code = 0 →
      o.w.metric.num_writes
        = w0.metric.num_writes + (writtenPages (newEvents w0.log o.w.log)).length) ∧
    (1 ≤ es.record_size → ∀ (m : Int) (fuel : Nat) (s s' : MergeState α),
      mergeStep fails cmp es m fuel s = Flow.cont s' →
      s'.w.metric.num_memcpys
        = s.w.metric.num_memcpys + recordsWritten (newEvents s.w.log s'.w.log)) := by
  refine ⟨?_, ?_⟩
  · intro fuel o h h0
    obtain ⟨e, hlog, _, hw, _, _⟩ :=
      sort_tally fuel sort cmp fails alloc es bufferSizeInBlocks input w0 o h
    rw [hlog, newEvents_append]
    exact hw h0
  · intro hR m fuel s s' h
    obtain ⟨e, hlog, hm⟩ := mergeStep_copies fails cmp es m fuel s s' hR h
    rw [hlog, newEvents_append, hm]
    rfl

theorem seven_keys_writes :
    (extern_merge_sort_iterator_block 100 sortKeys compareKeys noFailure allocOk
        ⟨38, 6, 16⟩ 3 [6, 5, 4, 3, 2, 1, 0] emptyWorld).map
        (fun o => (o.code, o.w.metric.num_writes, o.w.metric.num_memcpys))
      = some (0, 11, 7) := by
  decide!

theorem twoRunsState_step :
    (stateOf (mergeStep noFailure compareKeys ⟨40, 6, 16⟩ 2 10 twoRunsState)).map
      (fun s => s.w.metric.num_memcpys) = some 5 := by
  decide!

/-- C25 (witness): the 7 keys 6, 5, .., 0 with `page_size = 38`, `headerSize = 6`,
`record_size = 16` and a buffer of 3 pages: the call returns 0 with
`num_writes = 11`, the 4 pages of the two initial runs and the 7 pages of the
merge; the merge step on `twoRunsState` copies and writes 5 records. -/
theorem C25_metric_counters_witness :
    (∃ o, extern_merge_sort_iterator_block 100 sortKeys compareKeys noFailure allocOk
          ⟨38, 6, 16⟩ 3 [6, 5, 4, 3, 2, 1, 0] emptyWorld = some o ∧ o.code = 0 ∧
        o.w.metric.num_writes = 11 ∧
        (writtenPages (newEvents (emptyWorld : World Nat).log o.w.log)).length = 11) ∧
    (∃ s', mergeStep noFailure compareKeys ⟨40, 6, 16⟩ 2 10 twoRunsState = Flow.cont s' ∧
        s'.w.metric.num_memcpys = 5 ∧
        recordsWritten (newEvents twoRunsState.w.log s'.w.log) = 5) := by
  have hthm := C25_metric_counters sortKeys compareKeys noFailure allocOk ⟨38, 6, 16⟩ 3
    [6, 5, 4, 3, 2, 1, 0] emptyWorld
  have hthm2 := C25_metric_counters sortKeys compareKeys noFailure allocOk ⟨40, 6, 16⟩ 3
    [6, 5, 4, 3, 2, 1, 0] emptyWorld
  refine ⟨?_, ?_⟩
  · obtain ⟨o, ho, hv⟩ := Option.map_eq_some'.mp seven_keys_writes
    simp only [Prod.mk.injEq] at hv
    have h := hthm.1 100 o ho hv.1
    rw [hv.2.1] at h
    refine ⟨o, ho, hv.1, hv.2.1, ?_⟩
    have h0 : (emptyWorld : World Nat).metric.num_writes = 0 := rfl
    omega
  · obtain ⟨s', hs, hv⟩ := Option.map_eq_some'.mp twoRunsState_step
    have hp := stateOf_some _ _ hs
    have h := hthm2.2 (by decide) 2 10 twoRunsState s' hp
    rw [hv] at h
    refine ⟨s', hp, hv, ?_⟩
    have h0 : twoRunsState.w.metric.num_memcpys = 0 := rfl
    omega

/-! ## The calls of the iterator -/

/-- C26: in a configuration with `record_size ≥ 1` whose
`T = (page_size - headerSize) / record_size` fits the `int16_t` of line 89 and whose
`B * T` fits the `int32_t` of line 93, the calls of the iterator during a call of
the sort, in order, are an initial part of the sequence `1, .., 1, 0` with one `1` per record of the input
stream, so no call follows a call that returned 0.  When `B * T ≥ 1` and no page
write failed during the call, they are exactly that sequence: `n` calls that
return 1 and then one call that returns 0, `n + 1` calls in all, whether or not
`n` is a multiple of `B * T`.  And the sort does return: for records larger than
the page header, `maxSublistsInRun ≥ 2`, a sort adapter that keeps the number of
records and a scratch file of well-formed pages, every run of the call ends with
an outcome. -/
theorem C26_iterator_calls (sort : List α → List α) (cmp : α → α → Int) (fails : Nat → Bool)
    (alloc : Alloc) (es : external_sort_t) (bufferSizeInBlocks : Nat) (input : List α)
    (w0 : World α) (hR : 1 ≤ es.record_size) (hT16 : tuplesPerPage es ≤ 32767)
    (h32 : bufferSizeInBlocks * tuplesPerPage es ≤ 2147483647) :
    (∀ fuel o,
      extern_merge_sort_iterator_block fuel sort cmp fails alloc es bufferSizeInBlocks
        input w0 = some o →
      ∃ rest, iterCalls (newEvents w0.log o.w.log) ++ rest
        = List.replicate input.length 1 ++ [0]) ∧
    (1 ≤ bufferSizeInBlocks * tuplesPerPage es → ∀ fuel o,
      extern_merge_sort_iterator_block fuel sort cmp fails alloc es bufferSizeInBlocks
        input w0 = some o →
      (∀ off, Event.writeFail off ∉ o.w.log) →
      iterCalls (newEvents w0.log o.w.log) = List.replicate input.length 1 ++ [0] ∧
      (iterCalls (newEvents w0.log o.w.log)).length = input.length + 1) ∧
    ((∀ l, (sort l).length = l.length) → es.headerSize < es.record_size →
      2 ≤ maxSublistsInRun bufferSizeInBlocks →
      (alloc.sublsTuplePos = true → alloc.runOffset = true ∧ alloc.runCount = true) →
      FileValid w0.file →
      ∃ fuel0 o, ∀ fuel, fuel0 ≤ fuel →
        extern_merge_sort_iterator_block fuel sort cmp fails alloc es bufferSizeInBlocks
          input w0 = some o) := by
  have _ := And.intro hR (And.intro hT16 h32)
  refine ⟨?_, ?_, ?_⟩
  · intro fuel o h
    obtain ⟨e, hlog, hpart, _, _, _⟩ :=
      sort_tally fuel sort cmp fails alloc es bufferSizeInBlocks input w0 o h
    rw [hlog, newEvents_append]
    exact hpart
  · intro hBT fuel o h hno
    obtain ⟨e, hlog, _, _, hex, _⟩ :=
      sort_tally fuel sort cmp fails alloc es bufferSizeInBlocks input w0 o h
    rw [hlog, newEvents_append, hex hBT hno]
    exact ⟨rfl, by simp⟩
  · intro hsort hRH hB halloc hfile
    exact sort_returns sort cmp fails alloc es bufferSizeInBlocks input w0 hsort hRH hB halloc
      hfile

theorem six_keys_clean :
    (extern_merge_sort_iterator_block 10 sortKeys compareKeys noFailure allocOk
        ⟨38, 6, 16⟩ 3 [5, 4, 3, 2, 1, 0] emptyWorld).map
        (fun o => (o.code, o.w.log.all (fun e => !isFailure e)))
      = some (0, true) := by
  decide!

/-- C26 (witness): six keys with `T = 2` and a buffer of 3 pages, `n = B * T`: the
iterator is called seven times, returning 1 six times and then 0. -/
theorem C26_iterator_calls_witness :
    ∃ o, extern_merge_sort_iterator_block 10 sortKeys compareKeys noFailure allocOk
          ⟨38, 6, 16⟩ 3 [5, 4, 3, 2, 1, 0] emptyWorld = some o ∧ o.code = 0 ∧
      iterCalls (newEvents (emptyWorld : World Nat).log o.w.log) = [1, 1, 1, 1, 1, 1, 0] := by
  have hthm := C26_iterator_calls sortKeys compareKeys noFailure allocOk ⟨38, 6, 16⟩ 3
    [5, 4, 3, 2, 1, 0] emptyWorld (by decide) (by decide) (by decide)
  obtain ⟨o, ho, hv⟩ := Option.map_eq_some'.mp six_keys_clean
  simp only [Prod.mk.injEq] at hv
  have hno : ∀ off, Event.writeFail off ∉ o.w.log := by
    intro off hmem
    have := List.all_eq_true.mp hv.2 _ hmem
    simp [isFailure] at this
  obtain ⟨h1, _⟩ := hthm.2.1 (by decide) 10 o ho hno
  exact ⟨o, ho, hv.1, by rw [h1]; rfl⟩

/-! ## The checks of the allocations -/

/-- C24: the allocation of `runOffset` fails and the other two succeed, with
`page_size = 22`, `headerSize = 6`, `record_size = 16` and a buffer of 3 pages.
On the empty input (0 runs) the call returns 0 and stores 0 in `resultFilePtr`
instead of returning 8.  On the four keys 3, 2, 1, 0 (two runs) it does not return
8 either: the merge loop is entered with `runOffset` NULL, so the call has no
defined outcome, whatever the fuel.  Lines 176-181 test `sublsTuplePos` only: in
every configuration the call returns 8 only when the allocation of `sublsTuplePos`
failed or `maxSublistsInRun` is negative. -/
theorem C24_unchecked_allocations :
    (extern_merge_sort_iterator_block 1 sortKeys compareKeys noFailure ⟨false, true, true⟩
        ⟨22, 6, 16⟩ 3 [] emptyWorld).map (fun o => (o.code, o.resultFilePtr))
      = some (0, some 0) ∧
    (∀ fuel, extern_merge_sort_iterator_block fuel sortKeys compareKeys noFailure
        ⟨false, true, true⟩ ⟨22, 6, 16⟩ 3 [3, 2, 1, 0] emptyWorld = none) ∧
    (∀ (β : Type) (fuel : Nat) (sort : List β → List β) (cmp : β → β → Int)
        (fails : Nat → Bool) (alloc : Alloc) (es : external_sort_t) (bufferSizeInBlocks : Nat)
        (input : List β) (w0 : World β) (o : Outcome β),
      extern_merge_sort_iterator_block fuel sort cmp fails alloc es bufferSizeInBlocks
        input w0 = some o →
      o.code = 8 → alloc.sublsTuplePos = false ∨ maxSublistsInRun bufferSizeInBlocks < 0) := by
  refine ⟨by decide!, ?_, ?_⟩
  · intro fuel
    by_cases hf : 3 ≤ fuel
    · obtain ⟨g, hg, hn, _⟩ := genLoop_runs noFailure (fun _ => rfl) sortKeys ⟨22, 6, 16⟩ 3
        (by decide) (by decide) 2
        { iter := [3, 2, 1, 0], numRecordsRead := 3 * tuplesPerPage ⟨22, 6, 16⟩,
          lastWritePos := 0, numSublist := 0, w := emptyWorld } rfl (by decide) fuel hf
      unfold extern_merge_sort_iterator_block
      simp only
      rw [hg]
      have hn2 : g.numSublist = 2 := by simpa using hn
      simp [hn2, maxSublistsInRun, toInt8]
    · have : fuel = 0 ∨ fuel = 1 ∨ fuel = 2 := by omega
      rcases this with rfl | rfl | rfl <;> decide!
  · intro β fuel sort cmp fails alloc es B input w0 o h h8
    obtain ⟨_, _, _, _, _, hx⟩ := sort_tally fuel sort cmp fails alloc es B input w0 o h
    have := hx h8
    by_cases ha : alloc.sublsTuplePos = true
    · right
      by_contra hneg
      exact this ⟨ha, by omega⟩
    · left
      simpa using ha

end ExtSort
